import Mathlib

/-!
# simit: path indices

A shallow embedding of `src/path_indices.cpp` (the `PathIndex` classes and
`PathIndexBuilder::buildSegmented` with its local `PathNeighborVisitor`),
followed by the properties established about it.

Conventions of the embedding

* `unsigned` ids and counts are natural numbers; the development speaks about
  graphs whose ids and neighbor counts fit the machine word, so no wrap-around
  is modelled.
* C++ arrays (`unsigned *`) are lists; an access outside the allocated block is
  reported as `Error.undefinedBehavior`.
* `std::set<unsigned>` is a strictly ascending list, `std::map<unsigned, ...>` a
  list of pairs with strictly ascending keys; `map::at` on a missing key
  throws, which is reported as `Error.outOfRange`.
* `iassert` failures are reported as `Error.assertion`.
* A `PathIndex` handle carries the address of the object it points to together
  with the (immutable) object; `new` takes the next unused address.
-/

namespace simit

/-- The ways in which the embedded code can stop without a result. -/
inductive Error where
  /-- an `iassert`/`assert` failed (precondition violation) -/
  | assertion
  /-- the `not_supported_yet` signal -/
  | unsupported
  /-- `std::out_of_range`, thrown by `map::at` -/
  | outOfRange
  /-- a read or write outside an allocated array -/
  | undefinedBehavior
  /-- the recursion budget of the model was used up -/
  | outOfFuel
  deriving DecidableEq, Repr

/-! ## Graph sets (`graph.h`) -/

/-- Modelled from the spec: `simit::Set` of `graph.h`, which is not part of the
sources at hand.  "Element sets and edge sets with fixed endpoint arity, dense
0-based ids, endpoint iteration": a set has `size` elements with ids
`0 .. size-1`; an edge set has endpoint arity `cardinality > 0` and stores for
every edge the list of its endpoint ids; `homogeneous` tells whether all
endpoints come from one set. -/
structure Set where
  size : Nat
  cardinality : Nat
  endpoints : List (List Nat)
  homogeneous : Bool
  deriving DecidableEq, Repr

namespace Set

/-- `Set::getSize`. -/
def getSize (s : Set) : Nat := s.size

/-- `Set::getCardinality`. -/
def getCardinality (s : Set) : Nat := s.cardinality

/-- `Set::isHomogeneous`. -/
def isHomogeneous (s : Set) : Bool := s.homogeneous

/-- The ids met by `for (auto &e : set)`: `0, 1, ..., size-1`. -/
def elements (s : Set) : List Nat := List.range s.getSize

/-- `Set::getEndpoints(elem)`: the endpoint ids of an edge, in stored order. -/
def getEndpoints (s : Set) (elem : Nat) : List Nat := s.endpoints.getD elem []

/-- The data invariant of an edge set: one endpoint list per edge, each of
length `cardinality`. -/
def WellFormed (s : Set) : Prop :=
  s.endpoints.length = s.size ∧ ∀ eps ∈ s.endpoints, eps.length = s.cardinality

instance (s : Set) : Decidable s.WellFormed := by
  unfold WellFormed; infer_instance

end Set

/-! ## Path expressions (`path_expressions.h`) -/

/-- Modelled from the spec: a path-expression variable of `path_expressions.h`
(not part of the sources at hand), identified by `ident`, and "tied to a
concrete set" when `binding` is present. -/
structure Var where
  ident : Nat
  binding : Option Set
  deriving DecidableEq, Repr

/-- Modelled from the spec: a quantified variable (only the existential
quantifier exists). -/
structure QuantifiedVar where
  var : Var
  deriving DecidableEq, Repr

namespace QuantifiedVar

/-- `QuantifiedVar::getVar`. -/
def getVar (q : QuantifiedVar) : Var := q.var

end QuantifiedVar

/-- The direction of a `Link`: `ev` relates an edge to its endpoints, `ve` a
vertex to its incident edges. -/
inductive LinkType where
  | ev
  | ve
  deriving DecidableEq, Repr

/-- Modelled from the spec: the `PathExpression` hierarchy of
`path_expressions.h`: "variants Link (ev or ve direction), And, Or (optionally
quantified)".  A link relates its two endpoint variables; a connective lists
its free variables, its quantified variables and its two operands. -/
inductive PathExpression where
  | link (lhs rhs : Var) (type : LinkType)
  | and (freeVars : List Var) (quantifiedVars : List QuantifiedVar)
      (lhs rhs : PathExpression)
  | or (freeVars : List Var) (quantifiedVars : List QuantifiedVar)
      (lhs rhs : PathExpression)
  deriving DecidableEq, Repr

namespace PathExpression

/-- The variables a path expression connects: the two variables of a link, the
free variables of a connective. -/
def pathEndpoints : PathExpression → List Var
  | link lhs rhs _ => [lhs, rhs]
  | and freeVars _ _ _ => freeVars
  | or freeVars _ _ _ => freeVars

/-- `PathExpression::getNumPathEndpoints`. -/
def getNumPathEndpoints (pe : PathExpression) : Nat := pe.pathEndpoints.length

/-- `PathExpression::getPathEndpoint(i)`. -/
def getPathEndpoint (pe : PathExpression) (i : Nat) : Option Var := pe.pathEndpoints[i]?

/-- `PathExpression::isBound`: "every endpoint variable tied to a concrete
set". -/
def isBound (pe : PathExpression) : Bool := pe.pathEndpoints.all (fun v => v.binding.isSome)

end PathExpression

/-- `Link::getEdgeBinding`: the set bound to the edge variable of a link (the
first variable of an `ev` link, the second of a `ve` link). -/
def Link.getEdgeBinding (lhs rhs : Var) : LinkType → Option Set
  | .ev => lhs.binding
  | .ve => rhs.binding

/-- `Link::getVertexBinding`: the set bound to the vertex variable of a link. -/
def Link.getVertexBinding (lhs rhs : Var) : LinkType → Option Set
  | .ev => rhs.binding
  | .ve => lhs.binding

/-! ## `std::set<unsigned>` and `std::map<unsigned, std::set<unsigned>>` -/

/-- `std::set<unsigned>::insert`: nothing happens when the value is present,
otherwise it is put at its place in the ascending order. -/
def setInsert (x : Nat) (s : List Nat) : List Nat :=
  if x ∈ s then s else s.orderedInsert (· ≤ ·) x

/-- A `std::map<unsigned, std::set<unsigned>>`, listed in key order. -/
abbrev NeighborMap := List (Nat × List Nat)

/-- `map::insert(\x7bk, v\x7d)`: a key that is present keeps its value. -/
def mapInsert (k : Nat) (v : List Nat) : NeighborMap → NeighborMap
  | [] => [(k, v)]
  | (k', v') :: rest =>
    if k < k' then (k, v) :: (k', v') :: rest
    else if k = k' then (k', v') :: rest
    else (k', v') :: mapInsert k v rest

/-- `map::find(k)`, as an option. -/
def mapFind (m : NeighborMap) (k : Nat) : Option (List Nat) :=
  (m.find? (fun p => p.1 == k)).map Prod.snd

/-- `map::at(k)`: throws when the key is missing. -/
def mapAt (m : NeighborMap) (k : Nat) : Except Error (List Nat) :=
  match mapFind m k with
  | some s => .ok s
  | none => .error .outOfRange

/-- The statement `m.at(k).insert(x)`. -/
def mapAtInsert (k x : Nat) : NeighborMap → Except Error NeighborMap
  | [] => .error .outOfRange
  | (k', s) :: rest =>
    if k = k' then .ok ((k', setInsert x s) :: rest)
    else (mapAtInsert k x rest).map (fun rest' => (k', s) :: rest')

/-! ## Path indices (`path_indices.h`, `path_indices.cpp`) -/

/-- The endpoint view of an edge set (`SetEndpointPathIndex`). -/
structure SetEndpointPathIndex where
  edgeSet : Set
  deriving DecidableEq, Repr

/-- The owned, materialised adjacency (`SegmentedPathIndex`): `nbrsStart` holds
`numElems + 1` offsets into `nbrs`. -/
structure SegmentedPathIndex where
  numElems : Nat
  nbrsStart : List Nat
  nbrs : List Nat
  deriving DecidableEq, Repr

/-- The two implementations of `PathIndexImpl`. -/
inductive PathIndexImpl where
  | setEndpoint (index : SetEndpointPathIndex)
  | segmented (index : SegmentedPathIndex)
  deriving DecidableEq, Repr

/-- A `PathIndex` handle: the address of the object it points to, and the
object. -/
structure PathIndex where
  ptr : Nat
  impl : PathIndexImpl
  deriving DecidableEq, Repr

namespace SetEndpointPathIndex

/-- The constructor: `iassert(edgeSet.isHomogeneous())`. -/
def create (edgeSet : Set) : Except Error SetEndpointPathIndex :=
  if edgeSet.isHomogeneous then .ok ⟨edgeSet⟩ else .error .assertion

/-- `SetEndpointPathIndex::numElements`. -/
def numElements (i : SetEndpointPathIndex) : Nat := i.edgeSet.getSize

/-- `SetEndpointPathIndex::numNeighbors(elemID)`. -/
def numNeighborsOf (i : SetEndpointPathIndex) (_elemID : Nat) : Nat := i.edgeSet.getCardinality

/-- `SetEndpointPathIndex::numNeighbors()`. -/
def numNeighbors (i : SetEndpointPathIndex) : Nat := i.numElements * i.edgeSet.getCardinality

/-- `SetEndpointPathIndex::neighbors(elemID)`: the endpoints of the edge; an
id that is not an edge of the set has no endpoints to read. -/
def neighbors (i : SetEndpointPathIndex) (elemID : Nat) : Except Error (List Nat) :=
  if elemID < i.edgeSet.getSize then .ok (i.edgeSet.getEndpoints elemID)
  else .error .undefinedBehavior

end SetEndpointPathIndex

namespace SegmentedPathIndex

/-- `SegmentedPathIndex::numElements`. -/
def numElements (i : SegmentedPathIndex) : Nat := i.numElems

/-- Modelled from the spec: `SegmentedPathIndex::numNeighbors()` of
`path_indices.h`: "`neighborStart[numElements]` = total". -/
def numNeighbors (i : SegmentedPathIndex) : Except Error Nat :=
  match i.nbrsStart[i.numElems]? with
  | some n => .ok n
  | none => .error .undefinedBehavior

/-- Modelled from the spec: `SegmentedPathIndex::numNeighbors(elemID)` of
`path_indices.h`: "`neighborStart[i+1]-neighborStart[i]` = neighbor count of
i". -/
def numNeighborsOf (i : SegmentedPathIndex) (elemID : Nat) : Except Error Nat :=
  match i.nbrsStart[elemID]?, i.nbrsStart[elemID + 1]? with
  | some s, some e => if s ≤ e then .ok (e - s) else .error .undefinedBehavior
  | _, _ => .error .undefinedBehavior

/-- `SegmentedPathIndex::neighbors(elemID)`: the `numNeighbors(elemID)` entries
of `nbrs` from `nbrsStart[elemID]` on. -/
def neighbors (i : SegmentedPathIndex) (elemID : Nat) : Except Error (List Nat) :=
  match i.nbrsStart[elemID]?, i.numNeighborsOf elemID with
  | some s, .ok n =>
    if s + n ≤ i.nbrs.length then .ok ((i.nbrs.drop s).take n)
    else .error .undefinedBehavior
  | _, _ => .error .undefinedBehavior

end SegmentedPathIndex

namespace PathIndex

/-- `PathIndex::numElements`. -/
def numElements (pi : PathIndex) : Nat :=
  match pi.impl with
  | .setEndpoint i => i.numElements
  | .segmented i => i.numElements

/-- `PathIndex::numNeighbors(elemID)`. -/
def numNeighborsOf (pi : PathIndex) (elemID : Nat) : Except Error Nat :=
  match pi.impl with
  | .setEndpoint i => .ok (i.numNeighborsOf elemID)
  | .segmented i => i.numNeighborsOf elemID

/-- `PathIndex::numNeighbors()`. -/
def numNeighbors (pi : PathIndex) : Except Error Nat :=
  match pi.impl with
  | .setEndpoint i => .ok i.numNeighbors
  | .segmented i => i.numNeighbors

/-- `PathIndex::neighbors(elemID)`. -/
def neighbors (pi : PathIndex) (elemID : Nat) : Except Error (List Nat) :=
  match pi.impl with
  | .setEndpoint i => i.neighbors elemID
  | .segmented i => i.neighbors elemID

/-- The ids met by `for (unsigned elem : index)`: `0 .. numElements-1`. -/
def elements (pi : PathIndex) : List Nat := List.range pi.numElements

end PathIndex

/-! ## `PathIndexBuilder` -/

/-- The builder: its memo map `pathIndices`, from (path expression, source
endpoint) to the index built for it, and the number of index objects created
so far, which is the address the next `new` hands out. -/
structure PathIndexBuilder where
  pathIndices : List ((PathExpression × Nat) × PathIndex)
  allocated : Nat
  deriving DecidableEq, Repr

namespace PathIndexBuilder

/-- A builder that has built nothing yet. -/
def empty : PathIndexBuilder := ⟨[], 0⟩

/-- The entry of the memo map at a key (`util::contains` and `map::at`). -/
def lookup (b : PathIndexBuilder) (key : PathExpression × Nat) : Option PathIndex :=
  (b.pathIndices.find? (fun p => p.1 == key)).map Prod.snd

/-- The statement `pathIndices.insert(\x7bkey, pi\x7d)`: a key that is present
keeps its value. -/
def memoInsert (b : PathIndexBuilder) (key : PathExpression × Nat) (pi : PathIndex) :
    PathIndexBuilder :=
  match b.lookup key with
  | some _ => b
  | none => { b with pathIndices := b.pathIndices ++ [(key, pi)] }

/-- The expression `new ...Index(...)` converted to a `PathIndex`: the object
gets the next unused address. -/
def alloc (b : PathIndexBuilder) (impl : PathIndexImpl) : PathIndex × PathIndexBuilder :=
  (⟨b.allocated, impl⟩, { b with allocated := b.allocated + 1 })

end PathIndexBuilder

/-- The result of a building step: the index and the builder afterwards. -/
abbrev Built := Except Error (PathIndex × PathIndexBuilder)

/-- The `memcpy(&dst[offset], src, ...)` of `pack`. -/
def memcpy (dst : List Nat) (offset : Nat) (src : List Nat) : List Nat :=
  dst.take offset ++ src ++ dst.drop (offset + src.length)

/-- One round of the second loop of `pack`, on the state
`(nbrsStart, nbrs, currNbrsStart)`. -/
def packStep (st : List Nat × List Nat × Nat) (p : Nat × List Nat) :
    Except Error (List Nat × List Nat × Nat) :=
  let (nbrsStart, nbrs, currNbrsStart) := st
  let elem := p.1
  if elem < nbrsStart.length then
    let nbrsStart := nbrsStart.set elem currNbrsStart
    let pNeighborSize := p.2.length
    if pNeighborSize > 0 then
      let pNeighbors := p.2.insertionSort (· ≤ ·)
      let nbrs := memcpy nbrs currNbrsStart pNeighbors
      .ok (nbrsStart, nbrs, currNbrsStart + pNeighborSize)
    else .ok (nbrsStart, nbrs, currNbrsStart)
  else .error .undefinedBehavior

/-- `PathNeighborVisitor::pack`: pack neighbor sets into a segmented index. -/
def pack (pathNeighbors : NeighborMap) : Except Error SegmentedPathIndex := do
  let numNeighbors := pathNeighbors.foldl (fun n p => n + p.2.length) 0
  let numElements := pathNeighbors.length
  let nbrsStart := List.replicate (numElements + 1) 0
  let nbrs := List.replicate numNeighbors 0
  let (nbrsStart, nbrs, currNbrsStart) ← pathNeighbors.foldlM packStep (nbrsStart, nbrs, 0)
  let nbrsStart := nbrsStart.set numElements currNbrsStart
  .ok ⟨numElements, nbrsStart, nbrs⟩

/-- The `case Link::ve` of `visit(const Link *)`: one empty neighbor set per
vertex, then every edge is added to the set of each of its endpoints. -/
def veNeighbors (vertexSet edgeSet : Set) : Except Error NeighborMap :=
  let pathNeighbors : NeighborMap := vertexSet.elements.foldl (fun m v => mapInsert v [] m) []
  edgeSet.elements.foldlM
    (fun m e => (edgeSet.getEndpoints e).foldlM (fun m ep => mapAtInsert ep e m) m)
    pathNeighbors

/-- `PathNeighborVisitor::visit(const Link *)`. -/
def visitLink (lhs rhs : Var) (type : LinkType) (b : PathIndexBuilder) : Built :=
  match Link.getEdgeBinding lhs rhs type with
  | none => .error .undefinedBehavior
  | some edgeSet =>
    if edgeSet.getCardinality > 0 then
      match type with
      | .ev => do
        let index ← SetEndpointPathIndex.create edgeSet
        .ok (b.alloc (.setEndpoint index))
      | .ve =>
        match Link.getVertexBinding lhs rhs type with
        | none => .error .undefinedBehavior
        | some vertexSet => do
          let pathNeighbors ← veNeighbors vertexSet edgeSet
          let index ← pack pathNeighbors
          .ok (b.alloc (.segmented index))
    else .error .assertion

/-- A place where a variable occurs: a path expression and the position among
its endpoints. -/
structure Location where
  pathExpr : PathExpression
  endpoint : Nat
  deriving DecidableEq, Repr

/-- The `map<Var, vector<Location>>` of the visitor. -/
abbrev VarToLocationsMap := List (Var × List Location)

/-- The statement `varToLocationsMap[v].push_back(loc)`. -/
def pushBackLocation (v : Var) (loc : Location) : VarToLocationsMap → VarToLocationsMap
  | [] => [(v, [loc])]
  | (v', locs) :: rest =>
    if v = v' then (v', locs ++ [loc]) :: rest
    else (v', locs) :: pushBackLocation v loc rest

/-- The locations recorded for a variable, if it is a key of the map. -/
def findLocations (m : VarToLocationsMap) (v : Var) : Option (List Location) :=
  (m.find? (fun p => p.1 == v)).map Prod.snd

/-- `PathNeighborVisitor::getVarToLocationsMap`. -/
def getVarToLocationsMap (pexprs : List PathExpression) : VarToLocationsMap :=
  pexprs.foldl
    (fun m pexpr =>
      (List.range pexpr.getNumPathEndpoints).foldl
        (fun m ep =>
          match pexpr.getPathEndpoint ep with
          | some v => pushBackLocation v ⟨pexpr, ep⟩ m
          | none => m)
        m)
    []

/-- `PathNeighborVisitor::buildIndex`; `builderBuildSegmented` stands for
`builder->buildSegmented`. -/
def buildIndex (builderBuildSegmented : PathExpression → Nat → PathIndexBuilder → Built)
    (pathExpr : PathExpression) (source sink : Var) (b : PathIndexBuilder) : Built :=
  let locs := getVarToLocationsMap [pathExpr]
  if (findLocations locs source).isSome then
    if (findLocations locs sink).isSome then
      match findLocations locs source with
      | some (loc :: _) => builderBuildSegmented loc.pathExpr loc.endpoint b
      | some [] => .error .undefinedBehavior
      | none => .error .outOfRange
    else .error .assertion
  else .error .assertion

/-- `PathNeighborVisitor::buildIndices`.  `varToLocations[v]` of a variable
that is no key yields an empty vector, whose element `[0]` does not exist. -/
def buildIndices (builderBuildSegmented : PathExpression → Nat → PathIndexBuilder → Built)
    (lhs rhs : PathExpression) (source quantified sink : Var) (b : PathIndexBuilder) :
    Except Error (PathIndex × PathIndex × PathIndexBuilder) :=
  let varToLocations := getVarToLocationsMap [lhs, rhs]
  if (findLocations varToLocations quantified).isSome then
    if ((findLocations varToLocations quantified).getD []).length = 2 then
      match (findLocations varToLocations source).getD [] with
      | [] => .error .undefinedBehavior
      | sourceLoc :: _ => do
        let (sourceToQuantified, b) ←
          builderBuildSegmented sourceLoc.pathExpr sourceLoc.endpoint b
        match (findLocations varToLocations sink).getD [] with
        | [] => .error .undefinedBehavior
        | sinkLoc :: _ => do
          let quantifiedLoc := if sinkLoc.endpoint = 0 then 1 else 0
          let (quantifiedToSink, b) ← builderBuildSegmented sinkLoc.pathExpr quantifiedLoc b
          .ok (sourceToQuantified, quantifiedToSink, b)
    else .error .assertion
  else .error .assertion

/-- The loop that copies an index into a neighbor map, used for `lhsIndex` by
both non-quantified connectives:
`for elem : index \x7b m.insert(\x7belem, \x7b\x7d\x7d);
for nbr : index.neighbors(elem) m.at(elem).insert(nbr); \x7d`. -/
def copyNeighbors (index : PathIndex) (m : NeighborMap) : Except Error NeighborMap :=
  index.elements.foldlM
    (fun m elem => do
      let m := mapInsert elem [] m
      let nbrs ← index.neighbors elem
      nbrs.foldlM (fun m nbr => mapAtInsert elem nbr m) m)
    m

/-- The second loop of the non-quantified `And`: the neighbors of `rhsIndex`
that are also recorded in `lhsPathNeighbors`. -/
def intersectNeighbors (lhsPathNeighbors : NeighborMap) (rhsIndex : PathIndex)
    (pathNeighbors : NeighborMap) : Except Error NeighborMap :=
  rhsIndex.elements.foldlM
    (fun m elem => do
      let m := mapInsert elem [] m
      let nbrs ← rhsIndex.neighbors elem
      nbrs.foldlM
        (fun m nbr => do
          let elemNbrs ← mapAt lhsPathNeighbors elem
          if nbr ∈ elemNbrs then mapAtInsert elem nbr m else .ok m)
        m)
    pathNeighbors

/-- The second loop of the non-quantified `Or`: every element of `rhsIndex`
must be a key already, and its neighbors are added. -/
def uniteNeighbors (rhsIndex : PathIndex) (pathNeighbors : NeighborMap) :
    Except Error NeighborMap :=
  rhsIndex.elements.foldlM
    (fun m elem =>
      if (mapFind m elem).isSome then do
        let nbrs ← rhsIndex.neighbors elem
        nbrs.foldlM (fun m nbr => mapAtInsert elem nbr m) m
      else .error .assertion)
    pathNeighbors

/-- The loop of the quantified `And`: for every neighbor `q` of a source, the
neighbors of `q` in the second index. -/
def joinNeighbors (sourceToQuantified quantifiedToSink : PathIndex)
    (pathNeighbors : NeighborMap) : Except Error NeighborMap :=
  sourceToQuantified.elements.foldlM
    (fun m source => do
      let m := mapInsert source [] m
      let qs ← sourceToQuantified.neighbors source
      qs.foldlM
        (fun m q => do
          let sinks ← quantifiedToSink.neighbors q
          sinks.foldlM (fun m sink => mapAtInsert source sink m) m)
        m)
    pathNeighbors

/-- The first loop of the quantified `Or`: a source with a neighbor gets every
element of the sink set. -/
def linkToSinkSet (sourceToQuantified : PathIndex) (sinkSet : Set)
    (pathNeighbors : NeighborMap) : Except Error NeighborMap :=
  sourceToQuantified.elements.foldlM
    (fun m source => do
      let m := mapInsert source [] m
      let n ← sourceToQuantified.numNeighborsOf source
      if n > 0 then sinkSet.elements.foldlM (fun m sink => mapAtInsert source sink m) m
      else .ok m)
    pathNeighbors

/-- The second loop of the quantified `Or`: every neighbor stored in
`quantifiedToSink` is added to every source. -/
def linkSinkNeighbors (sourceToQuantified quantifiedToSink : PathIndex)
    (pathNeighbors : NeighborMap) : Except Error NeighborMap :=
  quantifiedToSink.elements.foldlM
    (fun m quantified => do
      let sinks ← quantifiedToSink.neighbors quantified
      sinks.foldlM
        (fun m sink =>
          sourceToQuantified.elements.foldlM (fun m source => mapAtInsert source sink m) m)
        m)
    pathNeighbors

/-- Modelled from the spec: `isQuantified` of the connectives of
`path_expressions.h`: the connective has a quantified variable. -/
def isQuantified (quantifiedVars : List QuantifiedVar) : Bool := 0 < quantifiedVars.length

/-- Modelled from the spec: `getBinding(var)` of the connectives of
`path_expressions.h`: the set the variable is tied to. -/
def getBinding (var : Var) : Option Set := var.binding

/-- `PathNeighborVisitor::visit(const And *)`. -/
def visitAnd (builderBuildSegmented : PathExpression → Nat → PathIndexBuilder → Built)
    (freeVars : List Var) (quantifiedVars : List QuantifiedVar) (lhs rhs : PathExpression)
    (b : PathIndexBuilder) : Built :=
  match freeVars with
  | [freeVars0, freeVars1] =>
    if !isQuantified quantifiedVars then do
      let (lhsIndex, b) ← buildIndex builderBuildSegmented lhs freeVars0 freeVars1 b
      let (rhsIndex, b) ← buildIndex builderBuildSegmented rhs freeVars0 freeVars1 b
      let lhsPathNeighbors ← copyNeighbors lhsIndex []
      let pathNeighbors ← intersectNeighbors lhsPathNeighbors rhsIndex []
      let index ← pack pathNeighbors
      .ok (b.alloc (.segmented index))
    else
      match quantifiedVars with
      | [qvar] => do
        let (sourceToQuantified, quantifiedToSink, b) ←
          buildIndices builderBuildSegmented lhs rhs freeVars0 qvar.getVar freeVars1 b
        let pathNeighbors ← joinNeighbors sourceToQuantified quantifiedToSink []
        let index ← pack pathNeighbors
        .ok (b.alloc (.segmented index))
      | _ => .error .assertion
  | _ => .error .assertion

/-- `PathNeighborVisitor::visit(const Or *)`. -/
def visitOr (builderBuildSegmented : PathExpression → Nat → PathIndexBuilder → Built)
    (freeVars : List Var) (quantifiedVars : List QuantifiedVar) (lhs rhs : PathExpression)
    (b : PathIndexBuilder) : Built :=
  match freeVars with
  | [freeVars0, freeVars1] =>
    if !isQuantified quantifiedVars then do
      let (lhsIndex, b) ← buildIndex builderBuildSegmented lhs freeVars0 freeVars1 b
      let (rhsIndex, b) ← buildIndex builderBuildSegmented rhs freeVars0 freeVars1 b
      let pathNeighbors ← copyNeighbors lhsIndex []
      let pathNeighbors ← uniteNeighbors rhsIndex pathNeighbors
      let index ← pack pathNeighbors
      .ok (b.alloc (.segmented index))
    else
      match quantifiedVars with
      | [qvar] => do
        let (sourceToQuantified, quantifiedToSink, b) ←
          buildIndices builderBuildSegmented lhs rhs freeVars0 qvar.getVar freeVars1 b
        match getBinding freeVars1 with
        | none => .error .undefinedBehavior
        | some sinkSet => do
          let pathNeighbors ← linkToSinkSet sourceToQuantified sinkSet []
          let pathNeighbors ←
            linkSinkNeighbors sourceToQuantified quantifiedToSink pathNeighbors
          let index ← pack pathNeighbors
          .ok (b.alloc (.segmented index))
      | _ => .error .assertion
  | _ => .error .assertion

/-- `PathNeighborVisitor::build`: dispatch on the kind of path expression. -/
def build (builderBuildSegmented : PathExpression → Nat → PathIndexBuilder → Built)
    (pe : PathExpression) (b : PathIndexBuilder) : Built :=
  match pe with
  | .link lhs rhs type => visitLink lhs rhs type b
  | .and freeVars quantifiedVars lhs rhs =>
    visitAnd builderBuildSegmented freeVars quantifiedVars lhs rhs b
  | .or freeVars quantifiedVars lhs rhs =>
    visitOr builderBuildSegmented freeVars quantifiedVars lhs rhs b

/-- `PathIndexBuilder::buildSegmented`.  The first argument bounds the depth of
the recursion through `builder->buildSegmented`; a path expression of nesting
depth `d` is built with any budget above `d`. -/
def buildSegmented : Nat → PathExpression → Nat → PathIndexBuilder → Built
  | 0, _, _, _ => .error .outOfFuel
  | fuel + 1, pe, sourceEndpoint, b =>
    if pe.isBound then
      match b.lookup (pe, sourceEndpoint) with
      | some pi => .ok (pi, b)
      | none => do
        let (pi, b) ← build (buildSegmented fuel) pe b
        .ok (pi, b.memoInsert (pe, sourceEndpoint) pi)
    else .error .assertion

/-! ## Notions used to state the properties -/

/-- The neighbors recorded for a key, none when the key is missing. -/
def nbrsOf (m : NeighborMap) (k : Nat) : List Nat := (mapFind m k).getD []

/-- The shape of the neighbor maps the visitor hands to `pack`: the keys are
`0 .. n-1` and every neighbor set is strictly ascending. -/
structure MapInv (m : NeighborMap) (n : Nat) : Prop where
  keys : m.map Prod.fst = List.range n
  sorted : ∀ p ∈ m, p.2.Sorted (· < ·)

/-- The sorted neighbor lists `pack` copies, one per key. -/
def sortedNeighbors (m : NeighborMap) : List (List Nat) :=
  m.map (fun p => p.2.insertionSort (· ≤ ·))

/-- The number of neighbors of the first `i` keys. -/
def offsetAt (m : NeighborMap) (i : Nat) : Nat :=
  (((sortedNeighbors m).map List.length).take i).sum

/-- The invariant of a segmented index: `numElems + 1` non-decreasing offsets,
the last of which is the number of stored neighbors, and a strictly ascending
neighbor slice for every element. -/
structure SegmentedPathIndex.Valid (i : SegmentedPathIndex) : Prop where
  length_nbrsStart : i.nbrsStart.length = i.numElems + 1
  monotone : i.nbrsStart.Sorted (· ≤ ·)
  total : i.nbrsStart[i.numElems]? = some i.nbrs.length
  ascending : ∀ x < i.numElems, ∃ l, i.neighbors x = .ok l ∧ l.Sorted (· < ·)

/-- The invariant of an index object: an endpoint view needs none, a segmented
index is valid. -/
def PathIndexImpl.Valid : PathIndexImpl → Prop
  | .setEndpoint _ => True
  | .segmented i => i.Valid

/-- Every index in the memo map satisfies its invariant. -/
def PathIndexBuilder.MemoValid (b : PathIndexBuilder) : Prop :=
  ∀ e ∈ b.pathIndices, e.2.impl.Valid

/-- The builder `b'` is the builder `b` after some calls of `buildSegmented`
that returned an index. -/
inductive PathIndexBuilder.Later : PathIndexBuilder → PathIndexBuilder → Prop where
  | refl (b : PathIndexBuilder) : Later b b
  | step {b b1 b2 : PathIndexBuilder} {fuel : Nat} {pe : PathExpression} {ep : Nat}
      {pi : PathIndex} :
      Later b b1 → buildSegmented fuel pe ep b1 = .ok (pi, b2) → Later b b2

/-- The builders that occur: a new builder, after some calls of `buildSegmented`
that returned an index. -/
def PathIndexBuilder.Reachable (b : PathIndexBuilder) : Prop :=
  PathIndexBuilder.Later PathIndexBuilder.empty b

/-- The operands of a path expression. -/
def PathExpression.operands : PathExpression → List PathExpression
  | .link _ _ _ => []
  | .and _ _ lhs rhs => [lhs, rhs]
  | .or _ _ lhs rhs => [lhs, rhs]

/-- The number of links and connectives of a path expression. -/
def PathExpression.size : PathExpression → Nat
  | .link _ _ _ => 1
  | .and _ _ lhs rhs => lhs.size + rhs.size + 1
  | .or _ _ lhs rhs => lhs.size + rhs.size + 1

/-! ## The scenario of the specification

Vertex set `V = {0, 1, 2}`, edge set `E = {(0,1), (1,2)}` of endpoint arity 2. -/

/-- The vertex set `V = {0, 1, 2}`. -/
def Scenario.V : Set := ⟨3, 0, [], true⟩

/-- The edge set `E = {(0,1), (1,2)}` over `V`. -/
def Scenario.E : Set := ⟨2, 2, [[0, 1], [1, 2]], true⟩

/-- A vertex variable, bound to `V`. -/
def Scenario.vi : Var := ⟨0, some Scenario.V⟩

/-- A second vertex variable, bound to `V`. -/
def Scenario.vj : Var := ⟨1, some Scenario.V⟩

/-- An edge variable, bound to `E`. -/
def Scenario.e : Var := ⟨2, some Scenario.E⟩

/-- The link from a vertex to its edges. -/
def Scenario.ve : PathExpression := .link Scenario.vi Scenario.e .ve

/-- The link from an edge to its endpoints. -/
def Scenario.ev : PathExpression := .link Scenario.e Scenario.vj .ev

/-- The total number of neighbors recorded in a neighbor map. -/
def totalNeighbors (m : NeighborMap) : Nat := (m.map (fun p => p.2.length)).sum

/-! ## A graph with a loop edge

One vertex and one edge of endpoint arity 2 whose two endpoints are that
vertex. -/

/-- The vertex set `{0}`. -/
def LoopGraph.V : Set := ⟨1, 0, [], true⟩

/-- The edge set `{(0,0)}` over `V`. -/
def LoopGraph.E : Set := ⟨1, 2, [[0, 0]], true⟩

/-- The link from a vertex of `V` to its edges in `E`. -/
def LoopGraph.ve : PathExpression := .link ⟨0, some LoopGraph.V⟩ ⟨1, some LoopGraph.E⟩ .ve

/-- A second edge set over `V`: `E2 = {(0,2), (1,2)}`. -/
def Scenario.E2 : Set := ⟨2, 2, [[0, 2], [1, 2]], true⟩

/-- An edge variable, bound to `E2`. -/
def Scenario.e2 : Var := ⟨3, some Scenario.E2⟩

/-- Two vertices share an edge of `E`: `exists e. ve(vi,e) and ev(e,vj)`. -/
def Scenario.vev : PathExpression :=
  .and [Scenario.vi, Scenario.vj] [⟨Scenario.e⟩] Scenario.ve Scenario.ev

/-- Two vertices share an edge of `E2`. -/
def Scenario.vev2 : PathExpression :=
  .and [Scenario.vi, Scenario.vj] [⟨Scenario.e2⟩]
    (.link Scenario.vi Scenario.e2 .ve) (.link Scenario.e2 Scenario.vj .ev)

/-- Two vertices share an edge of `E` and an edge of `E2`. -/
def Scenario.both : PathExpression :=
  .and [Scenario.vi, Scenario.vj] [] Scenario.vev Scenario.vev2

/-- Two vertices share an edge of `E` or an edge of `E2`. -/
def Scenario.either : PathExpression :=
  .or [Scenario.vi, Scenario.vj] [] Scenario.vev Scenario.vev2

/-- The quantified `Or` over `E`: `exists e. ve(vi,e) or ev(e,vj)`. -/
def Scenario.vOrV : PathExpression :=
  .or [Scenario.vi, Scenario.vj] [⟨Scenario.e⟩] Scenario.ve Scenario.ev

/-! ## A quantified `Or` whose sink is the first endpoint of its operand

Vertex set `{0, 1}`, edge set `{(0,1), (0,1), (1,0)}`, and the expression
`exists e. ve(vi,e) or ve(vj,e)`. -/

/-- The vertex set `{0, 1}`. -/
def SinkFirst.V : Set := ⟨2, 0, [], true⟩

/-- The edge set `{(0,1), (0,1), (1,0)}` over `V`. -/
def SinkFirst.E : Set := ⟨3, 2, [[0, 1], [0, 1], [1, 0]], true⟩

/-- The source variable, bound to `V`. -/
def SinkFirst.vi : Var := ⟨0, some SinkFirst.V⟩

/-- The sink variable, bound to `V`. -/
def SinkFirst.vj : Var := ⟨1, some SinkFirst.V⟩

/-- The quantified variable, bound to `E`. -/
def SinkFirst.e : Var := ⟨2, some SinkFirst.E⟩

/-- The expression `exists e. ve(vi,e) or ve(vj,e)`. -/
def SinkFirst.expr : PathExpression :=
  .or [SinkFirst.vi, SinkFirst.vj] [⟨SinkFirst.e⟩]
    (.link SinkFirst.vi SinkFirst.e .ve) (.link SinkFirst.vj SinkFirst.e .ve)

/-! ## A quantified `Or` over a graph with an isolated vertex

Vertex set `{0, 1, 2}`, edge set `{(0,1)}`: vertex 2 has no edge. -/

/-- The edge set `{(0,1)}` over the vertex set `{0, 1, 2}`. -/
def Isolated.E : Set := ⟨1, 2, [[0, 1]], true⟩

/-- The quantified variable, bound to `E`. -/
def Isolated.e : Var := ⟨2, some Isolated.E⟩

/-- The expression `exists e. ve(vi,e) or ev(e,vj)`. -/
def Isolated.expr : PathExpression :=
  .or [Scenario.vi, Scenario.vj] [⟨Isolated.e⟩]
    (.link Scenario.vi Isolated.e .ve) (.link Isolated.e Scenario.vj .ev)

/-! ## Path expressions that cannot be built -/

/-- A vertex variable that is tied to no set. -/
def Unbound.v : Var := ⟨0, none⟩

/-- A `ve` link whose vertex variable is not bound. -/
def Unbound.expr : PathExpression := .link Unbound.v Scenario.e .ve

/-- A builder whose memo map has an entry for the unbound link. -/
def Unbound.builder : PathIndexBuilder :=
  ⟨[((Unbound.expr, 0), ⟨0, .setEndpoint ⟨Scenario.E⟩⟩)], 1⟩

/-- An `And` with three free variables. -/
def Unsupported.threeFree : PathExpression :=
  .and [Scenario.vi, Scenario.vj, Scenario.vi] [] Scenario.vev Scenario.vev

/-- An `Or` with two quantified variables. -/
def Unsupported.twoQuantified : PathExpression :=
  .or [Scenario.vi, Scenario.vj] [⟨Scenario.e⟩, ⟨Scenario.e2⟩] Scenario.ve Scenario.ev

/-- The `ev` link over the edge set `{(0,1), (0,1), (1,0)}`, whose last edge
stores its endpoints in descending order. -/
def SinkFirst.ev : PathExpression := .link SinkFirst.e SinkFirst.vj .ev

/-! # Lowering (`lower.cpp`)

The intermediate representation of `ir.h`, `types.h` and `indexvar.h`, the
sparse iteration graph of `sig.h` and the base classes `IRMutator` and
`IRVisitor` are defined in other files; they are modelled from the
specification.  The classes of `lower.cpp` are embedded from the source.

* `assert` and `iassert` failures are reported as `Error.assertion`,
  `NOT_SUPPORTED_YET` as `Error.unsupported`.
* Handles that may be undefined (`Stmt()`, `Var()`) are options.
* The type of an expression, a field of every node in the source, is computed
  from the node.
* The identity of a statement node (`op == rstmt`) is the equality of the
  statements.
* Sizes are natural numbers; `size_t` has 64 bits and `int` 32 bits, and the
  one conversion of a size to `int` (`static_cast<int>`) wraps.
-/

namespace ir

/-- Modelled from the spec: `ScalarType` of `types.h`: "scalar component type
(integer/float/boolean)". -/
inductive ScalarType where
  | Int
  | Float
  | Boolean
  deriving DecidableEq, Repr

/-- Modelled from the spec: `IndexSet` of `types.h`: "contiguous range or graph
element set". -/
inductive IndexSet where
  | Range (size : Nat)
  | Set (name : String)
  deriving DecidableEq, Repr

/-- The kinds of index sets. -/
inductive IndexSet.Kind where
  | Range
  | Set
  deriving DecidableEq, Repr

/-- `IndexSet::getKind`. -/
def IndexSet.getKind : IndexSet → IndexSet.Kind
  | .Range _ => .Range
  | .Set _ => .Set

/-- Modelled from the spec: `IndexDomain` of `types.h`: "one or more
IndexSets". -/
structure IndexDomain where
  indexSets : List IndexSet
  deriving DecidableEq, Repr

/-- `IndexDomain::getIndexSets`. -/
def IndexDomain.getIndexSets (d : IndexDomain) : List IndexSet := d.indexSets

/-- Modelled from the spec: `TensorType` of `types.h`, "carrying tensor order,
per-dimension domain, scalar component type". -/
structure TensorType where
  componentType : ScalarType
  dimensions : List IndexDomain
  deriving DecidableEq, Repr

/-- `TensorType::order`. -/
def TensorType.order (t : TensorType) : Nat := t.dimensions.length

/-- `TensorType::make(componentType)`: the type of a scalar. -/
def TensorType.make (componentType : ScalarType) : TensorType := ⟨componentType, []⟩

/-- Modelled from the spec: a field of an element: its name and tensor type. -/
structure Field where
  name : String
  type : TensorType
  deriving DecidableEq, Repr

/-- Modelled from the spec: `ElementType` of `types.h`: the declared fields of
an element. -/
structure ElementType where
  name : String
  fields : List Field
  deriving DecidableEq, Repr

/-- Modelled from the spec: `SetType` of `types.h`: the element type of a set
and, for an edge set, the sets of its endpoints. -/
structure SetType where
  elementType : ElementType
  endpointSets : List String
  deriving DecidableEq, Repr

/-- Modelled from the spec: `Type` of `types.h`, with the kinds `Tensor`,
`Element`, `Set` and `Tuple`, or undefined. -/
inductive IRType where
  | Undefined
  | Tensor (t : TensorType)
  | Element (e : ElementType)
  | Set (s : SetType)
  | Tuple (e : ElementType) (size : Nat)
  deriving DecidableEq, Repr

/-- `Type::isTensor`. -/
def IRType.isTensor : IRType → Bool
  | .Tensor _ => true
  | _ => false

/-- `Type::toTensor`, as an option. -/
def IRType.toTensor : IRType → Option TensorType
  | .Tensor t => some t
  | _ => none

/-- `isScalarTensor(type)`: a tensor of order 0. -/
def isScalarTensor : IRType → Bool
  | .Tensor t => t.order == 0
  | _ => false

/-- The type `Int()`: the integer scalar. -/
def Int : IRType := .Tensor (TensorType.make .Int)

/-- Modelled from the spec: a variable of `ir.h`: a name and a type. -/
structure Var where
  name : String
  type : IRType
  deriving DecidableEq, Repr

/-- Modelled from the spec: the kinds of reduction operators of `indexvar.h`:
"only Sum implemented", the tags stand for the others. -/
inductive ReductionOperator.Kind where
  | Sum
  | Other (tag : Nat)
  deriving DecidableEq, Repr

/-- Modelled from the spec: `ReductionOperator` of `indexvar.h`. -/
structure ReductionOperator where
  kind : ReductionOperator.Kind
  deriving DecidableEq, Repr

/-- `ReductionOperator::getKind`. -/
def ReductionOperator.getKind (rop : ReductionOperator) : ReductionOperator.Kind := rop.kind

/-- Modelled from the spec: `IndexVar` of `indexvar.h`: "named variable over an
IndexDomain; classified free or reduction (carries a ReductionOperator)".  A
free variable has no operator. -/
structure IndexVar where
  name : String
  domain : IndexDomain
  rop : Option ReductionOperator
  deriving DecidableEq, Repr

namespace IndexVar

/-- `IndexVar::getName`. -/
def getName (iv : IndexVar) : String := iv.name

/-- `IndexVar::getDomain`. -/
def getDomain (iv : IndexVar) : IndexDomain := iv.domain

/-- `IndexVar::isFreeVar`. -/
def isFreeVar (iv : IndexVar) : Bool := iv.rop.isNone

/-- `IndexVar::getOperator`, as an option. -/
def getOperator (iv : IndexVar) : Option ReductionOperator := iv.rop

end IndexVar

/-- Modelled from the spec: the expressions of `ir.h`: literals, variables,
tensor reads, the operands and index expressions of index notation, loads and
arithmetic. -/
inductive Expr where
  | Literal (type : IRType) (data : List ℤ)
  | VarExpr (var : Var)
  | TensorRead (tensor : Expr) (indices : List Expr)
  | IndexedTensor (tensor : Expr) (indexVars : List IndexVar)
  | IndexExpr (resultVars : List IndexVar) (value : Expr)
  | Load (buffer index : Expr)
  | Neg (a : Expr)
  | Add (a b : Expr)
  | Sub (a b : Expr)
  | Mul (a b : Expr)
  | Div (a b : Expr)
  deriving Repr

/-- Modelled from the spec: the statements of `ir.h`: assignments, field and
tensor writes, stores, counted loops, blocks of two statements, and the empty
statement. -/
inductive Stmt where
  | AssignStmt (var : Var) (value : Expr)
  | FieldWrite (elementOrSet : Expr) (fieldName : String) (value : Expr)
  | TensorWrite (tensor : Expr) (indices : List Expr) (value : Expr)
  | Store (buffer index value : Expr)
  | For (var : Var) (domain : IndexSet) (body : Stmt)
  | Block (first rest : Stmt)
  | Pass
  deriving Repr

/-- Modelled from the spec: a function of `ir.h`: its name, arguments, results
and body. -/
structure Func where
  name : String
  arguments : List Var
  results : List Var
  body : Stmt
  deriving Repr

namespace Expr

/-- `isa<IndexExpr>(e)`. -/
def isIndexExpr : Expr → Bool
  | .IndexExpr _ _ => true
  | _ => false

/-- `isa<VarExpr>(e)`. -/
def isVarExpr : Expr → Bool
  | .VarExpr _ => true
  | _ => false

/-- The component type of a type, `Float` when the type is no tensor. -/
def componentTypeOf (t : IRType) : ScalarType :=
  match t.toTensor with
  | some tt => tt.componentType
  | none => .Float

/-- Modelled from the spec: the type of an expression (the field `type` of a
node): a literal and a variable carry it; reads, loads and indexed tensors are
scalars of the component type of what they read; an index expression is a
tensor with one dimension per result variable; arithmetic has the type of
its first operand. -/
def type : Expr → IRType
  | .Literal t _ => t
  | .VarExpr v => v.type
  | .TensorRead tensor _ => .Tensor (TensorType.make (componentTypeOf tensor.type))
  | .IndexedTensor tensor _ => .Tensor (TensorType.make (componentTypeOf tensor.type))
  | .IndexExpr resultVars value =>
    .Tensor ⟨componentTypeOf value.type, resultVars.map IndexVar.getDomain⟩
  | .Load buffer _ => .Tensor (TensorType.make (componentTypeOf buffer.type))
  | .Neg a => a.type
  | .Add a _ => a.type
  | .Sub a _ => a.type
  | .Mul a _ => a.type
  | .Div a _ => a.type

mutual
/-- Equality of expressions, as a test. -/
def beq : Expr → Expr → Bool
  | .Literal t d, .Literal t' d' => t == t' && d == d'
  | .VarExpr v, .VarExpr v' => v == v'
  | .TensorRead t i, .TensorRead t' i' => beq t t' && beqList i i'
  | .IndexedTensor t i, .IndexedTensor t' i' => beq t t' && i == i'
  | .IndexExpr r v, .IndexExpr r' v' => r == r' && beq v v'
  | .Load b i, .Load b' i' => beq b b' && beq i i'
  | .Neg a, .Neg a' => beq a a'
  | .Add a b, .Add a' b' => beq a a' && beq b b'
  | .Sub a b, .Sub a' b' => beq a a' && beq b b'
  | .Mul a b, .Mul a' b' => beq a a' && beq b b'
  | .Div a b, .Div a' b' => beq a a' && beq b b'
  | _, _ => false
/-- Equality of lists of expressions, as a test. -/
def beqList : List Expr → List Expr → Bool
  | [], [] => true
  | e :: es, e' :: es' => beq e e' && beqList es es'
  | _, _ => false
end

end Expr

/-- Equality of statements, as a test: the model of the comparison of a node
with a statement handle. -/
def Stmt.beq : Stmt → Stmt → Bool
  | .AssignStmt v e, .AssignStmt v' e' => v == v' && e.beq e'
  | .FieldWrite s f e, .FieldWrite s' f' e' => s.beq s' && f == f' && e.beq e'
  | .TensorWrite t i e, .TensorWrite t' i' e' => t.beq t' && Expr.beqList i i' && e.beq e'
  | .Store b i e, .Store b' i' e' => b.beq b' && i.beq i' && e.beq e'
  | .For v d s, .For v' d' s' => v == v' && d == d' && Stmt.beq s s'
  | .Block a b, .Block a' b' => Stmt.beq a a' && Stmt.beq b b'
  | .Pass, .Pass => true
  | _, _ => false

/-! ## The sparse iteration graph (`sig.h`) -/

/-- Modelled from the spec: a vertex of the SIG: "one vertex per IndexVar". -/
structure SIGVertex where
  iv : IndexVar
  deriving DecidableEq, Repr

/-- Modelled from the spec: an edge of the SIG, a "joint-indexing dependency":
the tensor that is indexed and the index variables it joins. -/
structure SIGEdge where
  tensor : String
  endpoints : List IndexVar
  deriving DecidableEq, Repr

/-- Modelled from the spec: the SIG of `sig.h` as `SIGVisitor::apply` walks it:
its vertices in the order in which their visits complete ("constructed
innermost-first; each visited vertex wraps the current accumulator in an outer
loop"), each with the edge through which the walk reached it
(`getPreviousEdge()`), none for an unconstrained vertex. -/
structure SIG where
  visits : List (SIGVertex × Option SIGEdge)
  deriving DecidableEq, Repr

/-- The parts of the compiler that `lower.cpp` uses from other files, as
parameters: `SIGBuilder(ud).create(indexExpr)`, which builds the SIG of an
index expression from the use-def analysis, and the default-constructed
`ReductionOperator()`. -/
structure Collaborators where
  sigBuilderCreate : Expr → SIG
  defaultReductionOperator : ReductionOperator

/-! ## `LoopVars` -/

/-- The `map<IndexVar, Var> vertexLoopvars` of `LoopVars`. -/
abbrev LoopVars := List (IndexVar × Var)

namespace LoopVars

/-- The statement `vertexLoopvars[iv] = var`. -/
def assign (iv : IndexVar) (var : Var) : LoopVars → LoopVars
  | [] => [(iv, var)]
  | (iv', var') :: rest =>
    if iv = iv' then (iv', var) :: rest else (iv', var') :: assign iv var rest

/-- `LoopVars::visit(const SIGVertex *)`. -/
def visit (lvs : LoopVars) (v : SIGVertex) : LoopVars :=
  assign v.iv ⟨v.iv.getName, Int⟩ lvs

/-- `LoopVars::LoopVars(const SIG &)`: one loop variable per vertex. -/
def create (sig : SIG) : LoopVars :=
  sig.visits.foldl (fun lvs v => visit lvs v.1) []

/-- `LoopVars::getVar`: `vertexLoopvars.at(var)`, which throws for a variable
without a vertex. -/
def getVar (lvs : LoopVars) (iv : IndexVar) : Except Error Var :=
  match lvs.find? (fun p => p.1 == iv) with
  | some p => .ok p.2
  | none => .error .outOfRange

/-- The loop `for (iv : indexVars) indices.push_back(lvs.getVar(iv))`; a
variable becomes the expression that reads it. -/
def getVars (lvs : LoopVars) : List IndexVar → Except Error (List Expr)
  | [] => .ok []
  | iv :: ivs => do
    let var ← lvs.getVar iv
    let rest ← getVars lvs ivs
    .ok (Expr.VarExpr var :: rest)

end LoopVars

/-! ## `SpecializeIndexExprStmt` -/

namespace SpecializeIndexExprStmt

mutual
/-- `SpecializeIndexExprStmt::mutate(Expr)`: `visit(const IndexedTensor *)` and
`visit(const IndexExpr *)` from the source; the other nodes are rebuilt from
their mutated parts (modelled from the spec: the default visits of
`IRMutator`). -/
def mutateExpr (lvs : LoopVars) : Expr → Except Error Expr
  | .IndexedTensor tensor indexVars =>
    if tensor.isVarExpr then
      if indexVars.length = 0 then .ok tensor
      else do
        let indices ← lvs.getVars indexVars
        .ok (.TensorRead tensor indices)
    else do
      let _ ← mutateExpr lvs tensor
      .error .unsupported
  | .IndexExpr _ value => mutateExpr lvs value
  | .Literal t d => .ok (.Literal t d)
  | .VarExpr v => .ok (.VarExpr v)
  | .TensorRead tensor indices => do
    let tensor ← mutateExpr lvs tensor
    let indices ← mutateExprs lvs indices
    .ok (.TensorRead tensor indices)
  | .Load buffer index => do
    let buffer ← mutateExpr lvs buffer
    let index ← mutateExpr lvs index
    .ok (.Load buffer index)
  | .Neg a => do
    let a ← mutateExpr lvs a
    .ok (.Neg a)
  | .Add a b => do
    let a ← mutateExpr lvs a
    let b ← mutateExpr lvs b
    .ok (.Add a b)
  | .Sub a b => do
    let a ← mutateExpr lvs a
    let b ← mutateExpr lvs b
    .ok (.Sub a b)
  | .Mul a b => do
    let a ← mutateExpr lvs a
    let b ← mutateExpr lvs b
    .ok (.Mul a b)
  | .Div a b => do
    let a ← mutateExpr lvs a
    let b ← mutateExpr lvs b
    .ok (.Div a b)
/-- The mutation of a list of expressions, from first to last. -/
def mutateExprs (lvs : LoopVars) : List Expr → Except Error (List Expr)
  | [] => .ok []
  | e :: es => do
    let e ← mutateExpr lvs e
    let es ← mutateExprs lvs es
    .ok (e :: es)
end

/-- `SpecializeIndexExprStmt::mutate(Stmt)`: `visit(const AssignStmt *)` from
the source; the other statements are rebuilt from their mutated parts
(modelled from the spec: the default visits of `IRMutator`). -/
def mutateStmt (lvs : LoopVars) : Stmt → Except Error Stmt
  | .AssignStmt var value =>
    match value with
    | .IndexExpr resultVars indexValue => do
      let value ← mutateExpr lvs (.IndexExpr resultVars indexValue)
      if resultVars.length = 0 then .ok (.AssignStmt var value)
      else do
        let varExpr := Expr.VarExpr var
        let indices ← lvs.getVars resultVars
        .ok (.TensorWrite varExpr indices value)
    | _ => .error .assertion
  | .FieldWrite elementOrSet fieldName value => do
    let elementOrSet ← mutateExpr lvs elementOrSet
    let value ← mutateExpr lvs value
    .ok (.FieldWrite elementOrSet fieldName value)
  | .TensorWrite tensor indices value => do
    let tensor ← mutateExpr lvs tensor
    let indices ← mutateExprs lvs indices
    let value ← mutateExpr lvs value
    .ok (.TensorWrite tensor indices value)
  | .Store buffer index value => do
    let buffer ← mutateExpr lvs buffer
    let index ← mutateExpr lvs index
    let value ← mutateExpr lvs value
    .ok (.Store buffer index value)
  | .For var domain body => do
    let body ← mutateStmt lvs body
    .ok (.For var domain body)
  | .Block first rest => do
    let first ← mutateStmt lvs first
    let rest ← mutateStmt lvs rest
    .ok (.Block first rest)
  | .Pass => .ok .Pass

end SpecializeIndexExprStmt

/-! ## `GetReductionTmpName` -/

namespace GetReductionTmpName

mutual
/-- The visit of an expression by `GetReductionTmpName`: `visit(const VarExpr *)`
from the source appends the name of the variable to `name`; the other nodes
pass the visit on to their parts, first to last (modelled from the spec: the
default visits of `IRVisitor`). -/
def visitExpr (name : String) : Expr → String
  | .VarExpr var => name ++ var.name
  | .Literal _ _ => name
  | .TensorRead tensor indices => visitExprs (visitExpr name tensor) indices
  | .IndexedTensor tensor _ => visitExpr name tensor
  | .IndexExpr _ value => visitExpr name value
  | .Load buffer index => visitExpr (visitExpr name buffer) index
  | .Neg a => visitExpr name a
  | .Add a b => visitExpr (visitExpr name a) b
  | .Sub a b => visitExpr (visitExpr name a) b
  | .Mul a b => visitExpr (visitExpr name a) b
  | .Div a b => visitExpr (visitExpr name a) b
/-- The visit of a list of expressions, from first to last. -/
def visitExprs (name : String) : List Expr → String
  | [] => name
  | e :: es => visitExprs (visitExpr name e) es
end

/-- `GetReductionTmpName::get(const TensorWrite *)`: the tensor is visited,
then the indices. -/
def get (tensor : Expr) (indices : List Expr) : String :=
  visitExprs (visitExpr "" tensor) indices

end GetReductionTmpName

/-! ## `ReduceOverVar` -/

/-- The members `tmpVar` and `tmpWriteStmt` of `ReduceOverVar`, undefined
until a visit sets them. -/
structure ReduceOverVar where
  tmpVar : Option Var
  tmpWriteStmt : Option Stmt
  deriving Repr

namespace ReduceOverVar

/-- `ReduceOverVar::mutate(Stmt)`, for the members `rstmt` and `rop`:
`visit(const AssignStmt *)` and `visit(const TensorWrite *)` from the source;
loops and blocks are rebuilt from their mutated parts and the other statements
kept (modelled from the spec: the default visits of `IRMutator`).  The result
is undefined when a visit leaves `stmt` unset. -/
def mutate (rstmt : Stmt) (rop : ReductionOperator) :
    Stmt → ReduceOverVar → Except Error (Option Stmt × ReduceOverVar)
  | .AssignStmt var value, rov =>
    if Stmt.beq (.AssignStmt var value) rstmt then
      if isScalarTensor value.type then
        match rop.getKind with
        | .Sum =>
          let varExpr := Expr.VarExpr var
          .ok (some (.AssignStmt var (.Add varExpr value)), ⟨some var, rov.tmpWriteStmt⟩)
        | _ => .ok (none, rov)
      else .error .assertion
    else .ok (some (.AssignStmt var value), rov)
  | .TensorWrite tensor indices value, rov =>
    if Stmt.beq (.TensorWrite tensor indices value) rstmt then
      match tensor.type.toTensor with
      | none => .error .assertion
      | some tensorType =>
        match rop.getKind with
        | .Sum =>
          let componentType := tensorType.componentType
          let tmpVarName := GetReductionTmpName.get tensor indices
          let tmpVar : Var := ⟨tmpVarName, .Tensor (TensorType.make componentType)⟩
          .ok (some (.AssignStmt tmpVar (.Add (.VarExpr tmpVar) value)),
            ⟨some tmpVar, some (.TensorWrite tensor indices (.VarExpr tmpVar))⟩)
        | _ =>
          match rov.tmpVar with
          | some tmpVar =>
            .ok (none, ⟨rov.tmpVar, some (.TensorWrite tensor indices (.VarExpr tmpVar))⟩)
          | none => .error .undefinedBehavior
    else .ok (none, rov)
  | .For var domain body, rov => do
    let (body, rov) ← mutate rstmt rop body rov
    .ok (body.map (Stmt.For var domain), rov)
  | .Block first rest, rov => do
    let (first, rov) ← mutate rstmt rop first rov
    let (rest, rov) ← mutate rstmt rop rest rov
    match first, rest with
    | some first, some rest => .ok (some (.Block first rest), rov)
    | _, _ => .ok (none, rov)
  | .FieldWrite elementOrSet fieldName value, rov =>
    .ok (some (.FieldWrite elementOrSet fieldName value), rov)
  | .Store buffer index value, rov => .ok (some (.Store buffer index value), rov)
  | .Pass, rov => .ok (some .Pass, rov)

end ReduceOverVar

/-! ## `LoopBuilder` -/

namespace LoopBuilder

/-- `LoopBuilder::visit(const SIGVertex *)`, on the member `stmt`; `previous`
is `getPreviousEdge()`.  The member `rop` of the `ReduceOverVar` it makes is
not initialised from the operator of the vertex (the constructor
`ReduceOverVar(Stmt rstmt, ReductionOperator rop) : rstmt(rstmt)` drops its
second argument); it is the default-constructed operator. -/
def visit (env : Collaborators) (lvs : LoopVars) (body : Stmt) (stmt : Stmt)
    (v : SIGVertex) (previous : Option SIGEdge) : Except Error Stmt :=
  match previous with
  | none =>
    match v.iv.getDomain.getIndexSets with
    | [] => .error .undefinedBehavior
    | domain :: _ =>
      if v.iv.isFreeVar then do
        let var ← lvs.getVar v.iv
        .ok (.For var domain stmt)
      else do
        let _operator := v.iv.getOperator
        let (loopBody, rov) ←
          ReduceOverVar.mutate body env.defaultReductionOperator stmt ⟨none, none⟩
        match rov.tmpVar with
        | none => .error .assertion
        | some tmpVar =>
          let alloc := Stmt.AssignStmt tmpVar (.Literal tmpVar.type [0])
          let var ← lvs.getVar v.iv
          match loopBody with
          | none => .error .undefinedBehavior
          | some loopBody =>
            let loop := Stmt.For var domain loopBody
            match rov.tmpWriteStmt with
            | some tmpWriteStmt => .ok (.Block alloc (.Block loop tmpWriteStmt))
            | none => .ok (.Block alloc loop)
  | some _ =>
    match v.iv.getDomain.getIndexSets with
    | [] => .error .undefinedBehavior
    | _ :: _ => .error .unsupported

/-- `SIGVisitor::apply(sig)` for the `LoopBuilder`: the vertices are visited in
the order of the walk. -/
def apply (env : Collaborators) (lvs : LoopVars) (body : Stmt) (stmt : Stmt) (sig : SIG) :
    Except Error Stmt :=
  sig.visits.foldlM (fun stmt v => visit env lvs body stmt v.1 v.2) stmt

/-- `LoopBuilder::create`. -/
def create (env : Collaborators) (indexExpr : Expr) (indexStmt : Stmt) : Except Error Stmt := do
  let sig := env.sigBuilderCreate indexExpr
  let lvs := LoopVars.create sig
  let _componentType := Expr.componentTypeOf indexExpr.type
  let body ← SpecializeIndexExprStmt.mutateStmt lvs indexStmt
  let stmt := body
  apply env lvs body stmt sig

end LoopBuilder

/-! ## `LowerIndexExpressions` -/

namespace LowerIndexExpressions

mutual
/-- `LowerIndexExpressions::mutate(Expr)`: `visit(const IndexExpr *)` from the
source; the other nodes are rebuilt from their mutated parts (modelled from the
spec: the default visits of `IRMutator`). -/
def mutateExpr : Expr → Except Error Expr
  | .IndexExpr _ _ => .error .assertion
  | .Literal t d => .ok (.Literal t d)
  | .VarExpr v => .ok (.VarExpr v)
  | .TensorRead tensor indices => do
    let tensor ← mutateExpr tensor
    let indices ← mutateExprs indices
    .ok (.TensorRead tensor indices)
  | .IndexedTensor tensor indexVars => do
    let tensor ← mutateExpr tensor
    .ok (.IndexedTensor tensor indexVars)
  | .Load buffer index => do
    let buffer ← mutateExpr buffer
    let index ← mutateExpr index
    .ok (.Load buffer index)
  | .Neg a => do
    let a ← mutateExpr a
    .ok (.Neg a)
  | .Add a b => do
    let a ← mutateExpr a
    let b ← mutateExpr b
    .ok (.Add a b)
  | .Sub a b => do
    let a ← mutateExpr a
    let b ← mutateExpr b
    .ok (.Sub a b)
  | .Mul a b => do
    let a ← mutateExpr a
    let b ← mutateExpr b
    .ok (.Mul a b)
  | .Div a b => do
    let a ← mutateExpr a
    let b ← mutateExpr b
    .ok (.Div a b)
/-- The mutation of a list of expressions, from first to last. -/
def mutateExprs : List Expr → Except Error (List Expr)
  | [] => .ok []
  | e :: es => do
    let e ← mutateExpr e
    let es ← mutateExprs es
    .ok (e :: es)
end

/-- `LowerIndexExpressions::lower`. -/
def lower (env : Collaborators) (indexExpr : Expr) (stmt : Stmt) : Except Error Stmt :=
  LoopBuilder.create env indexExpr stmt

/-- `LowerIndexExpressions::mutate(Stmt)`: `visit(const AssignStmt *)`,
`visit(const FieldWrite *)` and `visit(const TensorWrite *)` from the source;
the other statements are rebuilt from their mutated parts (modelled from the
spec: the default visits of `IRMutator`). -/
def mutateStmt (env : Collaborators) : Stmt → Except Error Stmt
  | .AssignStmt var value =>
    if value.isIndexExpr then lower env value (.AssignStmt var value)
    else do
      let value ← mutateExpr value
      .ok (.AssignStmt var value)
  | .FieldWrite _ _ _ => .error .unsupported
  | .TensorWrite _ _ _ => .error .unsupported
  | .Store buffer index value => do
    let buffer ← mutateExpr buffer
    let index ← mutateExpr index
    let value ← mutateExpr value
    .ok (.Store buffer index value)
  | .For var domain body => do
    let body ← mutateStmt env body
    .ok (.For var domain body)
  | .Block first rest => do
    let first ← mutateStmt env first
    let rest ← mutateStmt env rest
    .ok (.Block first rest)
  | .Pass => .ok .Pass

end LowerIndexExpressions

/-- `lowerIndexExpressions(Func)`: `LowerIndexExpressions(&ud).mutate(func)`; the
body of the function is mutated (modelled from the spec: `IRMutator::mutate`
on a function). -/
def lowerIndexExpressions (env : Collaborators) (func : Func) : Except Error Func := do
  let body ← LowerIndexExpressions.mutateStmt env func.body
  .ok ⟨func.name, func.arguments, func.results, body⟩

/-! ## Notions used to state the properties of lowering -/

namespace Expr

mutual
/-- An index expression occurs in the expression, at any depth. -/
def hasIndexExpr : Expr → Bool
  | .IndexExpr _ _ => true
  | .Literal _ _ => false
  | .VarExpr _ => false
  | .TensorRead tensor indices => hasIndexExpr tensor || hasIndexExprs indices
  | .IndexedTensor tensor _ => hasIndexExpr tensor
  | .Load buffer index => hasIndexExpr buffer || hasIndexExpr index
  | .Neg a => hasIndexExpr a
  | .Add a b => hasIndexExpr a || hasIndexExpr b
  | .Sub a b => hasIndexExpr a || hasIndexExpr b
  | .Mul a b => hasIndexExpr a || hasIndexExpr b
  | .Div a b => hasIndexExpr a || hasIndexExpr b
/-- An index expression occurs in one of the expressions. -/
def hasIndexExprs : List Expr → Bool
  | [] => false
  | e :: es => hasIndexExpr e || hasIndexExprs es
end

mutual
/-- The expression contains a nested index expression: an indexed tensor whose
tensor is not a plain variable. -/
def hasNestedIndexExpr : Expr → Bool
  | .IndexedTensor tensor _ => !tensor.isVarExpr
  | .IndexExpr _ value => hasNestedIndexExpr value
  | .Literal _ _ => false
  | .VarExpr _ => false
  | .TensorRead tensor indices => hasNestedIndexExpr tensor || hasNestedIndexExprs indices
  | .Load buffer index => hasNestedIndexExpr buffer || hasNestedIndexExpr index
  | .Neg a => hasNestedIndexExpr a
  | .Add a b => hasNestedIndexExpr a || hasNestedIndexExpr b
  | .Sub a b => hasNestedIndexExpr a || hasNestedIndexExpr b
  | .Mul a b => hasNestedIndexExpr a || hasNestedIndexExpr b
  | .Div a b => hasNestedIndexExpr a || hasNestedIndexExpr b
/-- One of the expressions contains a nested index expression. -/
def hasNestedIndexExprs : List Expr → Bool
  | [] => false
  | e :: es => hasNestedIndexExpr e || hasNestedIndexExprs es
end

mutual
/-- The index variables that index the tensors of the expression. -/
def indexVars : Expr → List IndexVar
  | .IndexedTensor tensor indexVars => tensor.indexVars ++ indexVars
  | .IndexExpr _ value => value.indexVars
  | .Literal _ _ => []
  | .VarExpr _ => []
  | .TensorRead tensor indices => tensor.indexVars ++ indexVarsList indices
  | .Load buffer index => buffer.indexVars ++ index.indexVars
  | .Neg a => a.indexVars
  | .Add a b => a.indexVars ++ b.indexVars
  | .Sub a b => a.indexVars ++ b.indexVars
  | .Mul a b => a.indexVars ++ b.indexVars
  | .Div a b => a.indexVars ++ b.indexVars
/-- The index variables that index the tensors of the expressions. -/
def indexVarsList : List Expr → List IndexVar
  | [] => []
  | e :: es => e.indexVars ++ indexVarsList es
end

end Expr

/-- The statement holds an index expression that is not the whole value of an
assignment: in (but not as) the value of an assignment, or in a write or a
store, also under loops and blocks. -/
def Stmt.exposesIndexExpr : Stmt → Bool
  | .AssignStmt _ value => !value.isIndexExpr && value.hasIndexExpr
  | .FieldWrite elementOrSet _ value => elementOrSet.hasIndexExpr || value.hasIndexExpr
  | .TensorWrite tensor indices value =>
    tensor.hasIndexExpr || Expr.hasIndexExprs indices || value.hasIndexExpr
  | .Store buffer index value =>
    buffer.hasIndexExpr || index.hasIndexExpr || value.hasIndexExpr
  | .For _ _ body => body.exposesIndexExpr
  | .Block first rest => first.exposesIndexExpr || rest.exposesIndexExpr
  | .Pass => false

/-- The loop variables hold a variable for each of the index variables. -/
def LoopVars.Covers (lvs : LoopVars) (ivs : List IndexVar) : Prop :=
  ∀ iv ∈ ivs, ∃ var, lvs.getVar iv = .ok var

/-- The name `GetReductionTmpName` gives a write `tensor(indices)` whose tensor
and indices are variables: the names, one after the other. -/
def concatNames (tensor : Var) (indices : List Var) : String :=
  indices.foldl (fun name index => name ++ index.name) ("" ++ tensor.name)

/-! ### Execution of lowered statements -/

/-- Modelled from the spec: the state of an execution over exact integers: the
values of the scalar variables, the values of the tensors (a tensor of order 1
and the buffer of a lowered tensor are flat lists of values), and the number
of loop iterations performed ("accumulated over exactly N iterations"). -/
structure Store where
  scalars : Var → Option ℤ
  tensors : Var → Option (List ℤ)
  iterations : Nat

namespace Store

/-- The store after an assignment to a scalar variable. -/
def setScalar (s : Store) (var : Var) (x : ℤ) : Store :=
  ⟨fun w => if w = var then some x else s.scalars w, s.tensors, s.iterations⟩

/-- The store after an assignment to a tensor. -/
def setTensor (s : Store) (var : Var) (values : List ℤ) : Store :=
  ⟨s.scalars, fun w => if w = var then some values else s.tensors w, s.iterations⟩

/-- The store after one more iteration. -/
def tick (s : Store) : Store := ⟨s.scalars, s.tensors, s.iterations + 1⟩

end Store

mutual
/-- Modelled from the spec: the value of a lowered expression: literals,
scalar variables, reads of a tensor of order 1 at an index, loads from the
buffer of a tensor at an offset, and exact integer arithmetic; reading what
the store does not hold is an error. -/
def eval (s : Store) : Expr → Except Error ℤ
  | .Literal _ data =>
    match data with
    | [x] => .ok x
    | _ => .error .unsupported
  | .VarExpr var =>
    match s.scalars var with
    | some x => .ok x
    | none => .error .undefinedBehavior
  | .TensorRead tensor indices =>
    match tensor with
    | .VarExpr var => do
      let indices ← evalList s indices
      match s.tensors var, indices with
      | some values, [index] =>
        if 0 ≤ index then
          match values[index.toNat]? with
          | some x => .ok x
          | none => .error .outOfRange
        else .error .outOfRange
      | some _, _ => .error .unsupported
      | none, _ => .error .undefinedBehavior
    | _ => .error .unsupported
  | .Neg a => do
    let a ← eval s a
    .ok (-a)
  | .Add a b => do
    let a ← eval s a
    let b ← eval s b
    .ok (a + b)
  | .Sub a b => do
    let a ← eval s a
    let b ← eval s b
    .ok (a - b)
  | .Mul a b => do
    let a ← eval s a
    let b ← eval s b
    .ok (a * b)
  | .Div _ _ => .error .unsupported
  | .Load buffer index =>
    match buffer with
    | .VarExpr var => do
      let index ← eval s index
      match s.tensors var with
      | some values =>
        if 0 ≤ index then
          match values[index.toNat]? with
          | some x => .ok x
          | none => .error .outOfRange
        else .error .outOfRange
      | none => .error .undefinedBehavior
    | _ => .error .unsupported
  | .IndexedTensor _ _ => .error .unsupported
  | .IndexExpr _ _ => .error .unsupported
/-- The values of a list of expressions, from first to last. -/
def evalList (s : Store) : List Expr → Except Error (List ℤ)
  | [] => .ok []
  | e :: es => do
    let x ← eval s e
    let xs ← evalList s es
    .ok (x :: xs)
end

/-- Modelled from the spec: the execution of a lowered statement: an
assignment stores the value, a write to a tensor of order 1 stores at the
index, a store to the buffer of a tensor stores at the offset, a counted loop
over a range of size `n` runs its body with the loop variable at `0`, ...,
`n - 1` and counts the iterations, a block runs its statements in order. -/
def exec : Stmt → Store → Except Error Store
  | .AssignStmt var value, s => do
    let x ← eval s value
    .ok (s.setScalar var x)
  | .TensorWrite tensor indices value, s =>
    match tensor with
    | .VarExpr var => do
      let indices ← evalList s indices
      let x ← eval s value
      match s.tensors var, indices with
      | some values, [index] =>
        if 0 ≤ index ∧ index.toNat < values.length then
          .ok (s.setTensor var (values.set index.toNat x))
        else .error .outOfRange
      | some _, _ => .error .unsupported
      | none, _ => .error .undefinedBehavior
    | _ => .error .unsupported
  | .For var domain body, s =>
    match domain with
    | .Range n =>
      (List.range n).foldlM (fun s (k : Nat) => do
        let s ← exec body (s.setScalar var (k : ℤ))
        .ok s.tick) s
    | .Set _ => .error .unsupported
  | .Block first rest, s => do
    let s ← exec first s
    exec rest s
  | .Pass, s => .ok s
  | .Store buffer index value, s =>
    match buffer with
    | .VarExpr var => do
      let index ← eval s index
      let x ← eval s value
      match s.tensors var with
      | some values =>
        if 0 ≤ index ∧ index.toNat < values.length then
          .ok (s.setTensor var (values.set index.toNat x))
        else .error .outOfRange
      | none => .error .undefinedBehavior
    | _ => .error .unsupported
  | .FieldWrite _ _ _, _ => .error .unsupported

/-! ### Scenarios of lowering -/

/-- The integer vector type over a range of the given size. -/
def vectorType (size : Nat) : IRType := .Tensor ⟨.Int, [⟨[.Range size]⟩]⟩

/-- The integer matrix type over two ranges. -/
def matrixType (rows cols : Nat) : IRType :=
  .Tensor ⟨.Int, [⟨[.Range rows]⟩, ⟨[.Range cols]⟩]⟩

/-- The collaborators of a scenario: the SIG of every expression is the given
one, and the default reduction operator has the given kind. -/
def Collaborators.fixed (sig : SIG) (kind : ReductionOperator.Kind) : Collaborators :=
  ⟨fun _ => sig, ⟨kind⟩⟩

namespace Elementwise

/-- The vector `x`. -/
def x : Var := ⟨"x", vectorType 4⟩
/-- The vector `y`. -/
def y : Var := ⟨"y", vectorType 4⟩
/-- The free variable `i` over a range of size 4. -/
def i : IndexVar := ⟨"i", ⟨[.Range 4]⟩, none⟩
/-- The loop variable of `i`. -/
def iVar : Var := ⟨"i", Int⟩
/-- The literal `1`. -/
def one : Expr := .Literal Int [1]
/-- The index expression `(i) x(i) + 1`. -/
def expr : Expr := .IndexExpr [i] (.Add (.IndexedTensor (.VarExpr x) [i]) one)
/-- The assignment `y(i) = x(i) + 1`. -/
def stmt : Stmt := .AssignStmt y expr
/-- The function that holds the assignment. -/
def func : Func := ⟨"f", [x], [y], stmt⟩
/-- Modelled from the spec: the SIG of `expr`: "one vertex per IndexVar", the
vertex of `i`, unconstrained. -/
def sig : SIG := ⟨[(⟨i⟩, none)]⟩
/-- The collaborators of the scenario. -/
def env : Collaborators := Collaborators.fixed sig .Sum
/-- The loop `For(i, 0..4, y[i] = x[i] + 1)`. -/
def lowered : Stmt :=
  .For iVar (.Range 4)
    (.TensorWrite (.VarExpr y) [.VarExpr iVar]
      (.Add (.TensorRead (.VarExpr x) [.VarExpr iVar]) one))

end Elementwise

namespace Reduction

/-- The vector `A`. -/
def A : Var := ⟨"A", vectorType 3⟩
/-- The scalar `c`. -/
def c : Var := ⟨"c", Int⟩
/-- The reduction variable `i` over a range of size 3, with the given
operator. -/
def i (kind : ReductionOperator.Kind) : IndexVar := ⟨"i", ⟨[.Range 3]⟩, some ⟨kind⟩⟩
/-- The loop variable of `i`. -/
def iVar : Var := ⟨"i", Int⟩
/-- The index expression `() reduce_i A(i)`. -/
def expr (kind : ReductionOperator.Kind) : Expr :=
  .IndexExpr [] (.IndexedTensor (.VarExpr A) [i kind])
/-- The function that holds the assignment `c = reduce_i A(i)`. -/
def func (kind : ReductionOperator.Kind) : Func := ⟨"f", [A], [c], .AssignStmt c (expr kind)⟩
/-- Modelled from the spec: the SIG of `expr`: the vertex of `i`,
unconstrained. -/
def sig (kind : ReductionOperator.Kind) : SIG := ⟨[(⟨i kind⟩, none)]⟩
/-- The collaborators of the scenario: the default operator is a sum. -/
def env (kind : ReductionOperator.Kind) : Collaborators := Collaborators.fixed (sig kind) .Sum
/-- The statement `c = 0; For(i, 0..3, c = c + A[i])`. -/
def lowered : Stmt :=
  .Block (.AssignStmt c (.Literal Int [0]))
    (.For iVar (.Range 3)
      (.AssignStmt c (.Add (.VarExpr c) (.TensorRead (.VarExpr A) [.VarExpr iVar]))))
/-- A store in which `A` holds `5, 7, 11`. -/
def store : Store := ⟨fun _ => none, fun w => if w = A then some [5, 7, 11] else none, 0⟩

end Reduction

namespace RowSum

/-- The matrix `A`. -/
def A : Var := ⟨"A", matrixType 2 3⟩
/-- The vector `y`. -/
def y : Var := ⟨"y", vectorType 2⟩
/-- The free variable `i`. -/
def i : IndexVar := ⟨"i", ⟨[.Range 2]⟩, none⟩
/-- The reduction variable `j`. -/
def j : IndexVar := ⟨"j", ⟨[.Range 3]⟩, some ⟨.Sum⟩⟩
/-- The loop variable of `i`. -/
def iVar : Var := ⟨"i", Int⟩
/-- The loop variable of `j`. -/
def jVar : Var := ⟨"j", Int⟩
/-- The index expression `(i) sum_j A(i,j)`. -/
def expr : Expr := .IndexExpr [i] (.IndexedTensor (.VarExpr A) [i, j])
/-- The function that holds the assignment `y(i) = sum_j A(i,j)`. -/
def func : Func := ⟨"f", [A], [y], .AssignStmt y expr⟩
/-- Modelled from the spec: the SIG of `expr`: the vertices of `j` and `i`,
unconstrained, the inner one first. -/
def sig : SIG := ⟨[(⟨j⟩, none), (⟨i⟩, none)]⟩
/-- The collaborators of the scenario. -/
def env : Collaborators := Collaborators.fixed sig .Sum
/-- The specialized statement `y[i] = A[i,j]`. -/
def body : Stmt :=
  .TensorWrite (.VarExpr y) [.VarExpr iVar] (.TensorRead (.VarExpr A) [.VarExpr iVar, .VarExpr jVar])
/-- The temporary `yi`. -/
def tmp : Var := ⟨"yi", Int⟩

end RowSum

namespace Operand

/-- The scalar `a`. -/
def a : Var := ⟨"a", Int⟩
/-- The scalar `c`. -/
def c : Var := ⟨"c", Int⟩
/-- The literal `1`. -/
def one : Expr := .Literal Int [1]
/-- The index expression `() a`, without index variables. -/
def inner : Expr := .IndexExpr [] (.IndexedTensor (.VarExpr a) [])
/-- The index expression `() (() a) + 1`: the inner index expression is an
operand of the addition. -/
def expr : Expr := .IndexExpr [] (.Add inner one)
/-- The function that holds the assignment `c = () (() a) + 1`. -/
def func : Func := ⟨"f", [a], [c], .AssignStmt c expr⟩
/-- The function that holds the assignment `c = (() a) + 1`, whose value is an
addition. -/
def sumFunc : Func := ⟨"f", [a], [c], .AssignStmt c (.Add inner one)⟩
/-- Modelled from the spec: the SIG of `expr`: "one vertex per IndexVar", none
here. -/
def sig : SIG := ⟨[]⟩
/-- The collaborators of the scenario. -/
def env : Collaborators := Collaborators.fixed sig .Sum

end Operand

namespace Nested

/-- The vector `b`. -/
def b : Var := ⟨"b", vectorType 3⟩
/-- The vector `c`. -/
def c : Var := ⟨"c", vectorType 3⟩
/-- The vector `y`. -/
def y : Var := ⟨"y", vectorType 3⟩
/-- The free variable `j`. -/
def j : IndexVar := ⟨"j", ⟨[.Range 3]⟩, none⟩
/-- The free variable `m`. -/
def m : IndexVar := ⟨"m", ⟨[.Range 3]⟩, none⟩
/-- The nested index expression `((m) c(m) + b(m))(j)`. -/
def operand : Expr :=
  .IndexedTensor
    (.IndexExpr [m] (.Add (.IndexedTensor (.VarExpr c) [m]) (.IndexedTensor (.VarExpr b) [m]))) [j]
/-- The function that holds the assignment `y(j) = ((m) c(m) + b(m))(j)`. -/
def func : Func := ⟨"f", [b, c], [y], .AssignStmt y (.IndexExpr [j] operand)⟩
/-- The SIG with the vertices of `m` and `j`, unconstrained. -/
def sig : SIG := ⟨[(⟨m⟩, none), (⟨j⟩, none)]⟩
/-- The collaborators of the scenario. -/
def env : Collaborators := Collaborators.fixed sig .Sum

end Nested

/-! ## `LowerTensorAccesses` -/

/-- The conversion `static_cast<int>(size)` of a size to a 32-bit `int`: the
size modulo `2^32`, read in two's complement. -/
def toInt (size : Nat) : ℤ :=
  if size % 2 ^ 32 < 2 ^ 31 then ((size % 2 ^ 32 : Nat) : ℤ)
  else ((size % 2 ^ 32 : Nat) : ℤ) - 2 ^ 32

namespace LowerTensorAccesses

/-- The statements that compute the literal `d1` from the second dimension
`dim1` of the tensor type and the lowered first index `i`, the same in both
visits: when the dimension is one index set of kind `Range`, the size of the
dimension (a `size_t`, asserted to be below `(size_t)(-1)`) is converted to an
`int` and made a literal of the type of `i`; otherwise `NOT_SUPPORTED_YET`. -/
def dimensionLiteral (dim1 : IndexDomain) (i : Expr) : Except Error Expr :=
  match dim1.getIndexSets with
  | [.Range size] =>
    if size < 2 ^ 64 - 1 then
      let dimSize := toInt size
      .ok (.Literal i.type [dimSize])
    else .error .assertion
  | _ => .error .unsupported

/-- `LowerTensorAccesses::visit(const TensorRead *)`; `mutatedTensor` stands
for `mutate(op->tensor)` and the entries of `mutatedIndices` for
`mutate(op->indices[k])`. -/
def visitTensorRead (tensor : Expr) (indices : List Expr)
    (mutatedTensor : Except Error Expr) (mutatedIndices : List (Except Error Expr)) :
    Except Error Expr :=
  if (Expr.TensorRead tensor indices).type.isTensor then
    match tensor.type.toTensor with
    | none => .error .assertion
    | some type =>
      if type.order = indices.length then
        if type.order ≤ 2 then
          if type.order = 1 then do
            let tensor ← mutatedTensor
            let index ← mutatedIndices.getD 0 (.error .undefinedBehavior)
            .ok (.Load tensor index)
          else if type.order = 2 then do
            let tensor ← mutatedTensor
            let i ← mutatedIndices.getD 0 (.error .undefinedBehavior)
            let j ← mutatedIndices.getD 1 (.error .undefinedBehavior)
            match type.dimensions[1]? with
            | none => .error .undefinedBehavior
            | some dim1 => do
              let d1 ← dimensionLiteral dim1 i
              let index := Expr.Add (.Mul i d1) j
              .ok (.Load tensor index)
          else .error .unsupported
        else .error .assertion
      else .error .assertion
  else .error .assertion

/-- `LowerTensorAccesses::visit(const TensorWrite *)`; `mutatedTensor`,
`mutatedIndices` and `mutatedValue` stand for `mutate(op->tensor)`,
`mutate(op->indices[k])` and `mutate(op->value)`. -/
def visitTensorWrite (tensor : Expr) (indices : List Expr)
    (mutatedTensor : Except Error Expr) (mutatedIndices : List (Except Error Expr))
    (mutatedValue : Except Error Expr) : Except Error Stmt :=
  match tensor.type.toTensor with
  | none => .error .assertion
  | some type =>
    if type.order = indices.length then
      if type.order ≤ 2 then
        if type.order = 1 then do
          let tensor ← mutatedTensor
          let index ← mutatedIndices.getD 0 (.error .undefinedBehavior)
          let value ← mutatedValue
          .ok (.Store tensor index value)
        else if type.order = 2 then do
          let tensor ← mutatedTensor
          let i ← mutatedIndices.getD 0 (.error .undefinedBehavior)
          let j ← mutatedIndices.getD 1 (.error .undefinedBehavior)
          match type.dimensions[1]? with
          | none => .error .undefinedBehavior
          | some dim1 => do
            let d1 ← dimensionLiteral dim1 i
            let index := Expr.Add (.Mul i d1) j
            let value ← mutatedValue
            .ok (.Store tensor index value)
        else .error .unsupported
      else .error .assertion
    else .error .assertion

mutual
/-- `LowerTensorAccesses::mutate(Expr)`: a tensor read is visited by
`visit(const TensorRead *)`; the other nodes are rebuilt from their mutated
parts (modelled from the spec: the default visits of `IRMutator`). -/
def mutateExpr : Expr → Except Error Expr
  | .TensorRead tensor indices =>
    visitTensorRead tensor indices (mutateExpr tensor) (mutateExprs indices)
  | .Literal t d => .ok (.Literal t d)
  | .VarExpr v => .ok (.VarExpr v)
  | .IndexedTensor tensor indexVars => do
    let tensor ← mutateExpr tensor
    .ok (.IndexedTensor tensor indexVars)
  | .IndexExpr resultVars value => do
    let value ← mutateExpr value
    .ok (.IndexExpr resultVars value)
  | .Load buffer index => do
    let buffer ← mutateExpr buffer
    let index ← mutateExpr index
    .ok (.Load buffer index)
  | .Neg a => do
    let a ← mutateExpr a
    .ok (.Neg a)
  | .Add a b => do
    let a ← mutateExpr a
    let b ← mutateExpr b
    .ok (.Add a b)
  | .Sub a b => do
    let a ← mutateExpr a
    let b ← mutateExpr b
    .ok (.Sub a b)
  | .Mul a b => do
    let a ← mutateExpr a
    let b ← mutateExpr b
    .ok (.Mul a b)
  | .Div a b => do
    let a ← mutateExpr a
    let b ← mutateExpr b
    .ok (.Div a b)
/-- The mutation of each expression of a list. -/
def mutateExprs : List Expr → List (Except Error Expr)
  | [] => []
  | e :: es => mutateExpr e :: mutateExprs es
end

/-- `LowerTensorAccesses::mutate(Stmt)`: a tensor write is visited by
`visit(const TensorWrite *)`; the other statements are rebuilt from their
mutated parts (modelled from the spec: the default visits of `IRMutator`). -/
def mutateStmt : Stmt → Except Error Stmt
  | .TensorWrite tensor indices value =>
    visitTensorWrite tensor indices (mutateExpr tensor) (mutateExprs indices) (mutateExpr value)
  | .AssignStmt var value => do
    let value ← mutateExpr value
    .ok (.AssignStmt var value)
  | .FieldWrite elementOrSet fieldName value => do
    let elementOrSet ← mutateExpr elementOrSet
    let value ← mutateExpr value
    .ok (.FieldWrite elementOrSet fieldName value)
  | .Store buffer index value => do
    let buffer ← mutateExpr buffer
    let index ← mutateExpr index
    let value ← mutateExpr value
    .ok (.Store buffer index value)
  | .For var domain body => do
    let body ← mutateStmt body
    .ok (.For var domain body)
  | .Block first rest => do
    let first ← mutateStmt first
    let rest ← mutateStmt rest
    .ok (.Block first rest)
  | .Pass => .ok .Pass

end LowerTensorAccesses

/-- `lowerTensorAccesses(Func)`: `LowerTensorAccesses().mutate(func)`; the body
of the function is mutated (modelled from the spec: `IRMutator::mutate` on a
function). -/
def lowerTensorAccesses (func : Func) : Except Error Func := do
  let body ← LowerTensorAccesses.mutateStmt func.body
  .ok ⟨func.name, func.arguments, func.results, body⟩

/-! ### Scenarios of the lowering of tensor accesses -/

namespace Matrix

/-- The dense 2 x 3 matrix `T`. -/
def T : Var := ⟨"T", matrixType 2 3⟩
/-- The scalar index `i`. -/
def i : Var := ⟨"i", Int⟩
/-- The scalar index `j`. -/
def j : Var := ⟨"j", Int⟩
/-- The scalar `v`. -/
def v : Var := ⟨"v", Int⟩
/-- The read `T(i,j)`. -/
def read : Expr := .TensorRead (.VarExpr T) [.VarExpr i, .VarExpr j]
/-- The write `T(i,j) = v`. -/
def write : Stmt := .TensorWrite (.VarExpr T) [.VarExpr i, .VarExpr j] (.VarExpr v)
/-- The flat offset `i * 3 + j`. -/
def offset : Expr := .Add (.Mul (.VarExpr i) (.Literal Int [3])) (.VarExpr j)
/-- A store with `i = 1`, `j = 2`, `v = 99` and the buffer of `T` holding
`10, 11, 12, 20, 21, 22`. -/
def store : Store :=
  ⟨fun w => if w = i then some 1 else if w = j then some 2 else if w = v then some 99 else none,
    fun w => if w = T then some [10, 11, 12, 20, 21, 22] else none, 0⟩

end Matrix

namespace Vector

/-- The vector `x` of size 4. -/
def x : Var := ⟨"x", vectorType 4⟩
/-- The scalar index `i`. -/
def i : Var := ⟨"i", Int⟩
/-- The scalar `v`. -/
def v : Var := ⟨"v", Int⟩
/-- The read `x(i)`. -/
def read : Expr := .TensorRead (.VarExpr x) [.VarExpr i]
/-- The write `x(i) = v`. -/
def write : Stmt := .TensorWrite (.VarExpr x) [.VarExpr i] (.VarExpr v)

end Vector

namespace Cube

/-- The tensor `C` of order 3. -/
def C : Var := ⟨"C", .Tensor ⟨.Int, [⟨[.Range 2]⟩, ⟨[.Range 2]⟩, ⟨[.Range 2]⟩]⟩⟩
/-- The scalar index `i`. -/
def i : Var := ⟨"i", Int⟩
/-- The scalar `v`. -/
def v : Var := ⟨"v", Int⟩
/-- The read `C(i,i,i)`. -/
def read : Expr := .TensorRead (.VarExpr C) [.VarExpr i, .VarExpr i, .VarExpr i]
/-- The write `C(i,i,i) = v`. -/
def write : Stmt :=
  .TensorWrite (.VarExpr C) [.VarExpr i, .VarExpr i, .VarExpr i] (.VarExpr v)
/-- The read `v()` of the scalar `v`, a tensor of order 0. -/
def scalarRead : Expr := .TensorRead (.VarExpr v) []
/-- The write `v() = v` to the scalar `v`. -/
def scalarWrite : Stmt := .TensorWrite (.VarExpr v) [] (.VarExpr v)

end Cube

namespace Blocked

/-- The matrix `S` whose second dimension is the graph set `V`. -/
def S : Var := ⟨"S", .Tensor ⟨.Int, [⟨[.Range 2]⟩, ⟨[.Set "V"]⟩]⟩⟩
/-- The matrix `B` whose second dimension has the two index sets of a block
structure. -/
def B : Var := ⟨"B", .Tensor ⟨.Int, [⟨[.Range 2]⟩, ⟨[.Range 2, .Range 3]⟩]⟩⟩
/-- The scalar index `i`. -/
def i : Var := ⟨"i", Int⟩
/-- The scalar `v`. -/
def v : Var := ⟨"v", Int⟩
/-- The read `S(i,i)`. -/
def read : Expr := .TensorRead (.VarExpr S) [.VarExpr i, .VarExpr i]
/-- The write `B(i,i) = v`. -/
def write : Stmt := .TensorWrite (.VarExpr B) [.VarExpr i, .VarExpr i] (.VarExpr v)

end Blocked

namespace Constrained

/-- The free variable `i`. -/
def i : IndexVar := ⟨"i", ⟨[.Range 2]⟩, none⟩
/-- The free variable `j`. -/
def j : IndexVar := ⟨"j", ⟨[.Range 3]⟩, none⟩
/-- The matrix `A`. -/
def A : Var := ⟨"A", matrixType 2 3⟩
/-- The matrix `Y`. -/
def Y : Var := ⟨"Y", matrixType 2 3⟩
/-- The index expression `(i,j) A(i,j)`. -/
def expr : Expr := .IndexExpr [i, j] (.IndexedTensor (.VarExpr A) [i, j])
/-- The function that holds the assignment `Y(i,j) = A(i,j)`. -/
def func : Func := ⟨"f", [A], [Y], .AssignStmt Y expr⟩
/-- The edge of the SIG for the tensor `A`, which joins `i` and `j`. -/
def edge : SIGEdge := ⟨"A", [i, j]⟩
/-- A SIG in which the vertex of `j` is reached through the edge of `A`. -/
def sig : SIG := ⟨[(⟨j⟩, some edge), (⟨i⟩, none)]⟩
/-- The collaborators of the scenario. -/
def env : Collaborators := Collaborators.fixed sig .Sum

end Constrained

end ir

/-! ### Scenarios of failing path expressions -/

/-- An existential variable `q`. -/
def DoubleUse.q : Var := ⟨7, some Scenario.V⟩

/-- A link both of whose endpoints are `q`. -/
def DoubleUse.lhs : PathExpression := .link DoubleUse.q DoubleUse.q .ve

/-- The quantified `And` over `q` whose left operand uses `q` twice and whose
right operand, the link `vi - e`, does not use it. -/
def DoubleUse.and : PathExpression :=
  .and [Scenario.vi, Scenario.e] [⟨DoubleUse.q⟩] DoubleUse.lhs Scenario.ve

/-- The quantified `Or` with the same operands. -/
def DoubleUse.or : PathExpression :=
  .or [Scenario.vi, Scenario.e] [⟨DoubleUse.q⟩] DoubleUse.lhs Scenario.ve

/-- The quantified `And` over `q` whose operands `vi - e` and `e - vj` do not
use `q`. -/
def DoubleUse.unused : PathExpression :=
  .and [Scenario.vi, Scenario.vj] [⟨DoubleUse.q⟩] Scenario.ve Scenario.ev

/-- An edge set of cardinality 2 that is not homogeneous. -/
def Mixed.E : Set := ⟨2, 2, [[0, 1], [1, 2]], false⟩

/-- The edge variable bound to the set that is not homogeneous. -/
def Mixed.e : Var := ⟨2, some Mixed.E⟩

/-- The `ev` link bound to the set that is not homogeneous. -/
def Mixed.ev : PathExpression := .link Mixed.e Scenario.vj .ev

/-! # The LLVM backend (`backend/llvm/llvm_types.cpp`, `backend/llvm/llvm_codegen.cpp`)

The types of the LLVM library are a data type; contexts and modules are left
out.  The build option `ScalarType::singleFloat()` is the parameter
`singleFloat`.  Overloads of `llvmType` get a suffix.
-/

namespace backend

/-- The LLVM types that the backend makes: `void`, the integers of 1, 8, 32
and 64 bits, the two floating-point types, pointers into an address space, and
anonymous structs. -/
inductive LLVMType where
  | void
  | int1
  | int8
  | int32
  | int64
  | float
  | double
  | pointer (pointee : LLVMType) (addrspace : Nat)
  | struct (fields : List LLVMType)
  deriving Repr

/-- `llvm::Type::isPointerTy`. -/
def LLVMType.isPointerTy : LLVMType → Bool
  | .pointer _ _ => true
  | _ => false

/-- `llvm::Type::isStructTy`. -/
def LLVMType.isStructTy : LLVMType → Bool
  | .struct _ => true
  | _ => false

/-- `LLVM_VOID`. -/
def LLVM_VOID : LLVMType := .void
/-- `LLVM_BOOL`. -/
def LLVM_BOOL : LLVMType := .int1
/-- `LLVM_INT`. -/
def LLVM_INT : LLVMType := .int32
/-- `LLVM_FLOAT`. -/
def LLVM_FLOAT : LLVMType := .float
/-- `LLVM_DOUBLE`. -/
def LLVM_DOUBLE : LLVMType := .double

/-- `llvmFloatType()`. -/
def llvmFloatType (singleFloat : Bool) : LLVMType :=
  if singleFloat then LLVM_FLOAT else LLVM_DOUBLE

/-- `llvmFloatPtrType(addrspace)`. -/
def llvmFloatPtrType (singleFloat : Bool) (addrspace : Nat) : LLVMType :=
  if singleFloat then .pointer .float addrspace else .pointer .double addrspace

/-- `llvmType(ScalarType)`. -/
def llvmTypeOfScalar (singleFloat : Bool) : ir.ScalarType → LLVMType
  | .Int => LLVM_INT
  | .Float => llvmFloatType singleFloat
  | .Boolean => LLVM_BOOL

/-- `llvmPtrType(ScalarType, addrspace)`. -/
def llvmPtrType (singleFloat : Bool) (stype : ir.ScalarType) (addrspace : Nat) : LLVMType :=
  match stype with
  | .Int => .pointer .int32 addrspace
  | .Float => llvmFloatPtrType singleFloat addrspace
  | .Boolean => .pointer .int1 addrspace

/-- `llvmType(const TensorType&, addrspace)`. -/
def llvmTypeOfTensor (singleFloat : Bool) (type : ir.TensorType) (addrspace : Nat) : LLVMType :=
  llvmPtrType singleFloat type.componentType addrspace

/-- `llvmType(const ir::SetType&, addrspace)`.  The fields of an element are
tensors in this model, so that `llvmType(field.type, addrspace)` is the case
`Type::Tensor` of `llvmType(const Type&, addrspace)`. -/
def llvmTypeOfSet (singleFloat : Bool) (setType : ir.SetType) (addrspace : Nat) : LLVMType :=
  let elemType := setType.elementType
  let llvmFieldTypes : List LLVMType := []
  let llvmFieldTypes := llvmFieldTypes ++ [LLVM_INT]
  let llvmFieldTypes :=
    if setType.endpointSets.length > 0 then
      llvmFieldTypes ++ [.pointer .int32 addrspace] ++ [.pointer .int32 addrspace] ++
        [.pointer .int32 addrspace]
    else llvmFieldTypes
  let llvmFieldTypes :=
    elemType.fields.foldl
      (fun llvmFieldTypes field =>
        llvmFieldTypes ++ [llvmTypeOfTensor singleFloat field.type addrspace])
      llvmFieldTypes
  .struct llvmFieldTypes

/-- `llvmType(const Type&, addrspace)`: `not_supported_yet` for elements and
tuples; an undefined type has no kind to switch on. -/
def llvmType (singleFloat : Bool) (type : ir.IRType) (addrspace : Nat) : Except Error LLVMType :=
  match type with
  | .Tensor t => .ok (llvmTypeOfTensor singleFloat t addrspace)
  | .Element _ => .error .unsupported
  | .Set s => .ok (llvmTypeOfSet singleFloat s addrspace)
  | .Tuple _ _ => .error .unsupported
  | .Undefined => .error .undefinedBehavior

/-- `NUM_EDGE_INDEX_ELEMENTS`: "One for endpoints, two for neighbor index". -/
def NUM_EDGE_INDEX_ELEMENTS : Nat := 3

/-- Modelled from the spec: `isScalar(type)` of `types.h`: a tensor of order
0. -/
def isScalar (type : ir.IRType) : Bool := ir.isScalarTensor type

/-- An `llvm::Function` as `createPrototype` leaves it: its name, the return
type and the parameter types of its function type, the names given to its
parameters, its linkage, and its attributes (`nothrow`, and the positions,
counted from 1, of the parameters marked `nocapture`). -/
structure Function where
  name : String
  returnType : LLVMType
  argNames : List String
  argTypes : List LLVMType
  externalLinkage : Bool
  doesNotThrow : Bool
  doesNotCapture : List Nat
  deriving Repr

/-- The static `createPrototype(name, argNames, argTypes, module,
externalLinkage, doesNotThrow)`: one parameter per type, the `i`-th named
`argNames[i]` (which has to exist) and marked `nocapture` when its type is a
pointer. -/
def createPrototypeOfTypes (name : String) (argNames : List String) (argTypes : List LLVMType)
    (externalLinkage doesNotThrow : Bool) : Except Error Function := do
  let (names, captures, _) ←
    argTypes.foldlM
      (fun (st : List String × List Nat × Nat) argType =>
        let (names, captures, i) := st
        match argNames[i]? with
        | none => .error .undefinedBehavior
        | some argName =>
          let captures := if argType.isPointerTy then captures ++ [i + 1] else captures
          .ok (names ++ [argName], captures, i + 1))
      (([], [], 0) : List String × List Nat × Nat)
  .ok ⟨name, LLVM_VOID, names, argTypes, externalLinkage, doesNotThrow, captures⟩

/-- The local variables of `createPrototype`: the names and types of the
parameters made so far, and the set of the names of the arguments. -/
structure Parameters where
  llvmArgNames : List String
  llvmArgTypes : List LLVMType
  argNames : List String
  deriving Repr

/-- The body of the loop over the arguments of `createPrototype`. -/
def addArgument (singleFloat scalarsByValue : Bool) (addrspace : Nat) (p : Parameters)
    (arg : ir.Var) : Except Error Parameters := do
  let argNames := arg.name :: p.argNames
  let llvmArgNames := p.llvmArgNames ++ [arg.name]
  let type ←
    if isScalar arg.type && scalarsByValue then
      match arg.type.toTensor with
      | some t => .ok (llvmTypeOfScalar singleFloat t.componentType)
      | none => .error .undefinedBehavior
    else llvmType singleFloat arg.type addrspace
  .ok ⟨llvmArgNames, p.llvmArgTypes ++ [type], argNames⟩

/-- The body of the loop over the results of `createPrototype`. -/
def addResult (singleFloat : Bool) (addrspace : Nat) (p : Parameters) (res : ir.Var) :
    Except Error Parameters :=
  if res.name ∈ p.argNames then .ok p
  else do
    let llvmArgNames := p.llvmArgNames ++ [res.name]
    let type ← llvmType singleFloat res.type addrspace
    .ok ⟨llvmArgNames, p.llvmArgTypes ++ [type], p.argNames⟩

/-- `createPrototype(name, arguments, results, module, externalLinkage,
doesNotThrow, scalarsByValue, addrspace)`. -/
def createPrototype (singleFloat : Bool) (name : String) (arguments results : List ir.Var)
    (externalLinkage doesNotThrow scalarsByValue : Bool) (addrspace : Nat) :
    Except Error Function := do
  let p : Parameters := ⟨[], [], []⟩
  let p ← arguments.foldlM (addArgument singleFloat scalarsByValue addrspace) p
  let p ← results.foldlM (addResult singleFloat addrspace) p
  if p.llvmArgNames.length = p.llvmArgTypes.length then
    createPrototypeOfTypes name p.llvmArgNames p.llvmArgTypes externalLinkage doesNotThrow
  else .error .assertion

/-! ### Scenarios of the backend -/

namespace Scenario

/-- The element type of points: a position vector and a mass. -/
def Point : ir.ElementType := ⟨"Point", [⟨"x", ⟨.Float, [⟨[.Range 3]⟩]⟩⟩, ⟨"m", ⟨.Float, []⟩⟩]⟩
/-- The element type of springs: a stiffness. -/
def Spring : ir.ElementType := ⟨"Spring", [⟨"k", ⟨.Float, []⟩⟩]⟩
/-- The vertex set of points. -/
def points : ir.SetType := ⟨Point, []⟩
/-- The edge set of springs between points. -/
def springs : ir.SetType := ⟨Spring, ["points", "points"]⟩
/-- The scalar argument `a`. -/
def a : ir.Var := ⟨"a", .Tensor ⟨.Float, []⟩⟩
/-- The vector argument `x`. -/
def x : ir.Var := ⟨"x", ir.vectorType 4⟩
/-- The set argument `S`. -/
def S : ir.Var := ⟨"S", .Set springs⟩
/-- The scalar result `c`. -/
def c : ir.Var := ⟨"c", .Tensor ⟨.Float, []⟩⟩
/-- The function made for the arguments `a`, `x`, `S` and the results `x` (the
argument of that name) and `c`. -/
def prototype : Function :=
  ⟨"f", .void, ["a", "x", "S", "c"],
    [.double, .pointer .int32 0,
      .struct [.int32, .pointer .int32 0, .pointer .int32 0, .pointer .int32 0,
        .pointer .double 0],
      .pointer .double 0],
    true, true, [2, 4]⟩

end Scenario

end backend

namespace ir

/-! ### Writes -/

/-- The statement is a tensor write or a field write, or holds one under its
loops and blocks. -/
def Stmt.hasWrite : Stmt → Bool
  | .AssignStmt _ _ => false
  | .FieldWrite _ _ _ => true
  | .TensorWrite _ _ _ => true
  | .Store _ _ _ => false
  | .For _ _ body => body.hasWrite
  | .Block first rest => first.hasWrite || rest.hasWrite
  | .Pass => false

namespace Wide

/-- The dense matrix with 2 rows and 2^31 columns. -/
def T31 : Var := ⟨"T", matrixType 2 (2 ^ 31)⟩
/-- A store with `i = a` and `j = b`. -/
def store (a b : ℤ) : Store :=
  ⟨fun w => if w = Matrix.i then some a else if w = Matrix.j then some b else none,
    fun _ => none, 0⟩

end Wide

namespace DoubleSum

/-- The vector `a`. -/
def a : Var := ⟨"a", vectorType 2⟩
/-- The vector `b`. -/
def b : Var := ⟨"b", vectorType 3⟩
/-- The scalar `c`. -/
def c : Var := ⟨"c", Int⟩
/-- The reduction variable `i`. -/
def i : IndexVar := ⟨"i", ⟨[.Range 2]⟩, some ⟨.Sum⟩⟩
/-- The reduction variable `j`. -/
def j : IndexVar := ⟨"j", ⟨[.Range 3]⟩, some ⟨.Sum⟩⟩
/-- The loop variable of `i`. -/
def iVar : Var := ⟨"i", Int⟩
/-- The loop variable of `j`. -/
def jVar : Var := ⟨"j", Int⟩
/-- The index expression `() sum_i sum_j a(i) * b(j)`. -/
def expr : Expr :=
  .IndexExpr [] (.Mul (.IndexedTensor (.VarExpr a) [i]) (.IndexedTensor (.VarExpr b) [j]))
/-- The function that holds the assignment `c = sum_i sum_j a(i) * b(j)`. -/
def func : Func := ⟨"f", [a, b], [c], .AssignStmt c expr⟩
/-- Modelled from the spec: the SIG of `expr`: the vertices of `i` and `j`,
unconstrained since no tensor is indexed by both, in one of the two orders. -/
def sig (jFirst : Bool) : SIG :=
  if jFirst then ⟨[(⟨j⟩, none), (⟨i⟩, none)]⟩ else ⟨[(⟨i⟩, none), (⟨j⟩, none)]⟩
/-- The collaborators of the scenario, for an order of the walk and a kind of
the default-constructed operator. -/
def env (jFirst : Bool) (kind : ReductionOperator.Kind) : Collaborators :=
  Collaborators.fixed (sig jFirst) kind
/-- The specialized statement `c = a[i] * b[j]`. -/
def body : Stmt :=
  .AssignStmt c (.Mul (.TensorRead (.VarExpr a) [.VarExpr iVar])
    (.TensorRead (.VarExpr b) [.VarExpr jVar]))
/-- The statement `c = 0; For(j, 0..3, c = c + a[i] * b[j])`. -/
def inner : Stmt :=
  .Block (.AssignStmt c (.Literal Int [0]))
    (.For jVar (.Range 3)
      (.AssignStmt c (.Add (.VarExpr c)
        (.Mul (.TensorRead (.VarExpr a) [.VarExpr iVar])
          (.TensorRead (.VarExpr b) [.VarExpr jVar])))))

end DoubleSum

namespace Written

/-- The function whose body is the write `x(i) = v`, which involves no index
expression, after an empty statement. -/
def func : Func := ⟨"f", [Vector.x, Vector.i, Vector.v], [], .Block .Pass Vector.write⟩

/-- The function whose body is the field write `x.f = v`. -/
def fieldFunc : Func :=
  ⟨"g", [Vector.x, Vector.v], [], .FieldWrite (.VarExpr Vector.x) "f" (.VarExpr Vector.v)⟩

end Written

end ir

/-! ## The contents of an index -/

/-- A stand-in for `builder->buildSegmented`: it answers a request for a path
expression with a new index object of the contents recorded for the
expression, whatever the source endpoint and the memo map, and fails where
nothing is recorded. -/
def answering (answers : PathExpression → Option PathIndexImpl) :
    PathExpression → Nat → PathIndexBuilder → Built :=
  fun pe _ b =>
    match answers pe with
    | some impl => .ok (b.alloc impl)
    | none => .error .assertion

/-- The contents the visitor computes for a bound path expression from the
contents of the operands it asks for: `Denotes pe impl` holds when
`PathNeighborVisitor::build` returns an index object `impl` for `pe`, given
for every operand it requests an object that the operand denotes.  The memo
map and the source endpoints do not occur. -/
inductive Denotes : PathExpression → PathIndexImpl → Prop where
  | intro (pe : PathExpression) (answers : PathExpression → Option PathIndexImpl)
      (b b' : PathIndexBuilder) (pi : PathIndex) (impl : PathIndexImpl) :
      pe.isBound = true →
      (∀ pe' impl', answers pe' = some impl' → Denotes pe' impl') →
      build (answering answers) pe b = .ok (pi, b') → pi.impl = impl → Denotes pe impl

/-- Every index of the memo map has the contents its path expression
denotes. -/
def PathIndexBuilder.Sound (b : PathIndexBuilder) : Prop :=
  ∀ e ∈ b.pathIndices, Denotes e.1.1 e.2.impl

/-! # Intrusive pointers (`intrusive_ptr.h`) -/

namespace util

/-- The managed class of the class comment,
`struct X \x7b mutable long ref; X() : ref(0) \x7b\x7d ... \x7d`: its reference
count, and whether `delete` has ended the object. -/
structure Managed where
  ref : ℤ
  deleted : Bool
  deriving DecidableEq, Repr

/-- An `IntrusivePtr<T>` object: its member `ptr`, null or the address of a
managed object, and whether the handle is alive (constructed and not yet
destroyed). -/
structure IntrusivePtr where
  ptr : Option Nat
  alive : Bool
  deriving DecidableEq, Repr

/-- The memory: the managed objects and the handles, by address. -/
structure Memory where
  objects : List Managed
  handles : List IntrusivePtr
  deriving DecidableEq, Repr

namespace Memory

/-- The memory without objects and handles. -/
def empty : Memory := ⟨[], []⟩

/-- The expression `new X`, with the constructor `X() : ref(0)`. -/
def newObject (m : Memory) : Nat × Memory :=
  (m.objects.length, ⟨m.objects ++ [⟨0, false⟩], m.handles⟩)

/-- The function `aquire(X *x) \x7b ++x->ref; \x7d` of the class comment, on the
`long` count of an object that exists. -/
def aquire (m : Memory) (x : Nat) : Except Error Memory :=
  match m.objects[x]? with
  | some obj =>
    if obj.deleted then .error .undefinedBehavior
    else if obj.ref + 1 < 2 ^ 63 then .ok ⟨m.objects.set x ⟨obj.ref + 1, false⟩, m.handles⟩
    else .error .undefinedBehavior
  | none => .error .undefinedBehavior

/-- The function `release(X *x) \x7b if (--x->ref == 0) delete x; \x7d` of the
class comment. -/
def release (m : Memory) (x : Nat) : Except Error Memory :=
  match m.objects[x]? with
  | some obj =>
    if obj.deleted then .error .undefinedBehavior
    else if -(2 ^ 63) ≤ obj.ref - 1 then
      .ok ⟨m.objects.set x ⟨obj.ref - 1, obj.ref - 1 == 0⟩, m.handles⟩
    else .error .undefinedBehavior
  | none => .error .undefinedBehavior

/-- The member `ptr` of a handle that is alive. -/
def getPtr (m : Memory) (h : Nat) : Except Error (Option Nat) :=
  match m.handles[h]? with
  | some handle => if handle.alive then .ok handle.ptr else .error .undefinedBehavior
  | none => .error .undefinedBehavior

/-- An assignment to the member `ptr` of a handle. -/
def setPtr (m : Memory) (h : Nat) (ptr : Option Nat) : Memory :=
  ⟨m.objects, m.handles.set h ⟨ptr, true⟩⟩

/-- The constructor `IntrusivePtr() : ptr(nullptr)`. -/
def construct (m : Memory) : Nat × Memory :=
  (m.handles.length, ⟨m.objects, m.handles ++ [⟨none, true⟩]⟩)

/-- The constructor `IntrusivePtr(T *ptr) : ptr(ptr)`:
`if (ptr) aquire(ptr)`. -/
def constructFrom (m : Memory) (ptr : Option Nat) : Except Error (Nat × Memory) := do
  let this := m.handles.length
  let m : Memory := ⟨m.objects, m.handles ++ [⟨ptr, true⟩]⟩
  match ptr with
  | some x => do
    let m ← m.aquire x
    .ok (this, m)
  | none => .ok (this, m)

/-- The copy constructor `IntrusivePtr(const IntrusivePtr &other) :
ptr(other.ptr)`: `if (ptr) aquire(ptr)`. -/
def copyConstruct (m : Memory) (other : Nat) : Except Error (Nat × Memory) := do
  let ptr ← m.getPtr other
  let this := m.handles.length
  let m : Memory := ⟨m.objects, m.handles ++ [⟨ptr, true⟩]⟩
  match ptr with
  | some x => do
    let m ← m.aquire x
    .ok (this, m)
  | none => .ok (this, m)

/-- The move constructor `IntrusivePtr(IntrusivePtr &&other) : ptr(other.ptr)`:
`other.ptr = nullptr`. -/
def moveConstruct (m : Memory) (other : Nat) : Except Error (Nat × Memory) := do
  let ptr ← m.getPtr other
  let this := m.handles.length
  let m : Memory := ⟨m.objects, m.handles ++ [⟨ptr, true⟩]⟩
  let m := m.setPtr other none
  .ok (this, m)

/-- The copy assignment `operator=(const IntrusivePtr &other)`:
`ptr = other.ptr; if (ptr) aquire(ptr); return *this;`. -/
def copyAssign (m : Memory) (this other : Nat) : Except Error Memory := do
  let _ ← m.getPtr this
  let ptr ← m.getPtr other
  let m := m.setPtr this ptr
  match ptr with
  | some x => m.aquire x
  | none => .ok m

/-- The statements of `operator=(T *ptr)`:
`this->ptr = ptr; if (ptr) aquire(ptr);`. -/
def assignRawBody (m : Memory) (this : Nat) (ptr : Option Nat) : Except Error Memory := do
  let _ ← m.getPtr this
  let m := m.setPtr this ptr
  match ptr with
  | some x => m.aquire x
  | none => .ok m

/-- The assignment `operator=(T *ptr)`, declared to return `IntrusivePtr&`:
its body ends without a `return` statement, and flowing off the end of such a
function is undefined. -/
def assignRaw (m : Memory) (this : Nat) (ptr : Option Nat) : Except Error Memory := do
  let _ ← m.assignRawBody this ptr
  .error .undefinedBehavior

/-- The move assignment `operator=(IntrusivePtr &&other)`:
`ptr = other.ptr; other.ptr = nullptr; return *this;`. -/
def moveAssign (m : Memory) (this other : Nat) : Except Error Memory := do
  let _ ← m.getPtr this
  let ptr ← m.getPtr other
  let m := m.setPtr this ptr
  let m := m.setPtr other none
  .ok m

/-- The destructor `~IntrusivePtr()`: `if (ptr) release(ptr)`; the handle is
alive no longer. -/
def destroy (m : Memory) (this : Nat) : Except Error Memory := do
  let ptr ← m.getPtr this
  let m : Memory := ⟨m.objects, m.handles.set this ⟨ptr, false⟩⟩
  match ptr with
  | some x => m.release x
  | none => .ok m

/-! ### Notions used to state the properties of intrusive pointers -/

/-- The number of handles that are alive and whose `ptr` designates the
object. -/
def handlesOn (m : Memory) (x : Nat) : Nat :=
  m.handles.countP (fun h => h.alive && h.ptr == some x)

/-- The reference count of an object, if there is an object at the address. -/
def refOf (m : Memory) (x : Nat) : Option ℤ := (m.objects[x]?).map (fun obj => obj.ref)

/-- The invariant of reference counting: the count stored in every object
that has not been deleted is the number of the handles alive that designate
it. -/
def Counted (m : Memory) : Prop :=
  ∀ x obj, m.objects[x]? = some obj → obj.deleted = false → obj.ref = (m.handlesOn x : ℤ)

end Memory

/-- The scenario `X *x = new X; X *y = new X; IntrusivePtr<X> a(x), b(y);`:
the objects at the addresses 0 and 1, the handles `a` and `b` at 0 and 1. -/
def Scenario.two : Except Error Memory := do
  let (x, m) := Memory.empty.newObject
  let (y, m) := m.newObject
  let (_, m) ← m.constructFrom (some x)
  let (_, m) ← m.constructFrom (some y)
  .ok m

end util

/-! # Meshes (`mesh.cpp`) -/

/-- The type `Vector3i`, `array<int,3>`. -/
abbrev Vector3i := ℤ × ℤ × ℤ

/-- The members of a `Mesh` that `load` writes: the vertices `v` and the
triangles `t`.  The type `Vector3d` of a vertex is a parameter. -/
structure Mesh (Vector3d : Type) where
  v : List Vector3d
  t : List Vector3i

namespace Mesh

/-- The function `isspace` of the classic locale, which formatted input skips:
space, tab, line feed, vertical tab, form feed, carriage return. -/
def isspace (c : Char) : Bool :=
  c == ' ' || c == '\t' || c == '\n' || c == '\x0b' || c == '\x0c' || c == '\r'

/-- A `stringstream` that is read: the characters not read yet, or none once
an extraction has failed. -/
abbrev Stream := Option (List Char)

/-- The extraction `ss >> tok` of a string: white space is skipped, then the
characters up to the next white space are read; when there is nothing to read
the extraction fails and `tok` keeps its value. -/
def extractString (ss : Stream) (tok : List Char) : List Char × Stream :=
  match ss with
  | none => (tok, none)
  | some s =>
    let s := s.dropWhile isspace
    if s.isEmpty then (tok, none)
    else (s.takeWhile (fun c => !isspace c), some (s.dropWhile (fun c => !isspace c)))

/-- The value of a sequence of decimal digits. -/
def digitsValue (digits : List Char) : Nat :=
  digits.foldl (fun n c => 10 * n + (c.toNat - 48)) 0

/-- The extraction `facess >> x` of an `int`: white space is skipped, then a
sign, if there is one, and decimal digits are read; the extraction fails when
there is no digit or when the number is no `int`.  The value is none when the
extraction failed. -/
def extractInt (ss : Stream) : Option ℤ × Stream :=
  match ss with
  | none => (none, none)
  | some s =>
    let s := s.dropWhile isspace
    let negative := s.head? == some '-'
    let s := if s.head? == some '-' || s.head? == some '+' then s.tail else s
    let digits := s.takeWhile Char.isDigit
    let rest := s.dropWhile Char.isDigit
    if digits.isEmpty then (none, none)
    else
      let value : ℤ := if negative then -(digitsValue digits : ℤ) else (digitsValue digits : ℤ)
      if -(2 ^ 31) ≤ value ∧ value < 2 ^ 31 then (some value, some rest) else (none, none)

/-- The loop `while(facess>>x) \x7b vidx.push_back(x); if(hasTexture)
\x7b facess>>x; \x7d \x7d`.  The first argument bounds the number of rounds; every
round reads a character, so that one more than the number of characters is
enough. -/
def readIndices (hasTexture : Bool) : Nat → Stream → List ℤ → Except Error (List ℤ)
  | 0, _, _ => .error .outOfFuel
  | fuel + 1, facess, vidx =>
    match extractInt facess with
    | (some x, facess) =>
      let vidx := vidx ++ [x]
      let facess := if hasTexture then (extractInt facess).2 else facess
      readIndices hasTexture fuel facess vidx
    | (none, _) => .ok vidx

/-- The expression `vidx[i]-1` on `int`: reading outside the vector and an
overflow are undefined. -/
def indexMinusOne (vidx : List ℤ) (i : Nat) : Except Error ℤ :=
  match vidx[i]? with
  | some x => if -(2 ^ 31) ≤ x - 1 then .ok (x - 1) else .error .undefinedBehavior
  | none => .error .undefinedBehavior

/-- The loop `for(unsigned ii = 0;ii<vidx.size()-2;ii++)` that pushes the
triangles of a face.  The bound is computed on `size_t`: with fewer than two
indices it wraps around, and the first round reads `vidx` outside its
elements. -/
def triangulate (vidx : List ℤ) (t : List Vector3i) : Except Error (List Vector3i) :=
  if 2 ≤ vidx.length then
    (List.range (vidx.length - 2)).foldlM
      (fun t ii => do
        let trig0 ← indexMinusOne vidx 0
        let trig1 ← indexMinusOne vidx (ii + 1)
        let trig2 ← indexMinusOne vidx (ii + 2)
        .ok (t ++ [(trig0, trig1, trig2)]))
      t
  else .error .undefinedBehavior

/-- The body of the loop of `load` for a line that `getline` has read before
the end of the input: none stands for `break`, and otherwise the mesh and the
value of `tok` go to the next round.  The three extractions
`ss>>vec[0]>>vec[1]>>vec[2]` of `double`s into a new `Vector3d` are the
parameter `readVector3d`. -/
def loadLine {Vector3d : Type} (readVector3d : Stream → Vector3d) (m : Mesh Vector3d)
    (tok : List Char) (line : List Char) : Except Error (Option (Mesh Vector3d × List Char)) :=
  if line = ['#', 'e', 'n', 'd'] then .ok none
  else if line.length < 3 then .ok (some (m, tok))
  else if line.head? = some '#' then .ok (some (m, tok))
  else
    let (tok, ss) := extractString (some line) tok
    if tok = ['v'] then .ok (some (⟨m.v ++ [readVector3d ss], m.t⟩, tok))
    else if tok = ['f'] then
      let hasTexture := line.contains '/'
      let line := if hasTexture then line.map (fun c => if c = '/' then ' ' else c) else line
      let (tok, facess) := extractString (some line) tok
      do
        let vidx ← readIndices hasTexture (line.length + 1) facess []
        let t ← triangulate vidx m.t
        .ok (some (⟨m.v, t⟩, tok))
    else .ok (some (m, tok))

/-- The loop of `Mesh::load(istream &)` on the characters of the input:
`getline` collects the characters up to the next line feed in `line`; where
the input ends `in.eof()` holds and the loop ends, whatever `line` has
collected. -/
def loadFrom {Vector3d : Type} (readVector3d : Stream → Vector3d) (m : Mesh Vector3d)
    (tok : List Char) (line : List Char) : List Char → Except Error (Mesh Vector3d)
  | [] => .ok m
  | c :: input =>
    if c = '\n' then
      match loadLine readVector3d m tok line with
      | .ok (some (m, tok)) => loadFrom readVector3d m tok [] input
      | .ok none => .ok m
      | .error e => .error e
    else loadFrom readVector3d m tok (line ++ [c]) input

/-- `Mesh::load(istream &)`: `tok` and `line` are empty at first. -/
def load {Vector3d : Type} (readVector3d : Stream → Vector3d) (m : Mesh Vector3d)
    (input : List Char) : Except Error (Mesh Vector3d) :=
  loadFrom readVector3d m [] [] input

/-! ### Notions used to state the properties of `load` -/

/-- The decimal digits of a number, after those of its tenth; the first
argument bounds the number of digits. -/
def decimalDigits : Nat → Nat → List Char → List Char
  | 0, _, acc => acc
  | fuel + 1, n, acc =>
    if n / 10 = 0 then Char.ofNat (48 + n % 10) :: acc
    else decimalDigits fuel (n / 10) (Char.ofNat (48 + n % 10) :: acc)

/-- The decimal numeral of a natural number. -/
def decimal (n : Nat) : List Char := decimalDigits (n + 1) n []

/-- A face line of plain indices, `f v1 v2 ... vn`. -/
def faceLine (vs : List Nat) : List Char :=
  'f' :: vs.flatMap (fun v => ' ' :: decimal v)

/-- A face line of pairs of a vertex index and a texture index,
`f v1/t1 v2/t2 ... vn/tn`. -/
def texturedFaceLine (vts : List (Nat × Nat)) : List Char :=
  'f' :: vts.flatMap (fun p => ' ' :: decimal p.1 ++ '/' :: decimal p.2)

/-- The fan of triangles of a face with the one-based indices `vs`: the
triangle `k` has the first vertex and the vertices `k + 1` and `k + 2`,
counted from 0. -/
def fan (vs : List Nat) : List Vector3i :=
  (List.range (vs.length - 2)).map
    (fun k => ((vs.getD 0 0 : ℤ) - 1, (vs.getD (k + 1) 0 : ℤ) - 1, (vs.getD (k + 2) 0 : ℤ) - 1))

end Mesh

/-! ## Auxiliary facts: the error monad and loops -/

theorem bind_eq_ok {ε α β : Type} {x : Except ε α} {f : α → Except ε β} {b : β} :
    (x >>= f) = .ok b ↔ ∃ a, x = .ok a ∧ f a = .ok b := by
  cases x <;> simp [bind, Except.bind]

theorem map_eq_ok {ε α β : Type} {x : Except ε α} {f : α → β} {b : β} :
    Except.map f x = .ok b ↔ ∃ a, x = .ok a ∧ f a = b := by
  cases x <;> simp [Except.map]

/-- A loop that ended normally has gone through every round normally; an
invariant kept by every round holds at the end. -/
theorem foldlM_inv {ε σ α : Type} (f : σ → α → Except ε σ) (Inv : List α → σ → Prop)
    (l : List α) (s0 s1 : σ) (h0 : Inv [] s0)
    (hstep : ∀ pre x s s', x ∈ l → Inv pre s → f s x = .ok s' → Inv (pre ++ [x]) s')
    (h : l.foldlM f s0 = .ok s1) : Inv l s1 := by
  induction l using List.reverseRecOn generalizing s1 with
  | nil =>
    simp [pure, Except.pure] at h
    subst h; exact h0
  | append_singleton l x ih =>
    rw [List.foldlM_append, bind_eq_ok] at h
    obtain ⟨s, hs, hx⟩ := h
    simp only [List.foldlM_cons, List.foldlM_nil, bind_eq_ok, pure, Except.pure] at hx
    obtain ⟨s2, hs2, h2⟩ := hx
    injection h2 with h2
    exact h2 ▸ hstep l x s s2 (by simp)
      (ih s (fun pre y t t' hy => hstep pre y t t' (by simp [hy])) hs) hs2

/-- A loop all of whose rounds end normally ends normally. -/
theorem foldlM_ok {ε σ α : Type} (f : σ → α → Except ε σ) (Inv : List α → σ → Prop)
    (l : List α) (s0 : σ) (h0 : Inv [] s0)
    (hok : ∀ pre x s, x ∈ l → Inv pre s → ∃ s', f s x = .ok s')
    (hstep : ∀ pre x s s', x ∈ l → Inv pre s → f s x = .ok s' → Inv (pre ++ [x]) s') :
    ∃ s1, l.foldlM f s0 = .ok s1 := by
  induction l using List.reverseRecOn with
  | nil => exact ⟨s0, rfl⟩
  | append_singleton l x ih =>
    obtain ⟨s, hs⟩ := ih (fun pre y t hy => hok pre y t (by simp [hy]))
      (fun pre y t t' hy => hstep pre y t t' (by simp [hy]))
    have hinv := foldlM_inv f Inv l s0 s h0
      (fun pre y t t' hy => hstep pre y t t' (by simp [hy])) hs
    obtain ⟨s', hs'⟩ := hok l x s (by simp) hinv
    refine ⟨s', ?_⟩
    rw [List.foldlM_append, hs]
    simp [bind, Except.bind, hs', pure, Except.pure]

/-- The invariant rule for a counted loop `for i in 0 .. n-1`. -/
theorem foldlM_range_inv {ε σ : Type} (f : σ → Nat → Except ε σ) (Inv : Nat → σ → Prop)
    (n : Nat) (s0 s1 : σ) (h0 : Inv 0 s0)
    (hstep : ∀ j s s', j < n → Inv j s → f s j = .ok s' → Inv (j + 1) s')
    (h : (List.range n).foldlM f s0 = .ok s1) : Inv n s1 := by
  induction n generalizing s1 with
  | zero =>
    simp [pure, Except.pure] at h
    subst h; exact h0
  | succ n ih =>
    rw [List.range_succ, List.foldlM_append, bind_eq_ok] at h
    obtain ⟨s, hs, hx⟩ := h
    simp only [List.foldlM_cons, List.foldlM_nil, bind_eq_ok, pure, Except.pure] at hx
    obtain ⟨s2, hs2, h2⟩ := hx
    injection h2 with h2
    exact h2 ▸ hstep n s s2 (by omega)
      (ih s (fun j t t' hj => hstep j t t' (by omega)) hs) hs2

/-- A counted loop all of whose rounds end normally ends normally. -/
theorem foldlM_range_ok {ε σ : Type} (f : σ → Nat → Except ε σ) (Inv : Nat → σ → Prop)
    (n : Nat) (s0 : σ) (h0 : Inv 0 s0)
    (hok : ∀ j s, j < n → Inv j s → ∃ s', f s j = .ok s')
    (hstep : ∀ j s s', j < n → Inv j s → f s j = .ok s' → Inv (j + 1) s') :
    ∃ s1, (List.range n).foldlM f s0 = .ok s1 := by
  induction n with
  | zero => exact ⟨s0, rfl⟩
  | succ n ih =>
    obtain ⟨s, hs⟩ := ih (fun j t hj => hok j t (by omega))
      (fun j t t' hj => hstep j t t' (by omega))
    have hinv := foldlM_range_inv f Inv n s0 s h0
      (fun j t t' hj => hstep j t t' (by omega)) hs
    obtain ⟨s', hs'⟩ := hok n s (by omega) hinv
    refine ⟨s', ?_⟩
    rw [List.range_succ, List.foldlM_append, hs]
    simp [bind, Except.bind, hs', pure, Except.pure]


/-! ## `std::set` and `std::map` -/

theorem mem_setInsert {a x : Nat} {s : List Nat} : a ∈ setInsert x s ↔ a = x ∨ a ∈ s := by
  unfold setInsert
  split
  · constructor
    · exact fun h => Or.inr h
    · rintro (h | h)
      · subst h; assumption
      · exact h
  · simp [List.mem_orderedInsert]

theorem sorted_setInsert {x : Nat} {s : List Nat} (hs : s.Sorted (· < ·)) :
    (setInsert x s).Sorted (· < ·) := by
  unfold setInsert
  split
  · exact hs
  · rename_i hx
    have h1 : (s.orderedInsert (· ≤ ·) x).Sorted (· ≤ ·) :=
      List.Sorted.orderedInsert x s (hs.imp (fun h => Nat.le_of_lt h))
    have h2 : (s.orderedInsert (· ≤ ·) x).Nodup :=
      (List.perm_orderedInsert (· ≤ ·) x s).nodup_iff.mpr
        (List.nodup_cons.mpr ⟨hx, hs.nodup⟩)
    exact h1.lt_of_le h2

theorem mapInsert_append {k : Nat} {v : List Nat} {m : NeighborMap}
    (h : ∀ p ∈ m, p.1 < k) : mapInsert k v m = m ++ [(k, v)] := by
  induction m with
  | nil => rfl
  | cons p rest ih =>
    obtain ⟨k', v'⟩ := p
    have hk : k' < k := h (k', v') (by simp)
    have hrest := ih (fun q hq => h q (by simp [hq]))
    simp only [mapInsert]
    rw [if_neg (by omega), if_neg (by omega), hrest]
    rfl

theorem nbrsOf_cons_eq (j : Nat) (s : List Nat) (rest : NeighborMap) :
    nbrsOf ((j, s) :: rest) j = s := by
  simp [nbrsOf, mapFind]

theorem nbrsOf_cons_ne {k j : Nat} (h : k ≠ j) (s : List Nat) (rest : NeighborMap) :
    nbrsOf ((k, s) :: rest) j = nbrsOf rest j := by
  have hb : (k == j) = false := by simpa using h
  simp [nbrsOf, mapFind, List.find?_cons, hb]

theorem mapFind_append_of_not_mem {m : NeighborMap} {k : Nat} {v : List Nat} {j : Nat}
    (hk : k ∉ m.map Prod.fst) :
    nbrsOf (m ++ [(k, v)]) j = if j = k then v else nbrsOf m j := by
  induction m with
  | nil =>
    by_cases hj : j = k
    · subst hj; simp [nbrsOf, mapFind]
    · have : ¬ k = j := fun h => hj h.symm
      simp [nbrsOf, mapFind, hj, this]
  | cons p rest ih =>
    obtain ⟨k', v'⟩ := p
    have hk' : k ≠ k' := by
      intro h; apply hk; simp [h]
    have hrest := ih (by intro h; apply hk; simp only [List.map_cons, List.mem_cons]; exact Or.inr h)
    by_cases hj : k' = j
    · subst hj
      have : ¬ k' = k := fun h => hk' h.symm
      simp [nbrsOf, mapFind, this]
    · rw [List.cons_append, nbrsOf_cons_ne hj, nbrsOf_cons_ne hj]
      exact hrest

theorem MapInv.nil : MapInv [] 0 := ⟨rfl, by simp⟩

theorem MapInv.length {m : NeighborMap} {n : Nat} (h : MapInv m n) : m.length = n := by
  have := congrArg List.length h.keys
  simpa using this

theorem MapInv.mem_keys {m : NeighborMap} {n : Nat} (h : MapInv m n) (k : Nat) :
    k ∈ m.map Prod.fst ↔ k < n := by
  rw [h.keys]; simp

/-- Adding the next key with an empty set. -/
theorem MapInv.insert {m : NeighborMap} {n : Nat} (h : MapInv m n) :
    mapInsert n [] m = m ++ [(n, [])] ∧ MapInv (mapInsert n [] m) (n + 1) ∧
      ∀ j, nbrsOf (mapInsert n [] m) j = nbrsOf m j := by
  have hlt : ∀ p ∈ m, p.1 < n := by
    intro p hp
    exact (h.mem_keys p.1).mp (List.mem_map_of_mem _ hp)
  have happ := mapInsert_append (v := []) hlt
  refine ⟨happ, ⟨?_, ?_⟩, ?_⟩
  · rw [happ, List.map_append, h.keys, List.range_succ]; rfl
  · intro p hp
    rw [happ, List.mem_append] at hp
    rcases hp with hp | hp
    · exact h.sorted p hp
    · simp at hp; subst hp; simp
  · intro j
    rw [happ, mapFind_append_of_not_mem (by rw [h.mem_keys]; omega)]
    split
    · rename_i hj
      subst hj
      have : mapFind m j = none := by
        unfold mapFind
        have : m.find? (fun p => p.1 == j) = none := by
          rw [List.find?_eq_none]
          intro p hp
          have := hlt p hp
          simp; omega
        rw [this]; rfl
      simp [nbrsOf, this]
    · rfl

theorem mapAtInsert_keys {k x : Nat} {m m' : NeighborMap} (h : mapAtInsert k x m = .ok m') :
    m'.map Prod.fst = m.map Prod.fst ∧ k ∈ m.map Prod.fst := by
  induction m generalizing m' with
  | nil => simp [mapAtInsert] at h
  | cons p rest ih =>
    obtain ⟨k', s⟩ := p
    simp only [mapAtInsert] at h
    split at h
    · rename_i hk
      injection h with h
      subst h; subst hk
      simp
    · rw [map_eq_ok] at h
      obtain ⟨r, hr, hm⟩ := h
      subst hm
      have := ih hr
      simp [this.1, this.2]

theorem mapAtInsert_sorted {k x : Nat} {m m' : NeighborMap} (h : mapAtInsert k x m = .ok m')
    (hs : ∀ p ∈ m, p.2.Sorted (· < ·)) : ∀ p ∈ m', p.2.Sorted (· < ·) := by
  induction m generalizing m' with
  | nil => simp [mapAtInsert] at h
  | cons p rest ih =>
    obtain ⟨k', s⟩ := p
    simp only [mapAtInsert] at h
    split at h
    · injection h with h
      subst h
      intro p hp
      simp only [List.mem_cons] at hp
      rcases hp with hp | hp
      · subst hp; exact sorted_setInsert (hs (k', s) (by simp))
      · exact hs p (by simp [hp])
    · rw [map_eq_ok] at h
      obtain ⟨r, hr, hm⟩ := h
      subst hm
      intro p hp
      simp only [List.mem_cons] at hp
      rcases hp with hp | hp
      · subst hp; exact hs (k', s) (by simp)
      · exact ih hr (fun q hq => hs q (by simp [hq])) p hp

theorem mapAtInsert_nbrsOf {k x : Nat} {m m' : NeighborMap} (h : mapAtInsert k x m = .ok m')
    (j a : Nat) : a ∈ nbrsOf m' j ↔ a ∈ nbrsOf m j ∨ (j = k ∧ a = x) := by
  induction m generalizing m' with
  | nil => simp [mapAtInsert] at h
  | cons p rest ih =>
    obtain ⟨k', s⟩ := p
    simp only [mapAtInsert] at h
    split at h
    · rename_i hk
      injection h with h
      subst h; subst hk
      by_cases hj : k = j
      · subst hj
        simp [nbrsOf, mapFind, mem_setInsert]
        tauto
      · have hj' : ¬ j = k := fun h => hj h.symm
        simp [nbrsOf, mapFind, hj, hj']
    · rename_i hk
      rw [map_eq_ok] at h
      obtain ⟨r, hr, hm⟩ := h
      subst hm
      by_cases hj : k' = j
      · subst hj
        have : ¬ k' = k := fun h => hk h.symm
        simp [nbrsOf, mapFind, this]
      · rw [nbrsOf_cons_ne hj, nbrsOf_cons_ne hj]
        exact ih hr

theorem mapAtInsert_ok {k x : Nat} {m : NeighborMap} (h : k ∈ m.map Prod.fst) :
    ∃ m', mapAtInsert k x m = .ok m' := by
  induction m with
  | nil => simp at h
  | cons p rest ih =>
    obtain ⟨k', s⟩ := p
    simp only [mapAtInsert]
    split
    · exact ⟨_, rfl⟩
    · rename_i hk
      simp only [List.map_cons, List.mem_cons] at h
      rcases h with h | h
      · exact absurd h hk
      · obtain ⟨r, hr⟩ := ih h
        exact ⟨_, by rw [hr]; rfl⟩

theorem MapInv.atInsert {k x n : Nat} {m m' : NeighborMap} (hm : MapInv m n)
    (h : mapAtInsert k x m = .ok m') : MapInv m' n :=
  ⟨(mapAtInsert_keys h).1.trans hm.keys, mapAtInsert_sorted h hm.sorted⟩


/-! ## `pack` -/

theorem memcpy_length {dst src : List Nat} {c : Nat} (h : c + src.length ≤ dst.length) :
    (memcpy dst c src).length = dst.length := by
  simp [memcpy]; omega

theorem memcpy_take {dst src : List Nat} {c : Nat} (h : c + src.length ≤ dst.length) :
    (memcpy dst c src).take (c + src.length) = dst.take c ++ src := by
  have h1 : (dst.take c ++ src).length = c + src.length := by simp; omega
  unfold memcpy
  rw [← h1, List.take_left']
  rfl

theorem memcpy_nil {dst : List Nat} {c : Nat} : memcpy dst c [] = dst := by
  simp [memcpy]

theorem packStep_eq {starts nbrs : List Nat} {c k : Nat} {v : List Nat}
    (hk : k < starts.length) :
    packStep (starts, nbrs, c) (k, v) =
      .ok (starts.set k c, memcpy nbrs c (v.insertionSort (· ≤ ·)), c + v.length) := by
  simp only [packStep, hk, if_true]
  split
  · rfl
  · rename_i h
    have : v = [] := by
      cases v with
      | nil => rfl
      | cons a l => simp at h
    subst this
    simp [memcpy_nil]

theorem offsetAt_append_le (done : NeighborMap) (p : Nat × List Nat) (i : Nat)
    (h : i ≤ done.length) : offsetAt (done ++ [p]) i = offsetAt done i := by
  unfold offsetAt sortedNeighbors
  rw [List.map_append, List.map_append, List.take_append_of_le_length (by simpa using h)]

theorem offsetAt_length_append (done : NeighborMap) (p : Nat × List Nat) :
    offsetAt (done ++ [p]) (done.length + 1) = offsetAt done done.length + p.2.length := by
  unfold offsetAt sortedNeighbors
  rw [List.take_of_length_le (by simp), List.take_of_length_le (by simp)]
  simp [List.length_insertionSort]

theorem offsetAt_length (m : NeighborMap) :
    offsetAt m m.length = (m.map (fun p => p.2.length)).sum := by
  unfold offsetAt sortedNeighbors
  rw [List.take_of_length_le (by simp)]
  simp [List.length_insertionSort, Function.comp_def]

theorem sortedNeighbors_append (done : NeighborMap) (p : Nat × List Nat) :
    (sortedNeighbors (done ++ [p])).flatten =
      (sortedNeighbors done).flatten ++ p.2.insertionSort (· ≤ ·) := by
  simp [sortedNeighbors]

theorem pack_loop (rest : NeighborMap) : ∀ (done : NeighborMap) (starts nbrs : List Nat)
    (N : Nat),
    rest.map Prod.fst = List.range' done.length rest.length →
    starts.length = N + 1 → done.length + rest.length ≤ N →
    offsetAt (done ++ rest) (done ++ rest).length ≤ nbrs.length →
    (∀ i < done.length, starts[i]? = some (offsetAt done i)) →
    nbrs.take (offsetAt done done.length) = (sortedNeighbors done).flatten →
    ∃ starts' nbrs', rest.foldlM packStep (starts, nbrs, offsetAt done done.length) =
        .ok (starts', nbrs', offsetAt (done ++ rest) (done ++ rest).length) ∧
      starts'.length = N + 1 ∧ nbrs'.length = nbrs.length ∧
      (∀ i < (done ++ rest).length, starts'[i]? = some (offsetAt (done ++ rest) i)) ∧
      nbrs'.take (offsetAt (done ++ rest) (done ++ rest).length) =
        (sortedNeighbors (done ++ rest)).flatten := by
  induction rest with
  | nil =>
    intro done starts nbrs N _ hlen _ _ hst hnb
    refine ⟨starts, nbrs, ?_, hlen, rfl, ?_, ?_⟩
    · simp [pure, Except.pure]
    · simpa using hst
    · simpa using hnb
  | cons p rest ih =>
    intro done starts nbrs N hkeys hlen hN hT hst hnb
    obtain ⟨k, v⟩ := p
    simp only [List.map_cons, List.length_cons, List.range'_succ, List.cons.injEq] at hkeys
    obtain ⟨hk, hkeys⟩ := hkeys
    subst hk
    have happ : done ++ (done.length, v) :: rest = (done ++ [(done.length, v)]) ++ rest := by simp
    have hoff : offsetAt (done ++ [(done.length, v)]) (done ++ [(done.length, v)]).length =
        offsetAt done done.length + v.length := by
      rw [List.length_append]; exact offsetAt_length_append done _
    have hle : offsetAt done done.length + v.length ≤ nbrs.length := by
      rw [offsetAt_length] at hT ⊢
      simp only [List.map_append, List.map_cons, List.sum_append, List.sum_cons] at hT
      omega
    have hlen_sort : (v.insertionSort (· ≤ ·)).length = v.length := List.length_insertionSort _ _
    have hstep : packStep (starts, nbrs, offsetAt done done.length) (done.length, v) =
        .ok (starts.set done.length (offsetAt done done.length),
          memcpy nbrs (offsetAt done done.length) (v.insertionSort (· ≤ ·)),
          offsetAt (done ++ [(done.length, v)]) (done ++ [(done.length, v)]).length) := by
      rw [packStep_eq (by simp at hN; omega), hoff]
    have hmlen : (memcpy nbrs (offsetAt done done.length) (v.insertionSort (· ≤ ·))).length =
        nbrs.length := memcpy_length (by rw [hlen_sort]; exact hle)
    obtain ⟨starts', nbrs', hfold, hl1, hl2, hs', hn'⟩ :=
      ih (done ++ [(done.length, v)]) (starts.set done.length (offsetAt done done.length))
        (memcpy nbrs (offsetAt done done.length) (v.insertionSort (· ≤ ·))) N
        (by simpa using hkeys) (by simpa using hlen) (by simp at hN ⊢; omega)
        (by rw [hmlen, ← happ]; exact hT)
        (by
          intro i hi
          simp only [List.length_append, List.length_singleton] at hi
          rw [List.getElem?_set]
          by_cases h : done.length = i
          · subst h
            rw [if_pos rfl, if_pos (by simp at hN; omega),
              offsetAt_append_le _ _ _ (le_refl _)]
          · rw [if_neg h, hst i (by omega), offsetAt_append_le _ _ _ (by omega)])
        (by
          rw [hoff, ← hlen_sort, memcpy_take (by rw [hlen_sort]; exact hle), hnb,
            sortedNeighbors_append])
    refine ⟨starts', nbrs', ?_, hl1, hl2.trans hmlen, ?_, ?_⟩
    · rw [List.foldlM_cons, hstep, happ]
      exact hfold
    · rw [happ]; exact hs'
    · rw [happ]; exact hn'

theorem foldl_length_eq_sum (m : NeighborMap) (c : Nat) :
    m.foldl (fun n p => n + p.2.length) c = c + (m.map (fun p => p.2.length)).sum := by
  induction m generalizing c with
  | nil => simp
  | cons p rest ih => simp [List.foldl_cons, ih, Nat.add_assoc]

/-- What `pack` returns for a map with keys `0 .. n-1`: the offsets are the
running neighbor counts and `nbrs` is the concatenation of the sorted sets. -/
theorem pack_eq {m : NeighborMap} {n : Nat} (hkeys : m.map Prod.fst = List.range n) :
    pack m = .ok ⟨n, (List.range (n + 1)).map (offsetAt m), (sortedNeighbors m).flatten⟩ := by
  have hlen : m.length = n := by simpa using congrArg List.length hkeys
  have htot : m.foldl (fun n p => n + p.2.length) 0 = offsetAt m m.length := by
    rw [foldl_length_eq_sum, offsetAt_length]; simp
  obtain ⟨starts', nbrs', hfold, hl1, hl2, hs', hn'⟩ :=
    pack_loop m [] (List.replicate (m.length + 1) 0)
      (List.replicate (m.foldl (fun n p => n + p.2.length) 0) 0) m.length
      (by simpa [List.range_eq_range', hlen] using hkeys) (by simp) (by simp)
      (by simp [htot]) (by simp) (by simp [offsetAt, sortedNeighbors])
  simp only [List.nil_append] at hfold hs' hn'
  have hfold' : m.foldlM packStep (List.replicate (m.length + 1) 0,
      List.replicate (m.foldl (fun n p => n + p.2.length) 0) 0, 0) =
      .ok (starts', nbrs', offsetAt m m.length) := by
    simpa [offsetAt] using hfold
  unfold pack
  simp only [hfold', bind, Except.bind]
  have hnb : nbrs' = (sortedNeighbors m).flatten := by
    rw [← hn', List.take_of_length_le]
    rw [hl2, List.length_replicate, htot]
  have hst : starts'.set m.length (offsetAt m m.length) =
      (List.range (n + 1)).map (offsetAt m) := by
    apply List.ext_getElem?
    intro i
    rw [List.getElem?_set, List.getElem?_map]
    by_cases hi : m.length = i
    · subst hi
      rw [if_pos rfl, if_pos (by omega), List.getElem?_range (by omega)]
      rfl
    · rw [if_neg hi]
      by_cases hi2 : i < m.length
      · rw [hs' i hi2, List.getElem?_range (by omega)]; rfl
      · rw [List.getElem?_eq_none (by omega), List.getElem?_eq_none (by simp; omega)]
        rfl
  rw [hst, hnb, hlen]

theorem offsetAt_mono (m : NeighborMap) {i j : Nat} (h : i ≤ j) : offsetAt m i ≤ offsetAt m j := by
  unfold offsetAt
  obtain ⟨d, rfl⟩ := Nat.exists_eq_add_of_le h
  clear h
  generalize (sortedNeighbors m).map List.length = L
  induction i generalizing L with
  | zero => simp
  | succ i ih =>
    cases L with
    | nil => simp
    | cons a L =>
      have : i + 1 + d = (i + d) + 1 := by omega
      rw [this]
      simp only [List.take_succ_cons, List.sum_cons]
      exact Nat.add_le_add_left (ih L) a

theorem mapFind_of_mem {m : NeighborMap} (hnd : (m.map Prod.fst).Nodup) {p : Nat × List Nat}
    (hp : p ∈ m) : nbrsOf m p.1 = p.2 := by
  induction m with
  | nil => simp at hp
  | cons q rest ih =>
    obtain ⟨k, s⟩ := q
    simp only [List.map_cons, List.nodup_cons] at hnd
    simp only [List.mem_cons] at hp
    rcases hp with hp | hp
    · subst hp; exact nbrsOf_cons_eq _ _ _
    · have hne : k ≠ p.1 := by
        intro h; apply hnd.1; rw [h]; exact List.mem_map_of_mem _ hp
      rw [nbrsOf_cons_ne hne]
      exact ih hnd.2 hp

theorem sortedNeighbors_getElem {m : NeighborMap} {n : Nat}
    (hkeys : m.map Prod.fst = List.range n) {x : Nat} (hx : x < n) :
    (sortedNeighbors m)[x]? = some ((nbrsOf m x).insertionSort (· ≤ ·)) := by
  have hlen : m.length = n := by simpa using congrArg List.length hkeys
  have hx' : x < m.length := by omega
  have hkey : (m[x]).1 = x := by
    have := congrArg (fun l => l[x]?) hkeys
    simp only [List.getElem?_map, List.getElem?_range hx, List.getElem?_eq_getElem hx',
      Option.map_some'] at this
    injection this
  have hnd : (m.map Prod.fst).Nodup := by rw [hkeys]; exact List.nodup_range n
  have := mapFind_of_mem hnd (List.getElem_mem hx')
  rw [hkey] at this
  simp [sortedNeighbors, List.getElem?_eq_getElem hx', this]

theorem MapInv.sorted_nbrsOf {m : NeighborMap} {n : Nat} (h : MapInv m n) {x : Nat}
    (hx : x < n) : (nbrsOf m x).Sorted (· < ·) := by
  have hx' : x < m.length := by rw [h.length]; exact hx
  have hmem := List.getElem_mem hx'
  have hnd : (m.map Prod.fst).Nodup := by rw [h.keys]; exact List.nodup_range n
  have hkey : (m[x]).1 = x := by
    have := congrArg (fun l => l[x]?) h.keys
    simp only [List.getElem?_map, List.getElem?_range hx, List.getElem?_eq_getElem hx',
      Option.map_some'] at this
    injection this
  have := mapFind_of_mem hnd hmem
  rw [hkey] at this
  rw [this]; exact h.sorted _ hmem

/-- The index `pack` returns for a neighbor map of the visitor: it has one
element per key, it is valid, and the neighbors of an element are the
recorded set. -/
theorem pack_spec {m : NeighborMap} {n : Nat} (h : MapInv m n) :
    ∃ idx, pack m = .ok idx ∧ idx.numElems = n ∧ idx.Valid ∧
      ∀ x < n, idx.neighbors x = .ok (nbrsOf m x) := by
  refine ⟨_, pack_eq h.keys, rfl, ?_⟩
  have hlen : m.length = n := h.length
  have hnbr : ∀ x < n, SegmentedPathIndex.neighbors
      ⟨n, (List.range (n + 1)).map (offsetAt m), (sortedNeighbors m).flatten⟩ x =
      .ok (nbrsOf m x) := by
    intro x hx
    have hsn : (sortedNeighbors m).length = m.length := by simp [sortedNeighbors]
    have hget := sortedNeighbors_getElem h.keys hx
    have hid : (nbrsOf m x).insertionSort (· ≤ ·) = nbrsOf m x :=
      List.Sorted.insertionSort_eq ((h.sorted_nbrsOf hx).imp (fun h => Nat.le_of_lt h))
    rw [hid] at hget
    have hslice := List.drop_take_succ_flatten_eq_getElem (sortedNeighbors m) x (by omega)
    rw [List.getElem?_eq_getElem (by omega)] at hget
    injection hget with hget
    rw [hget] at hslice
    have hmono : offsetAt m x ≤ offsetAt m (x + 1) := offsetAt_mono m (by omega)
    have htotal : offsetAt m (x + 1) ≤ (sortedNeighbors m).flatten.length := by
      have h1 : offsetAt m (x + 1) ≤ offsetAt m m.length := offsetAt_mono m (by omega)
      have h2 : offsetAt m m.length = (sortedNeighbors m).flatten.length := by
        unfold offsetAt
        rw [List.take_of_length_le (by simp [sortedNeighbors]), List.length_flatten]
      omega
    simp only [SegmentedPathIndex.neighbors, SegmentedPathIndex.numNeighborsOf,
      List.getElem?_map, List.getElem?_range (show x < n + 1 by omega),
      List.getElem?_range (show x + 1 < n + 1 by omega), Option.map_some', if_pos hmono]
    rw [if_pos (by omega)]
    congr 1
    rw [← hslice, List.drop_take]
    rfl
  refine ⟨⟨by simp, ?_, ?_, ?_⟩, hnbr⟩
  · simp only [List.Sorted, List.pairwise_map]
    exact (List.pairwise_lt_range (n + 1)).imp (fun hab => offsetAt_mono m (Nat.le_of_lt hab))
  · simp only [List.getElem?_map, List.getElem?_range (show n < n + 1 by omega),
      Option.map_some']
    congr 1
    unfold offsetAt
    rw [List.take_of_length_le (by simp [sortedNeighbors]; omega), List.length_flatten]
  · intro x hx
    have hx : x < n := hx
    exact ⟨_, hnbr x hx, h.sorted_nbrsOf hx⟩

/-! ## The loops of the visitor -/

theorem MapInv.nbrsOf_of_ge {m : NeighborMap} {n : Nat} (h : MapInv m n) {j : Nat}
    (hj : n ≤ j) : nbrsOf m j = [] := by
  have : m.find? (fun p => p.1 == j) = none := by
    rw [List.find?_eq_none]
    intro p hp
    have := (h.mem_keys p.1).mp (List.mem_map_of_mem _ hp)
    simp; omega
  simp [nbrsOf, mapFind, this]

theorem mapFind_isSome {m : NeighborMap} {k : Nat} :
    (mapFind m k).isSome = true ↔ k ∈ m.map Prod.fst := by
  unfold mapFind
  rw [Option.isSome_map', List.find?_isSome]
  simp only [beq_iff_eq, List.mem_map]

theorem mapAt_eq_ok {m : NeighborMap} {k : Nat} {s : List Nat} (h : mapAt m k = .ok s) :
    nbrsOf m k = s ∧ k ∈ m.map Prod.fst := by
  unfold mapAt at h
  split at h
  · rename_i s' hs
    injection h with h
    subst h
    refine ⟨by simp [nbrsOf, hs], mapFind_isSome.mp (by simp [hs])⟩
  · cases h

theorem mapAt_ok {m : NeighborMap} {k : Nat} (h : k ∈ m.map Prod.fst) :
    mapAt m k = .ok (nbrsOf m k) := by
  have := mapFind_isSome.mpr h
  obtain ⟨s, hs⟩ := Option.isSome_iff_exists.mp this
  simp [mapAt, nbrsOf, hs]

/-- A run of `m.at(key).insert(val)` statements that ended normally: every key
was present, and the map holds the old neighbors and the inserted ones. -/
theorem insertMany_inv {α : Type} (key val : α → Nat) (xs : List α) {m m' : NeighborMap}
    {n : Nat} (hm : MapInv m n)
    (h : xs.foldlM (fun m x => mapAtInsert (key x) (val x) m) m = .ok m') :
    MapInv m' n ∧ (∀ x ∈ xs, key x < n) ∧
      ∀ j a, a ∈ nbrsOf m' j ↔ a ∈ nbrsOf m j ∨ ∃ x ∈ xs, key x = j ∧ val x = a := by
  refine foldlM_inv (fun m x => mapAtInsert (key x) (val x) m)
    (fun pre m' => MapInv m' n ∧ (∀ x ∈ pre, key x < n) ∧
      ∀ j a, a ∈ nbrsOf m' j ↔ a ∈ nbrsOf m j ∨ ∃ x ∈ pre, key x = j ∧ val x = a)
    xs m m' ⟨hm, by simp, by simp⟩ ?_ h
  rintro pre x s s' - ⟨hs, hkeys, hrel⟩ hstep
  refine ⟨hs.atInsert hstep, ?_, ?_⟩
  · intro y hy
    rw [List.mem_append, List.mem_singleton] at hy
    rcases hy with hy | hy
    · exact hkeys y hy
    · subst hy
      exact (hs.mem_keys _).mp (mapAtInsert_keys hstep).2
  · intro j a
    rw [mapAtInsert_nbrsOf hstep, hrel]
    constructor
    · rintro ((h1 | ⟨y, hy, h2⟩) | ⟨h1, h2⟩)
      · exact Or.inl h1
      · exact Or.inr ⟨y, by simp [hy], h2⟩
      · exact Or.inr ⟨x, by simp, h1.symm, h2.symm⟩
    · rintro (h1 | ⟨y, hy, h2, h3⟩)
      · exact Or.inl (Or.inl h1)
      · rw [List.mem_append, List.mem_singleton] at hy
        rcases hy with hy | hy
        · exact Or.inl (Or.inr ⟨y, hy, h2, h3⟩)
        · subst hy; exact Or.inr ⟨h2.symm, h3.symm⟩

/-- A run of `m.at(key).insert(val)` statements on present keys ends
normally. -/
theorem insertMany_ok {α : Type} (key val : α → Nat) (xs : List α) {m : NeighborMap}
    {n : Nat} (hm : MapInv m n) (hk : ∀ x ∈ xs, key x < n) :
    ∃ m', xs.foldlM (fun m x => mapAtInsert (key x) (val x) m) m = .ok m' := by
  refine foldlM_ok (fun m x => mapAtInsert (key x) (val x) m) (fun _ m' => MapInv m' n)
    xs m hm ?_ ?_
  · intro pre x s hx hs
    exact mapAtInsert_ok (by rw [hs.mem_keys]; exact hk x hx)
  · intro pre x s s' _ hs hstep
    exact hs.atInsert hstep

/-- The first loop of the `ve` case: one empty neighbor set per vertex. -/
theorem emptyNeighbors_inv (n : Nat) :
    MapInv ((List.range n).foldl (fun m v => mapInsert v [] m) []) n ∧
      ∀ j, nbrsOf ((List.range n).foldl (fun m v => mapInsert v [] m) []) j = [] := by
  induction n with
  | zero => exact ⟨MapInv.nil, fun j => rfl⟩
  | succ n ih =>
    rw [List.range_succ, List.foldl_append]
    simp only [List.foldl_cons, List.foldl_nil]
    obtain ⟨h1, h2, h3⟩ := ih.1.insert
    exact ⟨h2, fun j => (h3 j).trans (ih.2 j)⟩

/-- The neighbor map of the `ve` case, when it is built: a vertex has exactly
the edges that list it among their endpoints. -/
theorem veNeighbors_inv {vertexSet edgeSet : Set} {m : NeighborMap}
    (h : veNeighbors vertexSet edgeSet = .ok m) :
    MapInv m vertexSet.getSize ∧
      (∀ e < edgeSet.getSize, ∀ ep ∈ edgeSet.getEndpoints e, ep < vertexSet.getSize) ∧
      ∀ v a, a ∈ nbrsOf m v ↔ a < edgeSet.getSize ∧ v ∈ edgeSet.getEndpoints a := by
  unfold veNeighbors at h
  obtain ⟨h0, h0e⟩ := emptyNeighbors_inv vertexSet.getSize
  have := foldlM_range_inv
    (fun m e => (edgeSet.getEndpoints e).foldlM (fun m ep => mapAtInsert ep e m) m)
    (fun i m => MapInv m vertexSet.getSize ∧
      (∀ e < i, ∀ ep ∈ edgeSet.getEndpoints e, ep < vertexSet.getSize) ∧
      ∀ v a, a ∈ nbrsOf m v ↔ a < i ∧ v ∈ edgeSet.getEndpoints a)
    edgeSet.getSize _ m ⟨h0, by simp, by simp [h0e]⟩ ?_ h
  · exact this
  · rintro i s s' hi ⟨hs, hep, hrel⟩ hstep
    obtain ⟨h1, h2, h3⟩ := insertMany_inv (fun ep => ep) (fun _ => i) _ hs hstep
    refine ⟨h1, ?_, ?_⟩
    · intro e he ep hmem
      by_cases hei : e = i
      · subst hei; exact h2 ep hmem
      · exact hep e (by omega) ep hmem
    · intro v a
      rw [h3, hrel]
      constructor
      · rintro (⟨h4, h5⟩ | ⟨x, hx, rfl, rfl⟩)
        · exact ⟨by omega, h5⟩
        · exact ⟨by omega, hx⟩
      · rintro ⟨h4, h5⟩
        by_cases hai : a = i
        · subst hai; exact Or.inr ⟨v, h5, rfl, rfl⟩
        · exact Or.inl ⟨by omega, h5⟩

/-- The neighbor map of the `ve` case is built when the endpoints of every
edge are vertices of the vertex set. -/
theorem veNeighbors_ok {vertexSet edgeSet : Set}
    (hep : ∀ e < edgeSet.getSize, ∀ ep ∈ edgeSet.getEndpoints e, ep < vertexSet.getSize) :
    ∃ m, veNeighbors vertexSet edgeSet = .ok m := by
  unfold veNeighbors
  obtain ⟨h0, -⟩ := emptyNeighbors_inv vertexSet.getSize
  refine foldlM_range_ok
    (fun m e => (edgeSet.getEndpoints e).foldlM (fun m ep => mapAtInsert ep e m) m)
    (fun _ m => MapInv m vertexSet.getSize) edgeSet.getSize _ h0 ?_ ?_
  · intro j s hj hs
    exact insertMany_ok (fun ep => ep) (fun _ => j) _ hs (hep j hj)
  · intro j s s' _ hs hstep
    exact (insertMany_inv (fun ep => ep) (fun _ => j) _ hs hstep).1

/-- The copy of an index, when it is built: one key per element, holding the
neighbors of the element. -/
theorem copyNeighbors_inv {index : PathIndex} {m : NeighborMap}
    (h : copyNeighbors index [] = .ok m) :
    MapInv m index.numElements ∧
      ∀ x < index.numElements, ∃ l, index.neighbors x = .ok l ∧ ∀ a, a ∈ nbrsOf m x ↔ a ∈ l := by
  unfold copyNeighbors PathIndex.elements at h
  refine foldlM_range_inv _
    (fun i m => MapInv m i ∧
      ∀ x < i, ∃ l, index.neighbors x = .ok l ∧ ∀ a, a ∈ nbrsOf m x ↔ a ∈ l)
    index.numElements [] m ⟨MapInv.nil, by simp⟩ ?_ h
  rintro i s s' hi ⟨hs, hrel⟩ hstep
  simp only [bind_eq_ok] at hstep
  obtain ⟨l, hl, hstep⟩ := hstep
  obtain ⟨-, hs1, hn1⟩ := hs.insert
  obtain ⟨h1, -, h3⟩ := insertMany_inv (fun _ => i) (fun a => a) _ hs1 hstep
  refine ⟨h1, ?_⟩
  intro x hx
  by_cases hxi : x = i
  · subst hxi
    refine ⟨l, hl, fun a => ?_⟩
    rw [h3, hn1, hs.nbrsOf_of_ge (le_refl _)]
    simp
  · obtain ⟨l', hl', hrel'⟩ := hrel x (by omega)
    refine ⟨l', hl', fun a => ?_⟩
    rw [h3, hn1, hrel']
    constructor
    · rintro (h4 | ⟨y, -, h5, -⟩)
      · exact h4
      · exact absurd h5.symm hxi
    · exact fun h4 => Or.inl h4

/-- The copy of an index is built when the neighbors of every element can be
read. -/
theorem copyNeighbors_ok {index : PathIndex}
    (hr : ∀ x < index.numElements, ∃ l, index.neighbors x = .ok l) :
    ∃ m, copyNeighbors index [] = .ok m := by
  unfold copyNeighbors PathIndex.elements
  refine foldlM_range_ok _ (fun i m => MapInv m i) index.numElements [] MapInv.nil ?_ ?_
  · intro j s hj hs
    obtain ⟨l, hl⟩ := hr j hj
    obtain ⟨-, hs1, -⟩ := hs.insert
    obtain ⟨m', hm'⟩ := insertMany_ok (fun _ => j) (fun a => a) l hs1 (fun _ _ => Nat.lt_succ_self j)
    exact ⟨m', by simp only [hl, bind, Except.bind]; exact hm'⟩
  · intro j s s' _ hs hstep
    simp only [bind_eq_ok] at hstep
    obtain ⟨l, -, hstep⟩ := hstep
    obtain ⟨-, hs1, -⟩ := hs.insert
    exact (insertMany_inv (fun _ => j) (fun a => a) _ hs1 hstep).1

/-- The inner loop of the non-quantified `And`, when it ends normally. -/
theorem intersectInner_inv {lhsPathNeighbors : NeighborMap} {elem n : Nat} (nbrs : List Nat)
    {m m' : NeighborMap} (hm : MapInv m n)
    (h : nbrs.foldlM
      (fun m nbr => do
        let elemNbrs ← mapAt lhsPathNeighbors elem
        if nbr ∈ elemNbrs then mapAtInsert elem nbr m else .ok m) m = .ok m') :
    MapInv m' n ∧ (nbrs ≠ [] → elem ∈ lhsPathNeighbors.map Prod.fst) ∧
      ∀ j a, a ∈ nbrsOf m' j ↔
        a ∈ nbrsOf m j ∨ (j = elem ∧ a ∈ nbrs ∧ a ∈ nbrsOf lhsPathNeighbors elem) := by
  refine foldlM_inv _
    (fun pre m' => MapInv m' n ∧ (pre ≠ [] → elem ∈ lhsPathNeighbors.map Prod.fst) ∧
      ∀ j a, a ∈ nbrsOf m' j ↔
        a ∈ nbrsOf m j ∨ (j = elem ∧ a ∈ pre ∧ a ∈ nbrsOf lhsPathNeighbors elem))
    nbrs m m' ⟨hm, by simp, by simp⟩ ?_ h
  rintro pre x s s' - ⟨hs, -, hrel⟩ hstep
  simp only [bind_eq_ok] at hstep
  obtain ⟨elemNbrs, hat, hstep⟩ := hstep
  obtain ⟨hat1, hat2⟩ := mapAt_eq_ok hat
  subst hat1
  split at hstep
  · rename_i hx
    refine ⟨hs.atInsert hstep, fun _ => hat2, fun j a => ?_⟩
    rw [mapAtInsert_nbrsOf hstep, hrel]
    simp only [List.mem_append, List.mem_singleton]
    constructor
    · rintro ((h1 | ⟨h1, h2, h3⟩) | ⟨h1, h2⟩)
      · exact Or.inl h1
      · exact Or.inr ⟨h1, Or.inl h2, h3⟩
      · subst h2; exact Or.inr ⟨h1, Or.inr rfl, hx⟩
    · rintro (h1 | ⟨h1, h2 | h2, h3⟩)
      · exact Or.inl (Or.inl h1)
      · exact Or.inl (Or.inr ⟨h1, h2, h3⟩)
      · exact Or.inr ⟨h1, h2⟩
  · rename_i hx
    injection hstep with hstep
    subst hstep
    refine ⟨hs, fun _ => hat2, fun j a => ?_⟩
    rw [hrel]
    simp only [List.mem_append, List.mem_singleton]
    constructor
    · rintro (h1 | ⟨h1, h2, h3⟩)
      · exact Or.inl h1
      · exact Or.inr ⟨h1, Or.inl h2, h3⟩
    · rintro (h1 | ⟨h1, h2 | h2, h3⟩)
      · exact Or.inl h1
      · exact Or.inr ⟨h1, h2, h3⟩
      · subst h2; exact absurd h3 hx

/-- The inner loop of the non-quantified `And` ends normally when the element
is a key of both maps. -/
theorem intersectInner_ok {lhsPathNeighbors : NeighborMap} {elem n : Nat} (nbrs : List Nat)
    {m : NeighborMap} (hm : MapInv m n) (he : elem < n)
    (hl : elem ∈ lhsPathNeighbors.map Prod.fst) :
    ∃ m', nbrs.foldlM
      (fun m nbr => do
        let elemNbrs ← mapAt lhsPathNeighbors elem
        if nbr ∈ elemNbrs then mapAtInsert elem nbr m else .ok m) m = .ok m' := by
  refine foldlM_ok _ (fun _ m' => MapInv m' n) nbrs m hm ?_ ?_
  · intro pre x s _ hs
    simp only [mapAt_ok hl, bind, Except.bind]
    split
    · exact mapAtInsert_ok (by rw [hs.mem_keys]; exact he)
    · exact ⟨s, rfl⟩
  · intro pre x s s' _ hs hstep
    simp only [mapAt_ok hl, bind, Except.bind] at hstep
    split at hstep
    · exact hs.atInsert hstep
    · injection hstep with hstep; subst hstep; exact hs

/-- The neighbor map of the non-quantified `And`, when it is built: one key per
element of `rhsIndex`, holding the neighbors of the element in `rhsIndex` that
are recorded for it in `lhsPathNeighbors`. -/
theorem intersectNeighbors_inv {lhsPathNeighbors : NeighborMap} {rhsIndex : PathIndex}
    {m : NeighborMap} (h : intersectNeighbors lhsPathNeighbors rhsIndex [] = .ok m) :
    MapInv m rhsIndex.numElements ∧
      ∀ x < rhsIndex.numElements, ∃ l, rhsIndex.neighbors x = .ok l ∧
        ∀ a, a ∈ nbrsOf m x ↔ a ∈ l ∧ a ∈ nbrsOf lhsPathNeighbors x := by
  unfold intersectNeighbors PathIndex.elements at h
  refine foldlM_range_inv _
    (fun i m => MapInv m i ∧
      ∀ x < i, ∃ l, rhsIndex.neighbors x = .ok l ∧
        ∀ a, a ∈ nbrsOf m x ↔ a ∈ l ∧ a ∈ nbrsOf lhsPathNeighbors x)
    rhsIndex.numElements [] m ⟨MapInv.nil, by simp⟩ ?_ h
  rintro i s s' hi ⟨hs, hrel⟩ hstep
  simp only [bind_eq_ok] at hstep
  obtain ⟨l, hl, hstep⟩ := hstep
  obtain ⟨-, hs1, hn1⟩ := hs.insert
  obtain ⟨h1, -, h3⟩ := intersectInner_inv l hs1 hstep
  refine ⟨h1, ?_⟩
  intro x hx
  by_cases hxi : x = i
  · subst hxi
    refine ⟨l, hl, fun a => ?_⟩
    rw [h3, hn1, hs.nbrsOf_of_ge (le_refl _)]
    simp
  · obtain ⟨l', hl', hrel'⟩ := hrel x (by omega)
    refine ⟨l', hl', fun a => ?_⟩
    rw [h3, hn1, hrel']
    constructor
    · rintro (h4 | ⟨h5, -⟩)
      · exact h4
      · exact absurd h5 hxi
    · exact fun h4 => Or.inl h4

/-- The neighbor map of the non-quantified `And` is built when `rhsIndex` can
be read and has no more elements than `lhsPathNeighbors` has keys. -/
theorem intersectNeighbors_ok {lhsPathNeighbors : NeighborMap} {rhsIndex : PathIndex}
    {nl : Nat} (hlhs : MapInv lhsPathNeighbors nl) (hle : rhsIndex.numElements ≤ nl)
    (hr : ∀ x < rhsIndex.numElements, ∃ l, rhsIndex.neighbors x = .ok l) :
    ∃ m, intersectNeighbors lhsPathNeighbors rhsIndex [] = .ok m := by
  unfold intersectNeighbors PathIndex.elements
  refine foldlM_range_ok _ (fun i m => MapInv m i) rhsIndex.numElements [] MapInv.nil ?_ ?_
  · intro j s hj hs
    obtain ⟨l, hl⟩ := hr j hj
    obtain ⟨-, hs1, -⟩ := hs.insert
    obtain ⟨m', hm'⟩ := intersectInner_ok l hs1 (Nat.lt_succ_self j)
      ((hlhs.mem_keys j).mpr (by omega))
    exact ⟨m', by simp only [hl, bind, Except.bind]; exact hm'⟩
  · intro j s s' _ hs hstep
    simp only [bind_eq_ok] at hstep
    obtain ⟨l, -, hstep⟩ := hstep
    obtain ⟨-, hs1, -⟩ := hs.insert
    exact (intersectInner_inv l hs1 hstep).1

/-- The second loop of the non-quantified `Or`, when it ends normally: the
elements of `rhsIndex` are keys, and their neighbors are added. -/
theorem uniteNeighbors_inv {rhsIndex : PathIndex} {m0 m : NeighborMap} {n : Nat}
    (hm0 : MapInv m0 n) (h : uniteNeighbors rhsIndex m0 = .ok m) :
    MapInv m n ∧ rhsIndex.numElements ≤ n ∧
      (∀ x < rhsIndex.numElements, ∃ l, rhsIndex.neighbors x = .ok l ∧
        ∀ a, a ∈ nbrsOf m x ↔ a ∈ nbrsOf m0 x ∨ a ∈ l) ∧
      ∀ x, rhsIndex.numElements ≤ x → nbrsOf m x = nbrsOf m0 x := by
  unfold uniteNeighbors PathIndex.elements at h
  refine foldlM_range_inv _
    (fun i m => MapInv m n ∧ i ≤ n ∧
      (∀ x < i, ∃ l, rhsIndex.neighbors x = .ok l ∧
        ∀ a, a ∈ nbrsOf m x ↔ a ∈ nbrsOf m0 x ∨ a ∈ l) ∧
      ∀ x, i ≤ x → nbrsOf m x = nbrsOf m0 x)
    rhsIndex.numElements m0 m ⟨hm0, by simp, by simp, by simp⟩ ?_ h
  rintro i s s' hi ⟨hs, hle, hrel, hrest⟩ hstep
  split at hstep
  · rename_i hkey
    have hin : i < n := (hs.mem_keys i).mp (mapFind_isSome.mp hkey)
    simp only [bind_eq_ok] at hstep
    obtain ⟨l, hl, hstep⟩ := hstep
    obtain ⟨h1, -, h3⟩ := insertMany_inv (fun _ => i) (fun a => a) _ hs hstep
    refine ⟨h1, hin, ?_, ?_⟩
    · intro x hx
      by_cases hxi : x = i
      · subst hxi
        refine ⟨l, hl, fun a => ?_⟩
        rw [h3, hrest x (le_refl _)]
        simp
      · obtain ⟨l', hl', hrel'⟩ := hrel x (by omega)
        refine ⟨l', hl', fun a => ?_⟩
        rw [h3, hrel']
        constructor
        · rintro (h4 | ⟨y, -, h5, -⟩)
          · exact h4
          · exact absurd h5.symm hxi
        · exact fun h4 => Or.inl h4
    · intro x hx
      have hne : ¬ i = x := by omega
      have : ∀ a, a ∈ nbrsOf s' x ↔ a ∈ nbrsOf s x := by
        intro a
        rw [h3]
        constructor
        · rintro (h4 | ⟨y, -, h5, -⟩)
          · exact h4
          · exact absurd h5 hne
        · exact fun h4 => Or.inl h4
      have hsx := hrest x (by omega)
      by_cases hxn : x < n
      · have s1 := h1.sorted_nbrsOf hxn
        have s2 := hs.sorted_nbrsOf hxn
        rw [← hsx]
        exact List.eq_of_perm_of_sorted
          ((List.perm_ext_iff_of_nodup s1.nodup s2.nodup).mpr this) s1 s2
      · rw [h1.nbrsOf_of_ge (by omega), ← hsx, hs.nbrsOf_of_ge (by omega)]
  · cases hstep

/-- The second loop of the non-quantified `Or` ends normally when `rhsIndex`
can be read and has no more elements than the map has keys. -/
theorem uniteNeighbors_ok {rhsIndex : PathIndex} {m0 : NeighborMap} {n : Nat}
    (hm0 : MapInv m0 n) (hle : rhsIndex.numElements ≤ n)
    (hr : ∀ x < rhsIndex.numElements, ∃ l, rhsIndex.neighbors x = .ok l) :
    ∃ m, uniteNeighbors rhsIndex m0 = .ok m := by
  unfold uniteNeighbors PathIndex.elements
  refine foldlM_range_ok _ (fun _ m => MapInv m n) rhsIndex.numElements m0 hm0 ?_ ?_
  · intro j s hj hs
    obtain ⟨l, hl⟩ := hr j hj
    have hkey : (mapFind s j).isSome = true := mapFind_isSome.mpr ((hs.mem_keys j).mpr (by omega))
    obtain ⟨m', hm'⟩ := insertMany_ok (fun _ => j) (fun a => a) l hs (fun _ _ => by
      show j < n
      omega)
    exact ⟨m', by simp only [hkey, if_true, hl, bind, Except.bind]; exact hm'⟩
  · intro j s s' _ hs hstep
    split at hstep
    · simp only [bind_eq_ok] at hstep
      obtain ⟨l, -, hstep⟩ := hstep
      exact (insertMany_inv (fun _ => j) (fun a => a) _ hs hstep).1
    · cases hstep

/-- The loop over the neighbors `qs` of one source in the quantified `And`,
when it ends normally. -/
theorem joinInner_inv {quantifiedToSink : PathIndex} {source n : Nat} (qs : List Nat)
    {m m' : NeighborMap} (hm : MapInv m n)
    (h : qs.foldlM
      (fun m q => do
        let sinks ← quantifiedToSink.neighbors q
        sinks.foldlM (fun m sink => mapAtInsert source sink m) m) m = .ok m') :
    MapInv m' n ∧ (∀ q ∈ qs, ∃ l, quantifiedToSink.neighbors q = .ok l) ∧
      ∀ j a, a ∈ nbrsOf m' j ↔
        a ∈ nbrsOf m j ∨
          (j = source ∧ ∃ q ∈ qs, ∃ l, quantifiedToSink.neighbors q = .ok l ∧ a ∈ l) := by
  refine foldlM_inv _
    (fun pre m' => MapInv m' n ∧ (∀ q ∈ pre, ∃ l, quantifiedToSink.neighbors q = .ok l) ∧
      ∀ j a, a ∈ nbrsOf m' j ↔
        a ∈ nbrsOf m j ∨
          (j = source ∧ ∃ q ∈ pre, ∃ l, quantifiedToSink.neighbors q = .ok l ∧ a ∈ l))
    qs m m' ⟨hm, by simp, by simp⟩ ?_ h
  rintro pre q s s' - ⟨hs, hread, hrel⟩ hstep
  simp only [bind_eq_ok] at hstep
  obtain ⟨sinks, hsinks, hstep⟩ := hstep
  obtain ⟨h1, -, h3⟩ := insertMany_inv (fun _ => source) (fun a => a) _ hs hstep
  refine ⟨h1, ?_, fun j a => ?_⟩
  · intro q' hq'
    rw [List.mem_append, List.mem_singleton] at hq'
    rcases hq' with hq' | hq'
    · exact hread q' hq'
    · subst hq'; exact ⟨sinks, hsinks⟩
  · rw [h3, hrel]
    constructor
    · rintro ((h4 | ⟨h4, q', hq', l, hl, hal⟩) | ⟨y, hy, h5, h6⟩)
      · exact Or.inl h4
      · exact Or.inr ⟨h4, q', by simp [hq'], l, hl, hal⟩
      · subst h6
        exact Or.inr ⟨h5.symm, q, by simp, sinks, hsinks, hy⟩
    · rintro (h4 | ⟨h4, q', hq', l, hl, hal⟩)
      · exact Or.inl (Or.inl h4)
      · rw [List.mem_append, List.mem_singleton] at hq'
        rcases hq' with hq' | hq'
        · exact Or.inl (Or.inr ⟨h4, q', hq', l, hl, hal⟩)
        · subst hq'
          rw [hsinks] at hl
          injection hl with hl
          subst hl
          exact Or.inr ⟨a, hal, h4.symm, rfl⟩

/-- The neighbor map of the quantified `And`, when it is built: one key per
source, holding the neighbors in the second index of the neighbors of the
source in the first index. -/
theorem joinNeighbors_inv {sourceToQuantified quantifiedToSink : PathIndex} {m : NeighborMap}
    (h : joinNeighbors sourceToQuantified quantifiedToSink [] = .ok m) :
    MapInv m sourceToQuantified.numElements ∧
      ∀ x < sourceToQuantified.numElements, ∃ qs, sourceToQuantified.neighbors x = .ok qs ∧
        (∀ q ∈ qs, ∃ l, quantifiedToSink.neighbors q = .ok l) ∧
        ∀ a, a ∈ nbrsOf m x ↔ ∃ q ∈ qs, ∃ l, quantifiedToSink.neighbors q = .ok l ∧ a ∈ l := by
  unfold joinNeighbors PathIndex.elements at h
  refine foldlM_range_inv _
    (fun i m => MapInv m i ∧
      ∀ x < i, ∃ qs, sourceToQuantified.neighbors x = .ok qs ∧
        (∀ q ∈ qs, ∃ l, quantifiedToSink.neighbors q = .ok l) ∧
        ∀ a, a ∈ nbrsOf m x ↔ ∃ q ∈ qs, ∃ l, quantifiedToSink.neighbors q = .ok l ∧ a ∈ l)
    sourceToQuantified.numElements [] m ⟨MapInv.nil, by simp⟩ ?_ h
  rintro i s s' hi ⟨hs, hrel⟩ hstep
  simp only [bind_eq_ok] at hstep
  obtain ⟨qs, hqs, hstep⟩ := hstep
  obtain ⟨-, hs1, hn1⟩ := hs.insert
  obtain ⟨h1, h2, h3⟩ := joinInner_inv qs hs1 hstep
  refine ⟨h1, ?_⟩
  intro x hx
  by_cases hxi : x = i
  · subst hxi
    refine ⟨qs, hqs, h2, fun a => ?_⟩
    rw [h3, hn1, hs.nbrsOf_of_ge (le_refl _)]
    simp
  · obtain ⟨qs', hqs', hread', hrel'⟩ := hrel x (by omega)
    refine ⟨qs', hqs', hread', fun a => ?_⟩
    rw [h3, hn1, hrel']
    constructor
    · rintro (h4 | ⟨h5, -⟩)
      · exact h4
      · exact absurd h5 hxi
    · exact fun h4 => Or.inl h4

/-- The first loop of the quantified `Or`, when it ends normally: a source
whose neighbor count is positive holds every id of the sink set, any other
source holds nothing. -/
theorem linkToSinkSet_inv {sourceToQuantified : PathIndex} {sinkSet : Set} {m : NeighborMap}
    (h : linkToSinkSet sourceToQuantified sinkSet [] = .ok m) :
    MapInv m sourceToQuantified.numElements ∧
      ∀ x < sourceToQuantified.numElements, ∃ c, sourceToQuantified.numNeighborsOf x = .ok c ∧
        ∀ a, a ∈ nbrsOf m x ↔ 0 < c ∧ a < sinkSet.getSize := by
  unfold linkToSinkSet PathIndex.elements at h
  refine foldlM_range_inv _
    (fun i m => MapInv m i ∧
      ∀ x < i, ∃ c, sourceToQuantified.numNeighborsOf x = .ok c ∧
        ∀ a, a ∈ nbrsOf m x ↔ 0 < c ∧ a < sinkSet.getSize)
    sourceToQuantified.numElements [] m ⟨MapInv.nil, by simp⟩ ?_ h
  rintro i s s' hi ⟨hs, hrel⟩ hstep
  simp only [bind_eq_ok] at hstep
  obtain ⟨c, hc, hstep⟩ := hstep
  obtain ⟨-, hs1, hn1⟩ := hs.insert
  split at hstep
  · rename_i hpos
    obtain ⟨h1, -, h3⟩ := insertMany_inv (fun _ => i) (fun a => a) _ hs1 hstep
    refine ⟨h1, ?_⟩
    intro x hx
    by_cases hxi : x = i
    · subst hxi
      refine ⟨c, hc, fun a => ?_⟩
      rw [h3, hn1, hs.nbrsOf_of_ge (le_refl _)]
      simp [Set.elements, hpos]
    · obtain ⟨c', hc', hrel'⟩ := hrel x (by omega)
      refine ⟨c', hc', fun a => ?_⟩
      rw [h3, hn1, hrel']
      constructor
      · rintro (h4 | ⟨y, -, h5, -⟩)
        · exact h4
        · exact absurd h5.symm hxi
      · exact fun h4 => Or.inl h4
  · rename_i hpos
    injection hstep with hstep
    subst hstep
    refine ⟨hs1, ?_⟩
    intro x hx
    by_cases hxi : x = i
    · subst hxi
      refine ⟨c, hc, fun a => ?_⟩
      rw [hn1, hs.nbrsOf_of_ge (le_refl _)]
      simp only [List.not_mem_nil, false_iff, not_and]
      intro h0; exact absurd h0 hpos
    · obtain ⟨c', hc', hrel'⟩ := hrel x (by omega)
      exact ⟨c', hc', fun a => by rw [hn1, hrel']⟩

/-- The first loop of the quantified `Or` ends normally when the neighbor
count of every source can be read. -/
theorem linkToSinkSet_ok {sourceToQuantified : PathIndex} {sinkSet : Set}
    (hr : ∀ x < sourceToQuantified.numElements, ∃ c, sourceToQuantified.numNeighborsOf x = .ok c) :
    ∃ m, linkToSinkSet sourceToQuantified sinkSet [] = .ok m := by
  unfold linkToSinkSet PathIndex.elements
  refine foldlM_range_ok _ (fun i m => MapInv m i) sourceToQuantified.numElements []
    MapInv.nil ?_ ?_
  · intro j s hj hs
    obtain ⟨c, hc⟩ := hr j hj
    obtain ⟨-, hs1, -⟩ := hs.insert
    simp only [hc, bind, Except.bind]
    split
    · exact insertMany_ok (fun _ => j) (fun a => a) _ hs1 (fun _ _ => Nat.lt_succ_self j)
    · exact ⟨_, rfl⟩
  · intro j s s' _ hs hstep
    simp only [bind_eq_ok] at hstep
    obtain ⟨c, -, hstep⟩ := hstep
    obtain ⟨-, hs1, -⟩ := hs.insert
    split at hstep
    · exact (insertMany_inv (fun _ => j) (fun a => a) _ hs1 hstep).1
    · injection hstep with hstep; subst hstep; exact hs1

/-- The loop over the neighbors `sinks` of one quantified element in the
quantified `Or`, when it ends normally: each of them is added to every
source. -/
theorem linkSinkInner_inv {n : Nat} (sinks : List Nat) {m m' : NeighborMap} (hm : MapInv m n)
    (h : sinks.foldlM
      (fun m sink => (List.range n).foldlM (fun m source => mapAtInsert source sink m) m) m =
        .ok m') :
    MapInv m' n ∧ ∀ j a, a ∈ nbrsOf m' j ↔ a ∈ nbrsOf m j ∨ (j < n ∧ a ∈ sinks) := by
  refine foldlM_inv _
    (fun pre m' => MapInv m' n ∧ ∀ j a, a ∈ nbrsOf m' j ↔ a ∈ nbrsOf m j ∨ (j < n ∧ a ∈ pre))
    sinks m m' ⟨hm, by simp⟩ ?_ h
  rintro pre sink s s' - ⟨hs, hrel⟩ hstep
  obtain ⟨h1, -, h3⟩ := insertMany_inv (fun source => source) (fun _ => sink) _ hs hstep
  refine ⟨h1, fun j a => ?_⟩
  rw [h3, hrel]
  simp only [List.mem_range, List.mem_append, List.mem_singleton]
  constructor
  · rintro ((h4 | ⟨h4, h5⟩) | ⟨y, hy, rfl, rfl⟩)
    · exact Or.inl h4
    · exact Or.inr ⟨h4, Or.inl h5⟩
    · exact Or.inr ⟨hy, Or.inr rfl⟩
  · rintro (h4 | ⟨h4, h5 | h5⟩)
    · exact Or.inl (Or.inl h4)
    · exact Or.inl (Or.inr ⟨h4, h5⟩)
    · exact Or.inr ⟨j, h4, rfl, h5.symm⟩

/-- The loop over the neighbors of one quantified element in the quantified
`Or` always ends normally. -/
theorem linkSinkInner_ok {n : Nat} (sinks : List Nat) {m : NeighborMap} (hm : MapInv m n) :
    ∃ m', sinks.foldlM
      (fun m sink => (List.range n).foldlM (fun m source => mapAtInsert source sink m) m) m =
        .ok m' := by
  refine foldlM_ok _ (fun _ m' => MapInv m' n) sinks m hm ?_ ?_
  · intro pre sink s _ hs
    exact insertMany_ok (fun source => source) (fun _ => sink) _ hs
      (fun x hx => List.mem_range.mp hx)
  · intro pre sink s s' _ hs hstep
    exact (insertMany_inv (fun source => source) (fun _ => sink) _ hs hstep).1

/-- The second loop of the quantified `Or`, when it ends normally: every
neighbor stored in `quantifiedToSink` is added to every source. -/
theorem linkSinkNeighbors_inv {sourceToQuantified quantifiedToSink : PathIndex}
    {m0 m : NeighborMap} (hm0 : MapInv m0 sourceToQuantified.numElements)
    (h : linkSinkNeighbors sourceToQuantified quantifiedToSink m0 = .ok m) :
    MapInv m sourceToQuantified.numElements ∧
      (∀ q < quantifiedToSink.numElements, ∃ l, quantifiedToSink.neighbors q = .ok l) ∧
      ∀ x a, a ∈ nbrsOf m x ↔
        a ∈ nbrsOf m0 x ∨
          (x < sourceToQuantified.numElements ∧
            ∃ q < quantifiedToSink.numElements, ∃ l,
              quantifiedToSink.neighbors q = .ok l ∧ a ∈ l) := by
  unfold linkSinkNeighbors PathIndex.elements at h
  refine foldlM_range_inv _
    (fun i m => MapInv m sourceToQuantified.numElements ∧
      (∀ q < i, ∃ l, quantifiedToSink.neighbors q = .ok l) ∧
      ∀ x a, a ∈ nbrsOf m x ↔
        a ∈ nbrsOf m0 x ∨
          (x < sourceToQuantified.numElements ∧
            ∃ q < i, ∃ l, quantifiedToSink.neighbors q = .ok l ∧ a ∈ l))
    quantifiedToSink.numElements m0 m ⟨hm0, by simp, by simp⟩ ?_ h
  rintro i s s' hi ⟨hs, hread, hrel⟩ hstep
  simp only [bind_eq_ok] at hstep
  obtain ⟨sinks, hsinks, hstep⟩ := hstep
  obtain ⟨h1, h3⟩ := linkSinkInner_inv sinks hs hstep
  refine ⟨h1, ?_, fun x a => ?_⟩
  · intro q hq
    by_cases hqi : q = i
    · subst hqi; exact ⟨sinks, hsinks⟩
    · exact hread q (by omega)
  · rw [h3, hrel]
    constructor
    · rintro ((h4 | ⟨h4, q, hq, l, hl, hal⟩) | ⟨h4, h5⟩)
      · exact Or.inl h4
      · exact Or.inr ⟨h4, q, by omega, l, hl, hal⟩
      · exact Or.inr ⟨h4, i, by omega, sinks, hsinks, h5⟩
    · rintro (h4 | ⟨h4, q, hq, l, hl, hal⟩)
      · exact Or.inl (Or.inl h4)
      · by_cases hqi : q = i
        · subst hqi
          rw [hsinks] at hl
          injection hl with hl
          subst hl
          exact Or.inr ⟨h4, hal⟩
        · exact Or.inl (Or.inr ⟨h4, q, by omega, l, hl, hal⟩)

/-- The second loop of the quantified `Or` ends normally when the second index
can be read. -/
theorem linkSinkNeighbors_ok {sourceToQuantified quantifiedToSink : PathIndex}
    {m0 : NeighborMap} (hm0 : MapInv m0 sourceToQuantified.numElements)
    (hr : ∀ q < quantifiedToSink.numElements, ∃ l, quantifiedToSink.neighbors q = .ok l) :
    ∃ m, linkSinkNeighbors sourceToQuantified quantifiedToSink m0 = .ok m := by
  unfold linkSinkNeighbors PathIndex.elements
  refine foldlM_range_ok _ (fun _ m => MapInv m sourceToQuantified.numElements)
    quantifiedToSink.numElements m0 hm0 ?_ ?_
  · intro j s hj hs
    obtain ⟨l, hl⟩ := hr j hj
    obtain ⟨m', hm'⟩ := linkSinkInner_ok l hs
    exact ⟨m', by simp only [hl, bind, Except.bind]; exact hm'⟩
  · intro j s s' _ hs hstep
    simp only [bind_eq_ok] at hstep
    obtain ⟨l, -, hstep⟩ := hstep
    exact (linkSinkInner_inv l hs hstep).1

/-! ## The steps of the visitor -/

theorem pushBackLocation_mem {v : Var} {loc : Location} {m : VarToLocationsMap}
    {P : Location → Prop} (hm : ∀ e ∈ m, ∀ l ∈ e.2, P l) (hloc : P loc) :
    ∀ e ∈ pushBackLocation v loc m, ∀ l ∈ e.2, P l := by
  induction m with
  | nil =>
    intro e he l hl
    simp only [pushBackLocation, List.mem_singleton] at he
    subst he
    simp only [List.mem_singleton] at hl
    subst hl; exact hloc
  | cons p rest ih =>
    intro e he l hl
    simp only [pushBackLocation] at he
    split at he
    · simp only [List.mem_cons] at he
      rcases he with he | he
      · subst he
        simp only [List.mem_append, List.mem_singleton] at hl
        rcases hl with hl | hl
        · exact hm p (by simp) l hl
        · subst hl; exact hloc
      · exact hm e (by simp [he]) l hl
    · simp only [List.mem_cons] at he
      rcases he with he | he
      · subst he; exact hm p (by simp) l hl
      · exact ih (fun e' he' => hm e' (by simp [he'])) e he l hl

/-- Every location recorded by `getVarToLocationsMap` is a place in one of the
given path expressions. -/
theorem getVarToLocationsMap_mem (pexprs : List PathExpression) :
    ∀ e ∈ getVarToLocationsMap pexprs, ∀ l ∈ e.2, l.pathExpr ∈ pexprs := by
  unfold getVarToLocationsMap
  have key : ∀ (done rest : List PathExpression) (m : VarToLocationsMap),
      (∀ e ∈ m, ∀ l ∈ e.2, l.pathExpr ∈ done ++ rest) →
      ∀ e ∈ rest.foldl
        (fun m pexpr =>
          (List.range pexpr.getNumPathEndpoints).foldl
            (fun m ep =>
              match pexpr.getPathEndpoint ep with
              | some v => pushBackLocation v ⟨pexpr, ep⟩ m
              | none => m)
            m) m, ∀ l ∈ e.2, l.pathExpr ∈ done ++ rest := by
    intro done rest
    induction rest generalizing done with
    | nil => intro m hm; simpa using hm
    | cons pexpr rest ih =>
      intro m hm
      rw [List.foldl_cons]
      have happ : done ++ pexpr :: rest = (done ++ [pexpr]) ++ rest := by simp
      rw [happ]
      apply ih
      rw [← happ]
      generalize List.range pexpr.getNumPathEndpoints = eps
      induction eps using List.reverseRecOn with
      | nil => exact hm
      | append_singleton eps ep ih2 =>
        rw [List.foldl_append]
        simp only [List.foldl_cons, List.foldl_nil]
        split
        · exact pushBackLocation_mem ih2 (by simp)
        · exact ih2
  exact key [] pexprs [] (by simp)

theorem findLocations_mem {m : VarToLocationsMap} {v : Var} {locs : List Location}
    (h : findLocations m v = some locs) : ∃ e ∈ m, e.2 = locs := by
  unfold findLocations at h
  rw [Option.map_eq_some'] at h
  obtain ⟨e, he, rfl⟩ := h
  exact ⟨e, List.mem_of_find?_eq_some he, rfl⟩

/-- A normal end of `buildIndex` is a normal end of the one call of
`buildSegmented` it makes, on the given path expression. -/
theorem buildIndex_eq_ok {builderBuildSegmented : PathExpression → Nat → PathIndexBuilder → Built}
    {pathExpr : PathExpression} {source sink : Var} {b : PathIndexBuilder}
    {r : PathIndex × PathIndexBuilder}
    (h : buildIndex builderBuildSegmented pathExpr source sink b = .ok r) :
    ∃ ep, builderBuildSegmented pathExpr ep b = .ok r := by
  unfold buildIndex at h
  simp only at h
  split at h
  · split at h
    · split at h
      · rename_i loc _ hloc
        obtain ⟨e, he, hlocs⟩ := findLocations_mem hloc
        have := getVarToLocationsMap_mem [pathExpr] e he loc (by rw [hlocs]; simp)
        simp only [List.mem_singleton] at this
        rw [this] at h
        exact ⟨_, h⟩
      · cases h
      · cases h
    · cases h
  · cases h

/-- A normal end of `buildIndices` consists of two calls of `buildSegmented`
that ended normally, each on one of the two operands. -/
theorem buildIndices_eq_ok
    {builderBuildSegmented : PathExpression → Nat → PathIndexBuilder → Built}
    {lhs rhs : PathExpression} {source quantified sink : Var} {b b2 : PathIndexBuilder}
    {s q : PathIndex}
    (h : buildIndices builderBuildSegmented lhs rhs source quantified sink b = .ok (s, q, b2)) :
    ∃ pe1 ep1 pe2 ep2 b1, (pe1 = lhs ∨ pe1 = rhs) ∧ (pe2 = lhs ∨ pe2 = rhs) ∧
      builderBuildSegmented pe1 ep1 b = .ok (s, b1) ∧
      builderBuildSegmented pe2 ep2 b1 = .ok (q, b2) := by
  unfold buildIndices at h
  simp only at h
  split at h
  · split at h
    · split at h
      · cases h
      · rename_i sourceLoc rest1 hsrc
        simp only [bind_eq_ok] at h
        obtain ⟨⟨s', b1⟩, hs, h⟩ := h
        simp only at h
        split at h
        · cases h
        · rename_i sinkLoc rest2 hsink
          simp only [bind_eq_ok] at h
          obtain ⟨⟨q', b2'⟩, hq, h⟩ := h
          simp only [Except.ok.injEq, Prod.mk.injEq] at h
          obtain ⟨rfl, rfl, rfl⟩ := h
          have mem : ∀ (v : Var) (loc : Location) (rest : List Location),
              (findLocations (getVarToLocationsMap [lhs, rhs]) v).getD [] = loc :: rest →
              loc.pathExpr = lhs ∨ loc.pathExpr = rhs := by
            intro v loc rest hv
            cases hf : findLocations (getVarToLocationsMap [lhs, rhs]) v with
            | none => rw [hf] at hv; simp at hv
            | some locs =>
              rw [hf] at hv
              simp only [Option.getD_some] at hv
              obtain ⟨e, he, hlocs⟩ := findLocations_mem hf
              have := getVarToLocationsMap_mem [lhs, rhs] e he loc (by rw [hlocs, hv]; simp)
              simpa using this
          exact ⟨_, _, _, _, b1, mem _ _ _ hsrc, mem _ _ _ hsink, hs, hq⟩
    · cases h
  · cases h

/-- A normal end of `visit(const Link *)`. -/
theorem visitLink_eq_ok {lhs rhs : Var} {type : LinkType} {b b' : PathIndexBuilder}
    {pi : PathIndex} (h : visitLink lhs rhs type b = .ok (pi, b')) :
    ∃ edgeSet, Link.getEdgeBinding lhs rhs type = some edgeSet ∧ 0 < edgeSet.getCardinality ∧
      ((type = .ev ∧ edgeSet.isHomogeneous = true ∧
          b.alloc (.setEndpoint ⟨edgeSet⟩) = (pi, b')) ∨
        (type = .ve ∧ ∃ vertexSet m idx, Link.getVertexBinding lhs rhs type = some vertexSet ∧
          veNeighbors vertexSet edgeSet = .ok m ∧ pack m = .ok idx ∧
          b.alloc (.segmented idx) = (pi, b'))) := by
  unfold visitLink at h
  split at h
  · cases h
  · rename_i edgeSet hE
    split at h
    · rename_i hcard
      refine ⟨edgeSet, hE, hcard, ?_⟩
      split at h
      · left
        simp only [bind_eq_ok] at h
        obtain ⟨index, hindex, h⟩ := h
        unfold SetEndpointPathIndex.create at hindex
        split at hindex
        · rename_i hh
          injection hindex with hindex
          subst hindex
          injection h with h
          exact ⟨rfl, hh, h⟩
        · cases hindex
      · right
        split at h
        · cases h
        · rename_i vertexSet hV
          simp only [bind_eq_ok] at h
          obtain ⟨m, hm, idx, hidx, h⟩ := h
          injection h with h
          exact ⟨rfl, vertexSet, m, idx, hV, hm, hidx, h⟩
    · cases h

/-- A normal end of `visit(const And *)`. -/
theorem visitAnd_eq_ok {builderBuildSegmented : PathExpression → Nat → PathIndexBuilder → Built}
    {freeVars : List Var} {quantifiedVars : List QuantifiedVar} {lhs rhs : PathExpression}
    {b b' : PathIndexBuilder} {pi : PathIndex}
    (h : visitAnd builderBuildSegmented freeVars quantifiedVars lhs rhs b = .ok (pi, b')) :
    ∃ fv0 fv1, freeVars = [fv0, fv1] ∧
      ((quantifiedVars = [] ∧ ∃ l b1 r b2 lpn m idx,
          buildIndex builderBuildSegmented lhs fv0 fv1 b = .ok (l, b1) ∧
          buildIndex builderBuildSegmented rhs fv0 fv1 b1 = .ok (r, b2) ∧
          copyNeighbors l [] = .ok lpn ∧ intersectNeighbors lpn r [] = .ok m ∧
          pack m = .ok idx ∧ b2.alloc (.segmented idx) = (pi, b')) ∨
        (∃ qvar, quantifiedVars = [qvar] ∧ ∃ s q b2 m idx,
          buildIndices builderBuildSegmented lhs rhs fv0 qvar.getVar fv1 b = .ok (s, q, b2) ∧
          joinNeighbors s q [] = .ok m ∧ pack m = .ok idx ∧
          b2.alloc (.segmented idx) = (pi, b'))) := by
  unfold visitAnd at h
  split at h
  · rename_i fv0 fv1
    refine ⟨fv0, fv1, rfl, ?_⟩
    split at h
    · rename_i hq
      left
      have hq' : quantifiedVars = [] := by
        cases quantifiedVars with
        | nil => rfl
        | cons a l => simp [isQuantified] at hq
      simp only [bind_eq_ok] at h
      obtain ⟨⟨l, b1⟩, hl, ⟨r, b2⟩, hr, lpn, hlpn, m, hm, idx, hidx, h⟩ := h
      injection h with h
      exact ⟨hq', l, b1, r, b2, lpn, m, idx, hl, hr, hlpn, hm, hidx, h⟩
    · right
      split at h
      · rename_i qvar _
        simp only [bind_eq_ok] at h
        obtain ⟨⟨s, q, b2⟩, hsq, m, hm, idx, hidx, h⟩ := h
        injection h with h
        exact ⟨qvar, rfl, s, q, b2, m, idx, hsq, hm, hidx, h⟩
      · cases h
  · cases h

/-- A normal end of `visit(const Or *)`. -/
theorem visitOr_eq_ok {builderBuildSegmented : PathExpression → Nat → PathIndexBuilder → Built}
    {freeVars : List Var} {quantifiedVars : List QuantifiedVar} {lhs rhs : PathExpression}
    {b b' : PathIndexBuilder} {pi : PathIndex}
    (h : visitOr builderBuildSegmented freeVars quantifiedVars lhs rhs b = .ok (pi, b')) :
    ∃ fv0 fv1, freeVars = [fv0, fv1] ∧
      ((quantifiedVars = [] ∧ ∃ l b1 r b2 m0 m idx,
          buildIndex builderBuildSegmented lhs fv0 fv1 b = .ok (l, b1) ∧
          buildIndex builderBuildSegmented rhs fv0 fv1 b1 = .ok (r, b2) ∧
          copyNeighbors l [] = .ok m0 ∧ uniteNeighbors r m0 = .ok m ∧
          pack m = .ok idx ∧ b2.alloc (.segmented idx) = (pi, b')) ∨
        (∃ qvar, quantifiedVars = [qvar] ∧ ∃ s q b2 sinkSet m0 m idx,
          buildIndices builderBuildSegmented lhs rhs fv0 qvar.getVar fv1 b = .ok (s, q, b2) ∧
          getBinding fv1 = some sinkSet ∧
          linkToSinkSet s sinkSet [] = .ok m0 ∧ linkSinkNeighbors s q m0 = .ok m ∧
          pack m = .ok idx ∧ b2.alloc (.segmented idx) = (pi, b'))) := by
  unfold visitOr at h
  split at h
  · rename_i fv0 fv1
    refine ⟨fv0, fv1, rfl, ?_⟩
    split at h
    · rename_i hq
      left
      have hq' : quantifiedVars = [] := by
        cases quantifiedVars with
        | nil => rfl
        | cons a l => simp [isQuantified] at hq
      simp only [bind_eq_ok] at h
      obtain ⟨⟨l, b1⟩, hl, ⟨r, b2⟩, hr, m0, hm0, m, hm, idx, hidx, h⟩ := h
      injection h with h
      exact ⟨hq', l, b1, r, b2, m0, m, idx, hl, hr, hm0, hm, hidx, h⟩
    · right
      split at h
      · rename_i qvar _
        simp only [bind_eq_ok] at h
        obtain ⟨⟨s, q, b2⟩, hsq, h⟩ := h
        simp only at h
        split at h
        · cases h
        · rename_i sinkSet hsink
          simp only [bind_eq_ok] at h
          obtain ⟨m0, hm0, m, hm, idx, hidx, h⟩ := h
          injection h with h
          exact ⟨qvar, rfl, s, q, b2, sinkSet, m0, m, idx, hsq, hsink, hm0, hm, hidx, h⟩
      · cases h
  · cases h

/-- The index `pack` returns for a map with `MapInv` is valid. -/
theorem pack_valid {m : NeighborMap} {n : Nat} {idx : SegmentedPathIndex} (hm : MapInv m n)
    (h : pack m = .ok idx) :
    idx.Valid ∧ idx.numElems = n ∧ ∀ x < n, idx.neighbors x = .ok (nbrsOf m x) := by
  obtain ⟨idx', h', hn, hv, hnb⟩ := pack_spec hm
  rw [h] at h'
  injection h' with h'
  subst h'
  exact ⟨hv, hn, hnb⟩

/-- A step of the visitor that returned an index: the builder went through
calls of `buildSegmented` on operands, then a valid index object was created
at the next address. -/
theorem build_frame {builderBuildSegmented : PathExpression → Nat → PathIndexBuilder → Built}
    (R : PathIndexBuilder → PathIndexBuilder → Prop) (hrefl : ∀ b, R b b)
    (htrans : ∀ b1 b2 b3, R b1 b2 → R b2 b3 → R b1 b3) {pe : PathExpression}
    (hrec : ∀ pe' ep b1 pi1 b2, pe' ∈ pe.operands →
      builderBuildSegmented pe' ep b1 = .ok (pi1, b2) → R b1 b2)
    {b b' : PathIndexBuilder} {pi : PathIndex}
    (h : build builderBuildSegmented pe b = .ok (pi, b')) :
    ∃ b2 impl, R b b2 ∧ impl.Valid ∧ b2.alloc impl = (pi, b') := by
  cases pe with
  | link lhs rhs type =>
    simp only [build] at h
    obtain ⟨edgeSet, -, -, h | h⟩ := visitLink_eq_ok h
    · exact ⟨b, .setEndpoint ⟨edgeSet⟩, hrefl b, trivial, h.2.2⟩
    · obtain ⟨-, vertexSet, m, idx, -, hm, hidx, h⟩ := h
      exact ⟨b, .segmented idx, hrefl b, (pack_valid (veNeighbors_inv hm).1 hidx).1, h⟩
  | and freeVars quantifiedVars lhs rhs =>
    simp only [build] at h
    obtain ⟨fv0, fv1, -, h | h⟩ := visitAnd_eq_ok h
    · obtain ⟨-, l, b1, r, b2, lpn, m, idx, hl, hr, -, hm, hidx, h⟩ := h
      obtain ⟨ep1, hl⟩ := buildIndex_eq_ok hl
      obtain ⟨ep2, hr⟩ := buildIndex_eq_ok hr
      exact ⟨b2, .segmented idx, htrans _ _ _ (hrec _ _ _ _ _ (by simp [PathExpression.operands]) hl)
        (hrec _ _ _ _ _ (by simp [PathExpression.operands]) hr),
        (pack_valid (intersectNeighbors_inv hm).1 hidx).1, h⟩
    · obtain ⟨qvar, -, s, q, b2, m, idx, hsq, hm, hidx, h⟩ := h
      obtain ⟨pe1, ep1, pe2, ep2, b1, h1, h2, hs, hq⟩ := buildIndices_eq_ok hsq
      exact ⟨b2, .segmented idx, htrans _ _ _ (hrec _ _ _ _ _ (by simpa [PathExpression.operands] using h1) hs)
        (hrec _ _ _ _ _ (by simpa [PathExpression.operands] using h2) hq),
        (pack_valid (joinNeighbors_inv hm).1 hidx).1, h⟩
  | or freeVars quantifiedVars lhs rhs =>
    simp only [build] at h
    obtain ⟨fv0, fv1, -, h | h⟩ := visitOr_eq_ok h
    · obtain ⟨-, l, b1, r, b2, m0, m, idx, hl, hr, hm0, hm, hidx, h⟩ := h
      obtain ⟨ep1, hl⟩ := buildIndex_eq_ok hl
      obtain ⟨ep2, hr⟩ := buildIndex_eq_ok hr
      exact ⟨b2, .segmented idx, htrans _ _ _ (hrec _ _ _ _ _ (by simp [PathExpression.operands]) hl)
        (hrec _ _ _ _ _ (by simp [PathExpression.operands]) hr),
        (pack_valid (uniteNeighbors_inv (copyNeighbors_inv hm0).1 hm).1 hidx).1, h⟩
    · obtain ⟨qvar, -, s, q, b2, sinkSet, m0, m, idx, hsq, -, hm0, hm, hidx, h⟩ := h
      obtain ⟨pe1, ep1, pe2, ep2, b1, h1, h2, hs, hq⟩ := buildIndices_eq_ok hsq
      exact ⟨b2, .segmented idx, htrans _ _ _ (hrec _ _ _ _ _ (by simpa [PathExpression.operands] using h1) hs)
        (hrec _ _ _ _ _ (by simpa [PathExpression.operands] using h2) hq),
        (pack_valid (linkSinkNeighbors_inv (linkToSinkSet_inv hm0).1 hm).1 hidx).1, h⟩

/-! ## `buildSegmented` -/

/-- A normal end of `buildSegmented`: the expression is bound, and the index
either comes from the memo map or is built and put there. -/
theorem buildSegmented_eq_ok {fuel : Nat} {pe : PathExpression} {ep : Nat}
    {b b' : PathIndexBuilder} {pi : PathIndex}
    (h : buildSegmented fuel pe ep b = .ok (pi, b')) :
    ∃ fuel', fuel = fuel' + 1 ∧ pe.isBound = true ∧
      ((b.lookup (pe, ep) = some pi ∧ b' = b) ∨
        (b.lookup (pe, ep) = none ∧ ∃ b1, build (buildSegmented fuel') pe b = .ok (pi, b1) ∧
          b' = b1.memoInsert (pe, ep) pi)) := by
  cases fuel with
  | zero => cases h
  | succ fuel =>
    refine ⟨fuel, rfl, ?_⟩
    simp only [buildSegmented] at h
    split at h
    · rename_i hb
      refine ⟨hb, ?_⟩
      split at h
      · rename_i pi' hl
        injection h with h
        injection h with h1 h2
        subst h1; subst h2
        exact Or.inl ⟨hl, rfl⟩
      · rename_i hl
        simp only [bind_eq_ok] at h
        obtain ⟨⟨pi1, b1⟩, hbuild, h⟩ := h
        injection h with h
        injection h with h1 h2
        subst h1; subst h2
        exact Or.inr ⟨hl, b1, hbuild, rfl⟩
    · cases h

theorem lookup_mem {b : PathIndexBuilder} {key : PathExpression × Nat} {pi : PathIndex}
    (h : b.lookup key = some pi) : (key, pi) ∈ b.pathIndices := by
  unfold PathIndexBuilder.lookup at h
  rw [Option.map_eq_some'] at h
  obtain ⟨e, he, rfl⟩ := h
  have h1 := List.mem_of_find?_eq_some he
  have h2 := List.find?_some he
  simp only [beq_iff_eq] at h2
  rw [← h2]
  exact h1

theorem alloc_eq {b b' : PathIndexBuilder} {impl : PathIndexImpl} {pi : PathIndex}
    (h : b.alloc impl = (pi, b')) :
    pi = ⟨b.allocated, impl⟩ ∧ b'.pathIndices = b.pathIndices ∧
      b'.allocated = b.allocated + 1 := by
  unfold PathIndexBuilder.alloc at h
  injection h with h1 h2
  subst h1; subst h2
  exact ⟨rfl, rfl, rfl⟩

theorem memoInsert_mem {b : PathIndexBuilder} {key : PathExpression × Nat} {pi : PathIndex}
    {e : (PathExpression × Nat) × PathIndex} (h : e ∈ (b.memoInsert key pi).pathIndices) :
    e ∈ b.pathIndices ∨ e = (key, pi) := by
  unfold PathIndexBuilder.memoInsert at h
  split at h
  · exact Or.inl h
  · simpa using h

/-- Calls of `buildSegmented` keep the indices of the memo map valid and
return a valid index. -/
theorem buildSegmented_valid (fuel : Nat) : ∀ (pe : PathExpression) (ep : Nat)
    (b b' : PathIndexBuilder) (pi : PathIndex), b.MemoValid →
    buildSegmented fuel pe ep b = .ok (pi, b') → b'.MemoValid ∧ pi.impl.Valid := by
  induction fuel with
  | zero => intro pe ep b b' pi _ h; cases h
  | succ fuel ih =>
    intro pe ep b b' pi hb h
    obtain ⟨fuel', hf, -, h | h⟩ := buildSegmented_eq_ok h
    · obtain ⟨hl, rfl⟩ := h
      exact ⟨hb, hb _ (lookup_mem hl)⟩
    · obtain ⟨-, b1, hbuild, rfl⟩ := h
      injection hf with hf
      subst hf
      obtain ⟨b2, impl, hR, himpl, halloc⟩ := build_frame
        (fun b1 b2 => b1.MemoValid → b2.MemoValid) (fun _ h => h)
        (fun _ _ _ h1 h2 h => h2 (h1 h))
        (fun pe' ep' b1 pi1 b2 _ hcall hv => (ih pe' ep' b1 b2 pi1 hv hcall).1) hbuild
      obtain ⟨hpi, hmemo, -⟩ := alloc_eq halloc
      have hb1 : b1.MemoValid := by
        intro e he
        rw [hmemo] at he
        exact hR hb e he
      have hpiv : pi.impl.Valid := by rw [hpi]; exact himpl
      refine ⟨?_, hpiv⟩
      intro e he
      rcases memoInsert_mem he with he | he
      · exact hb1 e he
      · subst he; exact hpiv

theorem later_memoValid {b b' : PathIndexBuilder} (h : PathIndexBuilder.Later b b')
    (hb : b.MemoValid) : b'.MemoValid := by
  induction h with
  | refl => exact hb
  | step _ hcall ih => exact (buildSegmented_valid _ _ _ _ _ _ ih hcall).1

theorem reachable_memoValid {b : PathIndexBuilder} (h : b.Reachable) : b.MemoValid :=
  later_memoValid h (by intro e he; simp [PathIndexBuilder.empty] at he)

/-- Reading the neighbors of an element of a segmented index is reading a
slice of `nbrs` between two consecutive offsets. -/
theorem SegmentedPathIndex.neighbors_eq_ok {i : SegmentedPathIndex} {x : Nat} {l : List Nat}
    (h : i.neighbors x = .ok l) :
    ∃ s e, i.nbrsStart[x]? = some s ∧ i.nbrsStart[x + 1]? = some e ∧ s ≤ e ∧
      e ≤ i.nbrs.length ∧ l = (i.nbrs.drop s).take (e - s) := by
  unfold SegmentedPathIndex.neighbors SegmentedPathIndex.numNeighborsOf at h
  cases hs : i.nbrsStart[x]? with
  | none => simp [hs] at h
  | some s =>
    cases he : i.nbrsStart[x + 1]? with
    | none => simp [hs, he] at h
    | some e =>
      simp only [hs, he] at h
      by_cases hse : s ≤ e
      · simp only [if_pos hse] at h
        split at h
        · rename_i hle
          injection h with h
          exact ⟨s, e, rfl, rfl, hse, by omega, h.symm⟩
        · cases h
      · simp [if_neg hse] at h

theorem buildSegmented_of_build {fuel : Nat} {pe : PathExpression} {ep : Nat}
    {b b1 : PathIndexBuilder} {pi : PathIndex} (hbound : pe.isBound = true)
    (hmemo : b.lookup (pe, ep) = none)
    (h : build (buildSegmented fuel) pe b = .ok (pi, b1)) :
    buildSegmented (fuel + 1) pe ep b = .ok (pi, b1.memoInsert (pe, ep) pi) := by
  simp only [buildSegmented, hbound, if_true, hmemo, h, bind, Except.bind]

/-- C1. Every segmented index returned by `buildSegmented`, on a builder that
started empty and has answered any number of calls, satisfies the invariant of
segmented indices: `nbrsStart` has `numElements + 1` entries and is
non-decreasing, its last entry is the number of stored neighbors, which is
what `numNeighbors()` returns, and for every element the slice of `nbrs`
between its two offsets, which is what `neighbors` enumerates, is strictly
ascending. -/
theorem segmented_index_invariant (b : PathIndexBuilder) (hb : b.Reachable) (fuel : Nat)
    (pe : PathExpression) (sourceEndpoint : Nat) (pi : PathIndex) (b' : PathIndexBuilder)
    (h : buildSegmented fuel pe sourceEndpoint b = .ok (pi, b'))
    (idx : SegmentedPathIndex) (hidx : pi.impl = .segmented idx) :
    idx.nbrsStart.length = idx.numElements + 1 ∧
    idx.nbrsStart.Sorted (· ≤ ·) ∧
    idx.nbrsStart[idx.numElements]? = some idx.nbrs.length ∧
    idx.numNeighbors = .ok idx.nbrs.length ∧
    ∀ i < idx.numElements, ∃ s e, idx.nbrsStart[i]? = some s ∧
      idx.nbrsStart[i + 1]? = some e ∧ s ≤ e ∧ e ≤ idx.nbrs.length ∧
      idx.neighbors i = .ok ((idx.nbrs.drop s).take (e - s)) ∧
      ((idx.nbrs.drop s).take (e - s)).Sorted (· < ·) := by
  have hv := (buildSegmented_valid fuel pe sourceEndpoint b b' pi (reachable_memoValid hb) h).2
  rw [hidx] at hv
  have hv : idx.Valid := hv
  refine ⟨hv.length_nbrsStart, hv.monotone, hv.total, ?_, ?_⟩
  · have := hv.total
    simp only [SegmentedPathIndex.numNeighbors]
    rw [show idx.nbrsStart[idx.numElems]? = some idx.nbrs.length from this]
  · intro i hi
    obtain ⟨l, hl, hsorted⟩ := hv.ascending i hi
    obtain ⟨s, e, hs, he, hse, hen, rfl⟩ := SegmentedPathIndex.neighbors_eq_ok hl
    exact ⟨s, e, hs, he, hse, hen, hl, hsorted⟩

/-- The invariant at work: the `ve` index of the scenario, built on a new
builder. -/
theorem segmented_index_invariant_witness :
    ∃ pi b' idx, buildSegmented 1 Scenario.ve 0 PathIndexBuilder.empty = .ok (pi, b') ∧
      pi.impl = .segmented idx ∧
      idx.nbrsStart.length = idx.numElements + 1 ∧
      idx.nbrsStart.Sorted (· ≤ ·) ∧
      idx.nbrsStart[idx.numElements]? = some idx.nbrs.length ∧
      idx.numNeighbors = .ok idx.nbrs.length ∧
      ∀ i < idx.numElements, ∃ s e, idx.nbrsStart[i]? = some s ∧
        idx.nbrsStart[i + 1]? = some e ∧ s ≤ e ∧ e ≤ idx.nbrs.length ∧
        idx.neighbors i = .ok ((idx.nbrs.drop s).take (e - s)) ∧
        ((idx.nbrs.drop s).take (e - s)).Sorted (· < ·) :=
  ⟨⟨0, .segmented ⟨3, [0, 1, 3, 4], [0, 0, 1, 1]⟩⟩, _, ⟨3, [0, 1, 3, 4], [0, 0, 1, 1]⟩, rfl, rfl,
    segmented_index_invariant PathIndexBuilder.empty (PathIndexBuilder.Later.refl _) 1
      Scenario.ve 0 _ _ rfl _ rfl⟩

/-- C2. Building a `ve` link bound to a vertex set `V` and an edge set `E`
whose endpoints are vertices of `V` returns an index with one element per
vertex of `V`; the neighbors of a vertex are the strictly ascending list of
exactly the ids of the edges that have the vertex among their endpoints, and
a vertex without such an edge has the empty list. -/
theorem ve_link_index (v e : Var) (V E : Set) (hv : v.binding = some V)
    (he : e.binding = some E) (hcard : 0 < E.getCardinality)
    (hep : ∀ edge < E.getSize, ∀ x ∈ E.getEndpoints edge, x < V.getSize)
    (fuel sourceEndpoint : Nat) (b : PathIndexBuilder)
    (hmemo : b.lookup (.link v e .ve, sourceEndpoint) = none) :
    ∃ pi b', buildSegmented (fuel + 1) (.link v e .ve) sourceEndpoint b = .ok (pi, b') ∧
      pi.numElements = V.getSize ∧
      ∀ x < V.getSize, ∃ l, pi.neighbors x = .ok l ∧ l.Sorted (· < ·) ∧
        (∀ a, a ∈ l ↔ a < E.getSize ∧ x ∈ E.getEndpoints a) ∧
        ((∀ a < E.getSize, x ∉ E.getEndpoints a) → l = []) := by
  obtain ⟨m, hm⟩ := veNeighbors_ok hep
  obtain ⟨hinv, -, hrel⟩ := veNeighbors_inv hm
  obtain ⟨idx, hpack, hn, hvalid, hnb⟩ := pack_spec hinv
  have hbuild : build (buildSegmented fuel) (.link v e .ve) b =
      .ok (b.alloc (.segmented idx)) := by
    simp only [build, visitLink, Link.getEdgeBinding, Link.getVertexBinding, he, hv, hcard,
      if_true, hm, hpack, bind, Except.bind]
  have hbound : (PathExpression.link v e .ve).isBound = true := by
    simp [PathExpression.isBound, PathExpression.pathEndpoints, hv, he]
  refine ⟨_, _, buildSegmented_of_build hbound hmemo hbuild, hn, ?_⟩
  intro x hx
  refine ⟨nbrsOf m x, hnb x hx, hinv.sorted_nbrsOf hx, hrel x, ?_⟩
  intro hnone
  apply List.eq_nil_iff_forall_not_mem.mpr
  intro a ha
  have := (hrel x a).mp ha
  exact hnone a this.1 this.2

/-- The scenario of the specification: the `ve` index of `V = {0,1,2}`, `E =
{(0,1),(1,2)}` has `neighbors(0) = [0]`, `neighbors(1) = [0,1]`, `neighbors(2)
= [1]`. -/
theorem ve_link_index_witness :
    (∀ edge < Scenario.E.getSize, ∀ x ∈ Scenario.E.getEndpoints edge, x < Scenario.V.getSize) ∧
    (∃ pi b', buildSegmented 1 Scenario.ve 0 PathIndexBuilder.empty = .ok (pi, b') ∧
      pi.numElements = Scenario.V.getSize ∧
      ∀ x < Scenario.V.getSize, ∃ l, pi.neighbors x = .ok l ∧ l.Sorted (· < ·) ∧
        (∀ a, a ∈ l ↔ a < Scenario.E.getSize ∧ x ∈ Scenario.E.getEndpoints a) ∧
        ((∀ a < Scenario.E.getSize, x ∉ Scenario.E.getEndpoints a) → l = [])) ∧
    (∃ pi b', buildSegmented 1 Scenario.ve 0 PathIndexBuilder.empty = .ok (pi, b') ∧
      pi.neighbors 0 = .ok [0] ∧ pi.neighbors 1 = .ok [0, 1] ∧ pi.neighbors 2 = .ok [1]) :=
  ⟨by decide,
    ve_link_index Scenario.vi Scenario.e Scenario.V Scenario.E rfl rfl (by decide) (by decide)
      0 0 PathIndexBuilder.empty rfl,
    ⟨_, _, rfl, rfl, rfl, rfl⟩⟩

/-- C3. Building an `ev` link bound to a homogeneous edge set `E` of endpoint
arity `k` returns the endpoint view of `E` itself: it has one element per edge
of `E`, `k` neighbors for every edge, `size(E) * k` neighbors in total, and
the neighbors of an edge are its `k` endpoint ids in stored order. -/
theorem ev_link_index (e v : Var) (E V : Set) (he : e.binding = some E)
    (hv : v.binding = some V) (hcard : 0 < E.getCardinality)
    (hhom : E.isHomogeneous = true) (hwf : E.WellFormed)
    (fuel sourceEndpoint : Nat) (b : PathIndexBuilder)
    (hmemo : b.lookup (.link e v .ev, sourceEndpoint) = none) :
    ∃ pi b', buildSegmented (fuel + 1) (.link e v .ev) sourceEndpoint b = .ok (pi, b') ∧
      pi.impl = .setEndpoint ⟨E⟩ ∧
      pi.numElements = E.getSize ∧
      (∀ x, pi.numNeighborsOf x = .ok E.getCardinality) ∧
      pi.numNeighbors = .ok (E.getSize * E.getCardinality) ∧
      ∀ x < E.getSize, pi.neighbors x = .ok (E.getEndpoints x) ∧
        (E.getEndpoints x).length = E.getCardinality := by
  have hbuild : build (buildSegmented fuel) (.link e v .ev) b =
      .ok (b.alloc (.setEndpoint ⟨E⟩)) := by
    simp only [build, visitLink, Link.getEdgeBinding, he, hcard, if_true,
      SetEndpointPathIndex.create, hhom, bind, Except.bind]
  have hbound : (PathExpression.link e v .ev).isBound = true := by
    simp [PathExpression.isBound, PathExpression.pathEndpoints, hv, he]
  refine ⟨_, _, buildSegmented_of_build hbound hmemo hbuild, rfl, rfl, fun _ => rfl, rfl, ?_⟩
  intro x hx
  refine ⟨?_, ?_⟩
  · simp only [PathIndex.neighbors, PathIndexBuilder.alloc, SetEndpointPathIndex.neighbors,
      if_pos hx]
  · have hx' : x < E.endpoints.length := by rw [hwf.1]; exact hx
    have : E.getEndpoints x = E.endpoints[x] := by
      simp [Set.getEndpoints, List.getD_eq_getElem?_getD, List.getElem?_eq_getElem hx']
    rw [this]
    exact hwf.2 _ (List.getElem_mem hx')

/-- The scenario of the specification: the `ev` index of `E = {(0,1),(1,2)}`
has `neighbors(0) = [0,1]`, `neighbors(1) = [1,2]`. -/
theorem ev_link_index_witness :
    Scenario.E.WellFormed ∧
    (∃ pi b', buildSegmented 1 Scenario.ev 0 PathIndexBuilder.empty = .ok (pi, b') ∧
      pi.impl = .setEndpoint ⟨Scenario.E⟩ ∧
      pi.numElements = Scenario.E.getSize ∧
      (∀ x, pi.numNeighborsOf x = .ok Scenario.E.getCardinality) ∧
      pi.numNeighbors = .ok (Scenario.E.getSize * Scenario.E.getCardinality) ∧
      ∀ x < Scenario.E.getSize, pi.neighbors x = .ok (Scenario.E.getEndpoints x) ∧
        (Scenario.E.getEndpoints x).length = Scenario.E.getCardinality) ∧
    (∃ pi b', buildSegmented 1 Scenario.ev 0 PathIndexBuilder.empty = .ok (pi, b') ∧
      pi.neighbors 0 = .ok [0, 1] ∧ pi.neighbors 1 = .ok [1, 2]) :=
  ⟨by decide,
    ev_link_index Scenario.e Scenario.vj Scenario.E Scenario.V rfl rfl (by decide) rfl
      (by decide) 0 0 PathIndexBuilder.empty rfl,
    ⟨_, _, rfl, rfl, rfl⟩⟩

/-! ## The number of neighbors of a `ve` index -/

theorem setInsert_length {x : Nat} {s : List Nat} (h : x ∉ s) :
    (setInsert x s).length = s.length + 1 := by
  simp [setInsert, h, List.orderedInsert_length]

theorem mapAtInsert_total {k x : Nat} {m m' : NeighborMap} (h : mapAtInsert k x m = .ok m')
    (hx : x ∉ nbrsOf m k) : totalNeighbors m' = totalNeighbors m + 1 := by
  induction m generalizing m' with
  | nil => simp [mapAtInsert] at h
  | cons p rest ih =>
    obtain ⟨k', s⟩ := p
    simp only [mapAtInsert] at h
    split at h
    · rename_i hk
      injection h with h
      subst h; subst hk
      rw [nbrsOf_cons_eq] at hx
      simp only [totalNeighbors, List.map_cons, List.sum_cons, setInsert_length hx]
      omega
    · rename_i hk
      rw [map_eq_ok] at h
      obtain ⟨r, hr, hm⟩ := h
      subst hm
      rw [nbrsOf_cons_ne (fun h => hk h.symm)] at hx
      have := ih hr hx
      simp only [totalNeighbors, List.map_cons, List.sum_cons] at this ⊢
      omega

theorem insertEdge_total {e : Nat} (eps : List Nat) : ∀ {m m' : NeighborMap},
    eps.Nodup → (∀ j ∈ eps, e ∉ nbrsOf m j) →
    eps.foldlM (fun m ep => mapAtInsert ep e m) m = .ok m' →
    totalNeighbors m' = totalNeighbors m + eps.length := by
  induction eps with
  | nil =>
    intro m m' _ _ h
    simp only [List.foldlM_nil, pure, Except.pure] at h
    injection h with h
    subst h; rfl
  | cons ep rest ih =>
    intro m m' hnd hfresh h
    rw [List.foldlM_cons, bind_eq_ok] at h
    obtain ⟨m1, h1, h2⟩ := h
    rw [List.nodup_cons] at hnd
    have ht := mapAtInsert_total h1 (hfresh ep (by simp))
    have hfresh1 : ∀ j ∈ rest, e ∉ nbrsOf m1 j := by
      intro j hj hmem
      rw [mapAtInsert_nbrsOf h1] at hmem
      rcases hmem with hmem | ⟨hje, -⟩
      · exact hfresh j (by simp [hj]) hmem
      · subst hje; exact hnd.1 hj
    rw [ih hnd.2 hfresh1 h2, ht, List.length_cons]
    omega

theorem totalNeighbors_eq_zero {m : NeighborMap} {n : Nat} (hm : MapInv m n)
    (h : ∀ j, nbrsOf m j = []) : totalNeighbors m = 0 := by
  have hnd : (m.map Prod.fst).Nodup := by rw [hm.keys]; exact List.nodup_range n
  unfold totalNeighbors
  apply List.sum_eq_zero
  intro x hx
  rw [List.mem_map] at hx
  obtain ⟨p, hp, rfl⟩ := hx
  rw [← mapFind_of_mem hnd hp, h]
  rfl

/-- The number of neighbors recorded by the `ve` case when no edge lists a
vertex twice: the number of endpoint slots of the edge set. -/
theorem veNeighbors_total {vertexSet edgeSet : Set} {m : NeighborMap}
    (hnd : ∀ e < edgeSet.getSize, (edgeSet.getEndpoints e).Nodup)
    (h : veNeighbors vertexSet edgeSet = .ok m) :
    totalNeighbors m =
      ((List.range edgeSet.getSize).map (fun e => (edgeSet.getEndpoints e).length)).sum := by
  unfold veNeighbors at h
  obtain ⟨h0, h0e⟩ := emptyNeighbors_inv vertexSet.getSize
  have := foldlM_range_inv
    (fun m e => (edgeSet.getEndpoints e).foldlM (fun m ep => mapAtInsert ep e m) m)
    (fun i m => MapInv m vertexSet.getSize ∧ (∀ v a, a ∈ nbrsOf m v → a < i) ∧
      totalNeighbors m = ((List.range i).map (fun e => (edgeSet.getEndpoints e).length)).sum)
    edgeSet.getSize _ m ⟨h0, by simp [h0e], by simpa using totalNeighbors_eq_zero h0 h0e⟩ ?_ h
  · exact this.2.2
  · rintro i s s' hi ⟨hs, hlt, htot⟩ hstep
    obtain ⟨h1, -, h3⟩ := insertMany_inv (fun ep => ep) (fun _ => i) _ hs hstep
    refine ⟨h1, ?_, ?_⟩
    · intro v a ha
      rw [h3] at ha
      rcases ha with ha | ⟨x, -, -, rfl⟩
      · have := hlt v a ha; omega
      · omega
    · rw [insertEdge_total _ (hnd i hi)
        (fun j _ hmem => Nat.lt_irrefl i (hlt j i hmem)) hstep, htot, List.range_succ]
      simp

theorem pack_numNeighbors {m : NeighborMap} {n : Nat} {idx : SegmentedPathIndex}
    (hm : MapInv m n) (h : pack m = .ok idx) : idx.numNeighbors = .ok (totalNeighbors m) := by
  rw [pack_eq hm.keys] at h
  injection h with h
  subst h
  simp only [SegmentedPathIndex.numNeighbors, List.getElem?_map,
    List.getElem?_range (show n < n + 1 by omega), Option.map_some']
  rw [← hm.length, offsetAt_length]
  rfl

/-- C4 as stated fails: for the edge set `{(0,0)}` over the vertex set `{0}`
the `ve` index stores one neighbor, while the edge set has `1 * 2` endpoint
slots. -/
theorem ve_ev_duality_counterexample :
    LoopGraph.E.WellFormed ∧
    (∀ edge < LoopGraph.E.getSize, ∀ x ∈ LoopGraph.E.getEndpoints edge,
      x < LoopGraph.V.getSize) ∧
    ∃ pi b', buildSegmented 1 LoopGraph.ve 0 PathIndexBuilder.empty = .ok (pi, b') ∧
      pi.numNeighbors = .ok 1 ∧ LoopGraph.E.getSize * LoopGraph.E.getCardinality = 2 :=
  ⟨by decide, by decide, _, _, rfl, rfl, rfl⟩

/-- C4, amended. For an edge set `E` of endpoint arity `k` whose endpoints lie
in the bound vertex set and in which no edge lists the same vertex twice, the
total neighbor count of the `ve` index is `numElements(E) * k`, which is also
the total neighbor count of the endpoint view of `E`. -/
theorem ve_ev_duality (v e : Var) (V E : Set) (hv : v.binding = some V)
    (he : e.binding = some E) (hcard : 0 < E.getCardinality) (hwf : E.WellFormed)
    (hep : ∀ edge < E.getSize, ∀ x ∈ E.getEndpoints edge, x < V.getSize)
    (hnd : ∀ edge < E.getSize, (E.getEndpoints edge).Nodup)
    (fuel sourceEndpoint : Nat) (b : PathIndexBuilder)
    (hmemo : b.lookup (.link v e .ve, sourceEndpoint) = none) :
    ∃ pi b', buildSegmented (fuel + 1) (.link v e .ve) sourceEndpoint b = .ok (pi, b') ∧
      pi.numNeighbors = .ok (E.getSize * E.getCardinality) ∧
      (SetEndpointPathIndex.mk E).numNeighbors = E.getSize * E.getCardinality := by
  obtain ⟨m, hm⟩ := veNeighbors_ok hep
  obtain ⟨hinv, -, -⟩ := veNeighbors_inv hm
  obtain ⟨idx, hpack, -, -, -⟩ := pack_spec hinv
  have hbuild : build (buildSegmented fuel) (.link v e .ve) b =
      .ok (b.alloc (.segmented idx)) := by
    simp only [build, visitLink, Link.getEdgeBinding, Link.getVertexBinding, he, hv, hcard,
      if_true, hm, hpack, bind, Except.bind]
  have hbound : (PathExpression.link v e .ve).isBound = true := by
    simp [PathExpression.isBound, PathExpression.pathEndpoints, hv, he]
  refine ⟨_, _, buildSegmented_of_build hbound hmemo hbuild, ?_, rfl⟩
  have hlen : ∀ x ∈ List.range E.getSize, (E.getEndpoints x).length = E.getCardinality := by
    intro x hx
    have hx' : x < E.endpoints.length := by rw [hwf.1]; exact List.mem_range.mp hx
    have : E.getEndpoints x = E.endpoints[x] := by
      simp [Set.getEndpoints, List.getD_eq_getElem?_getD, List.getElem?_eq_getElem hx']
    rw [this]
    exact hwf.2 _ (List.getElem_mem hx')
  have hsum : ((List.range E.getSize).map (fun e => (E.getEndpoints e).length)).sum =
      E.getSize * E.getCardinality := by
    rw [List.map_congr_left hlen]
    simp
  show SegmentedPathIndex.numNeighbors idx = _
  rw [pack_numNeighbors hinv hpack, veNeighbors_total hnd hm, hsum]

/-- The duality on the scenario of the specification, where no edge lists a
vertex twice. -/
theorem ve_ev_duality_witness :
    Scenario.E.WellFormed ∧
    (∀ edge < Scenario.E.getSize, ∀ x ∈ Scenario.E.getEndpoints edge, x < Scenario.V.getSize) ∧
    (∀ edge < Scenario.E.getSize, (Scenario.E.getEndpoints edge).Nodup) ∧
    ∃ pi b', buildSegmented 1 Scenario.ve 0 PathIndexBuilder.empty = .ok (pi, b') ∧
      pi.numNeighbors = .ok (Scenario.E.getSize * Scenario.E.getCardinality) ∧
      (SetEndpointPathIndex.mk Scenario.E).numNeighbors =
        Scenario.E.getSize * Scenario.E.getCardinality :=
  ⟨by decide, by decide, by decide,
    ve_ev_duality Scenario.vi Scenario.e Scenario.V Scenario.E rfl rfl (by decide) (by decide)
      (by decide) (by decide) 0 0 PathIndexBuilder.empty rfl⟩

/-! ## The connectives -/

/-- The neighbors of every element of a valid index can be read. -/
theorem PathIndex.readable {pi : PathIndex} (h : pi.impl.Valid) :
    ∀ x < pi.numElements, ∃ l, pi.neighbors x = .ok l := by
  intro x hx
  unfold PathIndex.neighbors
  unfold PathIndex.numElements at hx
  cases himpl : pi.impl with
  | setEndpoint i =>
    rw [himpl] at hx
    have hx : x < i.edgeSet.getSize := hx
    exact ⟨_, by simp only [SetEndpointPathIndex.neighbors]; rw [if_pos hx]⟩
  | segmented i =>
    rw [himpl] at hx h
    have hx : x < i.numElems := hx
    obtain ⟨l, hl, -⟩ := SegmentedPathIndex.Valid.ascending h x hx
    exact ⟨l, hl⟩

/-- The index `buildIndex` returns on a builder that occurs is valid, and so is
the memo map afterwards. -/
theorem buildIndex_valid {fuel : Nat} {pathExpr : PathExpression} {source sink : Var}
    {b b1 : PathIndexBuilder} {pi : PathIndex} (hb : b.MemoValid)
    (h : buildIndex (buildSegmented fuel) pathExpr source sink b = .ok (pi, b1)) :
    b1.MemoValid ∧ pi.impl.Valid := by
  obtain ⟨ep, h⟩ := buildIndex_eq_ok h
  exact buildSegmented_valid _ _ _ _ _ _ hb h

/-- C5. For a non-quantified `And` whose operands give the indices `R1` (lhs)
and `R2` (rhs) over the same element range, the built index has that element
range and, for every element `x`, its neighbors are the strictly ascending
list of exactly the ids that are neighbors of `x` in both `R1` and `R2`. -/
theorem and_index_intersection (fv0 fv1 : Var) (lhs rhs : PathExpression)
    (fuel sourceEndpoint : Nat) (b b1 b2 : PathIndexBuilder) (R1 R2 : PathIndex)
    (hb : b.Reachable)
    (hbound : (PathExpression.and [fv0, fv1] [] lhs rhs).isBound = true)
    (hmemo : b.lookup (.and [fv0, fv1] [] lhs rhs, sourceEndpoint) = none)
    (h1 : buildIndex (buildSegmented fuel) lhs fv0 fv1 b = .ok (R1, b1))
    (h2 : buildIndex (buildSegmented fuel) rhs fv0 fv1 b1 = .ok (R2, b2))
    (hrange : R1.numElements = R2.numElements) :
    ∃ pi b', buildSegmented (fuel + 1) (.and [fv0, fv1] [] lhs rhs) sourceEndpoint b =
        .ok (pi, b') ∧
      pi.numElements = R1.numElements ∧
      ∀ x < pi.numElements, ∃ n1 n2 n, R1.neighbors x = .ok n1 ∧ R2.neighbors x = .ok n2 ∧
        pi.neighbors x = .ok n ∧ n.Sorted (· < ·) ∧ ∀ a, a ∈ n ↔ a ∈ n1 ∧ a ∈ n2 := by
  obtain ⟨hb1, hv1⟩ := buildIndex_valid (reachable_memoValid hb) h1
  obtain ⟨-, hv2⟩ := buildIndex_valid hb1 h2
  obtain ⟨lpn, hlpn⟩ := copyNeighbors_ok (PathIndex.readable hv1)
  obtain ⟨hlinv, hlrel⟩ := copyNeighbors_inv hlpn
  obtain ⟨m, hm⟩ := intersectNeighbors_ok hlinv (by omega) (PathIndex.readable hv2)
  obtain ⟨hinv, hrel⟩ := intersectNeighbors_inv hm
  obtain ⟨idx, hpack, hn, -, hnb⟩ := pack_spec hinv
  have hbuild : build (buildSegmented fuel) (.and [fv0, fv1] [] lhs rhs) b =
      .ok (b2.alloc (.segmented idx)) := by
    simp only [build, visitAnd, isQuantified, List.length_nil, Nat.lt_irrefl, decide_False,
      Bool.not_false, if_true, h1, h2, hlpn, hm, hpack, bind, Except.bind]
  refine ⟨_, _, buildSegmented_of_build hbound hmemo hbuild, hn.trans hrange.symm, ?_⟩
  intro x hx
  have hx2 : x < R2.numElements := by rw [← hn]; exact hx
  obtain ⟨n2, hn2, hrel2⟩ := hrel x hx2
  obtain ⟨n1, hn1, hrel1⟩ := hlrel x (by omega)
  refine ⟨n1, n2, nbrsOf m x, hn1, hn2, hnb x hx2, hinv.sorted_nbrsOf hx2, fun a => ?_⟩
  rw [hrel2, hrel1]
  exact And.comm

/-- C6. For a non-quantified `Or` whose operands give the indices `R1` (lhs)
and `R2` (rhs) over the same element range, the built index has that element
range and, for every element `x`, its neighbors are the strictly ascending
list of exactly the ids that are neighbors of `x` in `R1` or in `R2`. -/
theorem or_index_union (fv0 fv1 : Var) (lhs rhs : PathExpression)
    (fuel sourceEndpoint : Nat) (b b1 b2 : PathIndexBuilder) (R1 R2 : PathIndex)
    (hb : b.Reachable)
    (hbound : (PathExpression.or [fv0, fv1] [] lhs rhs).isBound = true)
    (hmemo : b.lookup (.or [fv0, fv1] [] lhs rhs, sourceEndpoint) = none)
    (h1 : buildIndex (buildSegmented fuel) lhs fv0 fv1 b = .ok (R1, b1))
    (h2 : buildIndex (buildSegmented fuel) rhs fv0 fv1 b1 = .ok (R2, b2))
    (hrange : R1.numElements = R2.numElements) :
    ∃ pi b', buildSegmented (fuel + 1) (.or [fv0, fv1] [] lhs rhs) sourceEndpoint b =
        .ok (pi, b') ∧
      pi.numElements = R1.numElements ∧
      ∀ x < pi.numElements, ∃ n1 n2 n, R1.neighbors x = .ok n1 ∧ R2.neighbors x = .ok n2 ∧
        pi.neighbors x = .ok n ∧ n.Sorted (· < ·) ∧ ∀ a, a ∈ n ↔ a ∈ n1 ∨ a ∈ n2 := by
  obtain ⟨hb1, hv1⟩ := buildIndex_valid (reachable_memoValid hb) h1
  obtain ⟨-, hv2⟩ := buildIndex_valid hb1 h2
  obtain ⟨m0, hm0⟩ := copyNeighbors_ok (PathIndex.readable hv1)
  obtain ⟨hinv0, hrel0⟩ := copyNeighbors_inv hm0
  obtain ⟨m, hm⟩ := uniteNeighbors_ok hinv0 (by omega) (PathIndex.readable hv2)
  obtain ⟨hinv, -, hrel, -⟩ := uniteNeighbors_inv hinv0 hm
  obtain ⟨idx, hpack, hn, -, hnb⟩ := pack_spec hinv
  have hbuild : build (buildSegmented fuel) (.or [fv0, fv1] [] lhs rhs) b =
      .ok (b2.alloc (.segmented idx)) := by
    simp only [build, visitOr, isQuantified, List.length_nil, Nat.lt_irrefl, decide_False,
      Bool.not_false, if_true, h1, h2, hm0, hm, hpack, bind, Except.bind]
  refine ⟨_, _, buildSegmented_of_build hbound hmemo hbuild, hn, ?_⟩
  intro x hx
  have hx1 : x < R1.numElements := by rw [← hn]; exact hx
  obtain ⟨n2, hn2, hrel2⟩ := hrel x (by omega)
  obtain ⟨n1, hn1, hrel1⟩ := hrel0 x hx1
  refine ⟨n1, n2, nbrsOf m x, hn1, hn2, hnb x hx1, hinv.sorted_nbrsOf hx1, fun a => ?_⟩
  rw [hrel2, hrel1]

/-- The neighbor count of every element of a valid index can be read. -/
theorem PathIndex.countable {pi : PathIndex} (h : pi.impl.Valid) :
    ∀ x < pi.numElements, ∃ c, pi.numNeighborsOf x = .ok c := by
  intro x hx
  unfold PathIndex.numNeighborsOf
  unfold PathIndex.numElements at hx
  cases himpl : pi.impl with
  | setEndpoint i => exact ⟨_, rfl⟩
  | segmented i =>
    rw [himpl] at hx h
    have hx : x < i.numElems := hx
    obtain ⟨l, hl, -⟩ := SegmentedPathIndex.Valid.ascending h x hx
    obtain ⟨s, e, hs, he, hse, -, -⟩ := SegmentedPathIndex.neighbors_eq_ok hl
    exact ⟨e - s, by simp [SegmentedPathIndex.numNeighborsOf, hs, he, hse]⟩

/-- The two indices `buildIndices` returns on a builder that occurs are
valid. -/
theorem buildIndices_valid {fuel : Nat} {lhs rhs : PathExpression}
    {source quantified sink : Var} {b b2 : PathIndexBuilder} {s q : PathIndex}
    (hb : b.MemoValid)
    (h : buildIndices (buildSegmented fuel) lhs rhs source quantified sink b = .ok (s, q, b2)) :
    s.impl.Valid ∧ q.impl.Valid := by
  obtain ⟨pe1, ep1, pe2, ep2, b1, -, -, hs, hq⟩ := buildIndices_eq_ok h
  obtain ⟨hb1, hvs⟩ := buildSegmented_valid _ _ _ _ _ _ hb hs
  exact ⟨hvs, (buildSegmented_valid _ _ _ _ _ _ hb1 hq).2⟩

/-- The index built for a quantified `Or` with one quantified variable, whose
operands give the indices `S` and `Q`: a source holds every id of the sink set
when its neighbor count in `S` is positive, and, whatever that count, every
neighbor stored in `Q`. -/
theorem quantified_or_spec (fv0 fv1 : Var) (qvar : QuantifiedVar) (lhs rhs : PathExpression)
    (fuel sourceEndpoint : Nat) (b b2 : PathIndexBuilder) (S Q : PathIndex) (sinkSet : Set)
    (hb : b.Reachable)
    (hbound : (PathExpression.or [fv0, fv1] [qvar] lhs rhs).isBound = true)
    (hmemo : b.lookup (.or [fv0, fv1] [qvar] lhs rhs, sourceEndpoint) = none)
    (h : buildIndices (buildSegmented fuel) lhs rhs fv0 qvar.getVar fv1 b = .ok (S, Q, b2))
    (hsink : getBinding fv1 = some sinkSet) :
    ∃ pi b', buildSegmented (fuel + 1) (.or [fv0, fv1] [qvar] lhs rhs) sourceEndpoint b =
        .ok (pi, b') ∧
      pi.numElements = S.numElements ∧
      ∀ x < pi.numElements, ∃ c n, S.numNeighborsOf x = .ok c ∧ pi.neighbors x = .ok n ∧
        n.Sorted (· < ·) ∧
        ∀ a, a ∈ n ↔ (0 < c ∧ a < sinkSet.getSize) ∨
          ∃ q < Q.numElements, ∃ zs, Q.neighbors q = .ok zs ∧ a ∈ zs := by
  obtain ⟨hvs, hvq⟩ := buildIndices_valid (reachable_memoValid hb) h
  obtain ⟨m0, hm0⟩ := @linkToSinkSet_ok S sinkSet (PathIndex.countable hvs)
  obtain ⟨hinv0, hrel0⟩ := linkToSinkSet_inv hm0
  obtain ⟨m, hm⟩ := @linkSinkNeighbors_ok S Q m0 hinv0 (PathIndex.readable hvq)
  obtain ⟨hinv, -, hrel⟩ := linkSinkNeighbors_inv hinv0 hm
  obtain ⟨idx, hpack, hn, -, hnb⟩ := pack_spec hinv
  have hbuild : build (buildSegmented fuel) (.or [fv0, fv1] [qvar] lhs rhs) b =
      .ok (b2.alloc (.segmented idx)) := by
    simp only [build, visitOr, isQuantified, List.length_singleton, Nat.lt_one_iff,
      Nat.zero_lt_one, decide_True, Bool.not_true, h, hsink, hm0, hm, hpack, bind, Except.bind]
    rfl
  refine ⟨_, _, buildSegmented_of_build hbound hmemo hbuild, hn, ?_⟩
  intro x hx
  have hx1 : x < S.numElements := by rw [← hn]; exact hx
  obtain ⟨c, hc, hrel1⟩ := hrel0 x hx1
  refine ⟨c, nbrsOf m x, hc, hnb x hx1, hinv.sorted_nbrsOf hx1, fun a => ?_⟩
  rw [hrel, hrel1]
  constructor
  · rintro (h1 | ⟨-, h2⟩)
    · exact Or.inl h1
    · exact Or.inr h2
  · rintro (h1 | h2)
    · exact Or.inl h1
    · exact Or.inr ⟨hx1, h2⟩

/-- The intersection at work: vertices that share an edge of `E` and an edge
of `E2`. -/
theorem and_index_intersection_witness :
    ∃ R1 R2 b1 b2,
      buildIndex (buildSegmented 2) Scenario.vev Scenario.vi Scenario.vj PathIndexBuilder.empty =
        .ok (R1, b1) ∧
      buildIndex (buildSegmented 2) Scenario.vev2 Scenario.vi Scenario.vj b1 = .ok (R2, b2) ∧
      R1.numElements = R2.numElements ∧
      (∃ pi b', buildSegmented 3 Scenario.both 0 PathIndexBuilder.empty = .ok (pi, b') ∧
        pi.numElements = R1.numElements ∧
        ∀ x < pi.numElements, ∃ n1 n2 n, R1.neighbors x = .ok n1 ∧ R2.neighbors x = .ok n2 ∧
          pi.neighbors x = .ok n ∧ n.Sorted (· < ·) ∧ ∀ a, a ∈ n ↔ a ∈ n1 ∧ a ∈ n2) ∧
      R1.neighbors 1 = .ok [0, 1, 2] ∧ R2.neighbors 1 = .ok [1, 2] :=
  ⟨_, _, _, _, rfl, rfl, rfl,
    and_index_intersection Scenario.vi Scenario.vj Scenario.vev Scenario.vev2 2 0
      PathIndexBuilder.empty _ _ _ _ (PathIndexBuilder.Later.refl _) rfl rfl rfl rfl rfl,
    rfl, rfl⟩

/-- The union at work: vertices that share an edge of `E` or an edge of `E2`. -/
theorem or_index_union_witness :
    ∃ R1 R2 b1 b2,
      buildIndex (buildSegmented 2) Scenario.vev Scenario.vi Scenario.vj PathIndexBuilder.empty =
        .ok (R1, b1) ∧
      buildIndex (buildSegmented 2) Scenario.vev2 Scenario.vi Scenario.vj b1 = .ok (R2, b2) ∧
      R1.numElements = R2.numElements ∧
      (∃ pi b', buildSegmented 3 Scenario.either 0 PathIndexBuilder.empty = .ok (pi, b') ∧
        pi.numElements = R1.numElements ∧
        ∀ x < pi.numElements, ∃ n1 n2 n, R1.neighbors x = .ok n1 ∧ R2.neighbors x = .ok n2 ∧
          pi.neighbors x = .ok n ∧ n.Sorted (· < ·) ∧ ∀ a, a ∈ n ↔ a ∈ n1 ∨ a ∈ n2) ∧
      R1.neighbors 0 = .ok [0, 1] ∧ R2.neighbors 0 = .ok [0, 2] :=
  ⟨_, _, _, _, rfl, rfl, rfl,
    or_index_union Scenario.vi Scenario.vj Scenario.vev Scenario.vev2 2 0
      PathIndexBuilder.empty _ _ _ _ (PathIndexBuilder.Later.refl _) rfl rfl rfl rfl rfl,
    rfl, rfl⟩

theorem eq_range_of_sorted_of_mem {n : List Nat} {k : Nat} (hs : n.Sorted (· < ·))
    (hm : ∀ a, a ∈ n ↔ a < k) : n = List.range k := by
  apply List.eq_of_perm_of_sorted (r := (· < ·)) _ hs (List.pairwise_lt_range k)
  apply (List.perm_ext_iff_of_nodup hs.nodup (List.nodup_range k)).mpr
  intro a
  rw [hm, List.mem_range]

/-- C8, where the code departs from it: for `exists e. ve(vi,e) or ve(vj,e)`
over the vertex set `{0, 1}` and the edge set `{(0,1), (0,1), (1,0)}`, source 0
has three neighbors in the source-to-quantified index, the sink set has the ids
`[0, 1]`, and the neighbors of source 0 in the built index are `[0, 1, 2]`: the
id 2 is the id of an edge, not of an element of the sink set.  The index `Q`
that `buildIndices` requests for the operand `ve(vj,e)` at its endpoint 1, to
go from the quantified edges to the sinks, is the index built from the
endpoint 0: it has the 2 vertices as elements, not the 3 edges, and the ids of
edges as neighbors. -/
theorem quantified_or_sink_set_divergence :
    ∃ S Q b2 pi b',
      buildIndices (buildSegmented 1) (.link SinkFirst.vi SinkFirst.e .ve)
        (.link SinkFirst.vj SinkFirst.e .ve) SinkFirst.vi SinkFirst.e SinkFirst.vj
        PathIndexBuilder.empty = .ok (S, Q, b2) ∧
      buildSegmented 2 SinkFirst.expr 0 PathIndexBuilder.empty = .ok (pi, b') ∧
      S.numNeighborsOf 0 = .ok 3 ∧
      (getBinding SinkFirst.vj).map Set.elements = some [0, 1] ∧
      pi.neighbors 0 = .ok [0, 1, 2] ∧
      b2.lookup (.link SinkFirst.vj SinkFirst.e .ve, 1) = some Q ∧
      SinkFirst.E.getSize = 3 ∧
      Q.numElements = 2 ∧
      Q.neighbors 0 = .ok [0, 1, 2] ∧
      Q.neighbors 1 = .ok [0, 1, 2] :=
  ⟨_, _, _, _, _, rfl, rfl, rfl, rfl, rfl, rfl, rfl, rfl, rfl, rfl⟩

/-- What the code computes for a quantified `Or`.  Every source `x` whose
neighbor count in the source-to-quantified index `S` is positive gets as
neighbors the strictly ascending list of the ids of the sink set together with
the neighbor ids stored in the second index `Q`; when the neighbor ids stored
in `Q` are ids of the sink set, as they are when `Q` goes from the quantified
elements to the sinks, this is exactly the list of all ids of the sink set. -/
theorem quantified_or_sink_set (fv0 fv1 : Var) (qvar : QuantifiedVar) (lhs rhs : PathExpression)
    (fuel sourceEndpoint : Nat) (b b2 : PathIndexBuilder) (S Q : PathIndex) (sinkSet : Set)
    (hb : b.Reachable)
    (hbound : (PathExpression.or [fv0, fv1] [qvar] lhs rhs).isBound = true)
    (hmemo : b.lookup (.or [fv0, fv1] [qvar] lhs rhs, sourceEndpoint) = none)
    (h : buildIndices (buildSegmented fuel) lhs rhs fv0 qvar.getVar fv1 b = .ok (S, Q, b2))
    (hsink : getBinding fv1 = some sinkSet) :
    ∃ pi b', buildSegmented (fuel + 1) (.or [fv0, fv1] [qvar] lhs rhs) sourceEndpoint b =
        .ok (pi, b') ∧
      pi.numElements = S.numElements ∧
      ∀ x < pi.numElements, ∀ c, S.numNeighborsOf x = .ok c → 0 < c →
        ∃ n, pi.neighbors x = .ok n ∧ n.Sorted (· < ·) ∧
          (∀ a, a ∈ n ↔ a < sinkSet.getSize ∨
            ∃ q < Q.numElements, ∃ zs, Q.neighbors q = .ok zs ∧ a ∈ zs) ∧
          ((∀ q < Q.numElements, ∀ zs, Q.neighbors q = .ok zs → ∀ z ∈ zs, z < sinkSet.getSize) →
            n = sinkSet.elements) := by
  obtain ⟨pi, b', hbuild, hn, hrel⟩ :=
    quantified_or_spec fv0 fv1 qvar lhs rhs fuel sourceEndpoint b b2 S Q sinkSet hb hbound hmemo
      h hsink
  refine ⟨pi, b', hbuild, hn, ?_⟩
  intro x hx c hc hpos
  obtain ⟨c', n, hc', hnb, hsorted, hmem⟩ := hrel x hx
  rw [hc] at hc'
  injection hc' with hc'
  subst hc'
  have hmem' : ∀ a, a ∈ n ↔ a < sinkSet.getSize ∨
      ∃ q < Q.numElements, ∃ zs, Q.neighbors q = .ok zs ∧ a ∈ zs := by
    intro a
    rw [hmem]
    constructor
    · rintro (⟨-, h1⟩ | h2)
      · exact Or.inl h1
      · exact Or.inr h2
    · rintro (h1 | h2)
      · exact Or.inl ⟨hpos, h1⟩
      · exact Or.inr h2
  refine ⟨n, hnb, hsorted, hmem', ?_⟩
  intro hq
  apply eq_range_of_sorted_of_mem hsorted
  intro a
  rw [hmem']
  constructor
  · rintro (h1 | ⟨q, hq1, zs, hzs, ha⟩)
    · exact h1
    · exact hq q hq1 zs hzs a ha
  · exact fun h1 => Or.inl h1

/-- The quantified `Or` at work on the scenario of the specification, where
every vertex has an edge. -/
theorem quantified_or_sink_set_witness :
    ∃ S Q b2,
      buildIndices (buildSegmented 1) Scenario.ve Scenario.ev Scenario.vi Scenario.e Scenario.vj
        PathIndexBuilder.empty = .ok (S, Q, b2) ∧
      (∃ pi b', buildSegmented 2 Scenario.vOrV 0 PathIndexBuilder.empty = .ok (pi, b') ∧
        pi.numElements = S.numElements ∧
        ∀ x < pi.numElements, ∀ c, S.numNeighborsOf x = .ok c → 0 < c →
          ∃ n, pi.neighbors x = .ok n ∧ n.Sorted (· < ·) ∧
            (∀ a, a ∈ n ↔ a < Scenario.V.getSize ∨
              ∃ q < Q.numElements, ∃ zs, Q.neighbors q = .ok zs ∧ a ∈ zs) ∧
            ((∀ q < Q.numElements, ∀ zs, Q.neighbors q = .ok zs →
                ∀ z ∈ zs, z < Scenario.V.getSize) →
              n = Scenario.V.elements)) ∧
      S.numNeighborsOf 0 = .ok 1 :=
  ⟨_, _, _, rfl,
    quantified_or_sink_set Scenario.vi Scenario.vj ⟨Scenario.e⟩ Scenario.ve Scenario.ev 1 0
      PathIndexBuilder.empty _ _ _ Scenario.V (PathIndexBuilder.Later.refl _) rfl rfl rfl rfl,
    rfl⟩

/-- C9 as stated fails: for `exists e. ve(vi,e) or ev(e,vj)` over the
vertex set `{0, 1, 2}` and the edge set `{(0,1)}`, source 2 has no neighbor in
the source-to-quantified index, and its neighbors in the built index are
`[0, 1]`, the endpoints of the edge. -/
theorem quantified_or_sources_counterexample :
    ∃ S Q b2 pi b',
      buildIndices (buildSegmented 1) (.link Scenario.vi Isolated.e .ve)
        (.link Isolated.e Scenario.vj .ev) Scenario.vi Isolated.e Scenario.vj
        PathIndexBuilder.empty = .ok (S, Q, b2) ∧
      buildSegmented 2 Isolated.expr 0 PathIndexBuilder.empty = .ok (pi, b') ∧
      S.neighbors 2 = .ok [] ∧ S.numNeighborsOf 2 = .ok 0 ∧
      Q.neighbors 0 = .ok [0, 1] ∧
      pi.neighbors 2 = .ok [0, 1] :=
  ⟨_, _, _, _, _, rfl, rfl, rfl, rfl, rfl, rfl⟩

/-- C9, amended. For a quantified `Or`, a sink `z` that is a neighbor of some
quantified element in the second index `Q` is a neighbor of every source `x`,
whether or not `x` has a neighbor in the source-to-quantified index `S`; a
source whose neighbor count in `S` is zero gets exactly the strictly ascending
list of these sinks. -/
theorem quantified_or_sources (fv0 fv1 : Var) (qvar : QuantifiedVar) (lhs rhs : PathExpression)
    (fuel sourceEndpoint : Nat) (b b2 : PathIndexBuilder) (S Q : PathIndex) (sinkSet : Set)
    (hb : b.Reachable)
    (hbound : (PathExpression.or [fv0, fv1] [qvar] lhs rhs).isBound = true)
    (hmemo : b.lookup (.or [fv0, fv1] [qvar] lhs rhs, sourceEndpoint) = none)
    (h : buildIndices (buildSegmented fuel) lhs rhs fv0 qvar.getVar fv1 b = .ok (S, Q, b2))
    (hsink : getBinding fv1 = some sinkSet) :
    ∃ pi b', buildSegmented (fuel + 1) (.or [fv0, fv1] [qvar] lhs rhs) sourceEndpoint b =
        .ok (pi, b') ∧
      pi.numElements = S.numElements ∧
      ∀ x < pi.numElements, ∃ n, pi.neighbors x = .ok n ∧ n.Sorted (· < ·) ∧
        (∀ z, (∃ q < Q.numElements, ∃ zs, Q.neighbors q = .ok zs ∧ z ∈ zs) → z ∈ n) ∧
        (S.numNeighborsOf x = .ok 0 →
          ∀ z, z ∈ n ↔ ∃ q < Q.numElements, ∃ zs, Q.neighbors q = .ok zs ∧ z ∈ zs) := by
  obtain ⟨pi, b', hbuild, hn, hrel⟩ :=
    quantified_or_spec fv0 fv1 qvar lhs rhs fuel sourceEndpoint b b2 S Q sinkSet hb hbound hmemo
      h hsink
  refine ⟨pi, b', hbuild, hn, ?_⟩
  intro x hx
  obtain ⟨c, n, hc, hnb, hsorted, hmem⟩ := hrel x hx
  refine ⟨n, hnb, hsorted, fun z hz => (hmem z).mpr (Or.inr hz), ?_⟩
  intro h0 z
  rw [hc] at h0
  injection h0 with h0
  subst h0
  rw [hmem]
  constructor
  · rintro (⟨h1, -⟩ | h2)
    · exact absurd h1 (Nat.lt_irrefl 0)
    · exact h2
  · exact fun h2 => Or.inr h2

/-- The quantified `Or` at work on the graph with the isolated vertex 2. -/
theorem quantified_or_sources_witness :
    ∃ S Q b2,
      buildIndices (buildSegmented 1) (.link Scenario.vi Isolated.e .ve)
        (.link Isolated.e Scenario.vj .ev) Scenario.vi Isolated.e Scenario.vj
        PathIndexBuilder.empty = .ok (S, Q, b2) ∧
      (∃ pi b', buildSegmented 2 Isolated.expr 0 PathIndexBuilder.empty = .ok (pi, b') ∧
        pi.numElements = S.numElements ∧
        ∀ x < pi.numElements, ∃ n, pi.neighbors x = .ok n ∧ n.Sorted (· < ·) ∧
          (∀ z, (∃ q < Q.numElements, ∃ zs, Q.neighbors q = .ok zs ∧ z ∈ zs) → z ∈ n) ∧
          (S.numNeighborsOf x = .ok 0 →
            ∀ z, z ∈ n ↔ ∃ q < Q.numElements, ∃ zs, Q.neighbors q = .ok zs ∧ z ∈ zs)) ∧
      S.numNeighborsOf 2 = .ok 0 :=
  ⟨_, _, _, rfl,
    quantified_or_sources Scenario.vi Scenario.vj ⟨Isolated.e⟩ (.link Scenario.vi Isolated.e .ve)
      (.link Isolated.e Scenario.vj .ev) 1 0 PathIndexBuilder.empty _ _ _ Scenario.V
      (PathIndexBuilder.Later.refl _) rfl rfl rfl rfl,
    rfl⟩

/-! ## The memo map -/

theorem lookup_memoInsert_self {b : PathIndexBuilder} {key : PathExpression × Nat}
    {pi : PathIndex} (h : b.lookup key = none) : (b.memoInsert key pi).lookup key = some pi := by
  unfold PathIndexBuilder.memoInsert
  rw [h]
  unfold PathIndexBuilder.lookup at h ⊢
  rw [Option.map_eq_none'] at h
  simp [List.find?_append, h]

theorem lookup_memoInsert_of_some {b : PathIndexBuilder} {key k : PathExpression × Nat}
    {pi v : PathIndex} (h : b.lookup k = some v) : (b.memoInsert key pi).lookup k = some v := by
  unfold PathIndexBuilder.memoInsert
  split
  · exact h
  · unfold PathIndexBuilder.lookup at h ⊢
    rw [Option.map_eq_some'] at h
    obtain ⟨e, he, hv⟩ := h
    simp [List.find?_append, he, hv]

theorem lookup_memoInsert_of_ne {b : PathIndexBuilder} {key k : PathExpression × Nat}
    {pi : PathIndex} (hne : k ≠ key) : (b.memoInsert key pi).lookup k = b.lookup k := by
  unfold PathIndexBuilder.memoInsert
  split
  · rfl
  · unfold PathIndexBuilder.lookup
    have : (key == k) = false := by
      simp only [beq_eq_false_iff_ne, ne_eq]
      exact fun h => hne h.symm
    simp only [List.find?_append, List.find?_cons, this, List.find?_nil, Option.or_none]

theorem lookup_alloc {b b' : PathIndexBuilder} {impl : PathIndexImpl} {pi : PathIndex}
    (h : b.alloc impl = (pi, b')) (k : PathExpression × Nat) : b'.lookup k = b.lookup k := by
  unfold PathIndexBuilder.lookup
  rw [(alloc_eq h).2.1]

/-- Calls of `buildSegmented` keep the entries of the memo map, and the keys
they add are path expressions no larger than the one that is built. -/
theorem buildSegmented_memo (fuel : Nat) : ∀ (pe : PathExpression) (ep : Nat)
    (b b' : PathIndexBuilder) (pi : PathIndex),
    buildSegmented fuel pe ep b = .ok (pi, b') →
    (∀ k v, b.lookup k = some v → b'.lookup k = some v) ∧
    (∀ k, b.lookup k = none → b'.lookup k ≠ none → k.1.size ≤ pe.size) ∧
    b'.lookup (pe, ep) = some pi := by
  induction fuel with
  | zero => intro pe ep b b' pi h; cases h
  | succ fuel ih =>
    intro pe ep b b' pi h
    obtain ⟨fuel', hf, -, h | h⟩ := buildSegmented_eq_ok h
    · obtain ⟨hl, rfl⟩ := h
      exact ⟨fun _ _ h => h, fun k h1 h2 => absurd h1 h2, hl⟩
    · obtain ⟨hl, b1, hbuild, rfl⟩ := h
      injection hf with hf
      subst hf
      obtain ⟨b2, impl, hR, -, halloc⟩ := build_frame
        (fun b1 b2 => (∀ k v, b1.lookup k = some v → b2.lookup k = some v) ∧
          ∀ k, b1.lookup k = none → b2.lookup k ≠ none → k.1.size < pe.size)
        (fun _ => ⟨fun _ _ h => h, fun k h1 h2 => absurd h1 h2⟩)
        (fun b1 b2 b3 h12 h23 => ⟨fun k v h => h23.1 k v (h12.1 k v h), fun k h1 h3 => by
          cases h2 : b2.lookup k with
          | none => exact h23.2 k h2 h3
          | some v => exact h12.2 k h1 (by rw [h2]; simp)⟩)
        (fun pe' ep' b1 pi1 b2 hop hcall => by
          obtain ⟨h1, h2, -⟩ := ih pe' ep' b1 b2 pi1 hcall
          refine ⟨h1, fun k hk1 hk2 => lt_of_le_of_lt (h2 k hk1 hk2) ?_⟩
          cases pe with
          | link _ _ _ => simp [PathExpression.operands] at hop
          | and _ _ lhs rhs =>
            simp only [PathExpression.operands, List.mem_cons, List.mem_singleton,
              List.not_mem_nil, or_false] at hop
            rcases hop with rfl | rfl <;> simp only [PathExpression.size] <;> omega
          | or _ _ lhs rhs =>
            simp only [PathExpression.operands, List.mem_cons, List.mem_singleton,
              List.not_mem_nil, or_false] at hop
            rcases hop with rfl | rfl <;> simp only [PathExpression.size] <;> omega)
        hbuild
      have hkeep : ∀ k v, b.lookup k = some v → b1.lookup k = some v := by
        intro k v hk
        rw [lookup_alloc halloc]
        exact hR.1 k v hk
      have hnew : ∀ k, b.lookup k = none → b1.lookup k ≠ none → k.1.size < pe.size := by
        intro k hk1 hk2
        rw [lookup_alloc halloc] at hk2
        exact hR.2 k hk1 hk2
      have hself : b1.lookup (pe, ep) = none := by
        cases hs : b1.lookup (pe, ep) with
        | none => rfl
        | some v =>
          have := hnew (pe, ep) hl (by rw [hs]; simp)
          exact absurd this (Nat.lt_irrefl _)
      refine ⟨fun k v hk => lookup_memoInsert_of_some (hkeep k v hk), ?_,
        lookup_memoInsert_self hself⟩
      intro k hk1 hk2
      by_cases hkey : k = (pe, ep)
      · subst hkey; exact Nat.le_refl _
      · rw [lookup_memoInsert_of_ne hkey] at hk2
        exact Nat.le_of_lt (hnew k hk1 hk2)

theorem later_lookup {b b' : PathIndexBuilder} (h : PathIndexBuilder.Later b b')
    {k : PathExpression × Nat} {v : PathIndex} (hk : b.lookup k = some v) :
    b'.lookup k = some v := by
  induction h with
  | refl => exact hk
  | step _ hcall ih => exact (buildSegmented_memo _ _ _ _ _ _ hcall).1 k v ih

/-- C10. Memoization: once `buildSegmented(pe, s)` has returned an index on a
builder, every later call `buildSegmented(pe', s)` on that builder with `pe'`
structurally equal to `pe` returns the same `PathIndex`, with the same address
(the cached object, not a copy), and leaves the builder, its memo map
included, as it was. -/
theorem memoized_instance (b b1 b2 : PathIndexBuilder) (fuel fuel' : Nat)
    (pe pe' : PathExpression) (s : Nat) (pi : PathIndex)
    (h : buildSegmented fuel pe s b = .ok (pi, b1)) (hlater : PathIndexBuilder.Later b1 b2)
    (heq : pe' = pe) :
    buildSegmented (fuel' + 1) pe' s b2 = .ok (pi, b2) := by
  subst heq
  obtain ⟨-, -, hl⟩ := buildSegmented_memo _ _ _ _ _ _ h
  obtain ⟨_, _, hbound, -⟩ := buildSegmented_eq_ok h
  have hl2 := later_lookup hlater hl
  simp only [buildSegmented, hbound, if_true, hl2]

/-- Memoization at work: `vev` is built, then `vev2`, then `vev` is asked for
again and the object at address 2 comes back. -/
theorem memoized_instance_witness :
    ∃ pi b1 pi2 b2,
      buildSegmented 2 Scenario.vev 0 PathIndexBuilder.empty = .ok (pi, b1) ∧
      buildSegmented 2 Scenario.vev2 0 b1 = .ok (pi2, b2) ∧
      buildSegmented 1 Scenario.vev 0 b2 = .ok (pi, b2) ∧ pi.ptr = 2 ∧ pi2.ptr = 5 :=
  ⟨_, _, _, _, rfl, rfl,
    memoized_instance PathIndexBuilder.empty _ _ 2 0 Scenario.vev Scenario.vev 0 _ rfl
      (@PathIndexBuilder.Later.step _ _ _ 2 Scenario.vev2 0 _
        (PathIndexBuilder.Later.refl _) rfl) rfl,
    rfl, rfl⟩

/-! ## Failures of `buildSegmented` -/

/-- C11. `buildSegmented` fails with the signal of a failed `iassert`
(precondition violation) for every path expression that is not bound, whatever
the source endpoint and whatever the memo map holds, also an entry for this
very key: the bound check comes before the memo lookup.  No call returns an
index for such an expression, so no memo entry is made for it. -/
theorem unbound_fails (pe : PathExpression) (sourceEndpoint : Nat) (b : PathIndexBuilder)
    (h : pe.isBound = false) :
    (∀ fuel, buildSegmented (fuel + 1) pe sourceEndpoint b = .error .assertion) ∧
    ∀ fuel r, buildSegmented fuel pe sourceEndpoint b ≠ .ok r := by
  have h1 : ∀ fuel, buildSegmented (fuel + 1) pe sourceEndpoint b = .error .assertion := by
    intro fuel
    simp [buildSegmented, h]
  refine ⟨h1, ?_⟩
  intro fuel r
  cases fuel with
  | zero => simp [buildSegmented]
  | succ fuel => rw [h1 fuel]; simp

/-- The unbound link fails although the memo map has an entry for it. -/
theorem unbound_fails_witness :
    Unbound.builder.lookup (Unbound.expr, 0) = some ⟨0, .setEndpoint ⟨Scenario.E⟩⟩ ∧
    (∀ fuel, buildSegmented (fuel + 1) Unbound.expr 0 Unbound.builder = .error .assertion) ∧
    ∀ fuel r, buildSegmented fuel Unbound.expr 0 Unbound.builder ≠ .ok r :=
  ⟨rfl, unbound_fails Unbound.expr 0 Unbound.builder rfl⟩

/-- C12 as stated fails: an `And` with three free variables and an `Or` with
two quantified variables end with the signal of a failed `iassert`, which is
not the unsupported signal. -/
theorem connective_shape_counterexample :
    buildSegmented 1 Unsupported.threeFree 0 PathIndexBuilder.empty = .error .assertion ∧
    buildSegmented 1 Unsupported.twoQuantified 0 PathIndexBuilder.empty = .error .assertion ∧
    Error.assertion ≠ Error.unsupported :=
  ⟨rfl, rfl, by decide⟩

theorem build_shape_fails
    (builderBuildSegmented : PathExpression → Nat → PathIndexBuilder → Built)
    (freeVars : List Var) (quantifiedVars : List QuantifiedVar) (lhs rhs : PathExpression)
    (b : PathIndexBuilder) (h : freeVars.length ≠ 2 ∨ 2 ≤ quantifiedVars.length) :
    build builderBuildSegmented (.and freeVars quantifiedVars lhs rhs) b = .error .assertion ∧
    build builderBuildSegmented (.or freeVars quantifiedVars lhs rhs) b = .error .assertion := by
  simp only [build]
  by_cases hfv : freeVars.length = 2
  · have hq : 2 ≤ quantifiedVars.length := by
      rcases h with h | h
      · exact absurd hfv h
      · exact h
    match freeVars, hfv with
    | [fv0, fv1], _ =>
      match quantifiedVars, hq with
      | q0 :: q1 :: qs, _ =>
        constructor <;> simp [visitAnd, visitOr, isQuantified]
  · match freeVars, hfv with
    | [], _ => exact ⟨rfl, rfl⟩
    | [_], _ => exact ⟨rfl, rfl⟩
    | [_, _], hfv => exact absurd rfl hfv
    | _ :: _ :: _ :: _, _ => exact ⟨rfl, rfl⟩

theorem buildSegmented_error_of_build {fuel : Nat} {pe : PathExpression} {ep : Nat}
    {b : PathIndexBuilder} (hmemo : b.lookup (pe, ep) = none)
    (h : build (buildSegmented fuel) pe b = .error .assertion) :
    buildSegmented (fuel + 1) pe ep b = .error .assertion := by
  simp only [buildSegmented, hmemo, h, bind, Except.bind]
  split <;> rfl

/-- C12, amended. Building an index for an `And` or an `Or` fails with the
signal of a failed `iassert` whenever the expression does not have exactly two
free variables, and, when it has two and is quantified, whenever it does not
have exactly one quantified variable; no index is produced in either case:
the visitor fails, and so does every call of `buildSegmented` that does not
find the expression in the memo map. -/
theorem connective_shape_fails (freeVars : List Var) (quantifiedVars : List QuantifiedVar)
    (lhs rhs : PathExpression) (fuel sourceEndpoint : Nat) (b : PathIndexBuilder)
    (h : freeVars.length ≠ 2 ∨ 2 ≤ quantifiedVars.length)
    (hand : b.lookup (.and freeVars quantifiedVars lhs rhs, sourceEndpoint) = none)
    (hor : b.lookup (.or freeVars quantifiedVars lhs rhs, sourceEndpoint) = none) :
    build (buildSegmented fuel) (.and freeVars quantifiedVars lhs rhs) b = .error .assertion ∧
    build (buildSegmented fuel) (.or freeVars quantifiedVars lhs rhs) b = .error .assertion ∧
    buildSegmented (fuel + 1) (.and freeVars quantifiedVars lhs rhs) sourceEndpoint b =
      .error .assertion ∧
    buildSegmented (fuel + 1) (.or freeVars quantifiedVars lhs rhs) sourceEndpoint b =
      .error .assertion := by
  obtain ⟨h1, h2⟩ := build_shape_fails (buildSegmented fuel) freeVars quantifiedVars lhs rhs b h
  exact ⟨h1, h2, buildSegmented_error_of_build hand h1, buildSegmented_error_of_build hor h2⟩

/-- The shapes at work on a new builder: three free variables, and two
quantified variables. -/
theorem connective_shape_fails_witness :
    (build (buildSegmented 0) Unsupported.threeFree PathIndexBuilder.empty = .error .assertion ∧
      build (buildSegmented 0)
        (.or [Scenario.vi, Scenario.vj, Scenario.vi] [] Scenario.vev Scenario.vev)
        PathIndexBuilder.empty = .error .assertion ∧
      buildSegmented 1 Unsupported.threeFree 0 PathIndexBuilder.empty = .error .assertion ∧
      buildSegmented 1
        (.or [Scenario.vi, Scenario.vj, Scenario.vi] [] Scenario.vev Scenario.vev) 0
        PathIndexBuilder.empty = .error .assertion) ∧
    (build (buildSegmented 0)
        (.and [Scenario.vi, Scenario.vj] [⟨Scenario.e⟩, ⟨Scenario.e2⟩] Scenario.ve Scenario.ev)
        PathIndexBuilder.empty = .error .assertion ∧
      build (buildSegmented 0) Unsupported.twoQuantified PathIndexBuilder.empty =
        .error .assertion ∧
      buildSegmented 1
        (.and [Scenario.vi, Scenario.vj] [⟨Scenario.e⟩, ⟨Scenario.e2⟩] Scenario.ve Scenario.ev) 0
        PathIndexBuilder.empty = .error .assertion ∧
      buildSegmented 1 Unsupported.twoQuantified 0 PathIndexBuilder.empty = .error .assertion) :=
  ⟨connective_shape_fails [Scenario.vi, Scenario.vj, Scenario.vi] [] Scenario.vev Scenario.vev
      0 0 PathIndexBuilder.empty (Or.inl (by decide)) rfl rfl,
    connective_shape_fails [Scenario.vi, Scenario.vj] [⟨Scenario.e⟩, ⟨Scenario.e2⟩] Scenario.ve
      Scenario.ev 0 0 PathIndexBuilder.empty (Or.inr (by decide)) rfl rfl⟩

/-- C13 as stated fails: the `ev` index of the edge set `{(0,1), (0,1), (1,0)}`
enumerates the neighbors of edge 2 as `[1, 0]`, which is not ascending. -/
theorem neighbors_ascending_counterexample :
    ∃ pi b', buildSegmented 1 SinkFirst.ev 0 PathIndexBuilder.empty = .ok (pi, b') ∧
      2 < pi.numElements ∧ pi.neighbors 2 = .ok [1, 0] ∧ ¬ [1, 0].Sorted (· < ·) :=
  ⟨_, _, rfl, by decide, rfl, by decide⟩

/-- C13, amended. For every `PathIndex` returned by `buildSegmented` and every
element id below `numElements`, `neighbors` can be read; a segmented index
enumerates the neighbor ids in ascending order without duplicates, an endpoint
view enumerates the endpoint ids of the edge in their stored order. -/
theorem neighbors_order (b : PathIndexBuilder) (hb : b.Reachable) (fuel : Nat)
    (pe : PathExpression) (sourceEndpoint : Nat) (pi : PathIndex) (b' : PathIndexBuilder)
    (h : buildSegmented fuel pe sourceEndpoint b = .ok (pi, b')) :
    ∀ x < pi.numElements, ∃ l, pi.neighbors x = .ok l ∧
      (∀ idx, pi.impl = .segmented idx → l.Sorted (· < ·)) ∧
      (∀ view, pi.impl = .setEndpoint view → l = view.edgeSet.getEndpoints x) := by
  have hv := (buildSegmented_valid fuel pe sourceEndpoint b b' pi (reachable_memoValid hb) h).2
  intro x hx
  unfold PathIndex.neighbors
  unfold PathIndex.numElements at hx
  cases himpl : pi.impl with
  | setEndpoint view =>
    rw [himpl] at hx
    have hx : x < view.edgeSet.getSize := hx
    refine ⟨view.edgeSet.getEndpoints x, ?_, ?_, ?_⟩
    · simp only [SetEndpointPathIndex.neighbors]; rw [if_pos hx]
    · intro idx hidx; cases hidx
    · intro view' hview; injection hview with hview; rw [hview]
  | segmented idx =>
    rw [himpl] at hx hv
    have hx : x < idx.numElems := hx
    obtain ⟨l, hl, hsorted⟩ := SegmentedPathIndex.Valid.ascending hv x hx
    exact ⟨l, hl, fun _ _ => hsorted, fun view hview => by cases hview⟩

/-- The order of the neighbors in the two indices of the scenario of the
specification. -/
theorem neighbors_order_witness :
    (∃ pi b', buildSegmented 1 Scenario.ve 0 PathIndexBuilder.empty = .ok (pi, b') ∧
      ∀ x < pi.numElements, ∃ l, pi.neighbors x = .ok l ∧
        (∀ idx, pi.impl = .segmented idx → l.Sorted (· < ·)) ∧
        (∀ view, pi.impl = .setEndpoint view → l = view.edgeSet.getEndpoints x)) ∧
    (∃ pi b', buildSegmented 1 SinkFirst.ev 0 PathIndexBuilder.empty = .ok (pi, b') ∧
      ∀ x < pi.numElements, ∃ l, pi.neighbors x = .ok l ∧
        (∀ idx, pi.impl = .segmented idx → l.Sorted (· < ·)) ∧
        (∀ view, pi.impl = .setEndpoint view → l = view.edgeSet.getEndpoints x)) :=
  ⟨⟨_, _, rfl, neighbors_order PathIndexBuilder.empty (PathIndexBuilder.Later.refl _) 1
      Scenario.ve 0 _ _ rfl⟩,
    ⟨_, _, rfl, neighbors_order PathIndexBuilder.empty (PathIndexBuilder.Later.refl _) 1
      SinkFirst.ev 0 _ _ rfl⟩⟩

namespace ir

/-! ## Facts about lowering -/

mutual
theorem Expr.beq_refl : ∀ e : Expr, e.beq e = true
  | .Literal t d => by
    show (t == t && d == d) = true
    simp
  | .VarExpr v => by
    show (v == v) = true
    simp
  | .TensorRead t i => by
    show (Expr.beq t t && Expr.beqList i i) = true
    rw [Expr.beq_refl t, Expr.beqList_refl i]; rfl
  | .IndexedTensor t i => by
    show (Expr.beq t t && i == i) = true
    rw [Expr.beq_refl t]; simp
  | .IndexExpr r v => by
    show (r == r && Expr.beq v v) = true
    rw [Expr.beq_refl v]; simp
  | .Load b i => by
    show (Expr.beq b b && Expr.beq i i) = true
    rw [Expr.beq_refl b, Expr.beq_refl i]; rfl
  | .Neg a => by
    show Expr.beq a a = true
    exact Expr.beq_refl a
  | .Add a b => by
    show (Expr.beq a a && Expr.beq b b) = true
    rw [Expr.beq_refl a, Expr.beq_refl b]; rfl
  | .Sub a b => by
    show (Expr.beq a a && Expr.beq b b) = true
    rw [Expr.beq_refl a, Expr.beq_refl b]; rfl
  | .Mul a b => by
    show (Expr.beq a a && Expr.beq b b) = true
    rw [Expr.beq_refl a, Expr.beq_refl b]; rfl
  | .Div a b => by
    show (Expr.beq a a && Expr.beq b b) = true
    rw [Expr.beq_refl a, Expr.beq_refl b]; rfl
theorem Expr.beqList_refl : ∀ es : List Expr, Expr.beqList es es = true
  | [] => rfl
  | e :: es => by
    show (Expr.beq e e && Expr.beqList es es) = true
    rw [Expr.beq_refl e, Expr.beqList_refl es]; rfl
end

theorem Stmt.beq_same (s : Stmt) : s.beq s = true := by
  induction s with
  | AssignStmt v e =>
    show (v == v && e.beq e) = true
    rw [Expr.beq_refl]; simp
  | FieldWrite s f e =>
    show (s.beq s && f == f && e.beq e) = true
    rw [Expr.beq_refl, Expr.beq_refl]; simp
  | TensorWrite t i e =>
    show (t.beq t && Expr.beqList i i && e.beq e) = true
    rw [Expr.beq_refl, Expr.beq_refl, Expr.beqList_refl]; rfl
  | Store b i e =>
    show (b.beq b && i.beq i && e.beq e) = true
    rw [Expr.beq_refl, Expr.beq_refl, Expr.beq_refl]; rfl
  | For v d s ih =>
    show (v == v && d == d && Stmt.beq s s) = true
    rw [ih]; simp
  | Block a b iha ihb =>
    show (Stmt.beq a a && Stmt.beq b b) = true
    rw [iha, ihb]; rfl
  | Pass => rfl

theorem LoopVars.getVar_single (i : IndexVar) :
    LoopVars.getVar (LoopVars.create ⟨[(⟨i⟩, none)]⟩) i = .ok ⟨i.getName, Int⟩ := by
  simp [LoopVars.create, LoopVars.visit, LoopVars.assign, LoopVars.getVar]

theorem LoopVars.getVars_covers (lvs : LoopVars) :
    ∀ ivs : List IndexVar, lvs.Covers ivs →
      ∃ indices, lvs.getVars ivs = .ok indices ∧
        List.Forall₂ (fun iv e => ∃ var, lvs.getVar iv = .ok var ∧ e = Expr.VarExpr var)
          ivs indices
  | [], _ => ⟨[], rfl, List.Forall₂.nil⟩
  | iv :: ivs, h => by
    obtain ⟨var, hvar⟩ := h iv (List.mem_cons_self _ _)
    obtain ⟨rest, hrest, hall⟩ :=
      LoopVars.getVars_covers lvs ivs (fun iv' hiv' => h iv' (List.mem_cons_of_mem _ hiv'))
    refine ⟨Expr.VarExpr var :: rest, ?_, List.Forall₂.cons ⟨var, hvar, rfl⟩ hall⟩
    simp [LoopVars.getVars, hvar, hrest, bind, Except.bind]

theorem LoopVars.getVars_error (lvs : LoopVars) :
    ∀ (ivs : List IndexVar) (err : Error), lvs.getVars ivs = .error err → err = .outOfRange
  | [], err, h => by simp [LoopVars.getVars] at h
  | iv :: ivs, err, h => by
    simp only [LoopVars.getVars, bind, Except.bind] at h
    cases hv : lvs.getVar iv with
    | error e =>
      rw [hv] at h
      simp only [LoopVars.getVar] at hv
      split at hv
      · cases hv
      · injection hv with hv; injection h with h; rw [← h, ← hv]
    | ok var =>
      rw [hv] at h
      cases hr : lvs.getVars ivs with
      | error e =>
        rw [hr] at h
        injection h with h
        rw [← h]
        exact LoopVars.getVars_error lvs ivs e hr
      | ok r => rw [hr] at h; cases h

mutual
theorem LowerIndexExpressions.mutateExpr_eq : ∀ e : Expr,
    LowerIndexExpressions.mutateExpr e = if e.hasIndexExpr then .error .assertion else .ok e
  | .IndexExpr _ _ => by simp [LowerIndexExpressions.mutateExpr, Expr.hasIndexExpr]
  | .Literal _ _ => by simp [LowerIndexExpressions.mutateExpr, Expr.hasIndexExpr]
  | .VarExpr _ => by simp [LowerIndexExpressions.mutateExpr, Expr.hasIndexExpr]
  | .TensorRead t i => by
    simp only [LowerIndexExpressions.mutateExpr, Expr.hasIndexExpr,
      LowerIndexExpressions.mutateExpr_eq t, LowerIndexExpressions.mutateExprs_eq i]
    by_cases h1 : t.hasIndexExpr = true <;> by_cases h2 : Expr.hasIndexExprs i = true <;>
      simp [h1, h2, bind, Except.bind]
  | .IndexedTensor t _ => by
    simp only [LowerIndexExpressions.mutateExpr, Expr.hasIndexExpr,
      LowerIndexExpressions.mutateExpr_eq t]
    by_cases h1 : t.hasIndexExpr = true <;> simp [h1, bind, Except.bind]
  | .Load a b => by
    simp only [LowerIndexExpressions.mutateExpr, Expr.hasIndexExpr,
      LowerIndexExpressions.mutateExpr_eq a, LowerIndexExpressions.mutateExpr_eq b]
    by_cases h1 : a.hasIndexExpr = true <;> by_cases h2 : b.hasIndexExpr = true <;>
      simp [h1, h2, bind, Except.bind]
  | .Neg a => by
    simp only [LowerIndexExpressions.mutateExpr, Expr.hasIndexExpr,
      LowerIndexExpressions.mutateExpr_eq a]
    by_cases h1 : a.hasIndexExpr = true <;> simp [h1, bind, Except.bind]
  | .Add a b => by
    simp only [LowerIndexExpressions.mutateExpr, Expr.hasIndexExpr,
      LowerIndexExpressions.mutateExpr_eq a, LowerIndexExpressions.mutateExpr_eq b]
    by_cases h1 : a.hasIndexExpr = true <;> by_cases h2 : b.hasIndexExpr = true <;>
      simp [h1, h2, bind, Except.bind]
  | .Sub a b => by
    simp only [LowerIndexExpressions.mutateExpr, Expr.hasIndexExpr,
      LowerIndexExpressions.mutateExpr_eq a, LowerIndexExpressions.mutateExpr_eq b]
    by_cases h1 : a.hasIndexExpr = true <;> by_cases h2 : b.hasIndexExpr = true <;>
      simp [h1, h2, bind, Except.bind]
  | .Mul a b => by
    simp only [LowerIndexExpressions.mutateExpr, Expr.hasIndexExpr,
      LowerIndexExpressions.mutateExpr_eq a, LowerIndexExpressions.mutateExpr_eq b]
    by_cases h1 : a.hasIndexExpr = true <;> by_cases h2 : b.hasIndexExpr = true <;>
      simp [h1, h2, bind, Except.bind]
  | .Div a b => by
    simp only [LowerIndexExpressions.mutateExpr, Expr.hasIndexExpr,
      LowerIndexExpressions.mutateExpr_eq a, LowerIndexExpressions.mutateExpr_eq b]
    by_cases h1 : a.hasIndexExpr = true <;> by_cases h2 : b.hasIndexExpr = true <;>
      simp [h1, h2, bind, Except.bind]
theorem LowerIndexExpressions.mutateExprs_eq : ∀ es : List Expr,
    LowerIndexExpressions.mutateExprs es
      = if Expr.hasIndexExprs es then .error .assertion else .ok es
  | [] => by simp [LowerIndexExpressions.mutateExprs, Expr.hasIndexExprs]
  | e :: es => by
    simp only [LowerIndexExpressions.mutateExprs, Expr.hasIndexExprs,
      LowerIndexExpressions.mutateExpr_eq e, LowerIndexExpressions.mutateExprs_eq es]
    by_cases h1 : e.hasIndexExpr = true <;> by_cases h2 : Expr.hasIndexExprs es = true <;>
      simp [h1, h2, bind, Except.bind]
end

theorem LoopVars.covers_append (lvs : LoopVars) (l₁ l₂ : List IndexVar) :
    lvs.Covers (l₁ ++ l₂) ↔ lvs.Covers l₁ ∧ lvs.Covers l₂ := by
  simp [LoopVars.Covers, List.mem_append, or_imp, forall_and]

mutual
theorem SpecializeIndexExprStmt.mutateExpr_nested (lvs : LoopVars) : ∀ e : Expr,
    e.hasNestedIndexExpr = true → ∃ err, SpecializeIndexExprStmt.mutateExpr lvs e = .error err
  | .IndexedTensor t ivs, h => by
    simp only [Expr.hasNestedIndexExpr, Bool.not_eq_true'] at h
    simp only [SpecializeIndexExprStmt.mutateExpr, h, Bool.false_eq_true, if_false, bind,
      Except.bind]
    cases SpecializeIndexExprStmt.mutateExpr lvs t <;> simp
  | .IndexExpr _ v, h => by
    simp only [Expr.hasNestedIndexExpr] at h
    simpa only [SpecializeIndexExprStmt.mutateExpr] using
      SpecializeIndexExprStmt.mutateExpr_nested lvs v h
  | .Literal _ _, h => by simp [Expr.hasNestedIndexExpr] at h
  | .VarExpr _, h => by simp [Expr.hasNestedIndexExpr] at h
  | .TensorRead t i, h => by
    simp only [Expr.hasNestedIndexExpr, Bool.or_eq_true] at h
    simp only [SpecializeIndexExprStmt.mutateExpr, bind, Except.bind]
    rcases h with h | h
    · obtain ⟨err, he⟩ := SpecializeIndexExprStmt.mutateExpr_nested lvs t h
      simp [he]
    · obtain ⟨err, he⟩ := SpecializeIndexExprStmt.mutateExprs_nested lvs i h
      cases SpecializeIndexExprStmt.mutateExpr lvs t <;> simp [he]
  | .Load a b, h => by
    simp only [Expr.hasNestedIndexExpr, Bool.or_eq_true] at h
    simp only [SpecializeIndexExprStmt.mutateExpr, bind, Except.bind]
    rcases h with h | h
    · obtain ⟨err, he⟩ := SpecializeIndexExprStmt.mutateExpr_nested lvs a h
      simp [he]
    · obtain ⟨err, he⟩ := SpecializeIndexExprStmt.mutateExpr_nested lvs b h
      cases SpecializeIndexExprStmt.mutateExpr lvs a <;> simp [he]
  | .Neg a, h => by
    simp only [Expr.hasNestedIndexExpr] at h
    simp only [SpecializeIndexExprStmt.mutateExpr, bind, Except.bind]
    obtain ⟨err, he⟩ := SpecializeIndexExprStmt.mutateExpr_nested lvs a h
    simp [he]
  | .Add a b, h => by
    simp only [Expr.hasNestedIndexExpr, Bool.or_eq_true] at h
    simp only [SpecializeIndexExprStmt.mutateExpr, bind, Except.bind]
    rcases h with h | h
    · obtain ⟨err, he⟩ := SpecializeIndexExprStmt.mutateExpr_nested lvs a h
      simp [he]
    · obtain ⟨err, he⟩ := SpecializeIndexExprStmt.mutateExpr_nested lvs b h
      cases SpecializeIndexExprStmt.mutateExpr lvs a <;> simp [he]
  | .Sub a b, h => by
    simp only [Expr.hasNestedIndexExpr, Bool.or_eq_true] at h
    simp only [SpecializeIndexExprStmt.mutateExpr, bind, Except.bind]
    rcases h with h | h
    · obtain ⟨err, he⟩ := SpecializeIndexExprStmt.mutateExpr_nested lvs a h
      simp [he]
    · obtain ⟨err, he⟩ := SpecializeIndexExprStmt.mutateExpr_nested lvs b h
      cases SpecializeIndexExprStmt.mutateExpr lvs a <;> simp [he]
  | .Mul a b, h => by
    simp only [Expr.hasNestedIndexExpr, Bool.or_eq_true] at h
    simp only [SpecializeIndexExprStmt.mutateExpr, bind, Except.bind]
    rcases h with h | h
    · obtain ⟨err, he⟩ := SpecializeIndexExprStmt.mutateExpr_nested lvs a h
      simp [he]
    · obtain ⟨err, he⟩ := SpecializeIndexExprStmt.mutateExpr_nested lvs b h
      cases SpecializeIndexExprStmt.mutateExpr lvs a <;> simp [he]
  | .Div a b, h => by
    simp only [Expr.hasNestedIndexExpr, Bool.or_eq_true] at h
    simp only [SpecializeIndexExprStmt.mutateExpr, bind, Except.bind]
    rcases h with h | h
    · obtain ⟨err, he⟩ := SpecializeIndexExprStmt.mutateExpr_nested lvs a h
      simp [he]
    · obtain ⟨err, he⟩ := SpecializeIndexExprStmt.mutateExpr_nested lvs b h
      cases SpecializeIndexExprStmt.mutateExpr lvs a <;> simp [he]
theorem SpecializeIndexExprStmt.mutateExprs_nested (lvs : LoopVars) : ∀ es : List Expr,
    Expr.hasNestedIndexExprs es = true →
      ∃ err, SpecializeIndexExprStmt.mutateExprs lvs es = .error err
  | [], h => by simp [Expr.hasNestedIndexExprs] at h
  | e :: es, h => by
    simp only [Expr.hasNestedIndexExprs, Bool.or_eq_true] at h
    simp only [SpecializeIndexExprStmt.mutateExprs, bind, Except.bind]
    rcases h with h | h
    · obtain ⟨err, he⟩ := SpecializeIndexExprStmt.mutateExpr_nested lvs e h
      simp [he]
    · obtain ⟨err, he⟩ := SpecializeIndexExprStmt.mutateExprs_nested lvs es h
      cases SpecializeIndexExprStmt.mutateExpr lvs e <;> simp [he]
end

mutual
theorem SpecializeIndexExprStmt.mutateExpr_covers (lvs : LoopVars) : ∀ e : Expr,
    lvs.Covers e.indexVars →
      (e.hasNestedIndexExpr = true ∧
          SpecializeIndexExprStmt.mutateExpr lvs e = .error .unsupported) ∨
        (e.hasNestedIndexExpr = false ∧ ∃ r, SpecializeIndexExprStmt.mutateExpr lvs e = .ok r)
  | .IndexedTensor t ivs, h => by
    simp only [Expr.indexVars, LoopVars.covers_append] at h
    simp only [Expr.hasNestedIndexExpr, SpecializeIndexExprStmt.mutateExpr, bind, Except.bind]
    by_cases hv : t.isVarExpr = true
    · right
      simp only [hv, if_true, Bool.not_true, true_and]
      by_cases hl : ivs.length = 0
      · simp [hl]
      · obtain ⟨indices, hi, -⟩ := LoopVars.getVars_covers lvs ivs h.2
        simp [hl, hi]
    · left
      rcases SpecializeIndexExprStmt.mutateExpr_covers lvs t h.1 with ⟨-, h2⟩ | ⟨-, r, h2⟩ <;>
        simp [hv, h2]
  | .IndexExpr _ v, h => by
    simp only [Expr.indexVars] at h
    simpa only [SpecializeIndexExprStmt.mutateExpr, Expr.hasNestedIndexExpr] using
      SpecializeIndexExprStmt.mutateExpr_covers lvs v h
  | .Literal _ _, _ => by simp [Expr.hasNestedIndexExpr, SpecializeIndexExprStmt.mutateExpr]
  | .VarExpr _, _ => by simp [Expr.hasNestedIndexExpr, SpecializeIndexExprStmt.mutateExpr]
  | .TensorRead t i, h => by
    simp only [Expr.indexVars, LoopVars.covers_append] at h
    simp only [Expr.hasNestedIndexExpr, SpecializeIndexExprStmt.mutateExpr, bind, Except.bind]
    rcases SpecializeIndexExprStmt.mutateExpr_covers lvs t h.1 with ⟨h1, h2⟩ | ⟨h1, r, h2⟩ <;>
      rcases SpecializeIndexExprStmt.mutateExprs_covers lvs i h.2 with
        ⟨h3, h4⟩ | ⟨h3, r', h4⟩ <;>
      simp [h1, h2, h3, h4]
  | .Load a b, h => by
    simp only [Expr.indexVars, LoopVars.covers_append] at h
    simp only [Expr.hasNestedIndexExpr, SpecializeIndexExprStmt.mutateExpr, bind, Except.bind]
    rcases SpecializeIndexExprStmt.mutateExpr_covers lvs a h.1 with ⟨h1, h2⟩ | ⟨h1, r, h2⟩ <;>
      rcases SpecializeIndexExprStmt.mutateExpr_covers lvs b h.2 with
        ⟨h3, h4⟩ | ⟨h3, r', h4⟩ <;>
      simp [h1, h2, h3, h4]
  | .Neg a, h => by
    simp only [Expr.indexVars] at h
    simp only [Expr.hasNestedIndexExpr, SpecializeIndexExprStmt.mutateExpr, bind, Except.bind]
    rcases SpecializeIndexExprStmt.mutateExpr_covers lvs a h with ⟨h1, h2⟩ | ⟨h1, r, h2⟩ <;>
      simp [h1, h2]
  | .Add a b, h => by
    simp only [Expr.indexVars, LoopVars.covers_append] at h
    simp only [Expr.hasNestedIndexExpr, SpecializeIndexExprStmt.mutateExpr, bind, Except.bind]
    rcases SpecializeIndexExprStmt.mutateExpr_covers lvs a h.1 with ⟨h1, h2⟩ | ⟨h1, r, h2⟩ <;>
      rcases SpecializeIndexExprStmt.mutateExpr_covers lvs b h.2 with
        ⟨h3, h4⟩ | ⟨h3, r', h4⟩ <;>
      simp [h1, h2, h3, h4]
  | .Sub a b, h => by
    simp only [Expr.indexVars, LoopVars.covers_append] at h
    simp only [Expr.hasNestedIndexExpr, SpecializeIndexExprStmt.mutateExpr, bind, Except.bind]
    rcases SpecializeIndexExprStmt.mutateExpr_covers lvs a h.1 with ⟨h1, h2⟩ | ⟨h1, r, h2⟩ <;>
      rcases SpecializeIndexExprStmt.mutateExpr_covers lvs b h.2 with
        ⟨h3, h4⟩ | ⟨h3, r', h4⟩ <;>
      simp [h1, h2, h3, h4]
  | .Mul a b, h => by
    simp only [Expr.indexVars, LoopVars.covers_append] at h
    simp only [Expr.hasNestedIndexExpr, SpecializeIndexExprStmt.mutateExpr, bind, Except.bind]
    rcases SpecializeIndexExprStmt.mutateExpr_covers lvs a h.1 with ⟨h1, h2⟩ | ⟨h1, r, h2⟩ <;>
      rcases SpecializeIndexExprStmt.mutateExpr_covers lvs b h.2 with
        ⟨h3, h4⟩ | ⟨h3, r', h4⟩ <;>
      simp [h1, h2, h3, h4]
  | .Div a b, h => by
    simp only [Expr.indexVars, LoopVars.covers_append] at h
    simp only [Expr.hasNestedIndexExpr, SpecializeIndexExprStmt.mutateExpr, bind, Except.bind]
    rcases SpecializeIndexExprStmt.mutateExpr_covers lvs a h.1 with ⟨h1, h2⟩ | ⟨h1, r, h2⟩ <;>
      rcases SpecializeIndexExprStmt.mutateExpr_covers lvs b h.2 with
        ⟨h3, h4⟩ | ⟨h3, r', h4⟩ <;>
      simp [h1, h2, h3, h4]
theorem SpecializeIndexExprStmt.mutateExprs_covers (lvs : LoopVars) : ∀ es : List Expr,
    lvs.Covers (Expr.indexVarsList es) →
      (Expr.hasNestedIndexExprs es = true ∧
          SpecializeIndexExprStmt.mutateExprs lvs es = .error .unsupported) ∨
        (Expr.hasNestedIndexExprs es = false ∧
          ∃ r, SpecializeIndexExprStmt.mutateExprs lvs es = .ok r)
  | [], _ => by simp [Expr.hasNestedIndexExprs, SpecializeIndexExprStmt.mutateExprs]
  | e :: es, h => by
    simp only [Expr.indexVarsList, LoopVars.covers_append] at h
    simp only [Expr.hasNestedIndexExprs, SpecializeIndexExprStmt.mutateExprs, bind, Except.bind]
    rcases SpecializeIndexExprStmt.mutateExpr_covers lvs e h.1 with ⟨h1, h2⟩ | ⟨h1, r, h2⟩ <;>
      rcases SpecializeIndexExprStmt.mutateExprs_covers lvs es h.2 with
        ⟨h3, h4⟩ | ⟨h3, r', h4⟩ <;>
      simp [h1, h2, h3, h4]
end

theorem LoopVars.getVar_assign_self (iv : IndexVar) (var : Var) :
    ∀ lvs : LoopVars, LoopVars.getVar (LoopVars.assign iv var lvs) iv = .ok var
  | [] => by simp [LoopVars.assign, LoopVars.getVar]
  | (iv', var') :: rest => by
    have ih := LoopVars.getVar_assign_self iv var rest
    simp only [LoopVars.assign]
    by_cases h : iv = iv'
    · subst h
      simp [LoopVars.getVar]
    · have h' : (iv' == iv) = false := by simpa using fun e => h e.symm
      simp only [h, if_false, LoopVars.getVar, List.find?_cons, h'] at ih ⊢
      exact ih

theorem LoopVars.getVar_assign_other (iv iv' : IndexVar) (var : Var) (h : iv' ≠ iv) :
    ∀ lvs : LoopVars, LoopVars.getVar (LoopVars.assign iv var lvs) iv' = LoopVars.getVar lvs iv'
  | [] => by
    have h' : (iv == iv') = false := by simpa using fun e => h e.symm
    simp [LoopVars.assign, LoopVars.getVar, h']
  | (iv₀, var₀) :: rest => by
    have ih := LoopVars.getVar_assign_other iv iv' var h rest
    simp only [LoopVars.assign]
    by_cases h₀ : iv = iv₀
    · subst h₀
      have h' : (iv == iv') = false := by simpa using fun e => h e.symm
      simp [LoopVars.getVar, h']
    · simp only [h₀, if_false, LoopVars.getVar, List.find?_cons] at ih ⊢
      cases iv₀ == iv'
      · exact ih
      · rfl

theorem LoopVars.getVar_foldl (iv : IndexVar) :
    ∀ (visits : List (SIGVertex × Option SIGEdge)) (lvs : LoopVars),
      LoopVars.getVar (visits.foldl (fun lvs v => LoopVars.visit lvs v.1) lvs) iv =
        if iv ∈ visits.map (fun v => v.1.iv) then .ok ⟨iv.getName, Int⟩
        else LoopVars.getVar lvs iv
  | [], lvs => by simp
  | v :: visits, lvs => by
    rw [List.foldl_cons, LoopVars.getVar_foldl iv visits]
    by_cases hmem : iv ∈ visits.map (fun v => v.1.iv)
    · simp [hmem]
    · by_cases hv : iv = v.1.iv
      · subst hv
        simp [LoopVars.visit, LoopVars.getVar_assign_self]
      · have hv' : ¬ v.1.iv = iv := fun e => hv e.symm
        simp only [hmem, if_false, List.map_cons, List.mem_cons, hv, false_or]
        exact LoopVars.getVar_assign_other _ _ _ hv lvs

theorem LoopVars.getVar_create (sig : SIG) (iv : IndexVar)
    (h : iv ∈ sig.visits.map (fun v => v.1.iv)) :
    LoopVars.getVar (LoopVars.create sig) iv = .ok ⟨iv.getName, Int⟩ := by
  rw [LoopVars.create, LoopVars.getVar_foldl, if_pos h]

theorem LoopVars.getVars_of_getVar (lvs : LoopVars) :
    ∀ ivs : List IndexVar, (∀ iv ∈ ivs, lvs.getVar iv = .ok ⟨iv.getName, Int⟩) →
      lvs.getVars ivs = .ok (ivs.map fun iv => Expr.VarExpr ⟨iv.getName, Int⟩)
  | [], _ => rfl
  | iv :: ivs, h => by
    have h1 := h iv (List.mem_cons_self _ _)
    have h2 := LoopVars.getVars_of_getVar lvs ivs (fun iv' hiv' => h iv' (List.mem_cons_of_mem _ hiv'))
    simp [LoopVars.getVars, h1, h2, bind, Except.bind]

/-- C18: `SpecializeIndexExprStmt` rewrites an indexed tensor over a variable that
is indexed by at least one index variable to a read of the same tensor whose
indices are the loop variables of those index variables, in the same order
(with the loop variables of a SIG: the variables named after the index
variables, of type `Int`), and replaces an indexed tensor over a variable
without index variables by the tensor expression itself. -/
theorem indexed_tensor_specialized (lvs : LoopVars) (var : Var) (indexVars : List IndexVar)
    (h : lvs.Covers indexVars) :
    (indexVars.length = 0 →
      SpecializeIndexExprStmt.mutateExpr lvs (.IndexedTensor (.VarExpr var) indexVars)
        = .ok (.VarExpr var)) ∧
    (1 ≤ indexVars.length →
      ∃ indices,
        SpecializeIndexExprStmt.mutateExpr lvs (.IndexedTensor (.VarExpr var) indexVars)
          = .ok (.TensorRead (.VarExpr var) indices) ∧
        indices.length = indexVars.length ∧
        List.Forall₂ (fun iv e => ∃ loopVar, lvs.getVar iv = .ok loopVar ∧ e = .VarExpr loopVar)
          indexVars indices) ∧
    (∀ sig : SIG, lvs = LoopVars.create sig → 1 ≤ indexVars.length →
      (∀ iv ∈ indexVars, iv ∈ sig.visits.map (fun v => v.1.iv)) →
      SpecializeIndexExprStmt.mutateExpr lvs (.IndexedTensor (.VarExpr var) indexVars)
        = .ok (.TensorRead (.VarExpr var)
            (indexVars.map fun iv => Expr.VarExpr ⟨iv.getName, Int⟩))) := by
  refine ⟨?_, ?_, ?_⟩
  · intro h0
    simp [SpecializeIndexExprStmt.mutateExpr, Expr.isVarExpr, h0]
  · intro h1
    obtain ⟨indices, hi, hall⟩ := LoopVars.getVars_covers lvs indexVars h
    refine ⟨indices, ?_, hall.length_eq.symm, hall⟩
    have h0 : ¬ indexVars.length = 0 := by omega
    simp [SpecializeIndexExprStmt.mutateExpr, Expr.isVarExpr, h0, hi, bind, Except.bind]
  · intro sig hsig h1 hmem
    have h0 : ¬ indexVars.length = 0 := by omega
    have hi := LoopVars.getVars_of_getVar lvs indexVars
      (fun iv hiv => by rw [hsig]; exact LoopVars.getVar_create sig iv (hmem iv hiv))
    simp [SpecializeIndexExprStmt.mutateExpr, Expr.isVarExpr, h0, hi, bind, Except.bind]

/-- Witness of C18: the operand `x(i)` of the scenario `y(i) = x(i) + 1` becomes
the read `x[i]`. -/
theorem indexed_tensor_specialized_witness :
    SpecializeIndexExprStmt.mutateExpr (LoopVars.create Elementwise.sig)
        (.IndexedTensor (.VarExpr Elementwise.x) [Elementwise.i])
      = .ok (.TensorRead (.VarExpr Elementwise.x) [.VarExpr Elementwise.iVar]) :=
  (indexed_tensor_specialized (LoopVars.create Elementwise.sig) Elementwise.x [Elementwise.i]
    (fun iv hiv => ⟨⟨iv.getName, Int⟩,
      LoopVars.getVar_create Elementwise.sig iv (by simpa [Elementwise.sig] using hiv)⟩)).2.2
    Elementwise.sig rfl (by decide) (fun iv hiv => by simpa [Elementwise.sig] using hiv)

theorem LoopBuilder.create_error (env : Collaborators) (indexExpr : Expr) (indexStmt : Stmt)
    (err : Error)
    (h : SpecializeIndexExprStmt.mutateStmt (LoopVars.create (env.sigBuilderCreate indexExpr))
      indexStmt = .error err) :
    LoopBuilder.create env indexExpr indexStmt = .error err := by
  simp [LoopBuilder.create, h, bind, Except.bind]

theorem LoopBuilder.create_ok (env : Collaborators) (indexExpr : Expr) (indexStmt body : Stmt)
    (h : SpecializeIndexExprStmt.mutateStmt (LoopVars.create (env.sigBuilderCreate indexExpr))
      indexStmt = .ok body) :
    LoopBuilder.create env indexExpr indexStmt =
      LoopBuilder.apply env (LoopVars.create (env.sigBuilderCreate indexExpr)) body body
        (env.sigBuilderCreate indexExpr) := by
  simp [LoopBuilder.create, h, bind, Except.bind]

theorem lowerIndexExpressions_assign (env : Collaborators) (name : String)
    (arguments results : List Var) (var : Var) (resultVars : List IndexVar) (value : Expr) :
    lowerIndexExpressions env
        ⟨name, arguments, results, .AssignStmt var (.IndexExpr resultVars value)⟩ =
      (LoopBuilder.create env (.IndexExpr resultVars value)
        (.AssignStmt var (.IndexExpr resultVars value))).map
        (fun body => ⟨name, arguments, results, body⟩) := by
  simp only [lowerIndexExpressions, LowerIndexExpressions.mutateStmt, Expr.isIndexExpr, if_true,
    LowerIndexExpressions.lower, bind, Except.bind, Except.map]

theorem SpecializeIndexExprStmt.mutateStmt_assign (lvs : LoopVars) (var : Var)
    (resultVars : List IndexVar) (value : Expr) :
    SpecializeIndexExprStmt.mutateStmt lvs (.AssignStmt var (.IndexExpr resultVars value)) =
      (SpecializeIndexExprStmt.mutateExpr lvs value).bind fun value =>
        if resultVars.length = 0 then .ok (.AssignStmt var value)
        else (lvs.getVars resultVars).bind fun indices =>
          .ok (.TensorWrite (.VarExpr var) indices value) := by
  simp only [SpecializeIndexExprStmt.mutateStmt, SpecializeIndexExprStmt.mutateExpr, bind]

theorem GetReductionTmpName.visitExprs_vars :
    ∀ (vars : List Var) (name : String),
      GetReductionTmpName.visitExprs name (vars.map Expr.VarExpr)
        = vars.foldl (fun name index => name ++ index.name) name
  | [], _ => rfl
  | v :: vars, name => by
    simp only [List.map_cons, GetReductionTmpName.visitExprs, GetReductionTmpName.visitExpr,
      List.foldl_cons]
    exact GetReductionTmpName.visitExprs_vars vars (name ++ v.name)

theorem GetReductionTmpName.get_vars (tensor : Var) (indices : List Var) :
    GetReductionTmpName.get (.VarExpr tensor) (indices.map Expr.VarExpr)
      = concatNames tensor indices := by
  simp only [GetReductionTmpName.get, GetReductionTmpName.visitExpr, concatNames]
  exact GetReductionTmpName.visitExprs_vars indices _

theorem LoopBuilder.visit_reduce_assign (env : Collaborators) (lvs : LoopVars) (v : SIGVertex)
    (domain : IndexSet) (rest : List IndexSet) (var : Var) (value : Expr)
    (hred : v.iv.isFreeVar = false)
    (hdom : v.iv.getDomain.getIndexSets = domain :: rest)
    (hscalar : isScalarTensor value.type = true) :
    LoopBuilder.visit env lvs (.AssignStmt var value) (.AssignStmt var value) v none =
      match env.defaultReductionOperator.getKind with
      | .Sum => (lvs.getVar v.iv).bind fun loopVar =>
          .ok (.Block (.AssignStmt var (.Literal var.type [0]))
            (.For loopVar domain (.AssignStmt var (.Add (.VarExpr var) value))))
      | .Other _ => .error .assertion := by
  simp only [LoopBuilder.visit, hdom, hred, ReduceOverVar.mutate, Stmt.beq_same, hscalar,
    if_true, Bool.false_eq_true, if_false, bind, Except.bind]
  cases env.defaultReductionOperator.getKind with
  | Sum => cases lvs.getVar v.iv <;> rfl
  | Other tag => rfl

theorem LoopBuilder.visit_reduce_write (env : Collaborators) (lvs : LoopVars) (v : SIGVertex)
    (domain : IndexSet) (rest : List IndexSet) (tensor : Expr) (indices : List Expr)
    (value : Expr) (tensorType : TensorType)
    (hsum : env.defaultReductionOperator.getKind = .Sum)
    (hred : v.iv.isFreeVar = false)
    (hdom : v.iv.getDomain.getIndexSets = domain :: rest)
    (htensor : tensor.type.toTensor = some tensorType) :
    LoopBuilder.visit env lvs (.TensorWrite tensor indices value)
        (.TensorWrite tensor indices value) v none =
      (lvs.getVar v.iv).bind fun loopVar =>
        .ok (.Block
          (.AssignStmt ⟨GetReductionTmpName.get tensor indices,
              .Tensor (TensorType.make tensorType.componentType)⟩
            (.Literal (.Tensor (TensorType.make tensorType.componentType)) [0]))
          (.Block
            (.For loopVar domain
              (.AssignStmt ⟨GetReductionTmpName.get tensor indices,
                  .Tensor (TensorType.make tensorType.componentType)⟩
                (.Add (.VarExpr ⟨GetReductionTmpName.get tensor indices,
                  .Tensor (TensorType.make tensorType.componentType)⟩) value)))
            (.TensorWrite tensor indices (.VarExpr ⟨GetReductionTmpName.get tensor indices,
              .Tensor (TensorType.make tensorType.componentType)⟩)))) := by
  simp only [LoopBuilder.visit, hdom, hred, ReduceOverVar.mutate, Stmt.beq_same, htensor, hsum,
    if_true, Bool.false_eq_true, if_false, bind, Except.bind]

/-- The visit of an unconstrained reduction variable on a tensor write, where
the operator that `ReduceOverVar` reads is no sum: the switch on the kind has
no case for it, and the temporary is read undefined. -/
theorem LoopBuilder.visit_reduce_write_other (env : Collaborators) (lvs : LoopVars)
    (v : SIGVertex) (domain : IndexSet) (rest : List IndexSet) (tensor : Expr)
    (indices : List Expr) (value : Expr) (tensorType : TensorType)
    (hother : env.defaultReductionOperator.getKind ≠ .Sum)
    (hred : v.iv.isFreeVar = false)
    (hdom : v.iv.getDomain.getIndexSets = domain :: rest)
    (htensor : tensor.type.toTensor = some tensorType) :
    LoopBuilder.visit env lvs (.TensorWrite tensor indices value)
        (.TensorWrite tensor indices value) v none = .error .undefinedBehavior := by
  cases hk : env.defaultReductionOperator.getKind with
  | Sum => exact absurd hk hother
  | Other tag =>
    simp only [LoopBuilder.visit, hdom, hred, ReduceOverVar.mutate, Stmt.beq_same, htensor, hk,
      if_true, Bool.false_eq_true, if_false, bind, Except.bind]

/-- Counterexample to C16 as stated: in `c = sum_i sum_j a(i) * b(j)` both `i`
and `j` are unconstrained reduction variables, and the lowering produces no
statement, whatever the order in which the two vertices are visited and
whatever operator `ReduceOverVar` reads: it fails by assertion.  With the
vertex of `j` first and a sum read, the specialized statement is
`c = a[i] * b[j]` and the visit of `j` makes `c = 0` and the loop over `j` with
body `c = c + a[i] * b[j]`; the visit of `i` then finds the specialized
statement nowhere in the statement built so far, the temporary stays undefined,
and the assertion on it fails. -/
theorem reduction_statements_counterexample :
    DoubleSum.i.isFreeVar = false ∧ DoubleSum.j.isFreeVar = false ∧
    (∀ (jFirst : Bool) (kind : ReductionOperator.Kind),
      lowerIndexExpressions (DoubleSum.env jFirst kind) DoubleSum.func = .error .assertion) ∧
    SpecializeIndexExprStmt.mutateStmt (LoopVars.create (DoubleSum.sig true))
      (.AssignStmt DoubleSum.c DoubleSum.expr) = .ok DoubleSum.body ∧
    LoopBuilder.visit (DoubleSum.env true .Sum) (LoopVars.create (DoubleSum.sig true))
      DoubleSum.body DoubleSum.body ⟨DoubleSum.j⟩ none = .ok DoubleSum.inner ∧
    LoopBuilder.visit (DoubleSum.env true .Sum) (LoopVars.create (DoubleSum.sig true))
      DoubleSum.body DoubleSum.inner ⟨DoubleSum.i⟩ none = .error .assertion :=
  ⟨rfl, rfl, fun jFirst kind => by cases jFirst <;> cases kind <;> rfl, rfl, rfl, rfl⟩

/-- C16, amended: for an unconstrained reduction variable that is visited on
the specialized statement itself (no loop has been built around it yet), and
when the operator that `ReduceOverVar` reads is a sum, `LoopBuilder::visit`
emits, in this order, the assignment of the literal 0 to a temporary, one loop
over the first index set of the domain of the variable whose body is
`temporary = temporary + value`, and, exactly when the specialized statement
is a tensor write, the write of the temporary to the written tensor location
after the loop.  For an assignment the temporary is the assigned variable; for
a tensor write it is a scalar variable of the component type of the tensor,
named by the names of the variables of the target, the tensor first and then
the indices.  When the operator that `ReduceOverVar` reads is no sum, the
visit produces no statement. -/
theorem reduction_statements (env : Collaborators) (lvs : LoopVars) (v : SIGVertex)
    (domain : IndexSet) (rest : List IndexSet) (loopVar : Var)
    (hred : v.iv.isFreeVar = false)
    (hdom : v.iv.getDomain.getIndexSets = domain :: rest)
    (hvar : lvs.getVar v.iv = .ok loopVar) :
    (env.defaultReductionOperator.getKind = .Sum →
      (∀ var value, isScalarTensor value.type = true →
        LoopBuilder.visit env lvs (.AssignStmt var value) (.AssignStmt var value) v none =
          .ok (.Block (.AssignStmt var (.Literal var.type [0]))
            (.For loopVar domain (.AssignStmt var (.Add (.VarExpr var) value))))) ∧
      (∀ tensor indices value tensorType tmp, tensor.type.toTensor = some tensorType →
        tmp = (⟨GetReductionTmpName.get tensor indices,
          .Tensor (TensorType.make tensorType.componentType)⟩ : Var) →
        LoopBuilder.visit env lvs (.TensorWrite tensor indices value)
            (.TensorWrite tensor indices value) v none =
          .ok (.Block (.AssignStmt tmp (.Literal tmp.type [0]))
            (.Block (.For loopVar domain (.AssignStmt tmp (.Add (.VarExpr tmp) value)))
              (.TensorWrite tensor indices (.VarExpr tmp)))))) ∧
    (env.defaultReductionOperator.getKind ≠ .Sum →
      (∀ var value, isScalarTensor value.type = true →
        LoopBuilder.visit env lvs (.AssignStmt var value) (.AssignStmt var value) v none =
          .error .assertion) ∧
      (∀ tensor indices value tensorType, tensor.type.toTensor = some tensorType →
        ∃ err, LoopBuilder.visit env lvs (.TensorWrite tensor indices value)
            (.TensorWrite tensor indices value) v none = .error err)) ∧
    (∀ (tensor : Var) (indices : List Var),
      GetReductionTmpName.get (.VarExpr tensor) (indices.map Expr.VarExpr)
        = indices.foldl (fun name index => name ++ index.name) ("" ++ tensor.name)) := by
  refine ⟨?_, ?_, ?_⟩
  · intro hsum
    refine ⟨?_, ?_⟩
    · intro var value hscalar
      rw [LoopBuilder.visit_reduce_assign env lvs v domain rest var value hred hdom hscalar,
        hsum, hvar]
      rfl
    · intro tensor indices value tensorType tmp htensor htmp
      rw [LoopBuilder.visit_reduce_write env lvs v domain rest tensor indices value tensorType
        hsum hred hdom htensor, hvar, htmp]
      rfl
  · intro hother
    refine ⟨?_, ?_⟩
    · intro var value hscalar
      rw [LoopBuilder.visit_reduce_assign env lvs v domain rest var value hred hdom hscalar]
      cases hk : env.defaultReductionOperator.getKind with
      | Sum => exact absurd hk hother
      | Other tag => rfl
    · intro tensor indices value tensorType htensor
      exact ⟨_, LoopBuilder.visit_reduce_write_other env lvs v domain rest tensor indices value
        tensorType hother hred hdom htensor⟩
  · intro tensor indices
    exact GetReductionTmpName.get_vars tensor indices

/-- Witness of C16: in the scenario `y(i) = sum_j A(i,j)` the visit of the
vertex of `j` turns the specialized write `y[i] = A[i,j]` into `yi = 0`, the
loop over `j` with body `yi = yi + A[i,j]`, and the write-back `y[i] = yi`. -/
theorem reduction_statements_witness :
    LoopBuilder.visit RowSum.env (LoopVars.create RowSum.sig) RowSum.body RowSum.body
        ⟨RowSum.j⟩ none =
      .ok (.Block (.AssignStmt RowSum.tmp (.Literal Int [0]))
        (.Block
          (.For RowSum.jVar (.Range 3)
            (.AssignStmt RowSum.tmp (.Add (.VarExpr RowSum.tmp)
              (.TensorRead (.VarExpr RowSum.A) [.VarExpr RowSum.iVar, .VarExpr RowSum.jVar]))))
          (.TensorWrite (.VarExpr RowSum.y) [.VarExpr RowSum.iVar] (.VarExpr RowSum.tmp)))) :=
  ((reduction_statements RowSum.env (LoopVars.create RowSum.sig) ⟨RowSum.j⟩ (.Range 3) []
    RowSum.jVar rfl rfl rfl).1 rfl).2 (.VarExpr RowSum.y) [.VarExpr RowSum.iVar]
    (.TensorRead (.VarExpr RowSum.A) [.VarExpr RowSum.iVar, .VarExpr RowSum.jVar])
    ⟨.Int, [⟨[.Range 2]⟩]⟩ RowSum.tmp rfl (by decide)

theorem lowerIndexExpressions_reduce (env : Collaborators) (name : String)
    (arguments results : List Var) (c A : Var) (i : IndexVar) (domain : IndexSet)
    (rest : List IndexSet)
    (hsig : env.sigBuilderCreate (.IndexExpr [] (.IndexedTensor (.VarExpr A) [i]))
      = ⟨[(⟨i⟩, none)]⟩)
    (hred : i.isFreeVar = false)
    (hdom : i.getDomain.getIndexSets = domain :: rest) :
    lowerIndexExpressions env ⟨name, arguments, results,
        .AssignStmt c (.IndexExpr [] (.IndexedTensor (.VarExpr A) [i]))⟩ =
      match env.defaultReductionOperator.getKind with
      | .Sum => .ok ⟨name, arguments, results,
          .Block (.AssignStmt c (.Literal c.type [0]))
            (.For ⟨i.getName, Int⟩ domain
              (.AssignStmt c (.Add (.VarExpr c)
                (.TensorRead (.VarExpr A) [.VarExpr ⟨i.getName, Int⟩]))))⟩
      | .Other _ => .error .assertion := by
  have hi := LoopVars.getVar_single i
  have hbody : SpecializeIndexExprStmt.mutateStmt (LoopVars.create ⟨[(⟨i⟩, none)]⟩)
      (.AssignStmt c (.IndexExpr [] (.IndexedTensor (.VarExpr A) [i])))
        = .ok (.AssignStmt c (.TensorRead (.VarExpr A) [.VarExpr ⟨i.getName, Int⟩])) := by
    rw [SpecializeIndexExprStmt.mutateStmt_assign]
    simp [SpecializeIndexExprStmt.mutateExpr, Expr.isVarExpr, LoopVars.getVars, hi, Except.bind,
      bind]
  rw [lowerIndexExpressions_assign, LoopBuilder.create_ok env _ _ _ (by rw [hsig]; exact hbody),
    hsig]
  simp only [LoopBuilder.apply, List.foldlM_cons, List.foldlM_nil, bind, Except.bind]
  rw [LoopBuilder.visit_reduce_assign env _ ⟨i⟩ domain rest c
    (.TensorRead (.VarExpr A) [.VarExpr ⟨i.getName, Int⟩]) hred hdom rfl, hi]
  cases env.defaultReductionOperator.getKind <;> rfl

/-- The lowering of `c = reduce_i A(i)`, with `i` an unconstrained
reduction variable, does not depend on the operator that `i` carries: whatever
its kind, the statement `c = 0; for i: c = c + A[i]` of a sum is produced when
the default-constructed operator (the one `ReduceOverVar` reads, its
constructor dropping the operator it is given) is a sum, and the lowering fails
otherwise.  A variable with an operator other than a sum is therefore lowered
as a sum, or the sum is not lowered either. -/
theorem reduction_operator_ignored (env : Collaborators) (name : String)
    (arguments results : List Var) (c A : Var) (ivName : String) (dom : IndexDomain)
    (kind : ReductionOperator.Kind) (domain : IndexSet) (rest : List IndexSet)
    (hsig : env.sigBuilderCreate
        (.IndexExpr [] (.IndexedTensor (.VarExpr A) [⟨ivName, dom, some ⟨kind⟩⟩]))
      = ⟨[(⟨⟨ivName, dom, some ⟨kind⟩⟩⟩, none)]⟩)
    (hdom : dom.getIndexSets = domain :: rest) :
    (⟨ivName, dom, some ⟨kind⟩⟩ : IndexVar).getOperator = some ⟨kind⟩ ∧
    lowerIndexExpressions env ⟨name, arguments, results,
        .AssignStmt c (.IndexExpr [] (.IndexedTensor (.VarExpr A) [⟨ivName, dom, some ⟨kind⟩⟩]))⟩ =
      match env.defaultReductionOperator.getKind with
      | .Sum => .ok ⟨name, arguments, results,
          .Block (.AssignStmt c (.Literal c.type [0]))
            (.For ⟨ivName, Int⟩ domain
              (.AssignStmt c (.Add (.VarExpr c)
                (.TensorRead (.VarExpr A) [.VarExpr ⟨ivName, Int⟩]))))⟩
      | .Other _ => .error .assertion :=
  ⟨rfl, lowerIndexExpressions_reduce env name arguments results c A ⟨ivName, dom, some ⟨kind⟩⟩
    domain rest hsig rfl hdom⟩

/-- In the scenario `c = reduce_i A(i)`, where the default-constructed
operator is a sum, the variable `i` with an operator other than a sum is
lowered to the statement of the sum. -/
theorem reduction_operator_ignored_witness :
    lowerIndexExpressions (Reduction.env (.Other 0)) (Reduction.func (.Other 0))
      = .ok ⟨"f", [Reduction.A], [Reduction.c], Reduction.lowered⟩ :=
  (reduction_operator_ignored (Reduction.env (.Other 0)) "f" [Reduction.A] [Reduction.c]
    Reduction.c Reduction.A "i" ⟨[.Range 3]⟩ (.Other 0) (.Range 3) [] rfl rfl).2

theorem LowerIndexExpressions.mutateStmt_exposes (env : Collaborators) (s : Stmt)
    (h : s.exposesIndexExpr = true) :
    ∃ err, LowerIndexExpressions.mutateStmt env s = .error err := by
  induction s with
  | AssignStmt var value =>
    simp only [Stmt.exposesIndexExpr, Bool.and_eq_true, Bool.not_eq_true'] at h
    simp [LowerIndexExpressions.mutateStmt, h.1, LowerIndexExpressions.mutateExpr_eq, h.2, bind,
      Except.bind]
  | FieldWrite _ _ _ => exact ⟨_, rfl⟩
  | TensorWrite _ _ _ => exact ⟨_, rfl⟩
  | Store b i v =>
    simp only [Stmt.exposesIndexExpr, Bool.or_eq_true] at h
    simp only [LowerIndexExpressions.mutateStmt, LowerIndexExpressions.mutateExpr_eq, bind,
      Except.bind]
    by_cases hb : b.hasIndexExpr = true
    · simp [hb]
    · by_cases hi : i.hasIndexExpr = true
      · simp [hb, hi]
      · have hv : v.hasIndexExpr = true := by tauto
        simp [hb, hi, hv]
  | For var domain body ih =>
    obtain ⟨err, he⟩ := ih (by simpa [Stmt.exposesIndexExpr] using h)
    simp [LowerIndexExpressions.mutateStmt, he, bind, Except.bind]
  | Block first rest ih1 ih2 =>
    simp only [Stmt.exposesIndexExpr, Bool.or_eq_true] at h
    simp only [LowerIndexExpressions.mutateStmt, bind, Except.bind]
    rcases h with h | h
    · obtain ⟨err, he⟩ := ih1 h
      simp [he]
    · obtain ⟨err, he⟩ := ih2 h
      cases LowerIndexExpressions.mutateStmt env first <;> simp [he]
  | Pass => simp [Stmt.exposesIndexExpr] at h

/-- C19, as stated, fails: in the function `c = () (() a) + 1` the index
expression `() a` is an operand of an addition, not the whole right-hand side
of the assignment, and `lowerIndexExpressions` does not fail: it returns
`c = a + 1`. -/
theorem index_expression_placement_counterexample :
    Operand.inner.isIndexExpr = true ∧
    Operand.func.body = .AssignStmt Operand.c (.IndexExpr [] (.Add Operand.inner Operand.one)) ∧
    lowerIndexExpressions Operand.env Operand.func
      = .ok ⟨"f", [Operand.a], [Operand.c],
          .AssignStmt Operand.c (.Add (.VarExpr Operand.a) Operand.one)⟩ :=
  ⟨rfl, rfl, rfl⟩

/-- C19, amended: `lowerIndexExpressions` fails for every function whose body
holds an index expression outside the values that are index expressions
themselves, that is in (but not as) the value of an assignment, or in a write
or a store, also under loops and blocks; an assignment whose value is not an
index expression is not lowered: it fails by assertion when an index
expression occurs in the value and is returned unchanged otherwise; an
assignment whose value is an index expression is handed to the loop
builder. -/
theorem index_expression_placement (env : Collaborators) (name : String)
    (arguments results : List Var) (body : Stmt) (var : Var) (value : Expr)
    (hbody : body.exposesIndexExpr = true) :
    (∀ r, lowerIndexExpressions env ⟨name, arguments, results, body⟩ ≠ .ok r) ∧
    (value.isIndexExpr = false →
      LowerIndexExpressions.mutateStmt env (.AssignStmt var value) =
        if value.hasIndexExpr then .error .assertion else .ok (.AssignStmt var value)) ∧
    (value.isIndexExpr = true →
      LowerIndexExpressions.mutateStmt env (.AssignStmt var value) =
        LoopBuilder.create env value (.AssignStmt var value)) := by
  refine ⟨?_, ?_, ?_⟩
  · intro r hr
    obtain ⟨err, he⟩ := LowerIndexExpressions.mutateStmt_exposes env body hbody
    simp [lowerIndexExpressions, he, bind, Except.bind] at hr
  · intro hv
    simp only [LowerIndexExpressions.mutateStmt, hv, Bool.false_eq_true, if_false,
      LowerIndexExpressions.mutateExpr_eq, bind, Except.bind]
    by_cases h : value.hasIndexExpr = true <;> simp [h]
  · intro hv
    simp [LowerIndexExpressions.mutateStmt, hv, LowerIndexExpressions.lower]

/-- Witness of C19, amended: the function `c = (() a) + 1`, whose value is an
addition with an index expression as an operand, is not lowered, and its
assignment fails by assertion. -/
theorem index_expression_placement_witness :
    (∀ r, lowerIndexExpressions Operand.env Operand.sumFunc ≠ .ok r) ∧
    LowerIndexExpressions.mutateStmt Operand.env
        (.AssignStmt Operand.c (.Add Operand.inner Operand.one)) = .error .assertion :=
  ⟨(index_expression_placement Operand.env "f" [Operand.a] [Operand.c]
      (.AssignStmt Operand.c (.Add Operand.inner Operand.one)) Operand.c
      (.Add Operand.inner Operand.one) rfl).1,
   (index_expression_placement Operand.env "f" [Operand.a] [Operand.c]
      (.AssignStmt Operand.c (.Add Operand.inner Operand.one)) Operand.c
      (.Add Operand.inner Operand.one) rfl).2.1 rfl⟩

/-- C20: the lowering of an assignment whose index expression contains a nested
index expression (an indexed tensor whose tensor is not a plain variable)
returns no statement; when the loop variables of the SIG cover the index
variables of the expression it fails as unsupported. -/
theorem nested_index_expression_fails (env : Collaborators) (name : String)
    (arguments results : List Var) (var : Var) (resultVars : List IndexVar) (value : Expr)
    (h : value.hasNestedIndexExpr = true) :
    (∀ r, lowerIndexExpressions env
        ⟨name, arguments, results, .AssignStmt var (.IndexExpr resultVars value)⟩ ≠ .ok r) ∧
    (∀ lvs r, SpecializeIndexExprStmt.mutateExpr lvs (.IndexExpr resultVars value) ≠ .ok r) ∧
    ((LoopVars.create (env.sigBuilderCreate (.IndexExpr resultVars value))).Covers
        value.indexVars →
      lowerIndexExpressions env
        ⟨name, arguments, results, .AssignStmt var (.IndexExpr resultVars value)⟩
          = .error .unsupported) := by
  refine ⟨?_, ?_, ?_⟩
  · intro r hr
    obtain ⟨err, he⟩ := SpecializeIndexExprStmt.mutateExpr_nested
      (LoopVars.create (env.sigBuilderCreate (.IndexExpr resultVars value))) value h
    have hs : SpecializeIndexExprStmt.mutateStmt
        (LoopVars.create (env.sigBuilderCreate (.IndexExpr resultVars value)))
        (.AssignStmt var (.IndexExpr resultVars value)) = .error err := by
      rw [SpecializeIndexExprStmt.mutateStmt_assign, he]; rfl
    rw [lowerIndexExpressions_assign, LoopBuilder.create_error env _ _ err hs] at hr
    cases hr
  · intro lvs r hr
    obtain ⟨err, he⟩ := SpecializeIndexExprStmt.mutateExpr_nested lvs value h
    rw [SpecializeIndexExprStmt.mutateExpr, he] at hr
    cases hr
  · intro hcov
    rcases SpecializeIndexExprStmt.mutateExpr_covers _ value hcov with ⟨-, he⟩ | ⟨h1, -⟩
    · have hs : SpecializeIndexExprStmt.mutateStmt
          (LoopVars.create (env.sigBuilderCreate (.IndexExpr resultVars value)))
          (.AssignStmt var (.IndexExpr resultVars value)) = .error .unsupported := by
        rw [SpecializeIndexExprStmt.mutateStmt_assign, he]; rfl
      rw [lowerIndexExpressions_assign, LoopBuilder.create_error env _ _ _ hs]
      rfl
    · rw [h] at h1; cases h1

/-- Witness of C20: the assignment `y(j) = ((m) c(m) + b(m))(j)` is not lowered:
the lowering fails as unsupported. -/
theorem nested_index_expression_fails_witness :
    (∀ r, lowerIndexExpressions Nested.env Nested.func ≠ .ok r) ∧
    lowerIndexExpressions Nested.env Nested.func = .error .unsupported :=
  ⟨(nested_index_expression_fails Nested.env "f" [Nested.b, Nested.c] [Nested.y] Nested.y
      [Nested.j] Nested.operand rfl).1,
   (nested_index_expression_fails Nested.env "f" [Nested.b, Nested.c] [Nested.y] Nested.y
      [Nested.j] Nested.operand rfl).2.2 (by
        intro iv hiv
        refine ⟨⟨iv.getName, Int⟩, LoopVars.getVar_create _ iv ?_⟩
        simp only [Nested.operand, Expr.indexVars, List.nil_append, List.mem_append,
          List.mem_singleton] at hiv
        simp only [Nested.env, Collaborators.fixed, Nested.sig, List.map_cons, List.map_nil,
          List.mem_cons, List.mem_singleton]
        tauto)⟩

theorem exec_accumulate (c A iVar : Var) (s : Store) (j : Nat) (values : List ℤ) (acc : ℤ)
    (hc : c ≠ iVar) (hA : s.tensors A = some values) (hacc : s.scalars c = some acc)
    (hj : j < values.length) :
    exec (.AssignStmt c (.Add (.VarExpr c) (.TensorRead (.VarExpr A) [.VarExpr iVar])))
        (s.setScalar iVar j)
      = .ok ((s.setScalar iVar j).setScalar c (acc + values[j])) := by
  simp [exec, eval, evalList, Store.setScalar, hc, hA, hacc, bind, Except.bind,
    List.getElem?_eq_getElem hj]

theorem exec_sum_loop (c A iVar : Var) (values : List ℤ) (hc : c ≠ iVar) (s : Store)
    (hA : s.tensors A = some values) (hacc : s.scalars c = some 0) :
    ∃ s', exec (.For iVar (.Range values.length)
        (.AssignStmt c (.Add (.VarExpr c) (.TensorRead (.VarExpr A) [.VarExpr iVar])))) s
          = .ok s' ∧
      s'.scalars c = some values.sum ∧ s'.iterations = s.iterations + values.length := by
  let f : Store → Nat → Except Error Store := fun s k => do
    let s ← exec (.AssignStmt c (.Add (.VarExpr c) (.TensorRead (.VarExpr A) [.VarExpr iVar])))
      (s.setScalar iVar k)
    .ok s.tick
  let Inv : Nat → Store → Prop := fun j t =>
    t.tensors A = some values ∧ t.scalars c = some (values.take j).sum ∧
      t.iterations = s.iterations + j
  have h0 : Inv 0 s := ⟨hA, by simpa using hacc, rfl⟩
  have hstepEq : ∀ j t, j < values.length → Inv j t →
      ∃ hj : j < values.length, f t j = .ok (((t.setScalar iVar j).setScalar c
        ((values.take j).sum + values[j])).tick) := by
    intro j t hj hinv
    refine ⟨hj, ?_⟩
    simp only [f]
    rw [exec_accumulate c A iVar t j values _ hc hinv.1 hinv.2.1 hj]
    rfl
  have hok : ∀ j t, j < values.length → Inv j t → ∃ t', f t j = .ok t' := by
    intro j t hj hinv
    obtain ⟨_, h⟩ := hstepEq j t hj hinv
    exact ⟨_, h⟩
  have hstep : ∀ j t t', j < values.length → Inv j t → f t j = .ok t' → Inv (j + 1) t' := by
    intro j t t' hj hinv ht
    obtain ⟨_, h⟩ := hstepEq j t hj hinv
    rw [h] at ht
    injection ht with ht
    subst ht
    refine ⟨?_, ?_, ?_⟩
    · simpa [Store.tick, Store.setScalar] using hinv.1
    · simp [Store.tick, Store.setScalar, List.sum_take_succ _ _ hj]
    · simp [Store.tick, Store.setScalar, hinv.2.2, Nat.add_assoc]
  obtain ⟨s', hs'⟩ := foldlM_range_ok f Inv values.length s h0 hok hstep
  have hinv := foldlM_range_inv f Inv values.length s s' h0 hstep hs'
  refine ⟨s', ?_, ?_, hinv.2.2⟩
  · simpa only [exec] using hs'
  · simpa using hinv.2.1

/-- The lowering of a sum, where the operator that `ReduceOverVar` reads is a
sum: with `i` an unconstrained reduction variable over a range of size `N`, the
assignment `c = sum_i A(i)` is lowered to the statement that assigns the
literal 0 to `c` and then runs one counted loop over the range whose body adds
`A[i]` to `c`; executed on a store in which `A` holds `N` values, that statement
ends, performs exactly `N` iterations and leaves `c` equal to the sum of the
values.  Where the operator read is no sum, the lowering fails
(`lowerIndexExpressions_reduce`). -/
theorem reduction_correct (env : Collaborators) (name : String) (arguments results : List Var)
    (c A : Var) (i : IndexVar) (N : Nat) (rest : List IndexSet) (values : List ℤ) (s : Store)
    (hsum : env.defaultReductionOperator.getKind = .Sum)
    (hsig : env.sigBuilderCreate (.IndexExpr [] (.IndexedTensor (.VarExpr A) [i]))
      = ⟨[(⟨i⟩, none)]⟩)
    (hred : i.isFreeVar = false)
    (hdom : i.getDomain.getIndexSets = .Range N :: rest)
    (hc : c ≠ ⟨i.getName, Int⟩)
    (hA : s.tensors A = some values) (hlen : values.length = N) :
    ∃ lowered s',
      lowerIndexExpressions env ⟨name, arguments, results,
          .AssignStmt c (.IndexExpr [] (.IndexedTensor (.VarExpr A) [i]))⟩
        = .ok ⟨name, arguments, results, lowered⟩ ∧
      lowered = .Block (.AssignStmt c (.Literal c.type [0]))
        (.For ⟨i.getName, Int⟩ (.Range N)
          (.AssignStmt c (.Add (.VarExpr c)
            (.TensorRead (.VarExpr A) [.VarExpr ⟨i.getName, Int⟩])))) ∧
      exec lowered s = .ok s' ∧
      s'.scalars c = some values.sum ∧
      s'.iterations = s.iterations + N := by
  have hlow := lowerIndexExpressions_reduce env name arguments results c A i (.Range N) rest
    hsig hred hdom
  rw [hsum] at hlow
  subst hlen
  obtain ⟨s', hs', hsumc, hit⟩ := exec_sum_loop c A ⟨i.getName, Int⟩ values hc
    (s.setScalar c 0) (by simpa [Store.setScalar] using hA) (by simp [Store.setScalar])
  refine ⟨_, s', hlow, rfl, ?_, hsumc, by simpa [Store.setScalar] using hit⟩
  simp only [exec, eval, bind, Except.bind]
  simpa only [exec] using hs'

/-- In the scenario `c = sum_i A(i)` with `A = (5, 7, 11)`, where the
default-constructed operator is a sum, the lowered statement is
`c = 0; For(i, 0..3, c = c + A[i])`, and its execution performs 3 iterations
and leaves `c = 23`. -/
theorem reduction_correct_witness :
    ∃ lowered s',
      lowerIndexExpressions (Reduction.env .Sum) (Reduction.func .Sum)
        = .ok ⟨"f", [Reduction.A], [Reduction.c], lowered⟩ ∧
      lowered = Reduction.lowered ∧
      exec lowered Reduction.store = .ok s' ∧
      s'.scalars Reduction.c = some 23 ∧
      s'.iterations = 3 :=
  reduction_correct (Reduction.env .Sum) "f" [Reduction.A] [Reduction.c] Reduction.c Reduction.A
    (Reduction.i .Sum) 3 [] [5, 7, 11] Reduction.store rfl rfl rfl rfl (by decide)
    (by simp [Reduction.store]) rfl

/-! ## Facts about the lowering of tensor accesses -/

theorem toInt_of_lt (size : Nat) (h : size < 2 ^ 31) : toInt size = size := by
  have h1 : size % 2 ^ 32 = size := Nat.mod_eq_of_lt (by omega)
  unfold toInt
  rw [h1, if_pos h]

theorem LowerTensorAccesses.dimensionLiteral_range (dim1 : IndexDomain) (i : Expr) (size : Nat)
    (hdim : dim1.getIndexSets = [.Range size]) (hsize : size < 2 ^ 31) :
    LowerTensorAccesses.dimensionLiteral dim1 i = .ok (.Literal i.type [(size : ℤ)]) := by
  have h64 : size < 2 ^ 64 - 1 := by omega
  simp only [LowerTensorAccesses.dimensionLiteral, hdim, h64, if_true, toInt_of_lt size hsize]

theorem LowerTensorAccesses.dimensionLiteral_unsupported (dim1 : IndexDomain) (i : Expr)
    (hdim : ∀ size, dim1.getIndexSets ≠ [.Range size]) :
    LowerTensorAccesses.dimensionLiteral dim1 i = .error .unsupported := by
  unfold LowerTensorAccesses.dimensionLiteral
  split
  · rename_i size h
    exact absurd h (hdim size)
  · rfl

theorem LowerTensorAccesses.mutateExpr_read1 (tensor index : Expr) (type : TensorType)
    (htype : tensor.type.toTensor = some type) (horder : type.order = 1) :
    LowerTensorAccesses.mutateExpr (.TensorRead tensor [index]) =
      (LowerTensorAccesses.mutateExpr tensor).bind fun tensor' =>
        (LowerTensorAccesses.mutateExpr index).bind fun index' =>
          .ok (.Load tensor' index') := by
  simp only [LowerTensorAccesses.mutateExpr, LowerTensorAccesses.mutateExprs,
    LowerTensorAccesses.visitTensorRead, Expr.type, IRType.isTensor, htype, horder,
    List.length_singleton, if_true, bind, List.getD_cons_zero]
  rfl

theorem LowerTensorAccesses.mutateExpr_read2 (tensor i j : Expr) (type : TensorType)
    (dim0 dim1 : IndexDomain)
    (htype : tensor.type.toTensor = some type) (hdims : type.dimensions = [dim0, dim1]) :
    LowerTensorAccesses.mutateExpr (.TensorRead tensor [i, j]) =
      (LowerTensorAccesses.mutateExpr tensor).bind fun tensor' =>
        (LowerTensorAccesses.mutateExpr i).bind fun i' =>
          (LowerTensorAccesses.mutateExpr j).bind fun j' =>
            (LowerTensorAccesses.dimensionLiteral dim1 i').bind fun d1 =>
              .ok (.Load tensor' (.Add (.Mul i' d1) j')) := by
  have horder : type.order = 2 := by simp [TensorType.order, hdims]
  simp only [LowerTensorAccesses.mutateExpr, LowerTensorAccesses.mutateExprs,
    LowerTensorAccesses.visitTensorRead, Expr.type, IRType.isTensor, htype, horder, hdims,
    List.length_cons, List.length_singleton, List.length_nil, if_true, bind]
  rfl

theorem LowerTensorAccesses.mutateStmt_write1 (tensor index value : Expr) (type : TensorType)
    (htype : tensor.type.toTensor = some type) (horder : type.order = 1) :
    LowerTensorAccesses.mutateStmt (.TensorWrite tensor [index] value) =
      (LowerTensorAccesses.mutateExpr tensor).bind fun tensor' =>
        (LowerTensorAccesses.mutateExpr index).bind fun index' =>
          (LowerTensorAccesses.mutateExpr value).bind fun value' =>
            .ok (.Store tensor' index' value') := by
  simp only [LowerTensorAccesses.mutateStmt, LowerTensorAccesses.mutateExprs,
    LowerTensorAccesses.visitTensorWrite, htype, horder, List.length_singleton, if_true, bind]
  rfl

theorem LowerTensorAccesses.mutateStmt_write2 (tensor i j value : Expr) (type : TensorType)
    (dim0 dim1 : IndexDomain)
    (htype : tensor.type.toTensor = some type) (hdims : type.dimensions = [dim0, dim1]) :
    LowerTensorAccesses.mutateStmt (.TensorWrite tensor [i, j] value) =
      (LowerTensorAccesses.mutateExpr tensor).bind fun tensor' =>
        (LowerTensorAccesses.mutateExpr i).bind fun i' =>
          (LowerTensorAccesses.mutateExpr j).bind fun j' =>
            (LowerTensorAccesses.dimensionLiteral dim1 i').bind fun d1 =>
              (LowerTensorAccesses.mutateExpr value).bind fun value' =>
                .ok (.Store tensor' (.Add (.Mul i' d1) j') value') := by
  have horder : type.order = 2 := by simp [TensorType.order, hdims]
  simp only [LowerTensorAccesses.mutateStmt, LowerTensorAccesses.mutateExprs,
    LowerTensorAccesses.visitTensorWrite, htype, horder, hdims,
    List.length_cons, List.length_singleton, List.length_nil, if_true, bind]
  rfl

theorem LowerTensorAccesses.visitTensorRead_order_gt (tensor : Expr) (indices : List Expr)
    (mutatedTensor : Except Error Expr) (mutatedIndices : List (Except Error Expr))
    (type : TensorType) (htype : tensor.type.toTensor = some type) (horder : 2 < type.order) :
    LowerTensorAccesses.visitTensorRead tensor indices mutatedTensor mutatedIndices
      = .error .assertion := by
  have h2 : ¬ type.order ≤ 2 := by omega
  simp only [LowerTensorAccesses.visitTensorRead, Expr.type, IRType.isTensor, htype, h2, if_true,
    if_false]
  split <;> rfl

theorem LowerTensorAccesses.visitTensorWrite_order_gt (tensor : Expr) (indices : List Expr)
    (mutatedTensor : Except Error Expr) (mutatedIndices : List (Except Error Expr))
    (mutatedValue : Except Error Expr)
    (type : TensorType) (htype : tensor.type.toTensor = some type) (horder : 2 < type.order) :
    LowerTensorAccesses.visitTensorWrite tensor indices mutatedTensor mutatedIndices mutatedValue
      = .error .assertion := by
  have h2 : ¬ type.order ≤ 2 := by omega
  simp only [LowerTensorAccesses.visitTensorWrite, htype, h2, if_false]
  split <;> rfl

theorem LowerTensorAccesses.visitTensorRead_order_zero (tensor : Expr) (indices : List Expr)
    (mutatedTensor : Except Error Expr) (mutatedIndices : List (Except Error Expr))
    (type : TensorType) (htype : tensor.type.toTensor = some type) (horder : type.order = 0) :
    LowerTensorAccesses.visitTensorRead tensor indices mutatedTensor mutatedIndices =
      if indices.length = 0 then .error .unsupported else .error .assertion := by
  simp only [LowerTensorAccesses.visitTensorRead, Expr.type, IRType.isTensor, htype, horder,
    if_true]
  by_cases h : 0 = indices.length
  · simp [← h]
  · have h' : ¬ indices.length = 0 := fun e => h e.symm
    simp [h, h']

theorem LowerTensorAccesses.visitTensorWrite_order_zero (tensor : Expr) (indices : List Expr)
    (mutatedTensor : Except Error Expr) (mutatedIndices : List (Except Error Expr))
    (mutatedValue : Except Error Expr)
    (type : TensorType) (htype : tensor.type.toTensor = some type) (horder : type.order = 0) :
    LowerTensorAccesses.visitTensorWrite tensor indices mutatedTensor mutatedIndices mutatedValue =
      if indices.length = 0 then .error .unsupported else .error .assertion := by
  simp only [LowerTensorAccesses.visitTensorWrite, htype, horder]
  by_cases h : 0 = indices.length
  · simp [← h]
  · have h' : ¬ indices.length = 0 := fun e => h e.symm
    simp [h, h']

theorem LowerTensorAccesses.visitTensorRead_ok_order (tensor : Expr) (indices : List Expr)
    (mutatedTensor : Except Error Expr) (mutatedIndices : List (Except Error Expr))
    (type : TensorType) (r : Expr) (htype : tensor.type.toTensor = some type)
    (h : LowerTensorAccesses.visitTensorRead tensor indices mutatedTensor mutatedIndices = .ok r) :
    type.order = indices.length ∧ (type.order = 1 ∨ type.order = 2) := by
  by_cases h0 : type.order = 0
  · rw [LowerTensorAccesses.visitTensorRead_order_zero _ _ _ _ type htype h0] at h
    split at h <;> cases h
  · by_cases h2 : 2 < type.order
    · rw [LowerTensorAccesses.visitTensorRead_order_gt _ _ _ _ type htype h2] at h
      cases h
    · refine ⟨?_, by omega⟩
      by_contra hne
      simp [LowerTensorAccesses.visitTensorRead, Expr.type, IRType.isTensor, htype, hne] at h

theorem LowerTensorAccesses.visitTensorWrite_ok_order (tensor : Expr) (indices : List Expr)
    (mutatedTensor : Except Error Expr) (mutatedIndices : List (Except Error Expr))
    (mutatedValue : Except Error Expr)
    (type : TensorType) (r : Stmt) (htype : tensor.type.toTensor = some type)
    (h : LowerTensorAccesses.visitTensorWrite tensor indices mutatedTensor mutatedIndices
      mutatedValue = .ok r) :
    type.order = indices.length ∧ (type.order = 1 ∨ type.order = 2) := by
  by_cases h0 : type.order = 0
  · rw [LowerTensorAccesses.visitTensorWrite_order_zero _ _ _ _ _ type htype h0] at h
    split at h <;> cases h
  · by_cases h2 : 2 < type.order
    · rw [LowerTensorAccesses.visitTensorWrite_order_gt _ _ _ _ _ type htype h2] at h
      cases h
    · refine ⟨?_, by omega⟩
      by_contra hne
      simp [LowerTensorAccesses.visitTensorWrite, htype, hne] at h

theorem foldlM_error_of_mem {σ α : Type} (f : σ → α → Except Error σ) (x : α)
    (hx : ∀ s, ∃ err, f s x = .error err) :
    ∀ (l : List α), x ∈ l → ∀ s0, ∃ err, l.foldlM f s0 = .error err
  | [], h, _ => by cases h
  | y :: l, h, s0 => by
    rw [List.foldlM_cons]
    by_cases hy : x = y
    · subst hy
      obtain ⟨err, he⟩ := hx s0
      exact ⟨err, by rw [he]; rfl⟩
    · have hmem : x ∈ l := by
        rcases List.mem_cons.1 h with h | h
        · exact absurd h hy
        · exact h
      cases hf : f s0 y with
      | error err => exact ⟨err, rfl⟩
      | ok s1 => exact foldlM_error_of_mem f x hx l hmem s1

theorem LoopBuilder.visit_constrained (env : Collaborators) (lvs : LoopVars) (body stmt : Stmt)
    (v : SIGVertex) (edge : SIGEdge) :
    LoopBuilder.visit env lvs body stmt v (some edge) =
      if v.iv.getDomain.getIndexSets = [] then .error .undefinedBehavior
      else .error .unsupported := by
  unfold LoopBuilder.visit
  cases h : v.iv.getDomain.getIndexSets <;> simp

/-- C21: `LoopBuilder::visit` of a vertex that is constrained by a preceding edge
returns no statement, whatever the statement built so far: it fails as
unsupported (the domain of the variable having a first index set).  A SIG walk
that reaches such a vertex therefore returns no statement, and neither does
`LoopBuilder::create`. -/
theorem constrained_vertex_unsupported (env : Collaborators) (lvs : LoopVars)
    (body stmt : Stmt) (v : SIGVertex) (edge : SIGEdge) (sig : SIG)
    (hsig : (v, some edge) ∈ sig.visits) :
    (∀ r, LoopBuilder.visit env lvs body stmt v (some edge) ≠ .ok r) ∧
    (v.iv.getDomain.getIndexSets ≠ [] →
      LoopBuilder.visit env lvs body stmt v (some edge) = .error .unsupported) ∧
    (∀ r, LoopBuilder.apply env lvs body stmt sig ≠ .ok r) ∧
    (∀ indexExpr indexStmt, env.sigBuilderCreate indexExpr = sig →
      ∀ r, LoopBuilder.create env indexExpr indexStmt ≠ .ok r) := by
  have hvisit : ∀ stmt', ∃ err,
      LoopBuilder.visit env lvs body stmt' v (some edge) = .error err := by
    intro stmt'
    rw [LoopBuilder.visit_constrained]
    split
    · exact ⟨_, rfl⟩
    · exact ⟨_, rfl⟩
  have happly : ∀ lvs' body' stmt', ∃ err,
      LoopBuilder.apply env lvs' body' stmt' sig = .error err := by
    intro lvs' body' stmt'
    refine foldlM_error_of_mem (fun stmt v => LoopBuilder.visit env lvs' body' stmt v.1 v.2)
      (v, some edge) ?_ sig.visits hsig stmt'
    intro stmt''
    simp only [LoopBuilder.visit_constrained]
    split
    · exact ⟨_, rfl⟩
    · exact ⟨_, rfl⟩
  refine ⟨?_, ?_, ?_, ?_⟩
  · intro r hr
    obtain ⟨err, he⟩ := hvisit stmt
    rw [he] at hr
    cases hr
  · intro hne
    rw [LoopBuilder.visit_constrained, if_neg hne]
  · intro r hr
    obtain ⟨err, he⟩ := happly lvs body stmt
    rw [he] at hr
    cases hr
  · intro indexExpr indexStmt hcreate r hr
    cases hs : SpecializeIndexExprStmt.mutateStmt
        (LoopVars.create (env.sigBuilderCreate indexExpr)) indexStmt with
    | error err =>
      rw [LoopBuilder.create_error env _ _ err hs] at hr
      cases hr
    | ok body' =>
      rw [LoopBuilder.create_ok env _ _ body' hs, hcreate] at hr
      obtain ⟨err, he⟩ := happly (LoopVars.create sig) body' body'
      rw [he] at hr
      cases hr

/-- Witness of C21: in the scenario `Y(i,j) = A(i,j)` whose SIG reaches the vertex
of `j` through the edge of `A`, the visit of that vertex fails as unsupported
and the loop builder returns no statement. -/
theorem constrained_vertex_unsupported_witness :
    LoopBuilder.visit Constrained.env (LoopVars.create Constrained.sig) .Pass .Pass
        ⟨Constrained.j⟩ (some Constrained.edge) = .error .unsupported ∧
    (∀ r, LoopBuilder.create Constrained.env Constrained.expr
        (.AssignStmt Constrained.Y Constrained.expr) ≠ .ok r) :=
  ⟨(constrained_vertex_unsupported Constrained.env (LoopVars.create Constrained.sig) .Pass .Pass
      ⟨Constrained.j⟩ Constrained.edge Constrained.sig (List.mem_cons_self _ _)).2.1
        (by simp [Constrained.j, IndexVar.getDomain, IndexDomain.getIndexSets]),
   (constrained_vertex_unsupported Constrained.env (LoopVars.create Constrained.sig) .Pass .Pass
      ⟨Constrained.j⟩ Constrained.edge Constrained.sig (List.mem_cons_self _ _)).2.2.2
        Constrained.expr (.AssignStmt Constrained.Y Constrained.expr) rfl⟩

/-- Counterexample to C22 as stated: for the matrix with 2 rows and 2^31
columns the read `T(i,j)` is lowered to `load(T, i * d1 + j)` where the literal
`d1` is -2147483648, the size converted by `static_cast<int>`, not the size
2^31 of the second dimension. -/
theorem order2_read_flattened_counterexample :
    Wide.T31.type.toTensor = some ⟨.Int, [⟨[.Range 2]⟩, ⟨[.Range (2 ^ 31)]⟩]⟩ ∧
    LowerTensorAccesses.mutateExpr
        (.TensorRead (.VarExpr Wide.T31) [.VarExpr Matrix.i, .VarExpr Matrix.j])
      = .ok (.Load (.VarExpr Wide.T31)
          (.Add (.Mul (.VarExpr Matrix.i) (.Literal Int [-2147483648])) (.VarExpr Matrix.j))) ∧
    (-2147483648 : ℤ) ≠ ((2 ^ 31 : Nat) : ℤ) ∧
    toInt (2 ^ 31) = -2147483648 :=
  ⟨rfl, rfl, by decide, rfl⟩

/-- C22, amended: a read of a tensor of order 2 whose second dimension is a
single range of size `d1`, with indices `i` and `j`, is lowered to
`load(T', i' * d1 + j')`, where `T'`, `i'`, `j'` are the lowered tensor and
indices and `d1` is a literal of the type of `i'`: the literal of the size when
the size is one that an `int` holds (below 2^31), and for every size below
`(size_t)(-1)` the literal of the size converted by `static_cast<int>`. -/
theorem order2_read_flattened (tensor i j T' i' j' : Expr) (type : TensorType)
    (dim0 dim1 : IndexDomain) (d1 : Nat)
    (htype : tensor.type.toTensor = some type) (hdims : type.dimensions = [dim0, dim1])
    (hdim1 : dim1.getIndexSets = [.Range d1])
    (hT : LowerTensorAccesses.mutateExpr tensor = .ok T')
    (hi : LowerTensorAccesses.mutateExpr i = .ok i')
    (hj : LowerTensorAccesses.mutateExpr j = .ok j') :
    (d1 < 2 ^ 31 →
      LowerTensorAccesses.mutateExpr (.TensorRead tensor [i, j]) =
        .ok (.Load T' (.Add (.Mul i' (.Literal i'.type [(d1 : ℤ)])) j'))) ∧
    (d1 < 2 ^ 64 - 1 →
      LowerTensorAccesses.mutateExpr (.TensorRead tensor [i, j]) =
        .ok (.Load T' (.Add (.Mul i' (.Literal i'.type [toInt d1])) j'))) := by
  rw [LowerTensorAccesses.mutateExpr_read2 tensor i j type dim0 dim1 htype hdims, hT, hi, hj]
  constructor
  · intro hd1
    rw [Except.bind, Except.bind, Except.bind,
      LowerTensorAccesses.dimensionLiteral_range dim1 i' d1 hdim1 hd1]
    rfl
  · intro hd1
    simp only [Except.bind, LowerTensorAccesses.dimensionLiteral, hdim1, hd1, if_true]

/-- Witness of C22: the read `T(i,j)` of the 2 x 3 matrix `T` is lowered to
`load(T, i * 3 + j)`. -/
theorem order2_read_flattened_witness :
    LowerTensorAccesses.mutateExpr Matrix.read
      = .ok (.Load (.VarExpr Matrix.T)
          (.Add (.Mul (.VarExpr Matrix.i) (.Literal Int [3])) (.VarExpr Matrix.j))) :=
  (order2_read_flattened (.VarExpr Matrix.T) (.VarExpr Matrix.i) (.VarExpr Matrix.j)
    (.VarExpr Matrix.T) (.VarExpr Matrix.i) (.VarExpr Matrix.j) ⟨.Int, [⟨[.Range 2]⟩, ⟨[.Range 3]⟩]⟩
    ⟨[.Range 2]⟩ ⟨[.Range 3]⟩ 3 rfl rfl rfl rfl rfl rfl).1 (by norm_num)

/-- C24: for a tensor of order 1, the read `read(T,i)` is lowered to
`load(T', i')` and the write `write(T,i,v)` to `store(T', i', v')`, where
`T'`, `i'`, `v'` are the lowered tensor, index and value; the index is passed
on as it is lowered, without arithmetic. -/
theorem order1_flattened (tensor index value T' index' value' : Expr) (type : TensorType)
    (htype : tensor.type.toTensor = some type) (horder : type.order = 1)
    (hT : LowerTensorAccesses.mutateExpr tensor = .ok T')
    (hindex : LowerTensorAccesses.mutateExpr index = .ok index')
    (hvalue : LowerTensorAccesses.mutateExpr value = .ok value') :
    LowerTensorAccesses.mutateExpr (.TensorRead tensor [index]) = .ok (.Load T' index') ∧
    LowerTensorAccesses.mutateStmt (.TensorWrite tensor [index] value)
      = .ok (.Store T' index' value') := by
  rw [LowerTensorAccesses.mutateExpr_read1 tensor index type htype horder,
    LowerTensorAccesses.mutateStmt_write1 tensor index value type htype horder, hT, hindex,
    hvalue]
  exact ⟨rfl, rfl⟩

/-- Witness of C24: the read `x(i)` and the write `x(i) = v` of the vector `x`
are lowered to `load(x, i)` and `store(x, i, v)`. -/
theorem order1_flattened_witness :
    LowerTensorAccesses.mutateExpr Vector.read
      = .ok (.Load (.VarExpr Vector.x) (.VarExpr Vector.i)) ∧
    LowerTensorAccesses.mutateStmt Vector.write
      = .ok (.Store (.VarExpr Vector.x) (.VarExpr Vector.i) (.VarExpr Vector.v)) :=
  order1_flattened (.VarExpr Vector.x) (.VarExpr Vector.i) (.VarExpr Vector.v)
    (.VarExpr Vector.x) (.VarExpr Vector.i) (.VarExpr Vector.v) ⟨.Int, [⟨[.Range 4]⟩]⟩
    rfl rfl rfl rfl rfl

/-- C25: the lowering of a read or write of a tensor of order 2 whose second
dimension is not a single range (it has no or several index sets, or its one
index set is not of kind `Range`) produces no load and no store; the lowered
tensor and indices being there, it fails as unsupported. -/
theorem second_dimension_unsupported (tensor i j value : Expr) (type : TensorType)
    (dim0 dim1 : IndexDomain)
    (htype : tensor.type.toTensor = some type) (hdims : type.dimensions = [dim0, dim1])
    (hdim1 : ∀ size, dim1.getIndexSets ≠ [.Range size]) :
    (∀ r, LowerTensorAccesses.mutateExpr (.TensorRead tensor [i, j]) ≠ .ok r) ∧
    (∀ r, LowerTensorAccesses.mutateStmt (.TensorWrite tensor [i, j] value) ≠ .ok r) ∧
    (∀ T' i' j', LowerTensorAccesses.mutateExpr tensor = .ok T' →
      LowerTensorAccesses.mutateExpr i = .ok i' → LowerTensorAccesses.mutateExpr j = .ok j' →
      LowerTensorAccesses.mutateExpr (.TensorRead tensor [i, j]) = .error .unsupported ∧
      LowerTensorAccesses.mutateStmt (.TensorWrite tensor [i, j] value)
        = .error .unsupported) := by
  rw [LowerTensorAccesses.mutateExpr_read2 tensor i j type dim0 dim1 htype hdims,
    LowerTensorAccesses.mutateStmt_write2 tensor i j value type dim0 dim1 htype hdims]
  refine ⟨?_, ?_, ?_⟩
  · intro r hr
    cases hT : LowerTensorAccesses.mutateExpr tensor <;>
      cases hi : LowerTensorAccesses.mutateExpr i <;>
      cases hj : LowerTensorAccesses.mutateExpr j <;>
      simp [hT, hi, hj, Except.bind,
        LowerTensorAccesses.dimensionLiteral_unsupported dim1 _ hdim1] at hr
  · intro r hr
    cases hT : LowerTensorAccesses.mutateExpr tensor <;>
      cases hi : LowerTensorAccesses.mutateExpr i <;>
      cases hj : LowerTensorAccesses.mutateExpr j <;>
      simp [hT, hi, hj, Except.bind,
        LowerTensorAccesses.dimensionLiteral_unsupported dim1 _ hdim1] at hr
  · intro T' i' j' hT hi hj
    simp [hT, hi, hj, Except.bind, LowerTensorAccesses.dimensionLiteral_unsupported dim1 _ hdim1]

/-- Witness of C25: the read `S(i,i)` of a matrix whose second dimension is a
graph set fails as unsupported. -/
theorem second_dimension_unsupported_witness :
    LowerTensorAccesses.mutateExpr Blocked.read = .error .unsupported :=
  ((second_dimension_unsupported (.VarExpr Blocked.S) (.VarExpr Blocked.i) (.VarExpr Blocked.i)
    (.VarExpr Blocked.v) ⟨.Int, [⟨[.Range 2]⟩, ⟨[.Set "V"]⟩]⟩ ⟨[.Range 2]⟩ ⟨[.Set "V"]⟩ rfl rfl
    (by intro size h; simp [IndexDomain.getIndexSets] at h)).2.2
    (.VarExpr Blocked.S) (.VarExpr Blocked.i) (.VarExpr Blocked.i) rfl rfl rfl).1

/-- C26: the lowering of a tensor read or write fails for every tensor of order 0
and of order greater than 2 (order 0 with no index as unsupported, order
greater than 2 by assertion) and produces a load or a store only for a tensor
of order 1 or 2 with as many indices. -/
theorem tensor_order_supported (tensor : Expr) (indices : List Expr) (value : Expr)
    (type : TensorType) (htype : tensor.type.toTensor = some type) :
    (type.order = 0 ∨ 2 < type.order →
      (∃ err, LowerTensorAccesses.mutateExpr (.TensorRead tensor indices) = .error err) ∧
      (∃ err, LowerTensorAccesses.mutateStmt (.TensorWrite tensor indices value)
        = .error err)) ∧
    (∀ r, LowerTensorAccesses.mutateExpr (.TensorRead tensor indices) = .ok r →
      (type.order = 1 ∨ type.order = 2) ∧ type.order = indices.length) ∧
    (∀ r, LowerTensorAccesses.mutateStmt (.TensorWrite tensor indices value) = .ok r →
      (type.order = 1 ∨ type.order = 2) ∧ type.order = indices.length) ∧
    (2 < type.order →
      LowerTensorAccesses.mutateExpr (.TensorRead tensor indices) = .error .assertion ∧
      LowerTensorAccesses.mutateStmt (.TensorWrite tensor indices value) = .error .assertion) ∧
    (type.order = 0 → indices = [] →
      LowerTensorAccesses.mutateExpr (.TensorRead tensor indices) = .error .unsupported ∧
      LowerTensorAccesses.mutateStmt (.TensorWrite tensor indices value)
        = .error .unsupported) := by
  simp only [LowerTensorAccesses.mutateExpr, LowerTensorAccesses.mutateStmt]
  refine ⟨?_, ?_, ?_, ?_, ?_⟩
  · rintro (h | h)
    · rw [LowerTensorAccesses.visitTensorRead_order_zero _ _ _ _ type htype h,
        LowerTensorAccesses.visitTensorWrite_order_zero _ _ _ _ _ type htype h]
      constructor <;> split <;> exact ⟨_, rfl⟩
    · rw [LowerTensorAccesses.visitTensorRead_order_gt _ _ _ _ type htype h,
        LowerTensorAccesses.visitTensorWrite_order_gt _ _ _ _ _ type htype h]
      exact ⟨⟨_, rfl⟩, ⟨_, rfl⟩⟩
  · intro r hr
    obtain ⟨h1, h2⟩ := LowerTensorAccesses.visitTensorRead_ok_order _ _ _ _ type r htype hr
    exact ⟨h2, h1⟩
  · intro r hr
    obtain ⟨h1, h2⟩ := LowerTensorAccesses.visitTensorWrite_ok_order _ _ _ _ _ type r htype hr
    exact ⟨h2, h1⟩
  · intro h
    exact ⟨LowerTensorAccesses.visitTensorRead_order_gt _ _ _ _ type htype h,
      LowerTensorAccesses.visitTensorWrite_order_gt _ _ _ _ _ type htype h⟩
  · intro h hnil
    subst hnil
    rw [LowerTensorAccesses.visitTensorRead_order_zero _ _ _ _ type htype h,
      LowerTensorAccesses.visitTensorWrite_order_zero _ _ _ _ _ type htype h]
    exact ⟨rfl, rfl⟩

/-- Witness of C26: the read and the write of the tensor `C` of order 3 fail, and
so does the read of a scalar. -/
theorem tensor_order_supported_witness :
    ((∃ err, LowerTensorAccesses.mutateExpr Cube.read = .error err) ∧
      (∃ err, LowerTensorAccesses.mutateStmt Cube.write = .error err)) ∧
    ((∃ err, LowerTensorAccesses.mutateExpr Cube.scalarRead = .error err) ∧
      (∃ err, LowerTensorAccesses.mutateStmt Cube.scalarWrite = .error err)) :=
  ⟨(tensor_order_supported (.VarExpr Cube.C) [.VarExpr Cube.i, .VarExpr Cube.i, .VarExpr Cube.i]
      (.VarExpr Cube.v) ⟨.Int, [⟨[.Range 2]⟩, ⟨[.Range 2]⟩, ⟨[.Range 2]⟩]⟩ rfl).1
        (Or.inr (by decide)),
    (tensor_order_supported (.VarExpr Cube.v) [] (.VarExpr Cube.v) ⟨.Int, []⟩ rfl).1
      (Or.inl rfl)⟩

end ir

/-! ## The memo map, the uses of a quantified variable, and the endpoint view -/

/-- C28: a call of `buildSegmented` that returns (a call made for a
sub-expression included) leaves every entry that the memo map had before the
call in place with the same `PathIndex`, and the map then has an entry for
`(pe, sourceEndpoint)` whose value is the returned index; both stay so through
every later call. -/
theorem memo_never_invalidated (fuel : Nat) (pe : PathExpression) (sourceEndpoint : Nat)
    (b b' : PathIndexBuilder) (pi : PathIndex)
    (h : buildSegmented fuel pe sourceEndpoint b = .ok (pi, b')) :
    (∀ key value, b.lookup key = some value → b'.lookup key = some value) ∧
    b'.lookup (pe, sourceEndpoint) = some pi ∧
    (∀ b'', PathIndexBuilder.Later b' b'' →
      (∀ key value, b.lookup key = some value → b''.lookup key = some value) ∧
      b''.lookup (pe, sourceEndpoint) = some pi) := by
  obtain ⟨hkeep, -, hnew⟩ := buildSegmented_memo _ _ _ _ _ _ h
  refine ⟨hkeep, hnew, ?_⟩
  intro b'' hlater
  exact ⟨fun key value hk => later_lookup hlater (hkeep key value hk), later_lookup hlater hnew⟩

/-- Witness of C28: building `vev2` on the builder that has built `vev` keeps the
three entries made for `vev` (for `vev` and its two links) and adds the entry
for `vev2`. -/
theorem memo_never_invalidated_witness :
    ∃ pi1 b1 pi2 b2,
      buildSegmented 2 Scenario.vev 0 PathIndexBuilder.empty = .ok (pi1, b1) ∧
      buildSegmented 2 Scenario.vev2 0 b1 = .ok (pi2, b2) ∧
      b1.pathIndices.length = 3 ∧
      (∀ key value, b1.lookup key = some value → b2.lookup key = some value) ∧
      b2.lookup (Scenario.vev2, 0) = some pi2 ∧
      b2.lookup (Scenario.vev, 0) = some pi1 := by
  obtain ⟨pi1, b1, pi2, b2, h1, h2, h3⟩ : ∃ pi1 b1 pi2 b2,
      buildSegmented 2 Scenario.vev 0 PathIndexBuilder.empty = .ok (pi1, b1) ∧
      buildSegmented 2 Scenario.vev2 0 b1 = .ok (pi2, b2) ∧
      b1.pathIndices.length = 3 := ⟨_, _, _, _, rfl, rfl, rfl⟩
  exact ⟨pi1, b1, pi2, b2, h1, h2, h3,
    (memo_never_invalidated 2 Scenario.vev2 0 b1 b2 pi2 h2).1,
    (memo_never_invalidated 2 Scenario.vev2 0 b1 b2 pi2 h2).2.1,
    ((memo_never_invalidated 2 Scenario.vev 0 PathIndexBuilder.empty b1 pi1 h1).2.2 b2
      (PathIndexBuilder.Later.step (PathIndexBuilder.Later.refl b1) h2)).2⟩

theorem findLocations_pushBack (v v' : Var) (loc : Location) :
    ∀ m : VarToLocationsMap,
      (findLocations (pushBackLocation v' loc m) v).getD [] =
        if v = v' then (findLocations m v).getD [] ++ [loc] else (findLocations m v).getD []
  | [] => by
    by_cases h : v = v'
    · subst h
      simp [pushBackLocation, findLocations]
    · have h' : (v' == v) = false := by simpa using fun e => h e.symm
      simp [pushBackLocation, findLocations, h, h']
  | (v₀, locs) :: rest => by
    have ih := findLocations_pushBack v v' loc rest
    simp only [pushBackLocation]
    by_cases h0 : v' = v₀
    · subst h0
      by_cases h : v = v'
      · subst h
        simp [findLocations]
      · have h' : (v' == v) = false := by simpa using fun e => h e.symm
        simp [findLocations, h, h']
    · simp only [h0, if_false]
      by_cases h1 : v₀ = v
      · subst h1
        have h2 : ¬ v₀ = v' := fun e => h0 e.symm
        simp [findLocations, h2]
      · have h' : (v₀ == v) = false := by simpa using h1
        simp only [findLocations, List.find?_cons, h'] at ih ⊢
        exact ih

theorem locations_length_range (pe : PathExpression) (v : Var) :
    ∀ n, n ≤ pe.getNumPathEndpoints → ∀ m : VarToLocationsMap,
      ((findLocations ((List.range n).foldl
          (fun m ep =>
            match pe.getPathEndpoint ep with
            | some w => pushBackLocation w ⟨pe, ep⟩ m
            | none => m) m) v).getD []).length =
        ((findLocations m v).getD []).length + (pe.pathEndpoints.take n).count v
  | 0, _, m => by simp
  | n + 1, hn, m => by
    have ih := locations_length_range pe v n (by omega) m
    have hlt : n < pe.pathEndpoints.length := hn
    simp only [PathExpression.getPathEndpoint] at ih
    rw [List.range_succ, List.foldl_append]
    simp only [List.foldl_cons, List.foldl_nil, PathExpression.getPathEndpoint,
      List.getElem?_eq_getElem hlt]
    rw [findLocations_pushBack, List.take_succ, List.getElem?_eq_getElem hlt]
    simp only [Option.toList_some, List.count_append, List.count_singleton]
    by_cases h : v = pe.pathEndpoints[n]
    · have h' : (pe.pathEndpoints[n] == v) = true := by simpa using h.symm
      simp only [if_pos h, List.length_append, List.length_singleton, ih, h', if_true]
      omega
    · have h' : (pe.pathEndpoints[n] == v) = false := by simpa using fun e => h e.symm
      simp only [if_neg h, ih, h', Bool.false_eq_true, if_false, Nat.add_zero]

theorem locations_length (lhs rhs : PathExpression) (v : Var) :
    ((findLocations (getVarToLocationsMap [lhs, rhs]) v).getD []).length =
      lhs.pathEndpoints.count v + rhs.pathEndpoints.count v := by
  have h1 := locations_length_range lhs v lhs.getNumPathEndpoints (Nat.le_refl _) []
  have h2 := locations_length_range rhs v rhs.getNumPathEndpoints (Nat.le_refl _)
    ((List.range lhs.getNumPathEndpoints).foldl
      (fun m ep =>
        match lhs.getPathEndpoint ep with
        | some w => pushBackLocation w ⟨lhs, ep⟩ m
        | none => m) [])
  simp only [getVarToLocationsMap, List.foldl_cons, List.foldl_nil]
  refine h2.trans ?_
  rw [h1]
  simp [PathExpression.getNumPathEndpoints, findLocations]

theorem buildIndices_count
    (builderBuildSegmented : PathExpression → Nat → PathIndexBuilder → Built)
    (lhs rhs : PathExpression) (source quantified sink : Var) (b : PathIndexBuilder)
    (h : lhs.pathEndpoints.count quantified + rhs.pathEndpoints.count quantified ≠ 2) :
    buildIndices builderBuildSegmented lhs rhs source quantified sink b = .error .assertion := by
  have hlen := locations_length lhs rhs quantified
  unfold buildIndices
  simp only
  split
  · rw [if_neg (by rw [hlen]; exact h)]
  · rfl

theorem build_quantified_count
    (builderBuildSegmented : PathExpression → Nat → PathIndexBuilder → Built)
    (freeVars0 freeVars1 : Var) (qvar : QuantifiedVar) (lhs rhs : PathExpression)
    (b : PathIndexBuilder)
    (h : lhs.pathEndpoints.count qvar.getVar + rhs.pathEndpoints.count qvar.getVar ≠ 2) :
    build builderBuildSegmented (.and [freeVars0, freeVars1] [qvar] lhs rhs) b
      = .error .assertion ∧
    build builderBuildSegmented (.or [freeVars0, freeVars1] [qvar] lhs rhs) b
      = .error .assertion := by
  have hb := buildIndices_count builderBuildSegmented lhs rhs freeVars0 qvar.getVar freeVars1 b h
  constructor
  · simp [build, visitAnd, isQuantified, hb, bind, Except.bind]
  · simp [build, visitOr, isQuantified, hb, bind, Except.bind]

/-- C29, as stated, fails: the quantified `And` and `Or` whose left operand has
the quantified variable `q` at both endpoints and whose right operand does not
use `q` are built. -/
theorem quantified_variable_uses_counterexample :
    DoubleUse.lhs.pathEndpoints.count DoubleUse.q = 2 ∧
    Scenario.ve.pathEndpoints.count DoubleUse.q = 0 ∧
    (∃ pi b, buildSegmented 2 DoubleUse.and 0 PathIndexBuilder.empty = .ok (pi, b)) ∧
    (∃ pi b, buildSegmented 2 DoubleUse.or 0 PathIndexBuilder.empty = .ok (pi, b)) :=
  ⟨by decide, by decide, ⟨_, _, rfl⟩, ⟨_, _, rfl⟩⟩

/-- C29, amended: building a quantified `And` or `Or` (two free variables, one
quantified variable) fails by assertion whenever the quantified variable does
not occur exactly twice in all among the path endpoints of the two operands;
when no operand has a variable at two of its endpoints, this is whenever the
variable does not occur exactly once in each operand.  An expression in which
one operand uses the variable twice and the other does not use it passes the
check. -/
theorem quantified_variable_uses (freeVars0 freeVars1 : Var) (qvar : QuantifiedVar)
    (lhs rhs : PathExpression) (fuel sourceEndpoint : Nat) (b : PathIndexBuilder)
    (h : lhs.pathEndpoints.count qvar.getVar + rhs.pathEndpoints.count qvar.getVar ≠ 2 ∨
      (lhs.pathEndpoints.Nodup ∧ rhs.pathEndpoints.Nodup ∧
        ¬ (lhs.pathEndpoints.count qvar.getVar = 1 ∧ rhs.pathEndpoints.count qvar.getVar = 1)))
    (hand : b.lookup (.and [freeVars0, freeVars1] [qvar] lhs rhs, sourceEndpoint) = none)
    (hor : b.lookup (.or [freeVars0, freeVars1] [qvar] lhs rhs, sourceEndpoint) = none) :
    build (buildSegmented fuel) (.and [freeVars0, freeVars1] [qvar] lhs rhs) b
      = .error .assertion ∧
    build (buildSegmented fuel) (.or [freeVars0, freeVars1] [qvar] lhs rhs) b
      = .error .assertion ∧
    buildSegmented (fuel + 1) (.and [freeVars0, freeVars1] [qvar] lhs rhs) sourceEndpoint b
      = .error .assertion ∧
    buildSegmented (fuel + 1) (.or [freeVars0, freeVars1] [qvar] lhs rhs) sourceEndpoint b
      = .error .assertion := by
  have hcount : lhs.pathEndpoints.count qvar.getVar + rhs.pathEndpoints.count qvar.getVar ≠ 2 := by
    rcases h with h | ⟨hl, hr, hne⟩
    · exact h
    · have h1 := List.nodup_iff_count_le_one.1 hl qvar.getVar
      have h2 := List.nodup_iff_count_le_one.1 hr qvar.getVar
      omega
  obtain ⟨h1, h2⟩ := build_quantified_count (buildSegmented fuel) freeVars0 freeVars1 qvar lhs rhs
    b hcount
  exact ⟨h1, h2, buildSegmented_error_of_build hand h1, buildSegmented_error_of_build hor h2⟩

/-- Witness of C29, amended: the quantified `And` over `q` whose operands do not
use `q` is not built. -/
theorem quantified_variable_uses_witness :
    buildSegmented 2 DoubleUse.unused 0 PathIndexBuilder.empty = .error .assertion :=
  (quantified_variable_uses Scenario.vi Scenario.vj ⟨DoubleUse.q⟩ Scenario.ve Scenario.ev 1 0
    PathIndexBuilder.empty (Or.inl (by decide)) rfl rfl).2.2.1

/-- Calls of `buildSegmented` keep the memo map a map of built indices: every
entry was returned by the visitor for the path expression of its key. -/
theorem buildSegmented_memo_built (fuel : Nat) : ∀ (pe : PathExpression) (ep : Nat)
    (b b' : PathIndexBuilder) (pi : PathIndex),
    buildSegmented fuel pe ep b = .ok (pi, b') →
    (∀ k v, b.lookup k = some v →
      ∃ f b0 b1, build (buildSegmented f) k.1 b0 = .ok (v, b1)) →
    ∀ k v, b'.lookup k = some v →
      ∃ f b0 b1, build (buildSegmented f) k.1 b0 = .ok (v, b1) := by
  induction fuel with
  | zero => intro pe ep b b' pi h; cases h
  | succ fuel ih =>
    intro pe ep b b' pi h hb
    obtain ⟨fuel', hf, -, h | h⟩ := buildSegmented_eq_ok h
    · obtain ⟨-, rfl⟩ := h
      exact hb
    · obtain ⟨-, b1, hbuild, rfl⟩ := h
      injection hf with hf
      subst hf
      obtain ⟨b2, impl, hR, -, halloc⟩ := build_frame
        (fun b1 b2 =>
          (∀ k v, b1.lookup k = some v →
            ∃ f b0 b1, build (buildSegmented f) k.1 b0 = .ok (v, b1)) →
          ∀ k v, b2.lookup k = some v →
            ∃ f b0 b1, build (buildSegmented f) k.1 b0 = .ok (v, b1))
        (fun _ h => h)
        (fun _ _ _ h12 h23 h1 => h23 (h12 h1))
        (fun pe' ep' b1' pi1 b2' _ hcall => ih pe' ep' b1' b2' pi1 hcall)
        hbuild
      have hb1 : ∀ k v, b1.lookup k = some v →
          ∃ f b0 b1, build (buildSegmented f) k.1 b0 = .ok (v, b1) := by
        intro k v hk
        rw [lookup_alloc halloc k] at hk
        exact hR hb k v hk
      intro k v hk
      by_cases hkey : k = (pe, ep)
      · subst hkey
        cases hold : b1.lookup (pe, ep) with
        | some v' =>
          rw [lookup_memoInsert_of_some hold] at hk
          injection hk with hk
          subst hk
          exact hb1 _ _ hold
        | none =>
          rw [lookup_memoInsert_self hold] at hk
          injection hk with hk
          subst hk
          exact ⟨fuel, b, b1, hbuild⟩
      · rw [lookup_memoInsert_of_ne hkey] at hk
        exact hb1 k v hk

theorem later_memo_built {b b' : PathIndexBuilder} (h : PathIndexBuilder.Later b b')
    (hb : ∀ k v, b.lookup k = some v →
      ∃ f b0 b1, build (buildSegmented f) k.1 b0 = .ok (v, b1)) :
    ∀ k v, b'.lookup k = some v →
      ∃ f b0 b1, build (buildSegmented f) k.1 b0 = .ok (v, b1) := by
  induction h with
  | refl => exact hb
  | step _ hcall ih => exact buildSegmented_memo_built _ _ _ _ _ _ hcall ih

theorem reachable_memo_built {b : PathIndexBuilder} (h : b.Reachable) :
    ∀ k v, b.lookup k = some v →
      ∃ f b0 b1, build (buildSegmented f) k.1 b0 = .ok (v, b1) :=
  later_memo_built h (by
    intro k v hk
    simp [PathIndexBuilder.lookup, PathIndexBuilder.empty] at hk)

theorem visitLink_ev_mixed (lhs rhs : Var) (edgeSet : Set) (b : PathIndexBuilder)
    (hbinding : lhs.binding = some edgeSet) (hmixed : edgeSet.isHomogeneous = false) :
    visitLink lhs rhs .ev b = .error .assertion := by
  simp only [visitLink, Link.getEdgeBinding, hbinding, SetEndpointPathIndex.create, hmixed,
    Bool.false_eq_true, if_false, bind, Except.bind]
  split <;> rfl

/-- C30: the constructor of the endpoint view succeeds for every homogeneous edge
set and fails by assertion (a precondition failure) for every edge set that is
not homogeneous; building an `ev` link bound to an edge set that is not
homogeneous therefore fails in the same way and returns no index, on every
builder that calls of `buildSegmented` have produced. -/
theorem endpoint_view_homogeneous (edgeSet : Set) :
    (edgeSet.isHomogeneous = true → SetEndpointPathIndex.create edgeSet = .ok ⟨edgeSet⟩) ∧
    (edgeSet.isHomogeneous = false →
      SetEndpointPathIndex.create edgeSet = .error .assertion ∧
      ∀ (lhs rhs : Var) (b : PathIndexBuilder), lhs.binding = some edgeSet → b.Reachable →
        (∀ fuel sourceEndpoint,
          buildSegmented (fuel + 1) (.link lhs rhs .ev) sourceEndpoint b = .error .assertion) ∧
        ∀ fuel sourceEndpoint r,
          buildSegmented fuel (.link lhs rhs .ev) sourceEndpoint b ≠ .ok r) := by
  refine ⟨fun h => by simp [SetEndpointPathIndex.create, h], fun hmixed => ⟨by
    simp [SetEndpointPathIndex.create, hmixed], ?_⟩⟩
  intro lhs rhs b hbinding hreach
  have hnone : ∀ ep, b.lookup (.link lhs rhs .ev, ep) = none := by
    intro ep
    cases hl : b.lookup (.link lhs rhs .ev, ep) with
    | none => rfl
    | some v =>
      obtain ⟨f, b0, b1, hbuild⟩ := reachable_memo_built hreach _ _ hl
      simp only [build] at hbuild
      rw [visitLink_ev_mixed lhs rhs edgeSet b0 hbinding hmixed] at hbuild
      cases hbuild
  have h1 : ∀ fuel ep,
      buildSegmented (fuel + 1) (.link lhs rhs .ev) ep b = .error .assertion := by
    intro fuel ep
    exact buildSegmented_error_of_build (hnone ep)
      (by simp only [build]; exact visitLink_ev_mixed lhs rhs edgeSet b hbinding hmixed)
  refine ⟨h1, ?_⟩
  intro fuel ep r hr
  cases fuel with
  | zero => cases hr
  | succ fuel => rw [h1 fuel ep] at hr; cases hr

/-- Witness of C30: the endpoint view of the edge set of the scenario is made;
that of the set that is not homogeneous is not, and the `ev` link bound to it
is not built. -/
theorem endpoint_view_homogeneous_witness :
    SetEndpointPathIndex.create Scenario.E = .ok ⟨Scenario.E⟩ ∧
    SetEndpointPathIndex.create Mixed.E = .error .assertion ∧
    (∀ fuel sourceEndpoint,
      buildSegmented (fuel + 1) Mixed.ev sourceEndpoint PathIndexBuilder.empty
        = .error .assertion) :=
  ⟨(endpoint_view_homogeneous Scenario.E).1 rfl,
    ((endpoint_view_homogeneous Mixed.E).2 rfl).1,
    (((endpoint_view_homogeneous Mixed.E).2 rfl).2 Mixed.e Scenario.vj PathIndexBuilder.empty rfl
      (PathIndexBuilder.Later.refl _)).1⟩

/-- C27, as stated, fails: the read of a tensor of order 3 and the path
expression with two quantified variables end with the signal of a failed
assertion, the very signal of the precondition violation of an unbound path
expression, and not with the unsupported signal. -/
theorem unsupported_signal_counterexample :
    ir.LowerTensorAccesses.mutateExpr ir.Cube.read = .error .assertion ∧
    buildSegmented 1 Unsupported.twoQuantified 1 PathIndexBuilder.empty = .error .assertion ∧
    buildSegmented 1 Unbound.expr 1 PathIndexBuilder.empty = .error .assertion ∧
    Error.assertion ≠ Error.unsupported :=
  ⟨rfl, rfl, rfl, by decide⟩

/-- C27, amended: the unsupported signal is raised for a tensor access of order 2
whose second dimension is not a single range and for a tensor access of order
0; a tensor access of order greater than 2 and a connective with more than one
quantified variable fail by assertion, which is also the signal of the
precondition violations (an unbound path expression). -/
theorem failure_signals (tensor : ir.Expr) (indices : List ir.Expr) (type : ir.TensorType)
    (freeVars : List Var) (quantifiedVars : List QuantifiedVar) (lhs rhs pe : PathExpression)
    (fuel sourceEndpoint : Nat) (b : PathIndexBuilder)
    (htype : tensor.type.toTensor = some type) :
    (∀ i j T' i' j' dim0 dim1, indices = [i, j] → type.dimensions = [dim0, dim1] →
      (∀ size, dim1.getIndexSets ≠ [.Range size]) →
      ir.LowerTensorAccesses.mutateExpr tensor = .ok T' →
      ir.LowerTensorAccesses.mutateExpr i = .ok i' →
      ir.LowerTensorAccesses.mutateExpr j = .ok j' →
      ir.LowerTensorAccesses.mutateExpr (.TensorRead tensor indices) = .error .unsupported) ∧
    (type.order = 0 → indices = [] →
      ir.LowerTensorAccesses.mutateExpr (.TensorRead tensor indices) = .error .unsupported) ∧
    (2 < type.order →
      ir.LowerTensorAccesses.mutateExpr (.TensorRead tensor indices) = .error .assertion) ∧
    (2 ≤ quantifiedVars.length →
      build (buildSegmented fuel) (.and freeVars quantifiedVars lhs rhs) b = .error .assertion ∧
      build (buildSegmented fuel) (.or freeVars quantifiedVars lhs rhs) b = .error .assertion) ∧
    (pe.isBound = false →
      buildSegmented (fuel + 1) pe sourceEndpoint b = .error .assertion) := by
  refine ⟨?_, ?_, ?_, ?_, ?_⟩
  · intro i j T' i' j' dim0 dim1 hind hdims hdim1 hT hi hj
    subst hind
    rw [ir.LowerTensorAccesses.mutateExpr_read2 tensor i j type dim0 dim1 htype hdims, hT, hi,
      hj]
    simp [Except.bind, ir.LowerTensorAccesses.dimensionLiteral_unsupported dim1 _ hdim1]
  · intro h0 hnil
    subst hnil
    simp only [ir.LowerTensorAccesses.mutateExpr]
    rw [ir.LowerTensorAccesses.visitTensorRead_order_zero _ _ _ _ type htype h0]
    rfl
  · intro h2
    simp only [ir.LowerTensorAccesses.mutateExpr]
    exact ir.LowerTensorAccesses.visitTensorRead_order_gt _ _ _ _ type htype h2
  · intro hq
    exact build_shape_fails (buildSegmented fuel) freeVars quantifiedVars lhs rhs b (Or.inr hq)
  · intro hbound
    simp [buildSegmented, hbound]

/-- Witness of C27, amended: the read of the tensor `C` of order 3 and the `And`
with two quantified variables fail by assertion, and so does the unbound link
of the scenario. -/
theorem failure_signals_witness :
    ir.LowerTensorAccesses.mutateExpr ir.Cube.read = .error .assertion ∧
    (build (buildSegmented 0)
        (.and [Scenario.vi, Scenario.vj] [⟨Scenario.e⟩, ⟨Scenario.e2⟩] Scenario.ve Scenario.ev)
        PathIndexBuilder.empty = .error .assertion ∧
      build (buildSegmented 0) Unsupported.twoQuantified PathIndexBuilder.empty
        = .error .assertion) ∧
    buildSegmented 1 Unbound.expr 0 PathIndexBuilder.empty = .error .assertion :=
  ⟨(failure_signals (.VarExpr ir.Cube.C)
      [.VarExpr ir.Cube.i, .VarExpr ir.Cube.i, .VarExpr ir.Cube.i]
      ⟨.Int, [⟨[.Range 2]⟩, ⟨[.Range 2]⟩, ⟨[.Range 2]⟩]⟩ [Scenario.vi, Scenario.vj]
      [⟨Scenario.e⟩, ⟨Scenario.e2⟩] Scenario.ve Scenario.ev Unbound.expr 0 0
      PathIndexBuilder.empty rfl).2.2.1 (by decide),
    (failure_signals (.VarExpr ir.Cube.C)
      [.VarExpr ir.Cube.i, .VarExpr ir.Cube.i, .VarExpr ir.Cube.i]
      ⟨.Int, [⟨[.Range 2]⟩, ⟨[.Range 2]⟩, ⟨[.Range 2]⟩]⟩ [Scenario.vi, Scenario.vj]
      [⟨Scenario.e⟩, ⟨Scenario.e2⟩] Scenario.ve Scenario.ev Unbound.expr 0 0
      PathIndexBuilder.empty rfl).2.2.2.1 (by decide),
    (failure_signals (.VarExpr ir.Cube.C)
      [.VarExpr ir.Cube.i, .VarExpr ir.Cube.i, .VarExpr ir.Cube.i]
      ⟨.Int, [⟨[.Range 2]⟩, ⟨[.Range 2]⟩, ⟨[.Range 2]⟩]⟩ [Scenario.vi, Scenario.vj]
      [⟨Scenario.e⟩, ⟨Scenario.e2⟩] Scenario.ve Scenario.ev Unbound.expr 0 0
      PathIndexBuilder.empty rfl).2.2.2.2 rfl⟩

namespace backend

/-! ## Facts about the LLVM backend -/

theorem foldl_push_map {α β : Type} (g : α → β) :
    ∀ (l : List α) (init : List β),
      l.foldl (fun acc a => acc ++ [g a]) init = init ++ l.map g
  | [], init => by simp
  | a :: l, init => by
    rw [List.foldl_cons, foldl_push_map g l]
    simp

theorem llvmTypeOfSet_eq (singleFloat : Bool) (setType : ir.SetType) (addrspace : Nat) :
    llvmTypeOfSet singleFloat setType addrspace =
      .struct ([LLVMType.int32] ++
        (if 0 < setType.endpointSets.length then
          List.replicate NUM_EDGE_INDEX_ELEMENTS (LLVMType.pointer .int32 addrspace)
        else []) ++
        setType.elementType.fields.map
          (fun field => llvmTypeOfTensor singleFloat field.type addrspace)) := by
  unfold llvmTypeOfSet
  simp only [foldl_push_map, LLVM_INT, NUM_EDGE_INDEX_ELEMENTS, List.nil_append]
  by_cases h : 0 < setType.endpointSets.length
  · simp [h, List.replicate]
  · simp [h]

/-- C31: for every set type, `llvmType` gives a struct whose fields are, in this
order, the 32-bit integer of the element count; then, exactly when the set has
endpoint sets, three pointers to 32-bit integers (`NUM_EDGE_INDEX_ELEMENTS` of
them); then one field per field of the element type, in the order of
declaration, of the LLVM type of the type of the field.  The number of fields
is 1 + (3 for an edge set) + the number of element fields. -/
theorem set_struct_layout (singleFloat : Bool) (setType : ir.SetType) (addrspace : Nat) :
    llvmType singleFloat (.Set setType) addrspace
      = .ok (llvmTypeOfSet singleFloat setType addrspace) ∧
    NUM_EDGE_INDEX_ELEMENTS = 3 ∧
    ∃ fields, llvmTypeOfSet singleFloat setType addrspace = .struct fields ∧
      fields = [LLVMType.int32] ++
        (if 0 < setType.endpointSets.length then
          [LLVMType.pointer .int32 addrspace, .pointer .int32 addrspace,
            .pointer .int32 addrspace]
        else []) ++
        setType.elementType.fields.map
          (fun field => llvmTypeOfTensor singleFloat field.type addrspace) ∧
      fields.length = 1 + (if 0 < setType.endpointSets.length then 3 else 0) +
        setType.elementType.fields.length ∧
      fields[0]? = some LLVM_INT ∧
      (∀ k field, setType.elementType.fields[k]? = some field →
        fields[1 + (if 0 < setType.endpointSets.length then 3 else 0) + k]?
          = some (llvmTypeOfTensor singleFloat field.type addrspace)) := by
  refine ⟨rfl, rfl, _, llvmTypeOfSet_eq singleFloat setType addrspace, ?_, ?_, ?_, ?_⟩
  · simp [NUM_EDGE_INDEX_ELEMENTS, List.replicate]
  · by_cases h : 0 < setType.endpointSets.length <;> simp [h, NUM_EDGE_INDEX_ELEMENTS] <;> omega
  · simp [LLVM_INT]
  · intro k field hk
    by_cases h : 0 < setType.endpointSets.length
    · simp only [h, if_true, NUM_EDGE_INDEX_ELEMENTS, List.replicate]
      rw [show 1 + 3 + k = ([LLVMType.int32] ++ [LLVMType.pointer .int32 addrspace,
        LLVMType.pointer .int32 addrspace, LLVMType.pointer .int32 addrspace]).length + k by
          simp]
      rw [List.getElem?_append_right (by omega)]
      simp [hk]
    · simp only [h, if_false, List.append_nil, Nat.add_zero]
      rw [show 1 + k = ([LLVMType.int32]).length + k by simp]
      rw [List.getElem?_append_right (by omega)]
      simp [hk]

/-- Witness of C31: the struct of the edge set of springs has the count, the
three index arrays and the array of the field `k`; the struct of the vertex
set of points has the count and the arrays of the fields `x` and `m`. -/
theorem set_struct_layout_witness :
    llvmType false (.Set Scenario.springs) 0
      = .ok (.struct [.int32, .pointer .int32 0, .pointer .int32 0, .pointer .int32 0,
          .pointer .double 0]) ∧
    llvmType false (.Set Scenario.points) 0
      = .ok (.struct [.int32, .pointer .double 0, .pointer .double 0]) :=
  ⟨(set_struct_layout false Scenario.springs 0).1, (set_struct_layout false Scenario.points 0).1⟩

theorem llvmTypeOfScalar_not_pointer (singleFloat : Bool) (stype : ir.ScalarType) :
    (llvmTypeOfScalar singleFloat stype).isPointerTy = false := by
  cases stype <;> cases singleFloat <;> rfl

theorem llvmPtrType_eq (singleFloat : Bool) (stype : ir.ScalarType) (addrspace : Nat) :
    llvmPtrType singleFloat stype addrspace
      = .pointer (llvmTypeOfScalar singleFloat stype) addrspace := by
  cases stype <;> cases singleFloat <;> rfl

/-- One round of the loop over the arguments. -/
theorem addArgument_eq_ok {singleFloat scalarsByValue : Bool} {addrspace : Nat}
    {p p' : Parameters} {arg : ir.Var}
    (h : addArgument singleFloat scalarsByValue addrspace p arg = .ok p') :
    ∃ ty, p' = ⟨p.llvmArgNames ++ [arg.name], p.llvmArgTypes ++ [ty], arg.name :: p.argNames⟩ ∧
      ((isScalar arg.type = true ∧ scalarsByValue = true ∧
          ∃ t, arg.type = .Tensor t ∧ ty = llvmTypeOfScalar singleFloat t.componentType) ∨
        (¬ (isScalar arg.type = true ∧ scalarsByValue = true) ∧
          llvmType singleFloat arg.type addrspace = .ok ty)) := by
  unfold addArgument at h
  by_cases hc : isScalar arg.type = true ∧ scalarsByValue = true
  · obtain ⟨t, ht⟩ : ∃ t, arg.type = .Tensor t := by
      have := hc.1
      unfold isScalar ir.isScalarTensor at this
      cases hty : arg.type <;> simp [hty] at this
      exact ⟨_, rfl⟩
    have hc1 := hc.1
    rw [ht] at hc1
    simp [hc1, hc.2, ht, ir.IRType.toTensor, bind, Except.bind] at h
    exact ⟨_, h.symm, Or.inl ⟨hc.1, hc.2, t, ht, rfl⟩⟩
  · have hc' : (isScalar arg.type && scalarsByValue) = false := by
      cases h1 : isScalar arg.type <;> cases h2 : scalarsByValue <;> simp_all
    simp only [hc', Bool.false_eq_true, if_false] at h
    cases hty : llvmType singleFloat arg.type addrspace with
    | error e => simp [hty, bind, Except.bind] at h
    | ok ty =>
      simp [hty, bind, Except.bind] at h
      exact ⟨ty, h.symm, Or.inr ⟨hc, rfl⟩⟩

/-- One round of the loop over the arguments ends normally when the type of the
argument is a tensor or a set. -/
theorem addArgument_ok (singleFloat scalarsByValue : Bool) (addrspace : Nat)
    (p : Parameters) (arg : ir.Var)
    (hty : (∃ t, arg.type = .Tensor t) ∨ ∃ s, arg.type = .Set s) :
    ∃ p', addArgument singleFloat scalarsByValue addrspace p arg = .ok p' := by
  unfold addArgument
  rcases hty with ⟨t, ht⟩ | ⟨s, hs⟩
  · rw [ht]
    by_cases hc : (isScalar (.Tensor t) && scalarsByValue) = true
    · simp [hc, ir.IRType.toTensor, bind, Except.bind]
    · simp [hc, llvmType, bind, Except.bind]
  · rw [hs]
    have hc : (isScalar (.Set s) && scalarsByValue) = false := by
      simp [isScalar, ir.isScalarTensor]
    simp [hc, llvmType, bind, Except.bind]

/-- One round of the loop over the results. -/
theorem addResult_eq_ok {singleFloat : Bool} {addrspace : Nat}
    {p p' : Parameters} {res : ir.Var}
    (h : addResult singleFloat addrspace p res = .ok p') :
    (res.name ∈ p.argNames ∧ p' = p) ∨
    (res.name ∉ p.argNames ∧ ∃ ty, llvmType singleFloat res.type addrspace = .ok ty ∧
      p' = ⟨p.llvmArgNames ++ [res.name], p.llvmArgTypes ++ [ty], p.argNames⟩) := by
  unfold addResult at h
  by_cases hc : res.name ∈ p.argNames
  · simp [hc] at h
    exact Or.inl ⟨hc, h.symm⟩
  · simp only [hc, if_false] at h
    cases hty : llvmType singleFloat res.type addrspace with
    | error e => simp [hty, bind, Except.bind] at h
    | ok ty =>
      simp [hty, bind, Except.bind] at h
      exact Or.inr ⟨hc, ty, rfl, h.symm⟩

theorem addResult_ok (singleFloat : Bool) (addrspace : Nat)
    (p : Parameters) (res : ir.Var)
    (hty : (∃ t, res.type = .Tensor t) ∨ ∃ s, res.type = .Set s) :
    ∃ p', addResult singleFloat addrspace p res = .ok p' := by
  unfold addResult
  by_cases hc : res.name ∈ p.argNames
  · simp [hc]
  · rcases hty with ⟨t, ht⟩ | ⟨s, hs⟩
    · simp [hc, ht, llvmType, bind, Except.bind]
    · simp [hc, hs, llvmType, bind, Except.bind]

/-- The loop over the arguments: one parameter per argument, in order. -/
theorem arguments_loop {singleFloat scalarsByValue : Bool} {addrspace : Nat} :
    ∀ (arguments : List ir.Var) (p p' : Parameters),
      arguments.foldlM (addArgument singleFloat scalarsByValue addrspace) p = .ok p' →
      p'.llvmArgNames = p.llvmArgNames ++ arguments.map (fun arg => arg.name) ∧
      (∀ n, n ∈ p'.argNames ↔ n ∈ p.argNames ∨ n ∈ arguments.map (fun arg => arg.name)) ∧
      ∃ tys, p'.llvmArgTypes = p.llvmArgTypes ++ tys ∧
        List.Forall₂ (fun (arg : ir.Var) ty =>
          (isScalar arg.type = true ∧ scalarsByValue = true ∧
            ∃ t, arg.type = .Tensor t ∧ ty = llvmTypeOfScalar singleFloat t.componentType) ∨
          (¬ (isScalar arg.type = true ∧ scalarsByValue = true) ∧
            llvmType singleFloat arg.type addrspace = .ok ty)) arguments tys
  | [], p, p', h => by
    simp [pure, Except.pure] at h
    subst h
    exact ⟨by simp, by simp, [], by simp, List.Forall₂.nil⟩
  | arg :: arguments, p, p', h => by
    rw [List.foldlM_cons, bind_eq_ok] at h
    obtain ⟨p1, h1, h2⟩ := h
    obtain ⟨ty, hp1, hty⟩ := addArgument_eq_ok h1
    obtain ⟨hn, hs, tys, ht, hall⟩ := arguments_loop arguments p1 p' h2
    subst hp1
    refine ⟨by simp [hn], ?_, ty :: tys, by simp [ht], List.Forall₂.cons hty hall⟩
    intro n
    rw [hs n]
    simp only [List.mem_cons, List.map_cons]
    tauto

/-- The loop over the results: one parameter per result whose name is not that
of an argument, in order. -/
theorem results_loop {singleFloat : Bool} {addrspace : Nat} :
    ∀ (results : List ir.Var) (p p' : Parameters),
      results.foldlM (addResult singleFloat addrspace) p = .ok p' →
      p'.argNames = p.argNames ∧
      p'.llvmArgNames = p.llvmArgNames ++
        (results.filter (fun res => decide (res.name ∉ p.argNames))).map (fun res => res.name) ∧
      ∃ tys, p'.llvmArgTypes = p.llvmArgTypes ++ tys ∧
        List.Forall₂ (fun (res : ir.Var) ty => llvmType singleFloat res.type addrspace = .ok ty)
          (results.filter (fun res => decide (res.name ∉ p.argNames))) tys
  | [], p, p', h => by
    simp [pure, Except.pure] at h
    subst h
    exact ⟨rfl, by simp, [], by simp, by simp⟩
  | res :: results, p, p', h => by
    rw [List.foldlM_cons, bind_eq_ok] at h
    obtain ⟨p1, h1, h2⟩ := h
    obtain ⟨ha, hn, tys, ht, hall⟩ := results_loop results p1 p' h2
    rcases addResult_eq_ok h1 with ⟨hin, hp1⟩ | ⟨hin, ty, hty, hp1⟩
    · subst hp1
      refine ⟨ha, ?_, tys, ht, ?_⟩
      · rw [hn, List.filter_cons_of_neg (by simpa using hin)]
      · rw [List.filter_cons_of_neg (by simpa using hin)]
        exact hall
    · subst hp1
      refine ⟨ha, ?_, ty :: tys, by simp [ht], ?_⟩
      · rw [hn, List.filter_cons_of_pos (by simpa using hin)]
        simp
      · rw [List.filter_cons_of_pos (by simpa using hin)]
        exact List.Forall₂.cons hty hall

theorem arguments_loop_ok (singleFloat scalarsByValue : Bool) (addrspace : Nat) :
    ∀ (arguments : List ir.Var) (p : Parameters),
      (∀ arg ∈ arguments, (∃ t, arg.type = .Tensor t) ∨ ∃ s, arg.type = .Set s) →
      ∃ p', arguments.foldlM (addArgument singleFloat scalarsByValue addrspace) p = .ok p'
  | [], p, _ => ⟨p, rfl⟩
  | arg :: arguments, p, h => by
    obtain ⟨p1, h1⟩ := addArgument_ok singleFloat scalarsByValue addrspace p arg
      (h arg (by simp))
    obtain ⟨p2, h2⟩ := arguments_loop_ok singleFloat scalarsByValue addrspace arguments p1
      (fun a ha => h a (by simp [ha]))
    exact ⟨p2, by rw [List.foldlM_cons, h1]; exact h2⟩

theorem results_loop_ok (singleFloat : Bool) (addrspace : Nat) :
    ∀ (results : List ir.Var) (p : Parameters),
      (∀ res ∈ results, (∃ t, res.type = .Tensor t) ∨ ∃ s, res.type = .Set s) →
      ∃ p', results.foldlM (addResult singleFloat addrspace) p = .ok p'
  | [], p, _ => ⟨p, rfl⟩
  | res :: results, p, h => by
    obtain ⟨p1, h1⟩ := addResult_ok singleFloat addrspace p res (h res (by simp))
    obtain ⟨p2, h2⟩ := results_loop_ok singleFloat addrspace results p1
      (fun a ha => h a (by simp [ha]))
    exact ⟨p2, by rw [List.foldlM_cons, h1]; exact h2⟩

/-- The loop of the static `createPrototype`: the names taken are those at the
positions gone through. -/
theorem prototype_loop (argNames : List String) :
    ∀ (argTypes : List LLVMType) (names : List String) (captures : List Nat) (i : Nat)
      (st : List String × List Nat × Nat),
      argTypes.foldlM
        (fun (st : List String × List Nat × Nat) (argType : LLVMType) =>
          let (names, captures, i) := st
          match argNames[i]? with
          | none => (.error .undefinedBehavior : Except Error (List String × List Nat × Nat))
          | some argName =>
            let captures := if argType.isPointerTy then captures ++ [i + 1] else captures
            .ok (names ++ [argName], captures, i + 1))
        (names, captures, i) = .ok st →
      st.1 = names ++ (argNames.drop i).take argTypes.length ∧
      ((argNames.drop i).take argTypes.length).length = argTypes.length
  | [], names, captures, i, st, h => by
    simp [pure, Except.pure] at h
    subst h
    simp
  | argType :: argTypes, names, captures, i, st, h => by
    rw [List.foldlM_cons, bind_eq_ok] at h
    obtain ⟨st1, h1, h2⟩ := h
    cases hn : argNames[i]? with
    | none => simp [hn] at h1
    | some argName =>
      simp only [hn] at h1
      injection h1 with h1
      subst h1
      obtain ⟨ha, hb⟩ := prototype_loop argNames argTypes _ _ _ st h2
      have hi : i < argNames.length := by
        rcases Nat.lt_or_ge i argNames.length with h | h
        · exact h
        · rw [List.getElem?_eq_none h] at hn; cases hn
      have hd : argNames.drop i = argName :: argNames.drop (i + 1) := by
        rw [List.drop_eq_getElem_cons hi]
        rw [List.getElem?_eq_getElem hi] at hn
        injection hn with hn
        rw [hn]
      refine ⟨?_, ?_⟩
      · rw [ha, hd]; simp
      · rw [hd]; simpa using hb

theorem prototype_loop_ok (argNames : List String) :
    ∀ (argTypes : List LLVMType) (names : List String) (captures : List Nat) (i : Nat),
      i + argTypes.length ≤ argNames.length →
      ∃ st, argTypes.foldlM
        (fun (st : List String × List Nat × Nat) (argType : LLVMType) =>
          let (names, captures, i) := st
          match argNames[i]? with
          | none => (.error .undefinedBehavior : Except Error (List String × List Nat × Nat))
          | some argName =>
            let captures := if argType.isPointerTy then captures ++ [i + 1] else captures
            .ok (names ++ [argName], captures, i + 1))
        (names, captures, i) = .ok st
  | [], names, captures, i, _ => ⟨_, rfl⟩
  | argType :: argTypes, names, captures, i, h => by
    have hi : i < argNames.length := by simp at h; omega
    obtain ⟨st, hst⟩ := prototype_loop_ok argNames argTypes (names ++ [argNames[i]])
      (if argType.isPointerTy then captures ++ [i + 1] else captures) (i + 1)
      (by simp at h; omega)
    refine ⟨st, ?_⟩
    rw [List.foldlM_cons]
    simp only [List.getElem?_eq_getElem hi]
    exact hst

/-- The static `createPrototype` gives the function the types it is given and
the names at the same positions. -/
theorem createPrototypeOfTypes_eq_ok {name : String} {argNames : List String}
    {argTypes : List LLVMType} {externalLinkage doesNotThrow : Bool} {f : Function}
    (h : createPrototypeOfTypes name argNames argTypes externalLinkage doesNotThrow = .ok f) :
    f.argNames = argNames.take argTypes.length ∧ f.argTypes = argTypes ∧
    f.argNames.length = argTypes.length ∧ f.name = name ∧ f.returnType = .void := by
  unfold createPrototypeOfTypes at h
  rw [bind_eq_ok] at h
  obtain ⟨⟨names, captures, i⟩, h1, h2⟩ := h
  obtain ⟨ha, hb⟩ := prototype_loop argNames argTypes [] [] 0 _ h1
  simp only at h2
  injection h2 with h2
  subst h2
  simp only [List.drop_zero, List.nil_append] at ha hb
  exact ⟨ha, rfl, by rw [ha]; exact hb, rfl, rfl⟩

theorem createPrototypeOfTypes_ok (name : String) (argNames : List String)
    (argTypes : List LLVMType) (externalLinkage doesNotThrow : Bool)
    (hlen : argTypes.length ≤ argNames.length) :
    ∃ f, createPrototypeOfTypes name argNames argTypes externalLinkage doesNotThrow = .ok f := by
  obtain ⟨⟨names, captures, i⟩, hst⟩ := prototype_loop_ok argNames argTypes [] [] 0 (by omega)
  refine ⟨⟨name, LLVM_VOID, names, argTypes, externalLinkage, doesNotThrow, captures⟩, ?_⟩
  unfold createPrototypeOfTypes
  exact bind_eq_ok.mpr ⟨(names, captures, i), hst, rfl⟩

/-- What `createPrototype` returns: the names of the arguments followed by the
names of the results not named like an argument, with the types made by the two
loops. -/
theorem createPrototype_eq_ok {singleFloat : Bool} {name : String}
    {arguments results : List ir.Var} {externalLinkage doesNotThrow scalarsByValue : Bool}
    {addrspace : Nat} {f : Function}
    (h : createPrototype singleFloat name arguments results externalLinkage doesNotThrow
      scalarsByValue addrspace = .ok f) :
    f.argNames = arguments.map (fun arg => arg.name) ++
      (results.filter (fun res => decide (res.name ∉ arguments.map (fun arg => arg.name)))).map
        (fun res => res.name) ∧
    f.argNames.length = f.argTypes.length ∧
    ∃ argTys resTys, f.argTypes = argTys ++ resTys ∧
      List.Forall₂ (fun (arg : ir.Var) ty =>
        (isScalar arg.type = true ∧ scalarsByValue = true ∧
          ∃ t, arg.type = .Tensor t ∧ ty = llvmTypeOfScalar singleFloat t.componentType) ∨
        (¬ (isScalar arg.type = true ∧ scalarsByValue = true) ∧
          llvmType singleFloat arg.type addrspace = .ok ty)) arguments argTys ∧
      List.Forall₂ (fun (res : ir.Var) ty => llvmType singleFloat res.type addrspace = .ok ty)
        (results.filter (fun res => decide (res.name ∉ arguments.map (fun arg => arg.name))))
        resTys := by
  unfold createPrototype at h
  rw [bind_eq_ok] at h
  obtain ⟨p1, h1, h⟩ := h
  rw [bind_eq_ok] at h
  obtain ⟨p2, h2, h⟩ := h
  obtain ⟨hn1, hs1, tys1, ht1, hall1⟩ := arguments_loop arguments _ _ h1
  obtain ⟨ha2, hn2, tys2, ht2, hall2⟩ := results_loop results _ _ h2
  have hfilter : (fun (res : ir.Var) => decide (res.name ∉ p1.argNames))
      = (fun (res : ir.Var) => decide (res.name ∉ arguments.map (fun arg => arg.name))) := by
    funext res
    have := hs1 res.name
    simp only [List.not_mem_nil, false_or] at this
    simp only [this]
  rw [hfilter] at hn2 hall2
  by_cases hlen : p2.llvmArgNames.length = p2.llvmArgTypes.length
  · simp only [hlen, if_true] at h
    obtain ⟨hfn, hft, hfl, _, _⟩ := createPrototypeOfTypes_eq_ok h
    refine ⟨?_, by rw [hfl, hft], tys1, tys2, ?_, hall1, hall2⟩
    · rw [hfn, ← hlen, List.take_length, hn2, hn1]; simp
    · rw [hft, ht2, ht1]; simp
  · simp [hlen] at h

/-- `createPrototype` returns a function when the types of the arguments and
of the results are tensors or sets. -/
theorem createPrototype_ok (singleFloat : Bool) (name : String)
    (arguments results : List ir.Var) (externalLinkage doesNotThrow scalarsByValue : Bool)
    (addrspace : Nat)
    (hargs : ∀ arg ∈ arguments, (∃ t, arg.type = .Tensor t) ∨ ∃ s, arg.type = .Set s)
    (hress : ∀ res ∈ results, (∃ t, res.type = .Tensor t) ∨ ∃ s, res.type = .Set s) :
    ∃ f, createPrototype singleFloat name arguments results externalLinkage doesNotThrow
      scalarsByValue addrspace = .ok f := by
  obtain ⟨p1, h1⟩ := arguments_loop_ok singleFloat scalarsByValue addrspace arguments
    ⟨[], [], []⟩ hargs
  obtain ⟨p2, h2⟩ := results_loop_ok singleFloat addrspace results p1 hress
  obtain ⟨hn1, hs1, tys1, ht1, hall1⟩ := arguments_loop arguments _ _ h1
  obtain ⟨ha2, hn2, tys2, ht2, hall2⟩ := results_loop results _ _ h2
  have hlen : p2.llvmArgNames.length = p2.llvmArgTypes.length := by
    rw [hn2, ht2, hn1, ht1]
    have e1 := hall1.length_eq
    have e2 := hall2.length_eq
    simp only [List.length_append, List.length_map, List.length_nil] at *
    omega
  obtain ⟨f, hf⟩ := createPrototypeOfTypes_ok name p2.llvmArgNames p2.llvmArgTypes
    externalLinkage doesNotThrow (by omega)
  refine ⟨f, ?_⟩
  unfold createPrototype
  simp only [h1, h2, bind, Except.bind, hlen, if_true]
  exact hf

/-- C36: the parameters of the function returned by `createPrototype` are named
after the arguments, in their order, followed by the results, in their order,
whose name is the name of no argument; there are as many parameter names as
parameter types; a result named like an argument adds no parameter (its name
occurs among the parameters as often as among the arguments).  A function is
returned whenever the types of the arguments and results are tensors or
sets. -/
theorem prototype_parameter_list (singleFloat : Bool) (name : String)
    (arguments results : List ir.Var) (externalLinkage doesNotThrow scalarsByValue : Bool)
    (addrspace : Nat) :
    (∀ f, createPrototype singleFloat name arguments results externalLinkage doesNotThrow
        scalarsByValue addrspace = .ok f →
      f.argNames = arguments.map (fun arg => arg.name) ++
        (results.filter
          (fun res => decide (res.name ∉ arguments.map (fun arg => arg.name)))).map
          (fun res => res.name) ∧
      f.argNames.length = f.argTypes.length ∧
      ∀ res ∈ results, res.name ∈ arguments.map (fun arg => arg.name) →
        f.argNames.count res.name = (arguments.map (fun arg => arg.name)).count res.name) ∧
    ((∀ v ∈ arguments ++ results, (∃ t, v.type = .Tensor t) ∨ ∃ s, v.type = .Set s) →
      ∃ f, createPrototype singleFloat name arguments results externalLinkage doesNotThrow
        scalarsByValue addrspace = .ok f) := by
  refine ⟨?_, ?_⟩
  · intro f h
    obtain ⟨hn, hl, _⟩ := createPrototype_eq_ok h
    refine ⟨hn, hl, ?_⟩
    intro res _ hin
    rw [hn, List.count_append, Nat.add_right_eq_self, List.count_eq_zero]
    intro hmem
    rw [List.mem_map] at hmem
    obtain ⟨r, hr, hname⟩ := hmem
    rw [List.mem_filter] at hr
    have := hr.2
    simp only [decide_eq_true_eq] at this
    exact this (hname ▸ hin)
  · intro h
    exact createPrototype_ok singleFloat name arguments results externalLinkage doesNotThrow
      scalarsByValue addrspace (fun a ha => h a (by simp [ha])) (fun a ha => h a (by simp [ha]))

/-- Witness of C36: for the arguments `a`, `x`, `S` and the results `x`, `c` the
parameters are `a`, `x`, `S`, `c`. -/
theorem prototype_parameter_list_witness :
    createPrototype false "f" [Scenario.a, Scenario.x, Scenario.S] [Scenario.x, Scenario.c]
      true true true 0 = .ok Scenario.prototype ∧
    Scenario.prototype.argNames = ["a", "x", "S", "c"] ∧
    Scenario.prototype.argNames.length = Scenario.prototype.argTypes.length :=
  ⟨rfl, rfl,
    ((prototype_parameter_list false "f" [Scenario.a, Scenario.x, Scenario.S]
      [Scenario.x, Scenario.c] true true true 0).1 Scenario.prototype rfl).2.1⟩

/-- Counterexample to C32 as stated: with `scalarsByValue`, for the arguments
`a`, `x` and the results `x`, `c`, the scalar result `c` is a parameter of
pointer type, not of its component type. -/
theorem scalars_by_value_counterexample :
    ∃ f, createPrototype false "f" [Scenario.a, Scenario.x] [Scenario.x, Scenario.c]
        true true true 0 = .ok f ∧
      isScalar Scenario.c.type = true ∧
      f.argNames = ["a", "x", "c"] ∧
      f.argNames[2]? = some Scenario.c.name ∧
      f.argTypes[2]? = some (.pointer .double 0) ∧
      llvmTypeOfScalar false .Float = .double ∧
      (LLVMType.pointer .double 0).isPointerTy = true :=
  ⟨_, rfl, rfl, rfl, rfl, rfl, rfl, rfl⟩

/-- C32, amended: in the function returned by `createPrototype` with
`scalarsByValue`, the parameter types are those of the arguments followed by
those of the results named like no argument.  An argument of scalar tensor type
has its component type, which is no pointer; an argument of a tensor type of
order at least 1 has the type of a pointer to its component type.  A result of
tensor type, scalars included, has the type of a pointer to its component
type. -/
theorem parameter_passing (singleFloat : Bool) (name : String)
    (arguments results : List ir.Var) (externalLinkage doesNotThrow : Bool)
    (addrspace : Nat) (f : Function)
    (h : createPrototype singleFloat name arguments results externalLinkage doesNotThrow
      true addrspace = .ok f) :
    ∃ argTys resTys, f.argTypes = argTys ++ resTys ∧
      List.Forall₂ (fun (arg : ir.Var) ty =>
        (∀ t, arg.type = .Tensor t → t.order = 0 →
          ty = llvmTypeOfScalar singleFloat t.componentType ∧ ty.isPointerTy = false) ∧
        (∀ t, arg.type = .Tensor t → t.order ≠ 0 →
          ty = .pointer (llvmTypeOfScalar singleFloat t.componentType) addrspace ∧
            ty.isPointerTy = true)) arguments argTys ∧
      List.Forall₂ (fun (res : ir.Var) ty =>
        ∀ t, res.type = .Tensor t →
          ty = .pointer (llvmTypeOfScalar singleFloat t.componentType) addrspace ∧
            ty.isPointerTy = true)
        (results.filter (fun res => decide (res.name ∉ arguments.map (fun arg => arg.name))))
        resTys := by
  obtain ⟨_, _, argTys, resTys, ht, hargs, hress⟩ := createPrototype_eq_ok h
  have hlower : ∀ (type : ir.IRType) ty, llvmType singleFloat type addrspace = .ok ty →
      ∀ t, type = .Tensor t →
        ty = .pointer (llvmTypeOfScalar singleFloat t.componentType) addrspace ∧
          ty.isPointerTy = true := by
    intro type ty hty t htype
    subst htype
    injection hty with hty
    rw [← hty, llvmTypeOfTensor, llvmPtrType_eq]
    exact ⟨rfl, rfl⟩
  refine ⟨argTys, resTys, ht, ?_, ?_⟩
  · refine hargs.imp ?_
    intro arg ty hrel
    rcases hrel with ⟨hs, _, t, htype, hty⟩ | ⟨hns, hty⟩
    · refine ⟨?_, ?_⟩
      · intro t' ht' _
        rw [htype] at ht'
        injection ht' with ht'
        subst ht'
        exact ⟨hty, hty ▸ llvmTypeOfScalar_not_pointer singleFloat t.componentType⟩
      · intro t' ht' hord
        rw [htype] at ht'
        injection ht' with ht'
        subst ht'
        rw [htype] at hs
        simp [isScalar, ir.isScalarTensor] at hs
        exact absurd hs hord
    · refine ⟨?_, ?_⟩
      · intro t htype hord
        exfalso
        apply hns
        refine ⟨?_, rfl⟩
        rw [htype]
        simp [isScalar, ir.isScalarTensor, hord]
      · intro t htype _
        exact hlower arg.type ty hty t htype
  · refine hress.imp ?_
    intro res ty hty
    exact hlower res.type ty hty

/-- Witness of C32: the function made for the arguments `a`, `x` and the
results `x`, `c` has two parameter types for the arguments and one for the
result `c`. -/
theorem parameter_passing_witness :
    createPrototype false "f" [Scenario.a, Scenario.x] [Scenario.x, Scenario.c]
      true true true 0
      = .ok ⟨"f", .void, ["a", "x", "c"], [.double, .pointer .int32 0, .pointer .double 0],
          true, true, [2, 3]⟩ ∧
    ∃ argTys resTys,
      ([.double, .pointer .int32 0, .pointer .double 0] : List LLVMType) = argTys ++ resTys ∧
      argTys.length = 2 ∧ resTys.length = 1 := by
  refine ⟨rfl, ?_⟩
  obtain ⟨argTys, resTys, ht, hargs, hress⟩ :=
    parameter_passing false "f" [Scenario.a, Scenario.x] [Scenario.x, Scenario.c]
      true true 0 ⟨"f", .void, ["a", "x", "c"], [.double, .pointer .int32 0, .pointer .double 0],
          true, true, [2, 3]⟩ rfl
  exact ⟨argTys, resTys, ht, hargs.length_eq.symm, hress.length_eq.symm⟩

end backend

namespace ir

/-- A statement that is or holds a tensor write or a field write is not
lowered. -/
theorem LowerIndexExpressions.mutateStmt_hasWrite (env : Collaborators) (s : Stmt)
    (h : s.hasWrite = true) :
    ∃ err, LowerIndexExpressions.mutateStmt env s = .error err := by
  induction s with
  | AssignStmt var value => simp [Stmt.hasWrite] at h
  | FieldWrite _ _ _ => exact ⟨_, rfl⟩
  | TensorWrite _ _ _ => exact ⟨_, rfl⟩
  | Store b i v => simp [Stmt.hasWrite] at h
  | For var domain body ih =>
    obtain ⟨err, he⟩ := ih (by simpa [Stmt.hasWrite] using h)
    simp [LowerIndexExpressions.mutateStmt, he, bind, Except.bind]
  | Block first rest ih1 ih2 =>
    simp only [Stmt.hasWrite, Bool.or_eq_true] at h
    simp only [LowerIndexExpressions.mutateStmt, bind, Except.bind]
    rcases h with h | h
    · obtain ⟨err, he⟩ := ih1 h
      simp [he]
    · obtain ⟨err, he⟩ := ih2 h
      cases LowerIndexExpressions.mutateStmt env first <;> simp [he]
  | Pass => simp [Stmt.hasWrite] at h

/-- C34: `lowerIndexExpressions` returns no function for a function whose body
is or holds, under loops and blocks, a tensor write or a field write, whatever
the parts of the write are; the visit of a tensor write and the visit of a
field write fail as unsupported, and so does the lowering of a function whose
body is such a write. -/
theorem writes_rejected (env : Collaborators) (func : Func)
    (h : func.body.hasWrite = true) :
    (∃ err, lowerIndexExpressions env func = .error err) ∧
    (∀ tensor indices value,
      LowerIndexExpressions.mutateStmt env (.TensorWrite tensor indices value)
        = .error .unsupported) ∧
    (∀ elementOrSet fieldName value,
      LowerIndexExpressions.mutateStmt env (.FieldWrite elementOrSet fieldName value)
        = .error .unsupported) ∧
    (∀ name arguments results tensor indices value,
      lowerIndexExpressions env ⟨name, arguments, results, .TensorWrite tensor indices value⟩
        = .error .unsupported) ∧
    (∀ name arguments results elementOrSet fieldName value,
      lowerIndexExpressions env
        ⟨name, arguments, results, .FieldWrite elementOrSet fieldName value⟩
        = .error .unsupported) := by
  refine ⟨?_, fun _ _ _ => rfl, fun _ _ _ => rfl, fun _ _ _ _ _ _ => rfl,
    fun _ _ _ _ _ _ => rfl⟩
  obtain ⟨err, he⟩ := LowerIndexExpressions.mutateStmt_hasWrite env func.body h
  exact ⟨err, by simp [lowerIndexExpressions, he, bind, Except.bind]⟩

/-- Witness of C34: the function whose body holds the write `x(i) = v`, with
no index expression in it, is not lowered. -/
theorem writes_rejected_witness :
    Written.func.body.hasWrite = true ∧
    Written.func.body.exposesIndexExpr = false ∧
    (∃ err, lowerIndexExpressions (Collaborators.fixed ⟨[]⟩ .Sum) Written.func = .error err) ∧
    lowerIndexExpressions (Collaborators.fixed ⟨[]⟩ .Sum) Written.func = .error .unsupported ∧
    lowerIndexExpressions (Collaborators.fixed ⟨[]⟩ .Sum) Written.fieldFunc
      = .error .unsupported :=
  ⟨rfl, rfl, (writes_rejected (Collaborators.fixed ⟨[]⟩ .Sum) Written.func rfl).1, rfl, rfl⟩

end ir

namespace util
namespace Memory

/-! ## Facts about intrusive pointers -/

theorem getPtr_eq_ok {m : Memory} {h : Nat} {ptr : Option Nat} (hp : m.getPtr h = .ok ptr) :
    ∃ handle, m.handles[h]? = some handle ∧ handle.alive = true ∧ handle.ptr = ptr := by
  unfold getPtr at hp
  cases hh : m.handles[h]? with
  | none => simp [hh] at hp
  | some handle =>
    simp only [hh] at hp
    by_cases ha : handle.alive = true
    · simp only [ha, if_true] at hp
      injection hp with hp
      exact ⟨handle, rfl, ha, hp⟩
    · simp [ha] at hp

theorem getPtr_setPtr_self {m : Memory} {h : Nat} {ptr : Option Nat} (hlt : h < m.handles.length) :
    (m.setPtr h ptr).getPtr h = .ok ptr := by
  unfold getPtr setPtr
  simp [List.getElem?_set, hlt]

theorem getPtr_setPtr_of_ne {m : Memory} {h k : Nat} {ptr : Option Nat} (hne : h ≠ k) :
    (m.setPtr h ptr).getPtr k = m.getPtr k := by
  unfold getPtr setPtr
  simp [List.getElem?_set, hne]

/-- Giving a handle that designates `x` a `ptr` that does not takes one away
from the handles on `x`. -/
theorem handlesOn_setPtr_away {m : Memory} {h x : Nat} {ptr : Option Nat}
    (hp : m.getPtr h = .ok (some x)) (hne : ptr ≠ some x) :
    (m.setPtr h ptr).handlesOn x + 1 = m.handlesOn x := by
  obtain ⟨handle, hh, ha, hptr⟩ := getPtr_eq_ok hp
  have hlt : h < m.handles.length := by
    rcases Nat.lt_or_ge h m.handles.length with hl | hl
    · exact hl
    · rw [List.getElem?_eq_none hl] at hh; cases hh
  have hget : m.handles[h] = handle := by
    rw [List.getElem?_eq_getElem hlt] at hh
    injection hh
  have hpos : 0 < m.handles.countP (fun h => h.alive && h.ptr == some x) := by
    rw [List.countP_pos_iff]
    exact ⟨handle, hget ▸ List.getElem_mem hlt, by simp [ha, hptr]⟩
  unfold handlesOn setPtr
  simp only
  rw [List.countP_set _ _ _ _ hlt, hget]
  have h1 : (handle.alive && handle.ptr == some x) = true := by simp [ha, hptr]
  have h2 : ((⟨ptr, true⟩ : IntrusivePtr).alive && (⟨ptr, true⟩ : IntrusivePtr).ptr == some x)
      = false := by
    simp only [Bool.true_and, beq_eq_false_iff_ne, ne_eq]
    exact hne
  rw [h1, h2]
  simp only [if_true, Bool.false_eq_true, if_false, Nat.add_zero]
  omega

/-- Giving a handle that does not designate `x` a `ptr` that does not keeps
the handles on `x`. -/
theorem handlesOn_setPtr_other {m : Memory} {h x : Nat} {old ptr : Option Nat}
    (hp : m.getPtr h = .ok old) (hold : old ≠ some x) (hne : ptr ≠ some x) :
    (m.setPtr h ptr).handlesOn x = m.handlesOn x := by
  obtain ⟨handle, hh, ha, hptr⟩ := getPtr_eq_ok hp
  have hlt : h < m.handles.length := by
    rcases Nat.lt_or_ge h m.handles.length with hl | hl
    · exact hl
    · rw [List.getElem?_eq_none hl] at hh; cases hh
  have hget : m.handles[h] = handle := by
    rw [List.getElem?_eq_getElem hlt] at hh
    injection hh
  unfold handlesOn setPtr
  simp only
  rw [List.countP_set _ _ _ _ hlt, hget]
  have h1 : (handle.alive && handle.ptr == some x) = false := by
    rw [hptr]
    simp only [Bool.and_eq_false_imp, beq_eq_false_iff_ne, ne_eq]
    intro _
    exact hold
  have h2 : ((⟨ptr, true⟩ : IntrusivePtr).alive && (⟨ptr, true⟩ : IntrusivePtr).ptr == some x)
      = false := by
    simp only [Bool.true_and, beq_eq_false_iff_ne, ne_eq]
    exact hne
  rw [h1, h2]
  simp

/-- `aquire` on another object keeps an object and the handles. -/
theorem aquire_other {m m' : Memory} {x y : Nat} (h : m.aquire y = .ok m') (hne : y ≠ x) :
    m'.objects[x]? = m.objects[x]? ∧ m'.handles = m.handles := by
  unfold aquire at h
  cases hy : m.objects[y]? with
  | none => simp [hy] at h
  | some obj =>
    simp only [hy] at h
    split at h
    · cases h
    · split at h
      · injection h with h
        subst h
        simp [List.getElem?_set, hne]
      · cases h

/-- C35, where the code departs from it: a copy assignment and a move
assignment over a handle that designates an object `x`, from a handle that
does not, leave the object `x` as it is, with its reference count, while one
handle fewer designates it.  So when the count of `x` was the number of its
handles before, it is one more than that number afterwards: the handle has not
given up its reference, and the memory does not satisfy the invariant of
reference counting any more.  The move assignment always takes place. -/
theorem assignment_keeps_reference (m : Memory) (this other x : Nat) (obj : Managed)
    (ptr : Option Nat)
    (hthis : m.getPtr this = .ok (some x)) (hother : m.getPtr other = .ok ptr)
    (hne : ptr ≠ some x)
    (hobj : m.objects[x]? = some obj) (hlive : obj.deleted = false)
    (hcount : obj.ref = (m.handlesOn x : ℤ)) :
    (∀ m', m.copyAssign this other = .ok m' →
      m'.objects[x]? = some obj ∧ m'.handlesOn x + 1 = m.handlesOn x ∧
      obj.ref = (m'.handlesOn x : ℤ) + 1 ∧ ¬ m'.Counted) ∧
    (∀ m', m.moveAssign this other = .ok m' →
      m'.objects[x]? = some obj ∧ m'.handlesOn x + 1 = m.handlesOn x ∧
      obj.ref = (m'.handlesOn x : ℤ) + 1 ∧ ¬ m'.Counted) ∧
    (∃ m', m.moveAssign this other = .ok m') := by
  have hto : this ≠ other := by
    intro heq
    rw [heq, hother] at hthis
    injection hthis with hthis
    exact hne hthis
  have hfinish : ∀ m' : Memory, m'.objects[x]? = some obj →
      m'.handlesOn x + 1 = m.handlesOn x →
      m'.objects[x]? = some obj ∧ m'.handlesOn x + 1 = m.handlesOn x ∧
      obj.ref = (m'.handlesOn x : ℤ) + 1 ∧ ¬ m'.Counted := by
    intro m' h1 h2
    have h3 : obj.ref = (m'.handlesOn x : ℤ) + 1 := by
      rw [hcount, ← h2]; push_cast; ring
    refine ⟨h1, h2, h3, ?_⟩
    intro hc
    have := hc x obj h1 hlive
    omega
  have hset : (m.setPtr this ptr).handlesOn x + 1 = m.handlesOn x :=
    handlesOn_setPtr_away hthis hne
  refine ⟨?_, ?_, ?_⟩
  · intro m' h
    unfold copyAssign at h
    simp only [hthis, hother, bind, Except.bind] at h
    cases hp : ptr with
    | none =>
      subst hp
      simp only at h
      injection h with h
      subst h
      exact hfinish _ hobj hset
    | some y =>
      subst hp
      simp only at h
      have hy : y ≠ x := fun e => hne (by rw [e])
      obtain ⟨ho, hh⟩ := aquire_other h hy
      refine hfinish _ (by rw [ho]; exact hobj) ?_
      have : m'.handlesOn x = (m.setPtr this (some y)).handlesOn x := by
        unfold handlesOn
        rw [hh]
      rw [this]
      exact hset
  · intro m' h
    unfold moveAssign at h
    simp only [hthis, hother, bind, Except.bind] at h
    injection h with h
    subst h
    refine hfinish _ hobj ?_
    have hother' : (m.setPtr this ptr).getPtr other = .ok ptr := by
      rw [getPtr_setPtr_of_ne hto]
      exact hother
    rw [handlesOn_setPtr_other hother' hne (by simp)]
    exact hset
  · unfold moveAssign
    simp only [hthis, hother, bind, Except.bind]
    exact ⟨_, rfl⟩

/-- The memory of the scenario: two objects of count 1, each designated by one
handle, satisfies the invariant of reference counting. -/
theorem counted_two :
    Counted ⟨[⟨1, false⟩, ⟨1, false⟩], [⟨some 0, true⟩, ⟨some 1, true⟩]⟩ := by
  intro x obj hobj _
  match x with
  | 0 =>
    simp at hobj
    subst hobj
    rfl
  | 1 =>
    simp at hobj
    subst hobj
    rfl
  | n + 2 => simp at hobj

/-- Witness of C35: with two objects and the handles `a` and `b` on them, after
`a = b` the first object still has the count 1 and no handle on it; the same
after `a = std::move(b)`; and after `a = b` and the destruction of both
handles the first object is not deleted.  The assignment from a raw pointer
does not return. -/
theorem assignment_keeps_reference_witness :
    Scenario.two = .ok ⟨[⟨1, false⟩, ⟨1, false⟩], [⟨some 0, true⟩, ⟨some 1, true⟩]⟩ ∧
    Counted ⟨[⟨1, false⟩, ⟨1, false⟩], [⟨some 0, true⟩, ⟨some 1, true⟩]⟩ ∧
    (∀ m', copyAssign ⟨[⟨1, false⟩, ⟨1, false⟩], [⟨some 0, true⟩, ⟨some 1, true⟩]⟩ 0 1
        = .ok m' →
      m'.objects[0]? = some ⟨1, false⟩ ∧ m'.handlesOn 0 + 1 = 1 ∧ ¬ m'.Counted) ∧
    copyAssign ⟨[⟨1, false⟩, ⟨1, false⟩], [⟨some 0, true⟩, ⟨some 1, true⟩]⟩ 0 1
      = .ok ⟨[⟨1, false⟩, ⟨2, false⟩], [⟨some 1, true⟩, ⟨some 1, true⟩]⟩ ∧
    moveAssign ⟨[⟨1, false⟩, ⟨1, false⟩], [⟨some 0, true⟩, ⟨some 1, true⟩]⟩ 0 1
      = .ok ⟨[⟨1, false⟩, ⟨1, false⟩], [⟨some 1, true⟩, ⟨none, true⟩]⟩ ∧
    (Scenario.two >>= fun m => m.copyAssign 0 1 >>= fun m => m.destroy 0 >>= fun m =>
        m.destroy 1)
      = .ok ⟨[⟨1, false⟩, ⟨0, true⟩], [⟨some 1, false⟩, ⟨some 1, false⟩]⟩ ∧
    (Scenario.two >>= fun m => m.assignRaw 0 (some 1)) = .error .undefinedBehavior := by
  refine ⟨rfl, counted_two, ?_, rfl, rfl, rfl, rfl⟩
  intro m' h
  have := (assignment_keeps_reference
    ⟨[⟨1, false⟩, ⟨1, false⟩], [⟨some 0, true⟩, ⟨some 1, true⟩]⟩ 0 1 0 ⟨1, false⟩ (some 1)
    rfl rfl (by decide) rfl rfl rfl).1 m' h
  exact ⟨this.1, this.2.1, this.2.2.2⟩

end Memory
end util

/-! ## The contents of an index do not depend on the memo map -/

theorem copyNeighbors_impl (index : PathIndex) (m : NeighborMap) :
    copyNeighbors index m = copyNeighbors ⟨0, index.impl⟩ m := rfl

theorem intersectNeighbors_impl (lpn : NeighborMap) (index : PathIndex) (m : NeighborMap) :
    intersectNeighbors lpn index m = intersectNeighbors lpn ⟨0, index.impl⟩ m := rfl

theorem uniteNeighbors_impl (index : PathIndex) (m : NeighborMap) :
    uniteNeighbors index m = uniteNeighbors ⟨0, index.impl⟩ m := rfl

theorem joinNeighbors_impl (s q : PathIndex) (m : NeighborMap) :
    joinNeighbors s q m = joinNeighbors ⟨0, s.impl⟩ ⟨0, q.impl⟩ m := rfl

theorem linkToSinkSet_impl (s : PathIndex) (sinkSet : Set) (m : NeighborMap) :
    linkToSinkSet s sinkSet m = linkToSinkSet ⟨0, s.impl⟩ sinkSet m := rfl

theorem linkSinkNeighbors_impl (s q : PathIndex) (m : NeighborMap) :
    linkSinkNeighbors s q m = linkSinkNeighbors ⟨0, s.impl⟩ ⟨0, q.impl⟩ m := rfl

/-- Where `buildIndex` ends normally it is one call of `buildSegmented`, the
same for every builder. -/
theorem buildIndex_plan {f0 : PathExpression → Nat → PathIndexBuilder → Built}
    {pathExpr : PathExpression} {source sink : Var} {b0 : PathIndexBuilder}
    {r : PathIndex × PathIndexBuilder}
    (h : buildIndex f0 pathExpr source sink b0 = .ok r) :
    ∃ ep, ∀ (f : PathExpression → Nat → PathIndexBuilder → Built) (b : PathIndexBuilder),
      buildIndex f pathExpr source sink b = f pathExpr ep b := by
  unfold buildIndex at h
  simp only at h
  cases hs : findLocations (getVarToLocationsMap [pathExpr]) source with
  | none => simp [hs] at h
  | some locs =>
    cases locs with
    | nil =>
      rw [hs] at h
      simp only [Option.isSome_some, if_true] at h
      split at h <;> cases h
    | cons loc rest =>
      cases hk : (findLocations (getVarToLocationsMap [pathExpr]) sink).isSome with
      | false => simp [hs, hk] at h
      | true =>
        obtain ⟨e, he, hlocs⟩ := findLocations_mem hs
        have hpe := getVarToLocationsMap_mem [pathExpr] e he loc (by rw [hlocs]; simp)
        simp only [List.mem_singleton] at hpe
        refine ⟨loc.endpoint, ?_⟩
        intro f b
        unfold buildIndex
        simp only [hs, hk, Option.isSome_some, if_true, hpe]

/-- Where `buildIndices` ends normally it is two calls of `buildSegmented` on
operands, the same for every builder. -/
theorem buildIndices_plan {f0 : PathExpression → Nat → PathIndexBuilder → Built}
    {lhs rhs : PathExpression} {source quantified sink : Var} {b0 : PathIndexBuilder}
    {r : PathIndex × PathIndex × PathIndexBuilder}
    (h : buildIndices f0 lhs rhs source quantified sink b0 = .ok r) :
    ∃ pe1 ep1 pe2 ep2, (pe1 = lhs ∨ pe1 = rhs) ∧ (pe2 = lhs ∨ pe2 = rhs) ∧
      ∀ (f : PathExpression → Nat → PathIndexBuilder → Built) (b : PathIndexBuilder),
        buildIndices f lhs rhs source quantified sink b =
          (f pe1 ep1 b >>= fun r1 => f pe2 ep2 r1.2 >>= fun r2 => .ok (r1.1, r2.1, r2.2)) := by
  have mem : ∀ (v : Var) (loc : Location) (rest : List Location),
      (findLocations (getVarToLocationsMap [lhs, rhs]) v).getD [] = loc :: rest →
      loc.pathExpr = lhs ∨ loc.pathExpr = rhs := by
    intro v loc rest hv
    cases hf : findLocations (getVarToLocationsMap [lhs, rhs]) v with
    | none => rw [hf] at hv; simp at hv
    | some locs =>
      rw [hf] at hv
      simp only [Option.getD_some] at hv
      obtain ⟨e, he, hlocs⟩ := findLocations_mem hf
      have := getVarToLocationsMap_mem [lhs, rhs] e he loc (by rw [hlocs, hv]; simp)
      simpa using this
  unfold buildIndices at h
  simp only at h
  cases hq : (findLocations (getVarToLocationsMap [lhs, rhs]) quantified).isSome with
  | false => simp [hq] at h
  | true =>
    by_cases hlen :
        ((findLocations (getVarToLocationsMap [lhs, rhs]) quantified).getD []).length = 2
    · cases hsrc : (findLocations (getVarToLocationsMap [lhs, rhs]) source).getD [] with
      | nil => simp [hq, hlen, hsrc] at h
      | cons sourceLoc rest1 =>
        cases hsink : (findLocations (getVarToLocationsMap [lhs, rhs]) sink).getD [] with
        | nil =>
          simp only [hq, hlen, hsrc, hsink, if_true, bind_eq_ok] at h
          obtain ⟨a, -, h⟩ := h
          cases h
        | cons sinkLoc rest2 =>
          refine ⟨sourceLoc.pathExpr, sourceLoc.endpoint, sinkLoc.pathExpr,
            if sinkLoc.endpoint = 0 then 1 else 0, mem _ _ _ hsrc, mem _ _ _ hsink, ?_⟩
          intro f b
          unfold buildIndices
          simp only [hq, hlen, hsrc, hsink, if_true]
    · simp [hq, hlen] at h

/-- The plan of a step of the visitor that ended normally: either it makes an
index object of fixed contents, or it asks `buildSegmented` for two operands,
at two endpoints, and makes an index object whose contents are computed from
the contents of the two answers.  The plan is the same for every builder and
every `buildSegmented`. -/
theorem build_plan {f0 : PathExpression → Nat → PathIndexBuilder → Built}
    {pe : PathExpression} {b0 : PathIndexBuilder} {r : PathIndex × PathIndexBuilder}
    (h : build f0 pe b0 = .ok r) :
    (∃ impl, ∀ (f : PathExpression → Nat → PathIndexBuilder → Built) (b : PathIndexBuilder),
      build f pe b = .ok (b.alloc impl)) ∨
    (∃ pe1 ep1 pe2 ep2,
      ∃ comb : PathIndexImpl → PathIndexImpl → Except Error PathIndexImpl,
      pe1 ∈ pe.operands ∧ pe2 ∈ pe.operands ∧
      ∀ (f : PathExpression → Nat → PathIndexBuilder → Built) (b : PathIndexBuilder),
        build f pe b =
          (f pe1 ep1 b >>= fun r1 => f pe2 ep2 r1.2 >>= fun r2 =>
            comb r1.1.impl r2.1.impl >>= fun impl => .ok (r2.2.alloc impl))) := by
  obtain ⟨pi, b'⟩ := r
  cases pe with
  | link lhs rhs type =>
    left
    simp only [build] at h
    obtain ⟨edgeSet, hE, hcard, h | h⟩ := visitLink_eq_ok h
    · obtain ⟨rfl, hh, -⟩ := h
      refine ⟨.setEndpoint ⟨edgeSet⟩, ?_⟩
      intro f b
      simp [build, visitLink, hE, hcard, SetEndpointPathIndex.create, hh, bind, Except.bind]
    · obtain ⟨rfl, vertexSet, m, idx, hV, hm, hidx, -⟩ := h
      refine ⟨.segmented idx, ?_⟩
      intro f b
      simp [build, visitLink, hE, hcard, hV, hm, hidx, bind, Except.bind]
  | and freeVars quantifiedVars lhs rhs =>
    right
    simp only [build] at h
    obtain ⟨fv0, fv1, rfl, h | h⟩ := visitAnd_eq_ok h
    · obtain ⟨rfl, l, b1, r, b2, lpn, m, idx, hl, hr, -, -, -, -⟩ := h
      obtain ⟨ep1, h1⟩ := buildIndex_plan hl
      obtain ⟨ep2, h2⟩ := buildIndex_plan hr
      refine ⟨lhs, ep1, rhs, ep2,
        fun l r => copyNeighbors ⟨0, l⟩ [] >>= fun lpn =>
          intersectNeighbors lpn ⟨0, r⟩ [] >>= fun m => pack m >>= fun idx =>
            .ok (.segmented idx),
        by simp [PathExpression.operands], by simp [PathExpression.operands], ?_⟩
      intro f b
      simp only [build, visitAnd, isQuantified, List.length_nil, Nat.lt_irrefl, decide_False,
        Bool.not_false, if_true, h1, h2]
      cases f lhs ep1 b with
      | error e => rfl
      | ok r1 =>
        simp only [bind_assoc]
        rfl
    · obtain ⟨qvar, rfl, s, q, b2, m, idx, hsq, -, -, -⟩ := h
      obtain ⟨pe1, ep1, pe2, ep2, hp1, hp2, hplan⟩ := buildIndices_plan hsq
      refine ⟨pe1, ep1, pe2, ep2,
        fun s q => joinNeighbors ⟨0, s⟩ ⟨0, q⟩ [] >>= fun m => pack m >>= fun idx =>
          .ok (.segmented idx),
        by simpa [PathExpression.operands] using hp1,
        by simpa [PathExpression.operands] using hp2, ?_⟩
      intro f b
      simp only [build, visitAnd, isQuantified, List.length_singleton, Nat.lt_add_one,
        decide_True, Bool.not_true, Bool.false_eq_true, if_false, hplan]
      cases f pe1 ep1 b with
      | error e => rfl
      | ok r1 =>
        simp only [bind_assoc]
        rfl
  | or freeVars quantifiedVars lhs rhs =>
    right
    simp only [build] at h
    obtain ⟨fv0, fv1, rfl, h | h⟩ := visitOr_eq_ok h
    · obtain ⟨rfl, l, b1, r, b2, m0, m, idx, hl, hr, -, -, -, -⟩ := h
      obtain ⟨ep1, h1⟩ := buildIndex_plan hl
      obtain ⟨ep2, h2⟩ := buildIndex_plan hr
      refine ⟨lhs, ep1, rhs, ep2,
        fun l r => copyNeighbors ⟨0, l⟩ [] >>= fun m0 =>
          uniteNeighbors ⟨0, r⟩ m0 >>= fun m => pack m >>= fun idx =>
            .ok (.segmented idx),
        by simp [PathExpression.operands], by simp [PathExpression.operands], ?_⟩
      intro f b
      simp only [build, visitOr, isQuantified, List.length_nil, Nat.lt_irrefl, decide_False,
        Bool.not_false, if_true, h1, h2]
      cases f lhs ep1 b with
      | error e => rfl
      | ok r1 =>
        simp only [bind_assoc]
        rfl
    · obtain ⟨qvar, rfl, s, q, b2, sinkSet, m0, m, idx, hsq, hsink, -, -, -, -⟩ := h
      obtain ⟨pe1, ep1, pe2, ep2, hp1, hp2, hplan⟩ := buildIndices_plan hsq
      refine ⟨pe1, ep1, pe2, ep2,
        fun s q => linkToSinkSet ⟨0, s⟩ sinkSet [] >>= fun m0 =>
          linkSinkNeighbors ⟨0, s⟩ ⟨0, q⟩ m0 >>= fun m => pack m >>= fun idx =>
            .ok (.segmented idx),
        by simpa [PathExpression.operands] using hp1,
        by simpa [PathExpression.operands] using hp2, ?_⟩
      intro f b
      simp only [build, visitOr, isQuantified, List.length_singleton, Nat.lt_add_one,
        decide_True, Bool.not_true, Bool.false_eq_true, if_false, hplan, hsink]
      cases f pe1 ep1 b with
      | error e => rfl
      | ok r1 =>
        simp only [bind_assoc]
        rfl

theorem answering_eq_ok {answers : PathExpression → Option PathIndexImpl}
    {pe : PathExpression} {ep : Nat} {b b' : PathIndexBuilder} {pi : PathIndex}
    (h : answering answers pe ep b = .ok (pi, b')) :
    answers pe = some pi.impl ∧ b'.pathIndices = b.pathIndices := by
  unfold answering at h
  cases ha : answers pe with
  | none => simp [ha] at h
  | some impl =>
    simp only [ha] at h
    injection h with h
    obtain ⟨rfl, hp, -⟩ := alloc_eq h
    exact ⟨rfl, hp⟩

theorem answering_ok {answers : PathExpression → Option PathIndexImpl}
    {pe : PathExpression} {impl : PathIndexImpl} (ep : Nat) (b : PathIndexBuilder)
    (h : answers pe = some impl) :
    answering answers pe ep b = .ok (b.alloc impl) := by
  unfold answering
  rw [h]

/-- A normal end of a plan of two calls. -/
theorem plan_eq_ok {f : PathExpression → Nat → PathIndexBuilder → Built}
    {pe1 pe2 : PathExpression} {ep1 ep2 : Nat}
    {comb : PathIndexImpl → PathIndexImpl → Except Error PathIndexImpl}
    {b b' : PathIndexBuilder} {pi : PathIndex}
    (h : (f pe1 ep1 b >>= fun r1 => f pe2 ep2 r1.2 >>= fun r2 =>
      comb r1.1.impl r2.1.impl >>= fun impl => .ok (r2.2.alloc impl)) = .ok (pi, b')) :
    ∃ x b1 y b2 impl, f pe1 ep1 b = .ok (x, b1) ∧ f pe2 ep2 b1 = .ok (y, b2) ∧
      comb x.impl y.impl = .ok impl ∧ b2.alloc impl = (pi, b') := by
  simp only [bind_eq_ok] at h
  obtain ⟨⟨x, b1⟩, h1, ⟨y, b2⟩, h2, impl, h3, h4⟩ := h
  injection h4 with h4
  exact ⟨x, b1, y, b2, impl, h1, h2, h3, h4⟩

/-- A plan of two calls that end normally, with contents that combine, ends
normally. -/
theorem plan_ok {f : PathExpression → Nat → PathIndexBuilder → Built}
    {pe1 pe2 : PathExpression} {ep1 ep2 : Nat}
    {comb : PathIndexImpl → PathIndexImpl → Except Error PathIndexImpl}
    {b b1 b2 : PathIndexBuilder} {x y : PathIndex} {impl : PathIndexImpl}
    (h1 : f pe1 ep1 b = .ok (x, b1)) (h2 : f pe2 ep2 b1 = .ok (y, b2))
    (h3 : comb x.impl y.impl = .ok impl) :
    (f pe1 ep1 b >>= fun r1 => f pe2 ep2 r1.2 >>= fun r2 =>
      comb r1.1.impl r2.1.impl >>= fun impl => .ok (r2.2.alloc impl))
      = .ok (b2.alloc impl) := by
  simp only [h1, h2, h3, bind, Except.bind]

theorem alloc_impl {b b' : PathIndexBuilder} {impl : PathIndexImpl} {pi : PathIndex}
    (h : b.alloc impl = (pi, b')) : pi.impl = impl := by
  obtain ⟨rfl, -, -⟩ := alloc_eq h
  rfl

/-- A path expression denotes the contents of one index at most. -/
theorem Denotes.unique {pe : PathExpression} {i : PathIndexImpl} (h1 : Denotes pe i) :
    ∀ j, Denotes pe j → i = j := by
  induction h1 with
  | intro pe answers b b' pi impl hb hd hbuild himpl ih =>
    intro j h2
    cases h2 with
    | intro _ answers2 b2 b2' pi2 _ hb2 hd2 hbuild2 himpl2 =>
      rcases build_plan hbuild with ⟨impl0, hplan⟩ | ⟨pe1, ep1, pe2, ep2, comb, -, -, hplan⟩
      · rw [hplan] at hbuild hbuild2
        injection hbuild with hbuild
        injection hbuild2 with hbuild2
        rw [← himpl, ← himpl2, alloc_impl hbuild, alloc_impl hbuild2]
      · rw [hplan] at hbuild hbuild2
        obtain ⟨x, b1, y, b2, impl1, hx, hy, hc, ha⟩ := plan_eq_ok hbuild
        obtain ⟨x', b1', y', b2', impl2, hx', hy', hc', ha'⟩ := plan_eq_ok hbuild2
        have ex : x.impl = x'.impl :=
          ih pe1 x.impl (answering_eq_ok hx).1 x'.impl (hd2 pe1 x'.impl (answering_eq_ok hx').1)
        have ey : y.impl = y'.impl :=
          ih pe2 y.impl (answering_eq_ok hy).1 y'.impl (hd2 pe2 y'.impl (answering_eq_ok hy').1)
        rw [ex, ey, hc'] at hc
        injection hc with hc
        rw [← himpl, ← himpl2, alloc_impl ha, alloc_impl ha', hc]

theorem sound_of_pathIndices {b b' : PathIndexBuilder} (h : b'.pathIndices = b.pathIndices)
    (hb : b.Sound) : b'.Sound := by
  intro e he
  rw [h] at he
  exact hb e he

theorem sound_memoInsert {b : PathIndexBuilder} {pe : PathExpression} {ep : Nat}
    {pi : PathIndex} (hb : b.Sound) (hd : Denotes pe pi.impl) :
    (b.memoInsert (pe, ep) pi).Sound := by
  intro e he
  rcases memoInsert_mem he with he | rfl
  · exact hb e he
  · exact hd

theorem sound_of_empty {b : PathIndexBuilder} (h : b.pathIndices = []) : b.Sound := by
  intro e he
  rw [h] at he
  cases he

/-- The index `buildSegmented` returns on a builder whose memo map holds
denoted contents has the contents its path expression denotes, and the memo
map holds denoted contents afterwards. -/
theorem buildSegmented_denotes (fuel : Nat) : ∀ (pe : PathExpression) (ep : Nat)
    (b b' : PathIndexBuilder) (pi : PathIndex), b.Sound →
    buildSegmented fuel pe ep b = .ok (pi, b') → Denotes pe pi.impl ∧ b'.Sound := by
  induction fuel with
  | zero => intro pe ep b b' pi _ h; cases h
  | succ fuel ih =>
    intro pe ep b b' pi hb h
    obtain ⟨fuel', hf, hbound, h | h⟩ := buildSegmented_eq_ok h
    · obtain ⟨hl, rfl⟩ := h
      exact ⟨hb _ (lookup_mem hl), hb⟩
    · obtain ⟨-, b1, hbuild, rfl⟩ := h
      injection hf with hf
      subst hf
      have key : Denotes pe pi.impl ∧ b1.Sound := by
        rcases build_plan hbuild with ⟨impl0, hplan⟩ | ⟨pe1, ep1, pe2, ep2, comb, -, -, hplan⟩
        · rw [hplan] at hbuild
          injection hbuild with hbuild
          refine ⟨?_, sound_of_pathIndices (alloc_eq hbuild).2.1 hb⟩
          exact Denotes.intro pe (fun _ => none) b b1 pi pi.impl hbound
            (fun _ _ hn => by cases hn) (by rw [hplan, hbuild]) rfl
        · rw [hplan] at hbuild
          obtain ⟨x, ba, y, bb, impl, hx, hy, hc, ha⟩ := plan_eq_ok hbuild
          obtain ⟨dx, sa⟩ := ih pe1 ep1 b ba x hb hx
          obtain ⟨dy, sb⟩ := ih pe2 ep2 ba bb y sa hy
          refine ⟨?_, sound_of_pathIndices (alloc_eq ha).2.1 sb⟩
          have a1 : (fun pe' => if pe' = pe1 then some x.impl
              else if pe' = pe2 then some y.impl else none) pe1 = some x.impl := by
            simp
          have a2 : (fun pe' => if pe' = pe1 then some x.impl
              else if pe' = pe2 then some y.impl else none) pe2 = some y.impl := by
            by_cases e : pe2 = pe1
            · have : x.impl = y.impl := dx.unique _ (e ▸ dy)
              simp [e, this]
            · simp [e]
          refine Denotes.intro pe
            (fun pe' => if pe' = pe1 then some x.impl
              else if pe' = pe2 then some y.impl else none)
            b (((b.alloc x.impl).2.alloc y.impl).2.alloc impl).2
            (((b.alloc x.impl).2.alloc y.impl).2.alloc impl).1 pi.impl hbound ?_ ?_ ?_
          · intro pe' impl' hans
            simp only at hans
            by_cases e1 : pe' = pe1
            · simp only [e1, if_true] at hans
              injection hans with hans
              rw [e1, ← hans]
              exact dx
            · by_cases e2 : pe' = pe2
              · subst e2
                simp only [e1, if_false, if_true] at hans
                injection hans with hans
                rw [← hans]
                exact dy
              · simp [e1, e2] at hans
          · rw [hplan]
            exact plan_ok (answering_ok ep1 b a1) (answering_ok ep2 _ a2) hc
          · rw [alloc_impl ha]
            rfl
      exact ⟨key.1, sound_memoInsert key.2 key.1⟩

/-- Calls of `buildSegmented` keep the memo map to denoted contents. -/
theorem later_sound {b b' : PathIndexBuilder} (h : PathIndexBuilder.Later b b')
    (hb : b.Sound) : b'.Sound := by
  induction h with
  | refl => exact hb
  | step _ hcall ih => exact (buildSegmented_denotes _ _ _ _ _ _ ih hcall).2

theorem PathExpression.size_pos (pe : PathExpression) : 0 < pe.size := by
  cases pe <;> simp [PathExpression.size]

theorem PathExpression.size_operand {pe pe' : PathExpression} (h : pe' ∈ pe.operands) :
    pe'.size < pe.size := by
  cases pe with
  | link _ _ _ => simp [PathExpression.operands] at h
  | and _ _ lhs rhs =>
    simp only [PathExpression.operands, List.mem_cons, List.mem_singleton,
      List.mem_nil_iff, or_false] at h
    rcases h with rfl | rfl <;> simp only [PathExpression.size] <;> omega
  | or _ _ lhs rhs =>
    simp only [PathExpression.operands, List.mem_cons, List.mem_singleton,
      List.mem_nil_iff, or_false] at h
    rcases h with rfl | rfl <;> simp only [PathExpression.size] <;> omega

/-- With a budget of the size of the path expression, `buildSegmented` returns
an index of the contents the path expression denotes, at every source endpoint
and on every builder whose memo map holds denoted contents. -/
theorem Denotes.built {pe : PathExpression} {i : PathIndexImpl} (h : Denotes pe i) :
    ∀ (fuel ep : Nat) (b : PathIndexBuilder), pe.size ≤ fuel → b.Sound →
      ∃ pi b', buildSegmented fuel pe ep b = .ok (pi, b') ∧ pi.impl = i := by
  induction h with
  | intro pe answers b0 b0' pi0 impl hbound hd hbuild himpl ih =>
    intro fuel ep b hfuel hb
    have hden : Denotes pe impl := Denotes.intro pe answers b0 b0' pi0 impl hbound hd hbuild himpl
    cases fuel with
    | zero => have := pe.size_pos; omega
    | succ fuel =>
      cases hl : b.lookup (pe, ep) with
      | some pi =>
        refine ⟨pi, b, by simp [buildSegmented, hbound, hl], ?_⟩
        exact (hb _ (lookup_mem hl)).unique _ hden
      | none =>
        have key : ∃ pi b1, build (buildSegmented fuel) pe b = .ok (pi, b1) ∧ pi.impl = impl := by
          rcases build_plan hbuild with
            ⟨impl0, hplan⟩ | ⟨pe1, ep1, pe2, ep2, comb, hop1, hop2, hplan⟩
          · rw [hplan] at hbuild
            injection hbuild with hbuild
            refine ⟨(b.alloc impl0).1, (b.alloc impl0).2, hplan _ _, ?_⟩
            rw [← himpl, alloc_impl hbuild]
            rfl
          · rw [hplan] at hbuild
            obtain ⟨x, ba, y, bb, impl1, hx, hy, hc, ha⟩ := plan_eq_ok hbuild
            have s1 := PathExpression.size_operand hop1
            have s2 := PathExpression.size_operand hop2
            obtain ⟨px, b1, hpx, ex⟩ :=
              ih pe1 x.impl (answering_eq_ok hx).1 fuel ep1 b (by omega) hb
            have sb1 := (buildSegmented_denotes _ _ _ _ _ _ hb hpx).2
            obtain ⟨py, b2, hpy, ey⟩ :=
              ih pe2 y.impl (answering_eq_ok hy).1 fuel ep2 b1 (by omega) sb1
            refine ⟨(b2.alloc impl1).1, (b2.alloc impl1).2, ?_, ?_⟩
            · rw [hplan]
              exact plan_ok hpx hpy (by rw [ex, ey]; exact hc)
            · rw [← himpl, alloc_impl ha]
              rfl
        obtain ⟨pi, b1, hb1, hi⟩ := key
        exact ⟨pi, b1.memoInsert (pe, ep) pi,
          by simp [buildSegmented, hbound, hl, hb1, bind, Except.bind], hi⟩

theorem PathIndex.numElements_impl {p q : PathIndex} (h : p.impl = q.impl) :
    p.numElements = q.numElements := by
  unfold PathIndex.numElements
  rw [h]

theorem PathIndex.neighbors_impl {p q : PathIndex} (h : p.impl = q.impl) (elem : Nat) :
    p.neighbors elem = q.neighbors elem := by
  unfold PathIndex.neighbors
  rw [h]

/-- C33: the contents of the index `buildSegmented` returns for a path
expression do not depend on the source endpoint.  Take two builders that
started with empty memo maps and have answered any number of calls (none, for
builders with empty memo maps), and let the request for `pe` at the endpoint
`s1` return an index on the first.  Then every index the request for `pe` at
the endpoint `s2` returns on the second is an object of the same contents: the
same number of elements and the same neighbors of every element; with a budget
of the size of `pe` that request does return an index; and the same holds for
a request at `s2` on the first builder after the request at `s1`, where the
memo map has no entry for the other endpoint and the index is built again. -/
theorem source_endpoint_independent (pe : PathExpression) (s1 s2 fuel1 fuel2 : Nat)
    (b01 b1 b1' b02 b2 : PathIndexBuilder) (pi1 : PathIndex)
    (he1 : b01.pathIndices = []) (hl1 : PathIndexBuilder.Later b01 b1)
    (he2 : b02.pathIndices = []) (hl2 : PathIndexBuilder.Later b02 b2)
    (h1 : buildSegmented fuel1 pe s1 b1 = .ok (pi1, b1')) :
    (∀ pi2 b2', buildSegmented fuel2 pe s2 b2 = .ok (pi2, b2') →
      pi2.impl = pi1.impl ∧ pi2.numElements = pi1.numElements ∧
      ∀ elem, pi2.neighbors elem = pi1.neighbors elem) ∧
    (pe.size ≤ fuel2 → ∃ pi2 b2', buildSegmented fuel2 pe s2 b2 = .ok (pi2, b2') ∧
      pi2.impl = pi1.impl) ∧
    (∀ pi2 b2', buildSegmented fuel2 pe s2 b1' = .ok (pi2, b2') →
      pi2.impl = pi1.impl ∧ pi2.numElements = pi1.numElements ∧
      ∀ elem, pi2.neighbors elem = pi1.neighbors elem) ∧
    (pe.size ≤ fuel2 → ∃ pi2 b2', buildSegmented fuel2 pe s2 b1' = .ok (pi2, b2') ∧
      pi2.impl = pi1.impl) := by
  have sb1 : b1.Sound := later_sound hl1 (sound_of_empty he1)
  have sb2 : b2.Sound := later_sound hl2 (sound_of_empty he2)
  obtain ⟨d1, sb1'⟩ := buildSegmented_denotes _ _ _ _ _ _ sb1 h1
  have same : ∀ (b : PathIndexBuilder), b.Sound → ∀ pi2 b2',
      buildSegmented fuel2 pe s2 b = .ok (pi2, b2') →
      pi2.impl = pi1.impl ∧ pi2.numElements = pi1.numElements ∧
      ∀ elem, pi2.neighbors elem = pi1.neighbors elem := by
    intro b sb pi2 b2' h2
    have e : pi2.impl = pi1.impl :=
      (buildSegmented_denotes _ _ _ _ _ _ sb h2).1.unique _ d1
    exact ⟨e, PathIndex.numElements_impl e, PathIndex.neighbors_impl e⟩
  exact ⟨same b2 sb2, fun hf => d1.built fuel2 s2 b2 hf sb2, same b1' sb1',
    fun hf => d1.built fuel2 s2 b1' hf sb1'⟩

/-- Witness of C33: the index of `exists e. ve(vi,e) and ev(e,vj)` requested at
the endpoint 0 on a new builder and the index requested at the endpoint 1 on
another builder with an empty memo map are two objects of the same
contents. -/
theorem source_endpoint_independent_witness :
    ∃ pi1 b1' pi2 b2',
      buildSegmented 2 Scenario.vev 0 PathIndexBuilder.empty = .ok (pi1, b1') ∧
      buildSegmented 2 Scenario.vev 1 ⟨[], 7⟩ = .ok (pi2, b2') ∧
      pi2.impl = pi1.impl ∧ pi2.numElements = pi1.numElements ∧
      ∀ elem, pi2.neighbors elem = pi1.neighbors elem := by
  obtain ⟨pi1, b1', h1⟩ :
      ∃ pi1 b1', buildSegmented 2 Scenario.vev 0 PathIndexBuilder.empty = .ok (pi1, b1') :=
    ⟨_, _, rfl⟩
  obtain ⟨pi2, b2', h2⟩ :
      ∃ pi2 b2', buildSegmented 2 Scenario.vev 1 ⟨[], 7⟩ = .ok (pi2, b2') :=
    ⟨_, _, rfl⟩
  exact ⟨pi1, b1', pi2, b2', h1, h2,
    (source_endpoint_independent Scenario.vev 0 1 2 2 PathIndexBuilder.empty
      PathIndexBuilder.empty b1' ⟨[], 7⟩ ⟨[], 7⟩ pi1 rfl (.refl _) rfl (.refl _) h1).1
      pi2 b2' h2⟩

namespace Mesh

/-! ## Facts about `load` -/

theorem digit_ofNat (d : Nat) (h : d < 10) :
    (Char.ofNat (48 + d)).isDigit = true ∧ (Char.ofNat (48 + d)).toNat - 48 = d := by
  interval_cases d <;> exact ⟨by decide, by decide⟩

theorem isDigit_ne {c d : Char} (h : c.isDigit = true) (hd : d.isDigit = false) : c ≠ d := by
  intro e
  rw [e, hd] at h
  cases h

theorem isDigit_not_space {c : Char} (h : c.isDigit = true) : isspace c = false := by
  unfold isspace
  simp only [Bool.or_eq_false_iff, beq_eq_false_iff_ne, ne_eq]
  refine ⟨⟨⟨⟨⟨?_, ?_⟩, ?_⟩, ?_⟩, ?_⟩, ?_⟩ <;> exact isDigit_ne h (by decide)

/-- The digits `decimalDigits` puts before the accumulator. -/
theorem decimalDigits_spec : ∀ (fuel n : Nat) (acc : List Char), n < fuel →
    ∃ ds, decimalDigits fuel n acc = ds ++ acc ∧ ds ≠ [] ∧ (∀ c ∈ ds, c.isDigit = true) ∧
      digitsValue ds = n
  | 0, n, acc, h => by omega
  | fuel + 1, n, acc, h => by
    unfold decimalDigits
    by_cases h0 : n / 10 = 0
    · simp only [h0, if_true]
      have hn : n < 10 := by omega
      refine ⟨[Char.ofNat (48 + n % 10)], rfl, by simp, ?_, ?_⟩
      · intro c hc
        simp only [List.mem_singleton] at hc
        rw [hc]
        exact (digit_ofNat _ (Nat.mod_lt _ (by omega))).1
      · simp only [digitsValue, List.foldl_cons, List.foldl_nil, Nat.mul_zero, Nat.zero_add]
        rw [(digit_ofNat _ (Nat.mod_lt _ (by omega))).2]
        omega
    · simp only [h0, if_false]
      obtain ⟨ds, hds, -, hdig, hval⟩ :=
        decimalDigits_spec fuel (n / 10) (Char.ofNat (48 + n % 10) :: acc) (by omega)
      refine ⟨ds ++ [Char.ofNat (48 + n % 10)], by rw [hds]; simp, by simp, ?_, ?_⟩
      · intro c hc
        simp only [List.mem_append, List.mem_singleton] at hc
        rcases hc with hc | hc
        · exact hdig c hc
        · rw [hc]
          exact (digit_ofNat _ (Nat.mod_lt _ (by omega))).1
      · unfold digitsValue at hval ⊢
        rw [List.foldl_append, hval]
        simp only [List.foldl_cons, List.foldl_nil]
        rw [(digit_ofNat _ (Nat.mod_lt _ (by omega))).2]
        omega

/-- The numeral of a number: digits, one at least, of the value of the
number. -/
theorem decimal_spec (n : Nat) :
    decimal n ≠ [] ∧ (∀ c ∈ decimal n, c.isDigit = true) ∧ digitsValue (decimal n) = n := by
  obtain ⟨ds, hds, hne, hdig, hval⟩ := decimalDigits_spec (n + 1) n [] (by omega)
  unfold decimal
  rw [hds, List.append_nil]
  exact ⟨hne, hdig, hval⟩

theorem takeWhile_digits {ds rest : List Char} (hd : ∀ c ∈ ds, c.isDigit = true)
    (hrest : ∀ c ∈ rest.head?, c.isDigit = false) :
    (ds ++ rest).takeWhile Char.isDigit = ds ∧ (ds ++ rest).dropWhile Char.isDigit = rest := by
  rw [List.takeWhile_append_of_pos hd, List.dropWhile_append_of_pos hd]
  cases rest with
  | nil => simp
  | cons c cs =>
    have hc : c.isDigit = false := hrest c (by simp)
    simp [List.takeWhile_cons, List.dropWhile_cons, hc]

/-- The extraction of an `int` from a blank, a numeral and what follows it. -/
theorem extractInt_numeral {ds rest : List Char} (hne : ds ≠ [])
    (hd : ∀ c ∈ ds, c.isDigit = true) (hrest : ∀ c ∈ rest.head?, c.isDigit = false)
    (hv : digitsValue ds < 2 ^ 31) :
    extractInt (some (' ' :: (ds ++ rest))) = (some (digitsValue ds : ℤ), some rest) := by
  obtain ⟨d, ds', rfl⟩ := List.exists_cons_of_ne_nil hne
  have hdd : d.isDigit = true := hd d (by simp)
  have hsp : isspace d = false := isDigit_not_space hdd
  have h1 : (' ' :: (d :: ds' ++ rest)).dropWhile isspace = d :: ds' ++ rest := by
    rw [List.dropWhile_cons_of_pos (by decide)]
    show List.dropWhile isspace (d :: (ds' ++ rest)) = _
    rw [List.dropWhile_cons_of_neg (by simp [hsp])]
    rfl
  have hminus : ((d :: ds' ++ rest).head? == some '-') = false := by
    simp only [List.cons_append, List.head?_cons, beq_eq_false_iff_ne, ne_eq, Option.some.injEq]
    exact isDigit_ne hdd (by decide)
  have hplus : ((d :: ds' ++ rest).head? == some '+') = false := by
    simp only [List.cons_append, List.head?_cons, beq_eq_false_iff_ne, ne_eq, Option.some.injEq]
    exact isDigit_ne hdd (by decide)
  obtain ⟨ht, hdr⟩ := takeWhile_digits hd hrest
  unfold extractInt
  simp only [h1, hminus, hplus, Bool.or_self, Bool.false_eq_true, if_false, ht, hdr]
  have hnonempty : (d :: ds').isEmpty = false := rfl
  simp only [hnonempty, Bool.false_eq_true, if_false]
  have hrange : -(2 ^ 31) ≤ (digitsValue (d :: ds') : ℤ) ∧ (digitsValue (d :: ds') : ℤ) < 2 ^ 31 := by
    constructor
    · have : (0 : ℤ) ≤ (digitsValue (d :: ds') : ℤ) := Int.ofNat_nonneg _
      omega
    · exact_mod_cast hv
  simp only [hrange, and_self, if_true]

/-- The extraction of a string from a character that is no white space and is
followed by white space or by nothing. -/
theorem extractString_char (c : Char) (rest tok : List Char) (hc : isspace c = false)
    (hrest : ∀ d ∈ rest.head?, isspace d = true) :
    extractString (some (c :: rest)) tok = ([c], some rest) := by
  unfold extractString
  have h1 : (c :: rest).dropWhile isspace = c :: rest := by
    rw [List.dropWhile_cons_of_neg (by simp [hc])]
  simp only [h1, List.isEmpty_cons, Bool.false_eq_true, if_false]
  cases rest with
  | nil => simp [List.takeWhile_cons, List.dropWhile_cons, hc]
  | cons d ds =>
    have hd : isspace d = true := hrest d (by simp)
    simp [List.takeWhile_cons, List.dropWhile_cons, hc, hd]

theorem extractInt_nil : extractInt (some []) = (none, none) := rfl

theorem head_flatMap_blank {α : Type} (g : α → List Char) (l : List α) :
    ∀ c ∈ (l.flatMap (fun a => ' ' :: g a)).head?, c = ' ' := by
  cases l with
  | nil => simp
  | cons a l => simp [List.flatMap_cons]

/-- The loop over the indices of a face line of plain indices reads them
all. -/
theorem readIndices_plain : ∀ (vs : List Nat) (fuel : Nat) (vidx : List ℤ),
    vs.length < fuel → (∀ v ∈ vs, v < 2 ^ 31) →
    readIndices false fuel (some (vs.flatMap (fun v => ' ' :: decimal v))) vidx
      = .ok (vidx ++ vs.map (fun (v : Nat) => (v : ℤ)))
  | [], fuel, vidx, hf, _ => by
    cases fuel with
    | zero => simp at hf
    | succ fuel => simp [readIndices, extractInt_nil]
  | v :: vs, fuel, vidx, hf, hv => by
    cases fuel with
    | zero => simp at hf
    | succ fuel =>
      obtain ⟨hne, hd, hval⟩ := decimal_spec v
      have hx : extractInt (some (' ' :: (decimal v ++ vs.flatMap (fun v => ' ' :: decimal v))))
          = (some (v : ℤ), some (vs.flatMap (fun v => ' ' :: decimal v))) := by
        have := @extractInt_numeral (decimal v) (vs.flatMap (fun v => ' ' :: decimal v)) hne hd
          (fun c hc => by rw [head_flatMap_blank decimal vs c hc]; decide)
          (by rw [hval]; exact hv v (by simp))
        rw [hval] at this
        exact this
      simp only [List.flatMap_cons, List.cons_append, readIndices, hx, Bool.false_eq_true,
        if_false]
      rw [readIndices_plain vs fuel _ (by simp at hf; omega)
        (fun w hw => hv w (by simp [hw]))]
      simp

/-- The loop over the indices of a face line of pairs, where the slashes have
become blanks, reads the first number of every pair. -/
theorem readIndices_textured : ∀ (vts : List (Nat × Nat)) (fuel : Nat) (vidx : List ℤ),
    vts.length < fuel → (∀ p ∈ vts, p.1 < 2 ^ 31 ∧ p.2 < 2 ^ 31) →
    readIndices true fuel
      (some (vts.flatMap (fun p => ' ' :: (decimal p.1 ++ ' ' :: decimal p.2)))) vidx
      = .ok (vidx ++ vts.map (fun (p : Nat × Nat) => (p.1 : ℤ)))
  | [], fuel, vidx, hf, _ => by
    cases fuel with
    | zero => simp at hf
    | succ fuel => simp [readIndices, extractInt_nil]
  | p :: vts, fuel, vidx, hf, hv => by
    cases fuel with
    | zero => simp at hf
    | succ fuel =>
      obtain ⟨hne1, hd1, hval1⟩ := decimal_spec p.1
      obtain ⟨hne2, hd2, hval2⟩ := decimal_spec p.2
      have hx1 : extractInt (some (' ' :: (decimal p.1 ++ (' ' :: (decimal p.2 ++
          vts.flatMap (fun p => ' ' :: (decimal p.1 ++ ' ' :: decimal p.2)))))))
          = (some (p.1 : ℤ), some (' ' :: (decimal p.2 ++
              vts.flatMap (fun p => ' ' :: (decimal p.1 ++ ' ' :: decimal p.2))))) := by
        have := @extractInt_numeral (decimal p.1) (' ' :: (decimal p.2 ++
            vts.flatMap (fun p => ' ' :: (decimal p.1 ++ ' ' :: decimal p.2)))) hne1 hd1
          (fun c hc => by
            simp only [List.head?_cons, Option.mem_def, Option.some.injEq] at hc
            rw [← hc]; decide)
          (by rw [hval1]; exact (hv p (by simp)).1)
        rw [hval1] at this
        exact this
      have hx2 : extractInt (some (' ' :: (decimal p.2 ++
          vts.flatMap (fun p => ' ' :: (decimal p.1 ++ ' ' :: decimal p.2)))))
          = (some (p.2 : ℤ),
              some (vts.flatMap (fun p => ' ' :: (decimal p.1 ++ ' ' :: decimal p.2)))) := by
        have := @extractInt_numeral (decimal p.2)
          (vts.flatMap (fun p => ' ' :: (decimal p.1 ++ ' ' :: decimal p.2))) hne2 hd2
          (fun c hc => by
            rw [head_flatMap_blank (fun p => decimal p.1 ++ ' ' :: decimal p.2) vts c hc]
            decide)
          (by rw [hval2]; exact (hv p (by simp)).2)
        rw [hval2] at this
        exact this
      simp only [List.flatMap_cons, List.cons_append, List.append_assoc, readIndices, hx1, hx2,
        if_true]
      rw [readIndices_textured vts fuel _ (by simp at hf; omega)
        (fun w hw => hv w (by simp [hw]))]
      simp

theorem indexMinusOne_cast (vs : List Nat) (i : Nat) (h : i < vs.length) :
    indexMinusOne (vs.map (fun (v : Nat) => (v : ℤ))) i = .ok ((vs.getD i 0 : ℤ) - 1) := by
  unfold indexMinusOne
  have hget : (vs.map (fun (v : Nat) => (v : ℤ)))[i]? = some ((vs.getD i 0 : Nat) : ℤ) := by
    rw [List.getElem?_map, List.getD_eq_getElem?_getD, List.getElem?_eq_getElem h]
    rfl
  rw [hget]
  have : -(2 ^ 31 : ℤ) ≤ ((vs.getD i 0 : Nat) : ℤ) - 1 := by
    have : (0 : ℤ) ≤ ((vs.getD i 0 : Nat) : ℤ) := Int.ofNat_nonneg _
    omega
  simp only [this, if_true]

/-- The loop that pushes the triangles pushes the fan of the face. -/
theorem triangulate_fan (vs : List Nat) (t : List Vector3i) (h : 2 ≤ vs.length) :
    triangulate (vs.map (fun (v : Nat) => (v : ℤ))) t = .ok (t ++ fan vs) := by
  unfold triangulate fan
  simp only [List.length_map, h, if_true]
  have key : ∀ (f : List Vector3i → Nat → Except Error (List Vector3i))
      (tri : Nat → Vector3i),
      (∀ t ii, ii + 2 < vs.length → f t ii = .ok (t ++ [tri ii])) →
      ∀ (l : List Nat) (t : List Vector3i), (∀ ii ∈ l, ii + 2 < vs.length) →
      l.foldlM f t = .ok (t ++ l.map tri) := by
    intro f tri hf l
    induction l with
    | nil => intro t _; simp [pure, Except.pure]
    | cons ii l ih =>
      intro t hl
      rw [List.foldlM_cons, hf t ii (hl ii (by simp))]
      show List.foldlM f (t ++ [tri ii]) l = _
      rw [ih _ (fun k hk => hl k (by simp [hk]))]
      simp
  refine key _ _ ?_ _ t (fun ii hii => by simp only [List.mem_range] at hii; omega)
  intro t ii hii
  simp only [indexMinusOne_cast vs 0 (by omega), indexMinusOne_cast vs (ii + 1) (by omega),
    indexMinusOne_cast vs (ii + 2) (by omega), bind, Except.bind]

/-- Reading the characters of a line moves them from the input to `line`. -/
theorem loadFrom_append {Vector3d : Type} (readVector3d : Stream → Vector3d) :
    ∀ (line : List Char) (m : Mesh Vector3d) (tok acc rest : List Char),
      '\n' ∉ line →
      loadFrom readVector3d m tok acc (line ++ rest)
        = loadFrom readVector3d m tok (acc ++ line) rest
  | [], m, tok, acc, rest, _ => by simp
  | c :: line, m, tok, acc, rest, h => by
    have hc : c ≠ '\n' := fun e => h (by simp [e])
    have hl : '\n' ∉ line := fun e => h (by simp [e])
    rw [List.cons_append, loadFrom]
    simp only [hc, if_false]
    rw [loadFrom_append readVector3d line m tok (acc ++ [c]) rest hl]
    simp

/-- A line after which the loop goes on. -/
theorem loadFrom_next {Vector3d : Type} (readVector3d : Stream → Vector3d)
    (m m' : Mesh Vector3d) (tok tok' line rest : List Char) (hn : '\n' ∉ line)
    (h : loadLine readVector3d m tok line = .ok (some (m', tok'))) :
    loadFrom readVector3d m tok [] (line ++ '\n' :: rest)
      = loadFrom readVector3d m' tok' [] rest := by
  rw [loadFrom_append readVector3d line m tok [] _ hn, List.nil_append, loadFrom]
  simp only [if_true, h]

/-- A line at which the loop ends. -/
theorem loadFrom_break {Vector3d : Type} (readVector3d : Stream → Vector3d)
    (m : Mesh Vector3d) (tok line rest : List Char) (hn : '\n' ∉ line)
    (h : loadLine readVector3d m tok line = .ok none) :
    loadFrom readVector3d m tok [] (line ++ '\n' :: rest) = .ok m := by
  rw [loadFrom_append readVector3d line m tok [] _ hn, List.nil_append, loadFrom]
  simp only [if_true, h]

/-- The end of the input ends the loop, whatever `line` holds. -/
theorem loadFrom_eof {Vector3d : Type} (readVector3d : Stream → Vector3d)
    (m : Mesh Vector3d) (tok line : List Char) (hn : '\n' ∉ line) :
    loadFrom readVector3d m tok [] line = .ok m := by
  have := loadFrom_append readVector3d line m tok [] [] hn
  rw [List.append_nil] at this
  rw [this, loadFrom]

theorem mem_faceLine {vs : List Nat} {c : Char} (h : c ∈ faceLine vs) :
    c = 'f' ∨ c = ' ' ∨ c.isDigit = true := by
  unfold faceLine at h
  simp only [List.mem_cons, List.mem_flatMap] at h
  rcases h with h | ⟨v, -, h | h⟩
  · exact Or.inl h
  · exact Or.inr (Or.inl h)
  · exact Or.inr (Or.inr ((decimal_spec v).2.1 c h))

theorem mem_texturedFaceLine {vts : List (Nat × Nat)} {c : Char}
    (h : c ∈ texturedFaceLine vts) :
    c = 'f' ∨ c = ' ' ∨ c = '/' ∨ c.isDigit = true := by
  unfold texturedFaceLine at h
  simp only [List.mem_cons, List.mem_flatMap, List.mem_append] at h
  rcases h with h | ⟨p, -, (h | h) | (h | h)⟩
  · exact Or.inl h
  · exact Or.inr (Or.inl h)
  · exact Or.inr (Or.inr (Or.inr ((decimal_spec p.1).2.1 c h)))
  · exact Or.inr (Or.inr (Or.inl h))
  · exact Or.inr (Or.inr (Or.inr ((decimal_spec p.2).2.1 c h)))

theorem length_le_flatMap {α : Type} (g : α → List Char) :
    ∀ l : List α, l.length ≤ (l.flatMap (fun a => ' ' :: g a)).length
  | [] => by simp
  | a :: l => by
    have := length_le_flatMap g l
    simp only [List.flatMap_cons, List.length_cons, List.length_append, List.cons_append]
    omega

/-- The round of the loop for a face line of plain indices. -/
theorem loadLine_faceLine {Vector3d : Type} (readVector3d : Stream → Vector3d)
    (m : Mesh Vector3d) (tok : List Char) (vs : List Nat) (hn : 2 ≤ vs.length)
    (hv : ∀ v ∈ vs, v < 2 ^ 31) :
    loadLine readVector3d m tok (faceLine vs) = .ok (some (⟨m.v, m.t ++ fan vs⟩, ['f'])) := by
  obtain ⟨v, vs', rfl⟩ : ∃ v vs', vs = v :: vs' := by
    cases vs with
    | nil => simp at hn
    | cons v vs' => exact ⟨v, vs', rfl⟩
  obtain ⟨d, ds, hd⟩ := List.exists_cons_of_ne_nil (decimal_spec v).1
  have hline : faceLine (v :: vs') = 'f' :: ' ' :: d :: (ds ++ vs'.flatMap (fun v => ' ' :: decimal v)) := by
    simp [faceLine, List.flatMap_cons, hd]
  have hend : faceLine (v :: vs') ≠ ['#', 'e', 'n', 'd'] := by
    rw [hline]; intro e; injection e with e _; exact absurd e (by decide)
  have hlen : ¬ (faceLine (v :: vs')).length < 3 := by
    rw [hline]; simp
  have hhead : (faceLine (v :: vs')).head? ≠ some '#' := by
    rw [hline]; simp
  have htok : ∀ tok, extractString (some (faceLine (v :: vs'))) tok
      = (['f'], some ((v :: vs').flatMap (fun v => ' ' :: decimal v))) := by
    intro tok
    exact extractString_char 'f' _ tok (by decide)
      (fun c hc => by rw [head_flatMap_blank decimal (v :: vs') c hc]; decide)
  have hslash : (faceLine (v :: vs')).contains '/' = false := by
    rw [List.contains_eq_any_beq, List.any_eq_false]
    intro c hc
    simp only [beq_iff_eq]
    rcases mem_faceLine hc with h | h | h
    · rw [h]; decide
    · rw [h]; decide
    · intro e
      rw [← e] at h
      exact absurd h (by decide)
  have hfuel : (v :: vs').length < (faceLine (v :: vs')).length + 1 := by
    have := length_le_flatMap decimal (v :: vs')
    simp only [faceLine, List.length_cons] at this ⊢
    omega
  unfold loadLine
  simp only [hend, hlen, hhead, if_false, htok, List.cons.injEq, and_true, hslash,
    Bool.false_eq_true, show ('f' = 'v') = False from by decide, if_true]
  rw [readIndices_plain _ _ _ hfuel hv]
  simp only [List.nil_append, bind, Except.bind, triangulate_fan _ _ hn]

theorem map_replace_digits {ds : List Char} (hd : ∀ c ∈ ds, c.isDigit = true) :
    ds.map (fun c => if c = '/' then ' ' else c) = ds := by
  induction ds with
  | nil => rfl
  | cons d ds ih =>
    have hne : d ≠ '/' := isDigit_ne (hd d (by simp)) (by decide)
    rw [List.map_cons, ih (fun c hc => hd c (by simp [hc]))]
    simp [hne]

theorem map_replace_pairs : ∀ vts : List (Nat × Nat),
    (vts.flatMap (fun p => ' ' :: decimal p.1 ++ '/' :: decimal p.2)).map
        (fun c => if c = '/' then ' ' else c)
      = vts.flatMap (fun p => ' ' :: (decimal p.1 ++ ' ' :: decimal p.2))
  | [] => rfl
  | p :: vts => by
    rw [List.flatMap_cons, List.flatMap_cons, List.map_append, map_replace_pairs vts]
    congr 1
    rw [List.map_append, List.map_cons, List.map_cons,
      map_replace_digits (decimal_spec p.1).2.1, map_replace_digits (decimal_spec p.2).2.1]
    simp

/-- The round of the loop for a face line of pairs. -/
theorem loadLine_texturedFaceLine {Vector3d : Type} (readVector3d : Stream → Vector3d)
    (m : Mesh Vector3d) (tok : List Char) (vts : List (Nat × Nat)) (hn : 2 ≤ vts.length)
    (hv : ∀ p ∈ vts, p.1 < 2 ^ 31 ∧ p.2 < 2 ^ 31) :
    loadLine readVector3d m tok (texturedFaceLine vts)
      = .ok (some (⟨m.v, m.t ++ fan (vts.map Prod.fst)⟩, ['f'])) := by
  obtain ⟨p, vts', rfl⟩ : ∃ p vts', vts = p :: vts' := by
    cases vts with
    | nil => simp at hn
    | cons p vts' => exact ⟨p, vts', rfl⟩
  obtain ⟨d, ds, hd⟩ := List.exists_cons_of_ne_nil (decimal_spec p.1).1
  have hline : texturedFaceLine (p :: vts') = 'f' :: ' ' :: d :: (ds ++ '/' :: decimal p.2 ++
      vts'.flatMap (fun p => ' ' :: decimal p.1 ++ '/' :: decimal p.2)) := by
    simp [texturedFaceLine, List.flatMap_cons, hd]
  have hend : texturedFaceLine (p :: vts') ≠ ['#', 'e', 'n', 'd'] := by
    rw [hline]; intro e; injection e with e _; exact absurd e (by decide)
  have hlen : ¬ (texturedFaceLine (p :: vts')).length < 3 := by
    rw [hline]; simp
  have hhead : (texturedFaceLine (p :: vts')).head? ≠ some '#' := by
    rw [hline]; simp
  have htok : ∀ tok, extractString (some (texturedFaceLine (p :: vts'))) tok
      = (['f'], some ((p :: vts').flatMap (fun p => ' ' :: decimal p.1 ++ '/' :: decimal p.2))) := by
    intro tok
    exact extractString_char 'f' _ tok (by decide)
      (fun c hc => by
        simp only [List.flatMap_cons, List.cons_append, List.head?_cons, Option.mem_def,
          Option.some.injEq] at hc
        rw [← hc]; decide)
  have hslash : (texturedFaceLine (p :: vts')).contains '/' = true := by
    rw [List.contains_eq_any_beq, List.any_eq_true]
    exact ⟨'/', by simp [texturedFaceLine, List.flatMap_cons], by simp⟩
  have hmap : (texturedFaceLine (p :: vts')).map (fun c => if c = '/' then ' ' else c)
      = 'f' :: (p :: vts').flatMap (fun p => ' ' :: (decimal p.1 ++ ' ' :: decimal p.2)) := by
    unfold texturedFaceLine
    rw [List.map_cons, map_replace_pairs]
    simp
  have htok2 : ∀ tok, extractString
      (some ('f' :: (p :: vts').flatMap (fun p => ' ' :: (decimal p.1 ++ ' ' :: decimal p.2)))) tok
      = (['f'], some ((p :: vts').flatMap (fun p => ' ' :: (decimal p.1 ++ ' ' :: decimal p.2)))) := by
    intro tok
    exact extractString_char 'f' _ tok (by decide)
      (fun c hc => by
        rw [head_flatMap_blank (fun p => decimal p.1 ++ ' ' :: decimal p.2) (p :: vts') c hc]
        decide)
  have hfuel : (p :: vts').length <
      ('f' :: (p :: vts').flatMap
        (fun p => ' ' :: (decimal p.1 ++ ' ' :: decimal p.2))).length + 1 := by
    have := length_le_flatMap (fun p => decimal p.1 ++ ' ' :: decimal p.2) (p :: vts')
    simp only [List.length_cons] at this ⊢
    omega
  unfold loadLine
  simp only [hend, hlen, hhead, if_false, htok, List.cons.injEq, and_true, hslash,
    show ('f' = 'v') = False from by decide, if_true, hmap, htok2]
  rw [readIndices_textured _ _ _ hfuel hv]
  have hcast : (p :: vts').map (fun (p : Nat × Nat) => (p.1 : ℤ))
      = ((p :: vts').map Prod.fst).map (fun (v : Nat) => (v : ℤ)) := by
    rw [List.map_map]; rfl
  simp only [List.nil_append, bind, Except.bind, hcast,
    triangulate_fan _ _ (show 2 ≤ ((p :: vts').map Prod.fst).length by simpa using hn)]

/-- The round of the loop for a vertex line. -/
theorem loadLine_vertexLine {Vector3d : Type} (readVector3d : Stream → Vector3d)
    (m : Mesh Vector3d) (tok cs : List Char) (hcs : cs ≠ []) :
    loadLine readVector3d m tok ('v' :: ' ' :: cs)
      = .ok (some (⟨m.v ++ [readVector3d (some (' ' :: cs))], m.t⟩, ['v'])) := by
  obtain ⟨c, cs', rfl⟩ := List.exists_cons_of_ne_nil hcs
  have hend : ('v' :: ' ' :: c :: cs') ≠ ['#', 'e', 'n', 'd'] := by
    intro e; injection e with e _; exact absurd e (by decide)
  have htok : extractString (some ('v' :: ' ' :: c :: cs')) tok
      = (['v'], some (' ' :: c :: cs')) :=
    extractString_char 'v' _ tok (by decide) (fun d hd => by
      simp only [List.head?_cons, Option.mem_def, Option.some.injEq] at hd
      rw [← hd]; decide)
  unfold loadLine
  simp [hend, htok]

/-- The round of the loop for a comment line and for a line of fewer than 3
characters, other than `#end`. -/
theorem loadLine_skipped {Vector3d : Type} (readVector3d : Stream → Vector3d)
    (m : Mesh Vector3d) (tok line : List Char) (hend : line ≠ ['#', 'e', 'n', 'd'])
    (h : line.head? = some '#' ∨ line.length < 3) :
    loadLine readVector3d m tok line = .ok (some (m, tok)) := by
  unfold loadLine
  simp only [hend, if_false]
  by_cases hl : line.length < 3
  · simp [hl]
  · rcases h with h | h
    · simp [hl, h]
    · exact absurd h hl

theorem not_mem_of_class {line : List Char}
    (h : ∀ c ∈ line, c = 'f' ∨ c = ' ' ∨ c = '/' ∨ c.isDigit = true) : '\n' ∉ line := by
  intro hm
  rcases h _ hm with e | e | e | e
  · exact absurd e (by decide)
  · exact absurd e (by decide)
  · exact absurd e (by decide)
  · exact absurd e (by decide)

theorem fan_length (vs : List Nat) : (fan vs).length = vs.length - 2 := by
  simp [fan]

theorem fan_triangle (vs : List Nat) (k : Nat) (hk : k + 2 < vs.length) :
    (fan vs)[k]? = some ((vs.getD 0 0 : ℤ) - 1, (vs.getD (k + 1) 0 : ℤ) - 1,
      (vs.getD (k + 2) 0 : ℤ) - 1) := by
  unfold fan
  rw [List.getElem?_map, List.getElem?_range (by omega)]
  rfl

/-- Counterexample to C37 as stated: the input that consists of the face line
`f 1 2 3`, with no line feed after it, lists 3 indices, and `load` appends no
triangle; with a line feed after the line it appends the triangle
`(0, 1, 2)`.  The face line `f 1 2 3000000000` with a line feed, whose third
index no `int` holds, appends no triangle either. -/
theorem fan_triangulation_counterexample :
    faceLine [1, 2, 3] = ['f', ' ', '1', ' ', '2', ' ', '3'] ∧
    (load (fun _ => ()) ⟨[], []⟩ (faceLine [1, 2, 3])).map (fun m => m.t) = .ok [] ∧
    (load (fun _ => ()) ⟨[], []⟩ (faceLine [1, 2, 3] ++ ['\n'])).map (fun m => m.t)
      = .ok [(0, 1, 2)] ∧
    (load (fun _ => ()) ⟨[], []⟩
        ['f', ' ', '1', ' ', '2', ' ', '3', '0', '0', '0', '0', '0', '0', '0', '0', '0',
          '\n']).map (fun m => m.t) = .ok [] :=
  ⟨rfl, rfl, rfl, rfl⟩

/-- C37, amended: in `load`, from every state of the loop, a line that ends
with a line feed is dealt with as follows.  A face line `f v1 ... vn` of
`n >= 2` plain indices, or `f v1/t1 ... vn/tn` of pairs of a vertex index and
a texture index, where every index is a decimal numeral below 2^31 and every
vertex index follows one blank, appends to `t` the fan of the face, and
nothing to `v`: the fan has `n - 2` triangles, the triangle `k` being
`(v1 - 1, v(k+2) - 1, v(k+3) - 1)`.  A vertex line, the letter `v`, a blank
and one more character at least, appends one vertex to `v` and nothing to `t`.
A line that starts with `#` and a line of fewer than 3 characters, other than
`#end`, change nothing; at the line `#end` the loop ends, so that what follows
changes nothing.  The characters after the last line feed are not dealt with:
the loop ends there. -/
theorem fan_triangulation {Vector3d : Type} (readVector3d : Stream → Vector3d)
    (m : Mesh Vector3d) (tok rest : List Char) :
    (∀ vs : List Nat, 2 ≤ vs.length → (∀ v ∈ vs, v < 2 ^ 31) →
      loadFrom readVector3d m tok [] (faceLine vs ++ '\n' :: rest)
        = loadFrom readVector3d ⟨m.v, m.t ++ fan vs⟩ ['f'] [] rest) ∧
    (∀ vts : List (Nat × Nat), 2 ≤ vts.length → (∀ p ∈ vts, p.1 < 2 ^ 31 ∧ p.2 < 2 ^ 31) →
      loadFrom readVector3d m tok [] (texturedFaceLine vts ++ '\n' :: rest)
        = loadFrom readVector3d ⟨m.v, m.t ++ fan (vts.map Prod.fst)⟩ ['f'] [] rest) ∧
    (∀ vs : List Nat, (fan vs).length = vs.length - 2 ∧
      ∀ k, k + 2 < vs.length →
        (fan vs)[k]? = some ((vs.getD 0 0 : ℤ) - 1, (vs.getD (k + 1) 0 : ℤ) - 1,
          (vs.getD (k + 2) 0 : ℤ) - 1)) ∧
    (∀ cs : List Char, cs ≠ [] → '\n' ∉ cs →
      loadFrom readVector3d m tok [] ('v' :: ' ' :: cs ++ '\n' :: rest)
        = loadFrom readVector3d ⟨m.v ++ [readVector3d (some (' ' :: cs))], m.t⟩ ['v'] []
            rest) ∧
    (∀ line : List Char, '\n' ∉ line → line ≠ ['#', 'e', 'n', 'd'] →
      (line.head? = some '#' ∨ line.length < 3) →
      loadFrom readVector3d m tok [] (line ++ '\n' :: rest)
        = loadFrom readVector3d m tok [] rest) ∧
    loadFrom readVector3d m tok [] (['#', 'e', 'n', 'd'] ++ '\n' :: rest) = .ok m ∧
    (∀ line : List Char, '\n' ∉ line → loadFrom readVector3d m tok [] line = .ok m) := by
  refine ⟨?_, ?_, ?_, ?_, ?_, ?_, ?_⟩
  · intro vs hn hv
    exact loadFrom_next readVector3d m _ tok _ _ rest
      (not_mem_of_class (fun c hc => by
        rcases mem_faceLine hc with h | h | h
        · exact Or.inl h
        · exact Or.inr (Or.inl h)
        · exact Or.inr (Or.inr (Or.inr h))))
      (loadLine_faceLine readVector3d m tok vs hn hv)
  · intro vts hn hv
    exact loadFrom_next readVector3d m _ tok _ _ rest
      (not_mem_of_class (fun c hc => mem_texturedFaceLine hc))
      (loadLine_texturedFaceLine readVector3d m tok vts hn hv)
  · intro vs
    exact ⟨fan_length vs, fan_triangle vs⟩
  · intro cs hcs hn
    exact loadFrom_next readVector3d m _ tok _ ('v' :: ' ' :: cs) rest
      (by
        intro hm
        simp only [List.mem_cons] at hm
        rcases hm with e | e | e
        · exact absurd e (by decide)
        · exact absurd e (by decide)
        · exact hn e)
      (loadLine_vertexLine readVector3d m tok cs hcs)
  · intro line hn hend h
    exact loadFrom_next readVector3d m m tok tok line rest hn
      (loadLine_skipped readVector3d m tok line hend h)
  · exact loadFrom_break readVector3d m tok _ rest (by decide) rfl
  · intro line hn
    exact loadFrom_eof readVector3d m tok line hn

/-- Witness of C37: from an empty mesh, the face line `f 1 2 3 4` and a line
feed give the triangles `(0, 1, 2)` and `(0, 2, 3)`; so does the face line
`f 1/5 2/6 3/7 4/8`. -/
theorem fan_triangulation_witness :
    faceLine [1, 2, 3, 4] = ['f', ' ', '1', ' ', '2', ' ', '3', ' ', '4'] ∧
    fan [1, 2, 3, 4] = [(0, 1, 2), (0, 2, 3)] ∧
    loadFrom (fun _ => ()) ⟨[], []⟩ [] [] (faceLine [1, 2, 3, 4] ++ ['\n'])
      = loadFrom (fun _ => ()) ⟨[], [] ++ fan [1, 2, 3, 4]⟩ ['f'] [] [] ∧
    (load (fun _ => ()) ⟨[], []⟩ (faceLine [1, 2, 3, 4] ++ ['\n'])).map (fun m => m.t)
      = .ok [(0, 1, 2), (0, 2, 3)] ∧
    (load (fun _ => ()) ⟨[], []⟩
        (texturedFaceLine [(1, 5), (2, 6), (3, 7), (4, 8)] ++ ['\n'])).map (fun m => m.t)
      = .ok [(0, 1, 2), (0, 2, 3)] :=
  ⟨rfl, rfl,
    (fan_triangulation (fun _ => ()) ⟨[], []⟩ [] []).1 [1, 2, 3, 4] (by decide) (by decide),
    rfl, rfl⟩

end Mesh

end simit
